import Mathlib

/-!
Aho-Corasick automaton and wildcard matcher (`Algo/Review1/interface.cpp`), and
the counter of strings without prohibited substrings (`Algo/Review1/prog.cpp`)

Shallow embedding of the pointer-linked automaton.  All `AutomatonNode`s live in
one arena; a pointer is `Option Nat` (`none` is `nullptr`, `some i` is the node
stored at index `i`).  Nodes are never freed, so indices never dangle.  The root
of an `Automaton` is the node at index `0`.  Functions that would dereference a
null pointer, or that run out of fuel, return `none`.

The namespace `prog` holds what prog.cpp defines differently from interface.cpp:
the breadth-first search with the sets `gray` and `black`, the suffix-link
calculator with its `root_counter` loop, and the class `NodeReferenceCounter`.
The functions that the two files share word for word are embedded once.

The namespaces `ideone_WhZ8P4` and `ideone_yYDo30` hold the variants of the
automaton of `Algo/Review1/ideone_WhZ8P4.cpp` and `Algo/Review1/ideone_yYDo30.cpp`
over the same arena, `Review3` the perfect hash tables of
`Algo/Review3/Review3.cpp`, and `condensation_review` the depth-first searches
and the strongly connected components of
`Algo/Review_2_2/Review_2_2/condensation_review.cpp`.
-/

/-! ## Definitions -/

namespace aho_corasick

/-- Lookup in a `std::map<char, V>` kept as a key-ordered association list
(`map::find`). -/
def mapFind {β : Type} : List (Char × β) → Char → Option β
  | [], _ => none
  | (k', v) :: rest, k => if k = k' then some v else mapFind rest k

/-- Assignment `m[k] = v` in a `std::map<char, V>`: overwrite the entry of `k`
or insert it at its place in key order.  Keys are compared by character code;
only the order of iteration over a map depends on this order. -/
def mapSet {β : Type} : List (Char × β) → Char → β → List (Char × β)
  | [], k, v => [(k, v)]
  | (k', v') :: rest, k, v =>
    if k < k' then (k, v) :: (k', v') :: rest
    else if k = k' then (k, v) :: rest
    else (k', v') :: mapSet rest k v

/-- The struct `AutomatonNode`.  Children of `trie_transitions` are owned by the
node in the source; here they are referenced by their arena index. -/
structure AutomatonNode where
  terminated_string_ids : List Nat
  trie_transitions : List (Char × Nat)
  automaton_transitions_cache : List (Char × Option Nat)
  suffix_link : Option Nat
  terminal_link : Option Nat

/-- The default constructor `AutomatonNode()`. -/
def AutomatonNode.default : AutomatonNode :=
  { terminated_string_ids := [], trie_transitions := [],
    automaton_transitions_cache := [], suffix_link := none, terminal_link := none }

/-- The class `Automaton`: the arena holding `root_` (index `0`) and every node
transitively owned by it; `size` is the number of allocated nodes. -/
structure Automaton where
  size : Nat
  node : Nat → AutomatonNode

/-- Store `v` at index `i` of the arena. -/
def Automaton.setNode (h : Automaton) (i : Nat) (v : AutomatonNode) : Automaton :=
  { size := h.size, node := fun j => if j = i then v else h.node j }

/-- The assignment `node->suffix_link = value`. -/
def Automaton.setSuffixLink (h : Automaton) (node : Nat) (value : Option Nat) : Automaton :=
  h.setNode node { h.node node with suffix_link := value }

/-- The assignment `node->terminal_link = value`. -/
def Automaton.setTerminalLink (h : Automaton) (node : Nat) (value : Option Nat) : Automaton :=
  h.setNode node { h.node node with terminal_link := value }

/-- The constructor `Automaton()`: a single default-constructed root. -/
def Automaton.new : Automaton :=
  { size := 1, node := fun _ => AutomatonNode.default }

/-- Address of `root_`. -/
def Automaton.rootPtr (_h : Automaton) : Option Nat := some 0

/-- Function `GetTrieTransition(node, character)`; `node` is dereferenced by the caller. -/
def GetTrieTransition (h : Automaton) (node : Nat) (character : Char) : Option Nat :=
  mapFind (h.node node).trie_transitions character

/-- Write `value` into `node->automaton_transitions_cache[character]`. -/
def setCache (h : Automaton) (node : Nat) (character : Char) (value : Option Nat) :
    Automaton :=
  h.setNode node
    { h.node node with
      automaton_transitions_cache :=
        mapSet (h.node node).automaton_transitions_cache character value }

/-- The entry `node->automaton_transitions_cache[character]` as read by
`operator[]`: a missing entry reads as `nullptr`. -/
def getCache (h : Automaton) (node : Nat) (character : Char) : Option Nat :=
  (mapFind (h.node node).automaton_transitions_cache character).getD none

/-- Function `GetAutomatonTransition(node, root, character)` with a recursion budget.
Returns the arena after the cache writes together with the returned pointer. -/
def GetAutomatonTransitionAux :
    Nat → Automaton → Option Nat → Option Nat → Char → Option (Automaton × Option Nat)
  | 0, _, _, _, _ => none
  | _ + 1, _, none, _, _ => none
  | fuel + 1, h, some n, root, character =>
    -- auto &result = node->automaton_transitions_cache[character];
    let h1 := setCache h n character (getCache h n character)
    match getCache h1 n character with
    | some r => some (h1, some r)
    | none =>
      match GetTrieTransition h1 n character with
      | some d => some (setCache h1 n character (some d), some d)
      | none =>
        if some n ≠ root then
          match GetAutomatonTransitionAux fuel h1 (h1.node n).suffix_link root character with
          | none => none
          | some (h2, r) => some (setCache h2 n character r, r)
        else some (setCache h1 n character root, root)

/-- Function `GetAutomatonTransition`; the recursion follows suffix links, which never
needs more calls than there are nodes. -/
def GetAutomatonTransition (h : Automaton) (node root : Option Nat) (character : Char) :
    Option (Automaton × Option Nat) :=
  GetAutomatonTransitionAux h.size h node root character

end aho_corasick

namespace aho_corasick

namespace internal

/-- The struct `AutomatonGraph::Edge`. -/
structure Edge where
  source : Nat
  target : Nat
  character : Char

/-- Function `OutgoingEdges(graph, vertex)`: one edge per entry of `trie_transitions`, in
key order. -/
def OutgoingEdges (h : Automaton) (vertex : Nat) : List Edge :=
  (h.node vertex).trie_transitions.map fun t => ⟨vertex, t.2, t.1⟩

/-- Function `GetTarget(graph, edge)`. -/
def GetTarget (edge : Edge) : Nat := edge.target

end internal

end aho_corasick

namespace traverses

open aho_corasick aho_corasick.internal

/-- The class `BfsVisitor`: three event points acting on the arena. -/
structure BfsVisitor where
  DiscoverVertex : Automaton → Nat → Option Automaton
  ExamineEdge : Automaton → Edge → Option Automaton
  ExamineVertex : Automaton → Nat → Option Automaton

/-- The `for (edge : OutgoingEdges(graph, vertex))` loop of
`BreadthFirstSearch`. -/
def visitEdges (visitor : BfsVisitor) :
    List Edge → Automaton → List Nat → Option (Automaton × List Nat)
  | [], h, queue => some (h, queue)
  | edge :: edges, h, queue =>
    match visitor.ExamineEdge h edge with
    | none => none
    | some h1 =>
      match visitor.DiscoverVertex h1 (GetTarget edge) with
      | none => none
      | some h2 => visitEdges visitor edges h2 (queue ++ [GetTarget edge])

/-- The `while (!vertex_queue.empty())` loop of `BreadthFirstSearch`, one
iteration per unit of fuel. -/
def bfsLoop (visitor : BfsVisitor) : Nat → List Nat → Automaton → Option Automaton
  | _, [], h => some h
  | 0, _ :: _, _ => none
  | fuel + 1, vertex :: queue, h =>
    match visitor.ExamineVertex h vertex with
    | none => none
    | some h1 =>
      match visitEdges visitor (OutgoingEdges h1 vertex) h1 queue with
      | none => none
      | some (h2, queue2) => bfsLoop visitor fuel queue2 h2

/-- Function `BreadthFirstSearch(origin_vertex, graph, visitor)`.  Every node of the trie
enters the queue once, so `size` iterations suffice. -/
def BreadthFirstSearch (origin_vertex : Nat) (h : Automaton) (visitor : BfsVisitor) :
    Option Automaton :=
  bfsLoop visitor h.size [origin_vertex] h

end traverses

namespace aho_corasick

namespace internal

open traverses

/-- The class `SuffixLinkCalculator`. -/
def SuffixLinkCalculator (root_ : Option Nat) : BfsVisitor where
  DiscoverVertex := fun h _ => some h
  ExamineVertex := fun h node =>
    if (h.node node).suffix_link = none then some (h.setSuffixLink node root_)
    else some h
  ExamineEdge := fun h edge =>
    -- auto& current_node = edge.target->suffix_link = edge.source->suffix_link;
    let h1 := h.setSuffixLink edge.target (h.node edge.source).suffix_link
    if some edge.source = root_ then some h1
    else
      match GetAutomatonTransition h1 (h1.node edge.target).suffix_link root_
          edge.character with
      | none => none
      | some (h2, r) => some (h2.setSuffixLink edge.target r)

/-- The class `TerminalLinkCalculator`. -/
def TerminalLinkCalculator (_calculator_root : Option Nat) : BfsVisitor where
  ExamineVertex := fun h _ => some h
  ExamineEdge := fun h _ => some h
  DiscoverVertex := fun h node =>
    match (h.node node).suffix_link with
    | none => none
    | some s =>
      if (h.node s).terminated_string_ids.isEmpty then
        some (h.setTerminalLink node (h.node s).terminal_link)
      else some (h.setTerminalLink node (some s))

end internal

end aho_corasick

namespace aho_corasick

/-- The class `NodeReference`. -/
structure NodeReference where
  node_ : Option Nat
  root_ : Option Nat
deriving DecidableEq

/-- The default constructor `NodeReference()`. -/
def NodeReference.null : NodeReference := ⟨none, none⟩

/-- Method `NodeReference::Next(character)`. -/
def NodeReference.Next (h : Automaton) (ref : NodeReference) (character : Char) :
    Option (Automaton × NodeReference) :=
  match GetAutomatonTransition h ref.node_ ref.root_ character with
  | none => none
  | some (h1, r) => some (h1, ⟨r, ref.root_⟩)

/-- The `while (node)` loop of `NodeReference::GenerateMatches`, one test of the
loop condition per unit of fuel; `on_match` acts on the caller's state. -/
def generateMatchesLoop {σ : Type} (h : Automaton) (on_match : σ → Nat → σ) :
    Nat → Option Nat → σ → Option σ
  | 0, _, _ => none
  | _ + 1, none, s => some s
  | fuel + 1, some n, s =>
    generateMatchesLoop h on_match fuel (h.node n).terminal_link
      ((h.node n).terminated_string_ids.foldl on_match s)

/-- Method `NodeReference::GenerateMatches(on_match)`. -/
def NodeReference.GenerateMatches {σ : Type} (h : Automaton) (ref : NodeReference)
    (on_match : σ → Nat → σ) (s : σ) : Option σ :=
  generateMatchesLoop h on_match (h.size + 1) ref.node_ s

/-- Method `Automaton::Root()`. -/
def Automaton.Root (h : Automaton) : NodeReference := ⟨h.rootPtr, h.rootPtr⟩

/-- The expression `&(current_node->trie_transitions[symbol])`: `operator[]`
default-constructs a child when the key is missing. -/
def trieIndex (h : Automaton) (current_node : Nat) (symbol : Char) : Automaton × Nat :=
  match mapFind (h.node current_node).trie_transitions symbol with
  | some child => (h, child)
  | none =>
    let child := h.size
    let h1 : Automaton :=
      { size := h.size + 1, node := fun j => if j = child then AutomatonNode.default else h.node j }
    (h1.setNode current_node
        { h1.node current_node with
          trie_transitions := mapSet (h1.node current_node).trie_transitions symbol child },
      child)

/-- The `for (symbol : string)` loop of `AddString`. -/
def addStringLoop : Automaton → Nat → List Char → Automaton × Nat
  | h, current_node, [] => (h, current_node)
  | h, current_node, symbol :: rest =>
    let r := trieIndex h current_node symbol
    addStringLoop r.1 r.2 rest

/-- Method `AutomatonBuilder::AddString(root, string_id, string)`. -/
def AddString (h : Automaton) (root : Nat) (string_id : Nat) (string : List Char) :
    Automaton :=
  let r := addStringLoop h root string
  r.1.setNode r.2
    { r.1.node r.2 with
      terminated_string_ids := (r.1.node r.2).terminated_string_ids ++ [string_id] }

/-- Method `AutomatonBuilder::BuildTrie(words, ids, automaton)`; the builder's parallel
vectors `words_` and `ids_` are kept as one list of pairs. -/
def BuildTrie : List (List Char × Nat) → Automaton → Automaton
  | [], h => h
  | (word, id) :: rest, h => BuildTrie rest (AddString h 0 id word)

/-- Method `AutomatonBuilder::BuildSuffixLinks(automaton)`. -/
def BuildSuffixLinks (h : Automaton) : Option Automaton :=
  traverses.BreadthFirstSearch 0 h (internal.SuffixLinkCalculator h.rootPtr)

/-- Method `AutomatonBuilder::BuildTerminalLinks(automaton)`. -/
def BuildTerminalLinks (h : Automaton) : Option Automaton :=
  traverses.BreadthFirstSearch 0 h (internal.TerminalLinkCalculator h.rootPtr)

/-- Method `AutomatonBuilder::Build()` for a builder that received `Add(word, id)` for
each pair of `added`, in order. -/
def Build (added : List (List Char × Nat)) : Option Automaton :=
  match BuildSuffixLinks (BuildTrie added Automaton.new) with
  | none => none
  | some h => BuildTerminalLinks h

end aho_corasick

open aho_corasick

/-- The function template `Split(string, is_delimiter)`, with the accumulator
`current_string` made explicit. -/
def splitLoop (is_delimiter : Char → Bool) :
    List Char → List Char → List (List Char) → List (List Char)
  | [], current_string, substrings =>
    if current_string.isEmpty then substrings else substrings ++ [current_string]
  | symbol :: rest, current_string, substrings =>
    if is_delimiter symbol then splitLoop is_delimiter rest [] (substrings ++ [current_string])
    else splitLoop is_delimiter rest (current_string ++ [symbol]) substrings

/-- Function `Split(string, is_delimiter)`. -/
def Split (string : List Char) (is_delimiter : Char → Bool) : List (List Char) :=
  splitLoop is_delimiter string [] []

/-- The class `WildcardMatcher`.  The automaton owned through
`aho_corasick_automaton_` is `none` until `Init`. -/
structure WildcardMatcher where
  words_occurrences_by_position_ : List Nat
  state_ : NodeReference
  number_of_words_ : Nat
  pattern_length_ : Nat
  aho_corasick_automaton_ : Option Automaton

namespace WildcardMatcher

/-- The constructor `WildcardMatcher()`. -/
def new : WildcardMatcher :=
  { words_occurrences_by_position_ := [], state_ := NodeReference.null,
    number_of_words_ := 0, pattern_length_ := 0, aho_corasick_automaton_ := none }

/-- Method `WildcardMatcher::Reset()`. -/
def Reset (m : WildcardMatcher) : Option WildcardMatcher :=
  match m.aho_corasick_automaton_ with
  | none => none
  | some h => some { m with words_occurrences_by_position_ := [], state_ := h.Root }

/-- The loop of `Init` over the fragments: the `(fragment, id)` pairs passed to
`builder.Add` and the two counters. -/
def initLoop : List (List Char) → Nat → Nat → List (List Char × Nat) →
    Nat × Nat × List (List Char × Nat)
  | [], total_length, number_of_words, added => (total_length, number_of_words, added)
  | pattern :: rest, total_length, number_of_words, added =>
    let total_length1 := total_length + pattern.length
    if ¬ pattern.isEmpty then
      initLoop rest (total_length1 + 1) (number_of_words + 1) (added ++ [(pattern, total_length1)])
    else
      initLoop rest (total_length1 + 1) number_of_words added

/-- Method `WildcardMatcher::Init(pattern, wildcard)`. -/
def Init (m : WildcardMatcher) (pattern : List Char) (wildcard : Char) :
    Option WildcardMatcher :=
  let patterns := Split pattern fun symbol => symbol == wildcard
  let r := initLoop patterns 0 0 []
  match Build r.2.2 with
  | none => none
  | some h =>
    Reset { m with number_of_words_ := r.2.1, pattern_length_ := pattern.length,
                   aho_corasick_automaton_ := some h }

/-- The callback of `UpdateWordOccurrences`, acting on the deque. -/
def countOccurrence (words : List Nat) (id : Nat) : List Nat :=
  if words.length ≥ id then
    let index := words.length - id
    -- operator[] past the end of the deque has no defined effect; List.modify leaves the list as is
    words.modify (fun x => x + 1) index
  else words

/-- Method `WildcardMatcher::UpdateWordOccurrences()`. -/
def UpdateWordOccurrences (m : WildcardMatcher) : Option WildcardMatcher :=
  match m.aho_corasick_automaton_ with
  | none => none
  | some h =>
    match m.state_.GenerateMatches h countOccurrence (m.words_occurrences_by_position_ ++ [0]) with
    | none => none
    | some words => some { m with words_occurrences_by_position_ := words }

/-- Method `WildcardMatcher::ShiftWordOccurrencesCounters()`. -/
def ShiftWordOccurrencesCounters (m : WildcardMatcher) : WildcardMatcher :=
  { m with words_occurrences_by_position_ := m.words_occurrences_by_position_.tail }

/-- Method `WildcardMatcher::Scan(character, on_match)`; `on_match` acts on the
caller's state. -/
def Scan {σ : Type} (m : WildcardMatcher) (character : Char) (on_match : σ → σ) (s : σ) :
    Option (WildcardMatcher × σ) :=
  match m.aho_corasick_automaton_ with
  | none => none
  | some h =>
    match m.state_.Next h character with
    | none => none
    | some (h1, state1) =>
      match UpdateWordOccurrences
          { m with state_ := state1, aho_corasick_automaton_ := some h1 } with
      | none => none
      | some m2 =>
        if m2.words_occurrences_by_position_.length ≥ m2.pattern_length_ then
          let s1 :=
            if m2.words_occurrences_by_position_.head? = some m2.number_of_words_ then on_match s
            else s
          some (ShiftWordOccurrencesCounters m2, s1)
        else some (m2, s)

end WildcardMatcher

/-- Subtraction of `size_t` values (64 bits). -/
def size_t_sub (a b : Nat) : Nat := (a % 2 ^ 64 + 2 ^ 64 - b % 2 ^ 64) % 2 ^ 64

/-- The `for (offset ...)` loop of `FindFuzzyMatches`. -/
def findFuzzyLoop (pattern_size : Nat) :
    List Char → Nat → WildcardMatcher → List Nat → Option (List Nat)
  | [], _, _, occurrences => some occurrences
  | character :: rest, offset, matcher, occurrences =>
    match matcher.Scan character
        (fun occ => occ ++ [size_t_sub (offset + 1) pattern_size]) occurrences with
    | none => none
    | some (matcher1, occurrences1) => findFuzzyLoop pattern_size rest (offset + 1) matcher1 occurrences1

/-- Function `FindFuzzyMatches(pattern_with_wildcards, text, wildcard)`. -/
def FindFuzzyMatches (pattern_with_wildcards text : List Char) (wildcard : Char) :
    Option (List Nat) :=
  match WildcardMatcher.new.Init pattern_with_wildcards wildcard with
  | none => none
  | some matcher => findFuzzyLoop pattern_with_wildcards.length text 0 matcher []

namespace aho_corasick

/-- Follow trie transitions from `node` along `w`; `trieWalk h 0 w = some n` says
that `n` is the trie node with path `w`. -/
def trieWalk (h : Automaton) : Nat → List Char → Option Nat
  | node, [] => some node
  | node, c :: cs =>
    match GetTrieTransition h node c with
    | none => none
    | some child => trieWalk h child cs

/-- Advance a cursor with `Next` over a text. -/
def scanText : Automaton → NodeReference → List Char → Option (Automaton × NodeReference)
  | h, ref, [] => some (h, ref)
  | h, ref, c :: cs =>
    match ref.Next h c with
    | none => none
    | some (h1, ref1) => scanText h1 ref1 cs

/-- The ids passed to the callback by `GenerateMatches`, in order. -/
def matchesAt (h : Automaton) (ref : NodeReference) : Option (List Nat) :=
  ref.GenerateMatches h (fun acc id => acc ++ [id]) []

/-- Scan a text from a cursor, calling `GenerateMatches` after every `Next`;
the result lists the ids reported after each character. -/
def scanMatches : Automaton → NodeReference → List Char → Option (List (List Nat))
  | _, _, [] => some []
  | h, ref, c :: cs =>
    match ref.Next h c with
    | none => none
    | some (h1, ref1) =>
      match matchesAt h1 ref1 with
      | none => none
      | some ids =>
        match scanMatches h1 ref1 cs with
        | none => none
        | some rest => some (ids :: rest)

/-- A sequence of `Next` calls, each at a cursor on node `call.1` with character
`call.2`; only the arena is kept. -/
def nextCalls : Automaton → List (Nat × Char) → Option Automaton
  | h, [] => some h
  | h, call :: calls =>
    match NodeReference.Next h ⟨some call.1, h.rootPtr⟩ call.2 with
    | none => none
    | some (h1, _) => nextCalls h1 calls

/-- The closed form of the transition, as the specification words it: the trie
child if there is one, else the transition of the suffix link, and the root at
the root. -/
def closedTransition (h : Automaton) : Nat → Nat → Char → Option Nat
  | 0, _, _ => none
  | fuel + 1, n, c =>
    match GetTrieTransition h n c with
    | some child => some child
    | none =>
      if n = 0 then some 0
      else
        match (h.node n).suffix_link with
        | none => none
        | some s => closedTransition h fuel s c

/-- The nodes `suffix_link(n)`, `suffix_link(suffix_link(n))`, ... up to and
including the root. -/
def suffixChain (h : Automaton) : Nat → Nat → Option (List Nat)
  | 0, _ => none
  | fuel + 1, n =>
    match (h.node n).suffix_link with
    | none => none
    | some s => if s = 0 then some [0] else (suffixChain h fuel s).map fun l => s :: l

/-- The nodes visited by the loop of `GenerateMatches` started at `node`. -/
def terminalChain (h : Automaton) : Nat → Option Nat → Option (List Nat)
  | 0, _ => none
  | _ + 1, none => some []
  | fuel + 1, some n => (terminalChain h fuel (h.node n).terminal_link).map fun l => n :: l

/-- The ids of the added pairs whose word is `w`, in the order added. -/
def idsOf (added : List (List Char × Nat)) (w : List Char) : List Nat :=
  (added.filter fun p => decide (p.1 = w)).map Prod.snd

/-- The patterns of the scenario of the specification (a, ab, bab, bc, bca, c,
caa), with ids 1 to 7. -/
def scenarioPatterns : List (List Char × Nat) :=
  [("a".toList, 1), ("ab".toList, 2), ("bab".toList, 3), ("bc".toList, 4),
    ("bca".toList, 5), ("c".toList, 6), ("caa".toList, 7)]

/-- Follow `link` for `k` steps from node `n`. -/
def iterLink (link : Nat → Option Nat) : Nat → Nat → Option Nat
  | 0, n => some n
  | k + 1, n =>
    match link n with
    | none => none
    | some m => iterLink link k m

/-- Number of added `(fragment, end offset)` pairs whose fragment is known,
after `t` characters of `text`, to occur at its place for a match starting at
position `p`. -/
def hits (added : List (List Char × Nat)) (text : List Char) (p t : Nat) : Nat :=
  added.countP fun q => decide (p + q.2 ≤ t ∧ q.1 <:+ text.take (p + q.2))

end aho_corasick

/-- A pattern with wildcards matches the beginning of `txt`: each of its
characters is the wildcard or the character of `txt` at the same place. -/
def FuzzyPrefix (wildcard : Char) (pattern txt : List Char) : Prop :=
  ∀ j, j < pattern.length → pattern[j]? = some wildcard ∨ pattern[j]? = txt[j]?

namespace aho_corasick

/-- The strings spelled by the nodes of the trie of `added`: the empty string
(the root) and every prefix of an added word. -/
def IsTriePath (added : List (List Char × Nat)) (w : List Char) : Prop :=
  w = [] ∨ ∃ p ∈ added, w <+: p.1

instance (added : List (List Char × Nat)) : DecidablePred (IsTriePath added) :=
  fun w => inferInstanceAs (Decidable (w = [] ∨ ∃ p ∈ added, w <+: p.1))

/-- Statement `v` is the longest suffix of `u` that is a trie path. -/
def IsLongestPathSuffix (added : List (List Char × Nat)) (v u : List Char) : Prop :=
  v <:+ u ∧ IsTriePath added v ∧
    ∀ v', v' <:+ u → IsTriePath added v' → v'.length ≤ v.length

/-- Statement `v` is the longest proper suffix of `w` that is a trie path. -/
def IsLongestProperPathSuffix (added : List (List Char × Nat)) (v w : List Char) : Prop :=
  v <:+ w ∧ v ≠ w ∧ IsTriePath added v ∧
    ∀ v', v' <:+ w → v' ≠ w → IsTriePath added v' → v'.length ≤ v.length

/-- The longest suffix of a string that is a trie path, by dropping leading
characters until a path is left. -/
def longestPathSuffix (added : List (List Char × Nat)) : List Char → List Char
  | [] => []
  | a :: t => if IsTriePath added (a :: t) then a :: t else longestPathSuffix added t

/-- Shape of the trie: `path n` is the string spelled from the root to node
`n`. -/
structure TrieInv (h : Automaton) (path : Nat → List Char) : Prop where
  size_pos : 0 < h.size
  path_root : path 0 = []
  keys_nodup : ∀ n, ((h.node n).trie_transitions.map Prod.fst).Nodup
  child : ∀ n c m, n < h.size → mapFind (h.node n).trie_transitions c = some m →
    m < h.size ∧ path m = path n ++ [c]
  parent : ∀ m, m < h.size → m ≠ 0 →
    ∃ n c, n < h.size ∧ mapFind (h.node n).trie_transitions c = some m
  depth_le : ∀ n, n < h.size → (path n).length ≤ n

/-- State of the arena while `BuildTrie` runs: `all` are the pairs given to
`Add`, `done` the ones already inserted. -/
structure BuildInv (h : Automaton) (path : Nat → List Char)
    (all done : List (List Char × Nat)) : Prop where
  trie : TrieInv h path
  fresh : ∀ n, (h.node n).suffix_link = none ∧ (h.node n).terminal_link = none ∧
    (h.node n).automaton_transitions_cache = []
  paths : ∀ n, n < h.size → IsTriePath all (path n)
  words : ∀ p ∈ done, ∃ n, n < h.size ∧ path n = p.1
  ids : ∀ n, n < h.size → (h.node n).terminated_string_ids =
    (done.filter fun p => decide (p.1 = path n)).map Prod.snd

/-- The trie part of a built automaton, which no later pass changes. -/
structure TrieOK (h : Automaton) (path : Nat → List Char)
    (added : List (List Char × Nat)) : Prop where
  trie : TrieInv h path
  paths : ∀ n, n < h.size → IsTriePath added (path n)
  complete : ∀ w, IsTriePath added w → ∃ n, n < h.size ∧ path n = w
  ids : ∀ n, n < h.size → (h.node n).terminated_string_ids =
    (added.filter fun p => decide (p.1 = path n)).map Prod.snd

/-- Two arenas with the same nodes, tries and pattern ids. -/
def SameTrie (h h' : Automaton) : Prop :=
  h'.size = h.size ∧ ∀ n, (h'.node n).trie_transitions = (h.node n).trie_transitions ∧
    (h'.node n).terminated_string_ids = (h.node n).terminated_string_ids

/-- Two arenas that differ at most in the transition caches. -/
def SameButCache (h h' : Automaton) : Prop :=
  h'.size = h.size ∧ ∀ n, (h'.node n).trie_transitions = (h.node n).trie_transitions ∧
    (h'.node n).terminated_string_ids = (h.node n).terminated_string_ids ∧
    (h'.node n).suffix_link = (h.node n).suffix_link ∧
    (h'.node n).terminal_link = (h.node n).terminal_link

/-- The suffix link of `n` points to the node of the longest proper suffix of
`path n` that is a trie path (for the root: to the root). -/
def SuffixOK (h : Automaton) (path : Nat → List Char) (added : List (List Char × Nat))
    (n : Nat) : Prop :=
  ∃ s, (h.node n).suffix_link = some s ∧ s < h.size ∧
    path s = longestPathSuffix added (path n).tail

/-- Every non-null cache entry is the node of the longest suffix of
`path n ++ [c]` that is a trie path. -/
def CacheOK (h : Automaton) (path : Nat → List Char) (added : List (List Char × Nat)) :
    Prop :=
  ∀ n c r, n < h.size → getCache h n c = some r →
    r < h.size ∧ path r = longestPathSuffix added (path n ++ [c])

end aho_corasick

open aho_corasick.internal

namespace traverses

/-- Bookkeeping of the search: `popped` are the vertices already examined, in
order, and `queue` is the content of `vertex_queue`. -/
structure BfsInv (h0 : Automaton) (path : Nat → List Char) (popped queue : List Nat) :
    Prop where
  nodup : (popped ++ queue).Nodup
  lt : ∀ m ∈ popped ++ queue, m < h0.size
  par : ∀ m ∈ popped ++ queue, m ≠ 0 →
    ∃ p ∈ popped, ∃ c, mapFind (h0.node p).trie_transitions c = some m
  sorted : (popped ++ queue).Pairwise fun a b => (path a).length ≤ (path b).length
  closed : ∀ p ∈ popped, ∀ c m, mapFind (h0.node p).trie_transitions c = some m →
    m ∈ popped ++ queue
  root : 0 ∈ popped ++ queue

/-- Context of the visit of the out-edges of `v`: `D` lists the discovered
vertices, among them every vertex that is not deeper than `v`. -/
structure Visiting (h0 : Automaton) (path : Nat → List Char) (v : Nat) (D : List Nat) :
    Prop where
  mem : v ∈ D
  lt : ∀ x ∈ D, x < h0.size
  shallow : ∀ u, u < h0.size → (path u).length ≤ (path v).length → u ∈ D

end traverses

namespace aho_corasick

open traverses

/-- Two arenas that differ at most in the suffix link of node `m`. -/
def SameButSuffixAt (m : Nat) (h h' : Automaton) : Prop :=
  h'.size = h.size ∧ ∀ n, (h'.node n).trie_transitions = (h.node n).trie_transitions ∧
    (h'.node n).terminated_string_ids = (h.node n).terminated_string_ids ∧
    (h'.node n).terminal_link = (h.node n).terminal_link ∧
    (h'.node n).automaton_transitions_cache = (h.node n).automaton_transitions_cache ∧
    (n ≠ m → (h'.node n).suffix_link = (h.node n).suffix_link)

/-- What the suffix-link pass keeps of the arena `h0` it started from. -/
structure SufBase (h0 h : Automaton) (path : Nat → List Char)
    (added : List (List Char × Nat)) : Prop where
  same : SameTrie h0 h
  term : ∀ n, (h.node n).terminal_link = none
  cache : CacheOK h path added

/-- Invariant of the suffix-link pass between two vertices. -/
def SufJ (h0 : Automaton) (path : Nat → List Char) (added : List (List Char × Nat))
    (popped D : List Nat) (h : Automaton) : Prop :=
  SufBase h0 h path added ∧ (∀ n ∈ D, n ≠ 0 → SuffixOK h path added n) ∧
    ((popped = [] ∧ (h.node 0).suffix_link = none) ∨ SuffixOK h path added 0)

/-- Invariant of the suffix-link pass while the out-edges of a vertex are
visited. -/
def SufJ' (h0 : Automaton) (path : Nat → List Char) (added : List (List Char × Nat))
    (_v : Nat) (D : List Nat) (h : Automaton) : Prop :=
  SufBase h0 h path added ∧ (∀ n ∈ D, SuffixOK h path added n) ∧ SuffixOK h path added 0

/-- Two arenas that differ at most in terminal links. -/
def SameButTerminal (h h' : Automaton) : Prop :=
  h'.size = h.size ∧ ∀ n, (h'.node n).trie_transitions = (h.node n).trie_transitions ∧
    (h'.node n).terminated_string_ids = (h.node n).terminated_string_ids ∧
    (h'.node n).suffix_link = (h.node n).suffix_link ∧
    (h'.node n).automaton_transitions_cache = (h.node n).automaton_transitions_cache

/-- The recurrence that `DiscoverVertex` establishes at node `n`. -/
def TermRec (h : Automaton) (n : Nat) : Prop :=
  ∃ s, (h.node n).suffix_link = some s ∧
    (h.node n).terminal_link =
      if (h.node s).terminated_string_ids = [] then (h.node s).terminal_link else some s

/-- Invariant of the terminal-link pass, started from the arena `h1`. -/
def TermJ (h1 : Automaton) (D : List Nat) (h : Automaton) : Prop :=
  SameButTerminal h1 h ∧ (h.node 0).terminal_link = none ∧
    (∀ n ∈ D, n ≠ 0 → TermRec h n) ∧
    (∀ n ∈ D, n ≠ 0 → ∀ s, (h.node n).suffix_link = some s → s ∈ D)

/-- State of a built automaton, also after any number of transitions: `path n`
is the string spelled by node `n`. -/
structure Built (h : Automaton) (path : Nat → List Char)
    (added : List (List Char × Nat)) : Prop where
  trie : TrieOK h path added
  suffix : ∀ n, n < h.size → SuffixOK h path added n
  term_root : (h.node 0).terminal_link = none
  term : ∀ n, n < h.size → n ≠ 0 → TermRec h n
  cache : CacheOK h path added

end aho_corasick

namespace WildcardMatcher

/-- What the split into fragments and the loop of `Init` have established after
the prefix `pre` of the pattern: `subs` are the finished fragments and `cur` is
the fragment being read. -/
structure SplitInv (wc : Char) (pre : List Char) (subs : List (List Char))
    (cur : List Char) : Prop where
  total : (initLoop subs 0 0 []).1 + cur.length = pre.length
  words : (initLoop subs 0 0 []).2.1 = (initLoop subs 0 0 []).2.2.length
  bound : ∀ q ∈ (initLoop subs 0 0 []).2.2,
    1 ≤ q.2 ∧ q.1.length ≤ q.2 ∧ q.2 ≤ (initLoop subs 0 0 []).1
  fuzzy : ∀ txt : List Char, pre.length ≤ txt.length →
    (FuzzyPrefix wc pre txt ↔
      (∀ q ∈ (initLoop subs 0 0 []).2.2, q.1 <:+ txt.take q.2) ∧ cur <:+ txt.take pre.length)

/-- State of the matcher after `t` characters of `text`; `occ` are the
positions reported so far. -/
def MatcherInv (added : List (List Char × Nat)) (text : List Char) (L t : Nat)
    (m : WildcardMatcher) (occ : List Nat) : Prop :=
  ∃ h path n, m.aho_corasick_automaton_ = some h ∧ Built h path added ∧
    m.state_ = ⟨some n, some 0⟩ ∧ n < h.size ∧
    path n = longestPathSuffix added (text.take t) ∧
    m.number_of_words_ = added.length ∧ m.pattern_length_ = L ∧
    m.words_occurrences_by_position_ =
      ((List.range (t - (t + 1 - L))).map fun j => hits added text (t + 1 - L + j) t) ∧
    occ = (List.range (t + 1 - L)).filter fun p =>
      decide (hits added text p (p + L) = added.length)

end WildcardMatcher

/-- Scan a stream with the matcher, recording for every `Scan` call whether
`on_match` was invoked. -/
def scanStream : WildcardMatcher → List Char → Option (WildcardMatcher × List Bool)
  | m, [] => some (m, [])
  | m, c :: cs =>
    match m.Scan c (fun _ => true) false with
    | none => none
    | some (m1, b) =>
      match scanStream m1 cs with
      | none => none
      | some (m2, bs) => some (m2, b :: bs)

/-- A maximal run of non-wildcard characters of the pattern, as the
specification words it: the positions `s..e-1` hold no wildcard, and the run is
bounded on both sides by a wildcard or an end of the pattern. -/
def IsMaximalRun (wildcard : Char) (pattern : List Char) (s e : Nat) : Prop :=
  s < e ∧ e ≤ pattern.length ∧ (∀ j, s ≤ j → j < e → pattern[j]? ≠ some wildcard) ∧
    (s = 0 ∨ pattern[s - 1]? = some wildcard) ∧
    (e = pattern.length ∨ pattern[e]? = some wildcard)

namespace WildcardMatcher

/-- The fragment `cur` being read by `Split` is the run of non-wildcard
characters at the end of the prefix `pre`. -/
structure OpenRun (wc : Char) (pre cur : List Char) : Prop where
  len_le : cur.length ≤ pre.length
  cur_eq : cur = pre.drop (pre.length - cur.length)
  nowild : ∀ x ∈ cur, x ≠ wc
  start : cur.length = pre.length ∨ pre[pre.length - cur.length - 1]? = some wc

/-- What `Split` and the loop of `Init` have established about runs after the
prefix `pre`: `runs` lists the runs closed by a wildcard, in order. -/
structure RunInv (wc : Char) (pre : List Char) (subs : List (List Char)) (cur : List Char)
    (runs : List (Nat × Nat)) : Prop where
  total : (initLoop subs 0 0 []).1 + cur.length = pre.length
  pairs : (initLoop subs 0 0 []).2.2 =
    runs.map fun r => ((pre.drop r.1).take (r.2 - r.1), r.2)
  open_run : OpenRun wc pre cur
  mem : ∀ s e, (s, e) ∈ runs ↔ (IsMaximalRun wc pre s e ∧ e < pre.length)
  sorted : runs.Pairwise fun a b => a.2 < b.2

end WildcardMatcher

namespace prog

open traverses

/-- The `for (auto& edge: edges)` loop of `BreadthFirstSearch` of prog.cpp.  The
sets `gray` and `black` are kept as duplicate-free lists, and an iterator into
`gray` held by the queue is identified with the vertex it points to. -/
def visitEdges (visitor : BfsVisitor) :
    List Edge → Automaton → List Nat → List Nat → List Nat →
      Option (Automaton × List Nat × List Nat)
  | [], h, queue, gray, _ => some (h, queue, gray)
  | edge :: edges, h, queue, gray, black =>
    let target := GetTarget edge
    if target ∉ gray ∧ target ∉ black then
      match visitor.DiscoverVertex h target with
      | none => none
      | some h1 =>
        -- queue.push(gray.insert(target).first);
        match visitor.ExamineEdge h1 edge with
        | none => none
        | some h2 => visitEdges visitor edges h2 (queue ++ [target]) (gray ++ [target]) black
    else
      match visitor.ExamineEdge h edge with
      | none => none
      | some h1 => visitEdges visitor edges h1 queue gray black

/-- The `while (!queue.empty())` loop of `BreadthFirstSearch` of prog.cpp, one
iteration per unit of fuel. -/
def bfsLoop (visitor : BfsVisitor) :
    Nat → List Nat → List Nat → List Nat → Automaton → Option Automaton
  | _, [], _, _, h => some h
  | 0, _ :: _, _, _, _ => none
  | fuel + 1, vertex :: queue, gray, black, h =>
    match visitor.ExamineVertex h vertex with
    | none => none
    | some h1 =>
      match visitEdges visitor (OutgoingEdges h1 vertex) h1 (vertex :: queue) gray black with
      | none => none
      | some (h2, queue2, gray2) =>
        -- queue.pop(); black.insert(*vertex_iterator); gray.erase(vertex_iterator);
        bfsLoop visitor fuel queue2.tail (gray2.erase vertex) (black.insert vertex) h2

/-- Function `BreadthFirstSearch(origin_vertex, graph, visitor)` of prog.cpp.
Every node of the trie enters the queue once, so `size` iterations suffice. -/
def BreadthFirstSearch (origin_vertex : Nat) (h : Automaton) (visitor : BfsVisitor) :
    Option Automaton :=
  bfsLoop visitor h.size [origin_vertex] [origin_vertex] [] h

/-- The `for (size_t root_counter = 0; root_counter < 2; ...)` loop of
`SuffixLinkCalculator::ExamineEdge` of prog.cpp, one test of the loop condition
per unit of fuel.  The reference `suffix_link` is the field
`target->suffix_link`. -/
def rootCounterLoop (root_ : Option Nat) (character : Char) (target : Nat) :
    Nat → Automaton → Nat → Option Automaton
  | 0, _, _ => none
  | fuel + 1, h, root_counter =>
    if root_counter < 2 then
      match (h.node target).suffix_link with
      | none => none
      | some s =>
        match GetTrieTransition h s character with
        | some candidate => some (h.setSuffixLink target (some candidate))
        | none =>
          -- suffix_link = suffix_link->suffix_link, root_counter += (suffix_link == root_)
          let h1 := h.setSuffixLink target (h.node s).suffix_link
          rootCounterLoop root_ character target fuel h1
            (root_counter + if (h1.node target).suffix_link = root_ then 1 else 0)
    else some h

/-- The class `SuffixLinkCalculator` of prog.cpp.  The loop of `ExamineEdge`
walks a suffix chain, which has at most `size` nodes, and passes the root
twice. -/
def SuffixLinkCalculator (root_ : Option Nat) : BfsVisitor where
  DiscoverVertex := fun h _ => some h
  ExamineVertex := fun h node =>
    if (h.node node).suffix_link = none then some (h.setSuffixLink node root_)
    else some h
  ExamineEdge := fun h edge =>
    -- auto& suffix_link = edge.target->suffix_link = edge.source->suffix_link;
    let h1 := h.setSuffixLink edge.target (h.node edge.source).suffix_link
    if some edge.source = root_ then some h1
    else rootCounterLoop root_ edge.character edge.target (h.size + 2) h1 0

/-- Method `AutomatonBuilder::BuildSuffixLinks(automaton)` of prog.cpp. -/
def BuildSuffixLinks (h : Automaton) : Option Automaton :=
  prog.BreadthFirstSearch 0 h (prog.SuffixLinkCalculator h.rootPtr)

/-- Method `AutomatonBuilder::BuildTerminalLinks(automaton)` of prog.cpp; the
class `TerminalLinkCalculator` is the one of interface.cpp. -/
def BuildTerminalLinks (h : Automaton) : Option Automaton :=
  prog.BreadthFirstSearch 0 h (internal.TerminalLinkCalculator h.rootPtr)

/-- Method `AutomatonBuilder::Build()` of prog.cpp for a builder that received
`Add(word, id)` for each pair of `added`, in order; `BuildTrie` and `AddString`
are the ones of interface.cpp. -/
def Build (added : List (List Char × Nat)) : Option Automaton :=
  match prog.BuildSuffixLinks (BuildTrie added Automaton.new) with
  | none => none
  | some h => prog.BuildTerminalLinks h

end prog

namespace prog

/-- The class `NodeReferenceCounter` of prog.cpp.  The member `automaton_`, a
pointer to the map shared by all counters, is kept in `CounterState`. -/
structure NodeReferenceCounter where
  node_ : NodeReference
  max_string_length_ : Nat
  alphabet_size_ : Nat
  modulo_ : Nat
  dynamic_function_ : List Nat

/-- The memory that `Count` works on: the arena of the automaton, the counter
objects (a counter is addressed by its index), and the shared map
`*automaton_` from cursors to counters.  `operator<` of `NodeReference` compares
`node_` only, so the key of an entry is the node pointer. -/
structure CounterState where
  automaton : Automaton
  objects : List NodeReferenceCounter
  automaton_ : List (Option Nat × Nat)

/-- The call `automaton_->find(key)`. -/
def findCounter : List (Option Nat × Nat) → Option Nat → Option Nat
  | [], _ => none
  | (k, v) :: rest, key => if key = k then some v else findCounter rest key

/-- The constructor `NodeReferenceCounter(node, max_string_length, alphabet_size,
modulo, automaton)`.  The vector has `max_string_length + 1` entries, computed
in `size_t`; writing `dynamic_function_[0]` of an empty vector has no defined
result.  The member `alphabet_size_` is a `char` and keeps the low byte. -/
def NodeReferenceCounter.new (h : Automaton) (node : NodeReference)
    (max_string_length alphabet_size modulo : Nat) : Option NodeReferenceCounter :=
  let dynamic_function := List.replicate ((max_string_length + 1) % 2 ^ 64) 0
  if dynamic_function.length = 0 then none
  else
    match node.GenerateMatches h (fun dp id => dp.set 0 (id * 0 % 2 ^ 64))
        (dynamic_function.set 0 1) with
    | none => none
    | some dp =>
      some { node_ := node, max_string_length_ := max_string_length,
             alphabet_size_ := alphabet_size % 256, modulo_ := modulo,
             dynamic_function_ := dp }

/-- The characters visited by `for (char character = 'a'; character < 'a' +
alphabet_size_; ++character)`.  Beyond the character 127 the behaviour of the
loop depends on the signedness of `char`; no result is given then. -/
def alphabet (alphabet_size_ : Nat) : Option (List Char) :=
  if 97 + alphabet_size_ ≤ 128 then
    some ((List.range alphabet_size_).map fun i => Char.ofNat (97 + i))
  else none

/-- The statement `if (automaton_->find(next) == automaton_->end()) automaton_->emplace(next,
std::make_shared<NodeReferenceCounter>(next, ...))` executed by the counter `this`; `h1` is
the arena after the call of `Next` that gave `next`. -/
def emplaceCounter (st : CounterState) (h1 : Automaton) (next : NodeReference)
    (this : NodeReferenceCounter) : Option CounterState :=
  match findCounter st.automaton_ next.node_ with
  | some _ => some { st with automaton := h1 }
  | none =>
    match NodeReferenceCounter.new h1 next this.max_string_length_
        this.alphabet_size_ this.modulo_ with
    | none => none
    | some counter =>
      some { automaton := h1, objects := st.objects ++ [counter],
             automaton_ := st.automaton_ ++ [(next.node_, st.objects.length)] }

/-- The `for (char character ...)` loop of `Count(residual)` in the counter at
address `self`; `count` is the method `Count(residual - 1)`. -/
def countLoop (count : CounterState → Nat → Option (CounterState × Nat))
    (self residual : Nat) : List Char → CounterState → Option CounterState
  | [], st => some st
  | character :: rest, st =>
    match st.objects[self]? with
    | none => none
    | some this =>
      -- NodeReference next = node_.Next(character);
      match this.node_.Next st.automaton character with
      | none => none
      | some (h1, next) =>
        match emplaceCounter st h1 next this with
        | none => none
        | some st1 =>
          -- automaton_->at(node_.Next(character))->Count(residual - 1)
          match this.node_.Next st1.automaton character with
          | none => none
          | some (h2, next2) =>
            match findCounter st1.automaton_ next2.node_ with
            | none => none
            | some target =>
              match count { st1 with automaton := h2 } target with
              | none => none
              | some (st2, value) =>
                match st2.objects[self]? with
                | none => none
                | some this2 =>
                  match this2.dynamic_function_[residual]? with
                  | none => none
                  | some current =>
                    if this2.modulo_ = 0 then none
                    else
                      -- dynamic_function_[residual] += ...; dynamic_function_[residual] %= modulo_;
                      let updated := (current + value) % 2 ^ 64 % this2.modulo_
                      countLoop count self residual rest
                        { st2 with
                          objects := st2.objects.set self
                            { this2 with
                              dynamic_function_ :=
                                this2.dynamic_function_.set residual updated } }

/-- Method `NodeReferenceCounter::Count(residual)` of the counter at address
`self`.  With `residual = 0` the two tests of `dynamic_function_[0]` are
complementary, so the loop is entered with a positive `residual` only. -/
def Count : Nat → CounterState → Nat → Option (CounterState × Nat)
  | 0, st, self =>
    match st.objects[self]? with
    | none => none
    | some this =>
      match this.dynamic_function_[0]? with
      | none => none
      | some first => if first = 0 then some (st, 0) else some (st, first)
  | residual + 1, st, self =>
    match st.objects[self]? with
    | none => none
    | some this =>
      match this.dynamic_function_[0]? with
      | none => none
      | some first =>
        if first = 0 then some (st, 0)
        else
          match this.dynamic_function_[residual + 1]? with
          | none => none
          | some stored =>
            if stored ≠ 0 then some (st, stored)
            else
              match alphabet this.alphabet_size_ with
              | none => none
              | some characters =>
                match countLoop (Count residual) self (residual + 1) characters st with
                | none => none
                | some st1 =>
                  match st1.objects[self]? with
                  | none => none
                  | some this1 =>
                    match this1.dynamic_function_[residual + 1]? with
                    | none => none
                    | some result => some (st1, result)

/-- Function `FindNumberOfStringsThatDontIncludeProhibited(string_length,
alphabet_size, prohibited_strings, modulo)`.  The counter on the stack has
address `0`; the shared map starts empty. -/
def FindNumberOfStringsThatDontIncludeProhibited (string_length alphabet_size : Nat)
    (prohibited_strings : List (List Char)) (modulo : Nat) : Option Nat :=
  match prog.Build (prohibited_strings.enum.map fun p => (p.2, p.1)) with
  | none => none
  | some h =>
    match NodeReferenceCounter.new h h.Root string_length alphabet_size modulo with
    | none => none
    | some counter =>
      match Count string_length { automaton := h, objects := [counter], automaton_ := [] } 0 with
      | none => none
      | some (_, result) => some result

/-- No prohibited string is a suffix of `y`. -/
def Good (added : List (List Char × Nat)) (y : List Char) : Prop :=
  ∀ q ∈ added, ¬ q.1 <:+ y

instance (added : List (List Char × Nat)) (y : List Char) : Decidable (Good added y) :=
  inferInstanceAs (Decidable (∀ q ∈ added, ¬ q.1 <:+ y))

/-- The strings `w` of length `r` over `alphabet` such that no prohibited string
is a suffix of `x ++ u` for a prefix `u` of `w`. -/
def avoiding (added : List (List Char × Nat)) (alphabet : List Char) :
    Nat → List Char → List (List Char)
  | 0, x => if Good added x then [[]] else []
  | r + 1, x =>
    if Good added x then
      alphabet.flatMap fun c => (avoiding added alphabet r (x ++ [c])).map fun w => c :: w
    else []

/-- The number that `Count(r)` leaves in the counter of the state reached by
`x`, as a recurrence over strings. -/
def countValue (added : List (List Char × Nat)) (alphabet : List Char) (modulo : Nat) :
    Nat → List Char → Nat
  | 0, x => if Good added x then 1 else 0
  | r + 1, x =>
    if Good added x then
      alphabet.foldl
        (fun acc c => (acc + countValue added alphabet modulo r (x ++ [c])) % 2 ^ 64 % modulo) 0
    else 0

/-- The data fixed during one run of the counter: the added pairs, the strings
spelled by the nodes, the number of nodes, the arguments of the function, and
the characters of the alphabet. -/
structure Setting where
  added : List (List Char × Nat)
  path : Nat → List Char
  size : Nat
  k : Nat
  m : Nat
  L : Nat
  cs : List Char

/-- The arguments are in the range where the arithmetic of the counter is exact. -/
structure SettingOK (S : Setting) : Prop where
  hL : S.L + 1 < 2 ^ 64
  hk : S.k < 256
  hm : S.m ≠ 0
  hcs : alphabet S.k = some S.cs

/-- Slot `j` of a counter is still zero or holds its final value. -/
def SlotValid (S : Setting) (o : NodeReferenceCounter) (j : Nat) : Prop :=
  ∃ n, o.node_ = ⟨some n, some 0⟩ ∧
    (o.dynamic_function_[j]? = some 0 ∨
      o.dynamic_function_[j]? = some (countValue S.added S.cs S.m j (S.path n)))

/-- A counter whose slots up to `R` are valid. -/
structure ObjOK (S : Setting) (R : Nat) (o : NodeReferenceCounter) : Prop where
  node : ∃ n, o.node_ = ⟨some n, some 0⟩ ∧ n < S.size ∧
    o.dynamic_function_[0]? = some (if Good S.added (S.path n) then 1 else 0)
  max : o.max_string_length_ = S.L
  alpha : o.alphabet_size_ = S.k
  modulo : o.modulo_ = S.m
  len : o.dynamic_function_.length = S.L + 1
  slots : ∀ j, 1 ≤ j → j ≤ R → j ≤ S.L → SlotValid S o j

/-- A state of the memory in which the slots up to `R` of all counters are valid. -/
structure StateOK (S : Setting) (R : Nat) (st : CounterState) : Prop where
  built : Built st.automaton S.path S.added
  size : st.automaton.size = S.size
  objs : ∀ (i : Nat) (o : NodeReferenceCounter), st.objects[i]? = some o → ObjOK S R o
  map : ∀ key a, findCounter st.automaton_ key = some a →
    ∃ o, st.objects[a]? = some o ∧ o.node_.node_ = key

/-- What a call of `Count(R)` may change: it leaves the slots above `R` of the
existing counters alone, and the counters it creates have valid slots. -/
structure Frame (S : Setting) (R : Nat) (st st' : CounterState) : Prop where
  len : st.objects.length ≤ st'.objects.length
  old : ∀ (i : Nat) (o : NodeReferenceCounter), st.objects[i]? = some o →
    ∃ o', st'.objects[i]? = some o' ∧ o'.node_ = o.node_ ∧
      ∀ j, R < j → o'.dynamic_function_[j]? = o.dynamic_function_[j]?
  new : ∀ (i : Nat) (o' : NodeReferenceCounter), st'.objects[i]? = some o' →
    st.objects.length ≤ i →
    ∀ j, R < j → j ≤ S.L → SlotValid S o' j

/-- State of the loop of `Count(R + 1)` at node `n`: the
slot `R + 1` of the counter at `addr` holds the partial sum `acc`. -/
structure LoopState (S : Setting) (R addr n acc : Nat) (st : CounterState) : Prop where
  ok : StateOK S R st
  others : ∀ (i : Nat) (o : NodeReferenceCounter), i ≠ addr → st.objects[i]? = some o →
    SlotValid S o (R + 1)
  slot : ∃ o, st.objects[addr]? = some o ∧ o.node_ = ⟨some n, some 0⟩ ∧
    o.dynamic_function_[R + 1]? = some acc

end prog

/-- The pieces that `Split` still has to deliver when `current_string` is `cur`
and `rest` is unread, for the delimiter `d`: a recursive description of the
segments. -/
def segments (d : Char) : List Char → List Char → List (List Char)
  | [], cur => if cur.isEmpty then [] else [cur]
  | c :: rest, cur => if c = d then cur :: segments d rest [] else segments d rest (cur ++ [c])

/-- The string without a delimiter at its end. -/
def withoutTrailing (d : Char) (s : List Char) : List Char :=
  if s.getLast? = some d then s.dropLast else s

/-- The number of invocations of `on_match` made by each `Scan` call of a stream:
the callback of every call increments a counter that starts at 0. -/
def scanCalls : WildcardMatcher → List Char → Option (WildcardMatcher × List Nat)
  | m, [] => some (m, [])
  | m, c :: cs =>
    match m.Scan c (fun n => n + 1) 0 with
    | none => none
    | some (m1, n) =>
      match scanCalls m1 cs with
      | none => none
      | some (m2, ns) => some (m2, n :: ns)

/-- The ways in which a call of the embedded code can have no result.  The
sources hold no `throw`, `assert`, `abort` or `exit`, so there is no constructor
for a raised error: a call either returns, dereferences a null pointer (for
which C++ defines no behaviour), or does not end. -/
inductive Fault where
  | null_dereference
  | no_termination
deriving DecidableEq

namespace aho_corasick

/-- Function `GetAutomatonTransition(node, root, character)` once more, with the
reason of a missing result: the first statement
`auto &result = node->automaton_transitions_cache[character];` reads through
`node` without a test. -/
def GetAutomatonTransitionChecked :
    Nat → Automaton → Option Nat → Option Nat → Char → Except Fault (Automaton × Option Nat)
  | _, _, none, _, _ => .error .null_dereference
  | 0, _, some _, _, _ => .error .no_termination
  | fuel + 1, h, some n, root, character =>
    let h1 := setCache h n character (getCache h n character)
    match getCache h1 n character with
    | some r => .ok (h1, some r)
    | none =>
      match GetTrieTransition h1 n character with
      | some d => .ok (setCache h1 n character (some d), some d)
      | none =>
        if some n ≠ root then
          match GetAutomatonTransitionChecked fuel h1 (h1.node n).suffix_link root character with
          | .error f => .error f
          | .ok (h2, r) => .ok (setCache h2 n character r, r)
        else .ok (setCache h1 n character root, root)

/-- Method `NodeReference::Next(character)` with the reason of a missing result. -/
def NodeReference.NextChecked (h : Automaton) (ref : NodeReference) (character : Char) :
    Except Fault (Automaton × NodeReference) :=
  match GetAutomatonTransitionChecked h.size h ref.node_ ref.root_ character with
  | .error f => .error f
  | .ok (h1, r) => .ok (h1, ⟨r, ref.root_⟩)

end aho_corasick

/-! Embedding of `src/Algo/Review1/ideone_WhZ8P4.cpp`.  The struct `AutomatonNode`
of that file has the fields of the one of interface.cpp under two other names:
`matched_string_ids` is kept in `terminated_string_ids`, and
`automaton_transitions`, the map of pointers to the elements of
`trie_transitions`, is kept in `automaton_transitions_cache`. -/

namespace ideone_WhZ8P4

open traverses

/-- Function `GetTrieTransition(node, character)` of ideone_WhZ8P4.cpp:
`node->automaton_transitions.count(character) ? node->automaton_transitions[character] : nullptr`. -/
def GetTrieTransition (h : Automaton) (node : Nat) (character : Char) : Option Nat :=
  match mapFind (h.node node).automaton_transitions_cache character with
  | some target => target
  | none => none

/-- The `while` loop of `GetNextNode`, one test of the loop condition per unit
of fuel; the result is the value of `node` after the loop. -/
def getNextNodeLoop (h : Automaton) (root : Option Nat) (character : Char) :
    Nat → Option Nat → Option (Option Nat)
  | 0, _ => none
  | fuel + 1, node =>
    if node ≠ root then
      match node with
      | none => none
      | some n =>
        match GetTrieTransition h n character with
        | none => getNextNodeLoop h root character fuel (h.node n).suffix_link
        | some _ => some node
    else some node

/-- Function `GetNextNode(node, root, character)`; the loop follows suffix
links, which never needs more tests than there are nodes, plus one. -/
def GetNextNode (h : Automaton) (node root : Option Nat) (character : Char) :
    Option (Option Nat) :=
  match getNextNodeLoop h root character (h.size + 1) node with
  | none => none
  | some none => none
  | some (some n) =>
    match GetTrieTransition h n character with
    | some target => some (some target)
    | none => some (some n)

/-- Method `NodeReference::Next(character)` of ideone_WhZ8P4.cpp. -/
def Next (h : Automaton) (ref : NodeReference) (character : Char) : Option NodeReference :=
  match GetNextNode h ref.node_ ref.root_ character with
  | none => none
  | some r => some ⟨r, ref.root_⟩

/-- The loop of `AutomatonGraph::OutgoingEdges` over `automaton_transitions`.
An edge with a null target has no representation: both visitors of the file
write through `edge.target`. -/
def edgesOf (vertex : Nat) : List (Char × Option Nat) → Option (List Edge)
  | [] => some []
  | (_, none) :: _ => none
  | (character, some target) :: rest =>
    match edgesOf vertex rest with
    | none => none
    | some edges => some (⟨vertex, target, character⟩ :: edges)

/-- Method `AutomatonGraph::OutgoingEdges(vertex)`: one edge per entry of
`automaton_transitions`, in key order. -/
def OutgoingEdges (h : Automaton) (vertex : Nat) : Option (List Edge) :=
  edgesOf vertex (h.node vertex).automaton_transitions_cache

/-- The `while (!queue.empty())` loop of `BreadthFirstSearch` of
ideone_WhZ8P4.cpp, one iteration per unit of fuel; the loop over the edges is
the one of interface.cpp. -/
def bfsLoop (visitor : BfsVisitor) : Nat → List Nat → Automaton → Option Automaton
  | _, [], h => some h
  | 0, _ :: _, _ => none
  | fuel + 1, vertex :: queue, h =>
    match visitor.ExamineVertex h vertex with
    | none => none
    | some h1 =>
      match OutgoingEdges h1 vertex with
      | none => none
      | some edges =>
        match visitEdges visitor edges h1 queue with
        | none => none
        | some (h2, queue2) => bfsLoop visitor fuel queue2 h2

/-- Function `BreadthFirstSearch(origin_vertex, graph, visitor)` of
ideone_WhZ8P4.cpp. -/
def BreadthFirstSearch (origin_vertex : Nat) (h : Automaton) (visitor : BfsVisitor) :
    Option Automaton :=
  bfsLoop visitor h.size [origin_vertex] h

/-- The `while (current && current->automaton_transitions.count(character) == 0)`
loop of `SuffixLinkCalculator::ExamineEdge`, one test of the loop condition per
unit of fuel; the result is the value of `current` after the loop. -/
def suffixWalk (h : Automaton) (character : Char) : Nat → Option Nat → Option (Option Nat)
  | 0, _ => none
  | _ + 1, none => some none
  | fuel + 1, some current =>
    match mapFind (h.node current).automaton_transitions_cache character with
    | none => suffixWalk h character fuel (h.node current).suffix_link
    | some _ => some (some current)

/-- The class `SuffixLinkCalculator` of ideone_WhZ8P4.cpp: only `ExamineEdge`
is overridden, so the suffix link of the root stays null. -/
def SuffixLinkCalculator (root_ : Option Nat) : BfsVisitor where
  DiscoverVertex := fun h _ => some h
  ExamineVertex := fun h _ => some h
  ExamineEdge := fun h edge =>
    match suffixWalk h edge.character (h.size + 1) (h.node edge.source).suffix_link with
    | none => none
    | some (some current) =>
      -- edge.target->suffix_link = current->automaton_transitions[edge.character];
      -- the loop has found the key present, so `operator[]` inserts nothing
      some (h.setSuffixLink edge.target (getCache h current edge.character))
    | some none => some (h.setSuffixLink edge.target root_)

/-- The class `TerminalLinkCalculator` of ideone_WhZ8P4.cpp. -/
def TerminalLinkCalculator (root_ : Option Nat) : BfsVisitor where
  ExamineVertex := fun h _ => some h
  ExamineEdge := fun h _ => some h
  DiscoverVertex := fun h node =>
    if some node = root_ then some h
    else
      match (h.node node).suffix_link with
      | none => none
      | some s =>
        if (h.node s).terminated_string_ids.length > 0 then
          some (h.setTerminalLink node (some s))
        else some (h.setTerminalLink node (h.node s).terminal_link)

/-- The `for (char symbol : string)` loop of `AddString` of ideone_WhZ8P4.cpp. -/
def addStringLoop : Automaton → Nat → List Char → Option (Automaton × Nat)
  | h, current, [] => some (h, current)
  | h, current, symbol :: rest =>
    match GetTrieTransition h current symbol with
    | some nextNode => addStringLoop h nextNode rest
    | none =>
      -- current->trie_transitions[symbol] = AutomatonNode();
      let r := trieIndex h current symbol
      let h1 := r.1.setNode r.2 AutomatonNode.default
      -- current->automaton_transitions[symbol] = &current->trie_transitions[symbol];
      let h2 := setCache h1 current symbol (some r.2)
      match GetTrieTransition h2 current symbol with
      | none => none
      | some next => addStringLoop h2 next rest

/-- Method `AutomatonBuilder::AddString(root, string_id, string)` of
ideone_WhZ8P4.cpp. -/
def AddString (h : Automaton) (root : Nat) (string_id : Nat) (string : List Char) :
    Option Automaton :=
  match addStringLoop h root string with
  | none => none
  | some r =>
    some (r.1.setNode r.2
      { r.1.node r.2 with
        terminated_string_ids := (r.1.node r.2).terminated_string_ids ++ [string_id] })

/-- Method `AutomatonBuilder::BuildTrie(words, ids, automaton)` of
ideone_WhZ8P4.cpp. -/
def BuildTrie : List (List Char × Nat) → Automaton → Option Automaton
  | [], h => some h
  | (word, id) :: rest, h =>
    match AddString h 0 id word with
    | none => none
    | some h1 => BuildTrie rest h1

/-- Method `AutomatonBuilder::BuildSuffixLinks(automaton)` of ideone_WhZ8P4.cpp. -/
def BuildSuffixLinks (h : Automaton) : Option Automaton :=
  BreadthFirstSearch 0 h (SuffixLinkCalculator h.rootPtr)

/-- Method `AutomatonBuilder::BuildTerminalLinks(automaton)` of ideone_WhZ8P4.cpp. -/
def BuildTerminalLinks (h : Automaton) : Option Automaton :=
  BreadthFirstSearch 0 h (TerminalLinkCalculator h.rootPtr)

/-- Method `AutomatonBuilder::Build()` of ideone_WhZ8P4.cpp for a builder that
received `Add(word, id)` for each pair of `added`, in order. -/
def Build (added : List (List Char × Nat)) : Option Automaton :=
  match BuildTrie added Automaton.new with
  | none => none
  | some h0 =>
    match BuildSuffixLinks h0 with
    | none => none
    | some h1 => BuildTerminalLinks h1

/-- The path of trie transitions of ideone_WhZ8P4.cpp from `node` along a string. -/
def trieWalk (h : Automaton) : Nat → List Char → Option Nat
  | node, [] => some node
  | node, c :: cs =>
    match GetTrieTransition h node c with
    | none => none
    | some child => trieWalk h child cs

/-- An arena of interface.cpp with the pointer map that `AddString` of
ideone_WhZ8P4.cpp keeps next to `trie_transitions`. -/
def mirror (h : Automaton) : Automaton :=
  { size := h.size,
    node := fun n =>
      { h.node n with
        automaton_transitions_cache :=
          (h.node n).trie_transitions.map fun t => (t.1, some t.2) } }

/-- The pointer map of every node holds the address of each element of
`trie_transitions` under its key, and nothing else. -/
def Mirrored (h : Automaton) : Prop :=
  ∀ n, (h.node n).automaton_transitions_cache =
    (h.node n).trie_transitions.map fun t => (t.1, some t.2)

/-- Invariant of the suffix-link pass of ideone_WhZ8P4.cpp, started from the
arena `h0`: `D` lists the discovered vertices. -/
structure PassInv (h0 : Automaton) (path : Nat → List Char)
    (added : List (List Char × Nat)) (D : List Nat) (h : Automaton) : Prop where
  same : SameTrie h0 h
  mirrored : Mirrored h
  term : ∀ n, (h.node n).terminal_link = none
  root : (h.node 0).suffix_link = none
  suffix : ∀ n ∈ D, n ≠ 0 → SuffixOK h path added n

/-- State of an automaton built by ideone_WhZ8P4.cpp: `path n` is the string
spelled by node `n`; the root has no suffix link. -/
structure Linked (h : Automaton) (path : Nat → List Char)
    (added : List (List Char × Nat)) : Prop where
  trie : TrieOK h path added
  mirrored : Mirrored h
  root : (h.node 0).suffix_link = none
  suffix : ∀ n, n < h.size → n ≠ 0 → SuffixOK h path added n

end ideone_WhZ8P4

/-! Embedding of `src/Algo/Review1/ideone_yYDo30.cpp`.  The struct `AutomatonNode`
of that file is the one of ideone_WhZ8P4.cpp: `matched_string_ids` is kept in
`terminated_string_ids` and `automaton_transitions` in
`automaton_transitions_cache`.  In this file `automaton_transitions` holds the
pointers to the trie children and, next to them, the transitions found later. -/

namespace ideone_yYDo30

open traverses

/-- The call `node->automaton_transitions.insert({character, target})`:
`std::map::insert` keeps an entry that is already there. -/
def insertTransition (h : Automaton) (node : Nat) (character : Char) (target : Option Nat) :
    Automaton :=
  match mapFind (h.node node).automaton_transitions_cache character with
  | some _ => h
  | none => setCache h node character target

/-- The `for (ind ...)` loop over the edges in `BreadthFirstSearch` of
ideone_yYDo30.cpp: `DiscoverVertex` comes before `ExamineEdge`. -/
def visitEdges (visitor : BfsVisitor) :
    List Edge → Automaton → List Nat → Option (Automaton × List Nat)
  | [], h, queue => some (h, queue)
  | edge :: edges, h, queue =>
    match visitor.DiscoverVertex h (GetTarget edge) with
    | none => none
    | some h1 =>
      match visitor.ExamineEdge h1 edge with
      | none => none
      | some h2 => visitEdges visitor edges h2 (queue ++ [GetTarget edge])

/-- The `while (queue.size() != 0)` loop of `BreadthFirstSearch` of
ideone_yYDo30.cpp, one iteration per unit of fuel.  `OutgoingEdges` lists the
entries of `trie_transitions` in key order, as the one of interface.cpp does. -/
def bfsLoop (visitor : BfsVisitor) : Nat → List Nat → Automaton → Option Automaton
  | _, [], h => some h
  | 0, _ :: _, _ => none
  | fuel + 1, vertex :: queue, h =>
    match visitor.ExamineVertex h vertex with
    | none => none
    | some h1 =>
      match visitEdges visitor (OutgoingEdges h1 vertex) h1 queue with
      | none => none
      | some (h2, queue2) => bfsLoop visitor fuel queue2 h2

/-- Function `BreadthFirstSearch(origin_vertex, graph, visitor)` of
ideone_yYDo30.cpp: the origin is discovered before the loop starts. -/
def BreadthFirstSearch (origin_vertex : Nat) (h : Automaton) (visitor : BfsVisitor) :
    Option Automaton :=
  match visitor.DiscoverVertex h origin_vertex with
  | none => none
  | some h1 => bfsLoop visitor h1.size [origin_vertex] h1

/-- The loop
`while (cur != root_ && cur->automaton_transitions.count(character) == 0) cur = cur->suffix_link;`
of `SuffixLinkCalculator::ExamineEdge`, which `NodeReference::Next` repeats with
`tec_node`; one test of the loop condition per unit of fuel, and the result is
the value of `cur` after the loop. -/
def chainLoop (h : Automaton) (root_ : Option Nat) (character : Char) :
    Nat → Option Nat → Option (Option Nat)
  | 0, _ => none
  | fuel + 1, cur =>
    if cur ≠ root_ then
      match cur with
      | none => none
      | some n =>
        match mapFind (h.node n).automaton_transitions_cache character with
        | none => chainLoop h root_ character fuel (h.node n).suffix_link
        | some _ => some cur
    else some cur

/-- The second loop of `ExamineEdge` when a transition was found: every node of
the chain without the key receives the entry `(character, target)`. -/
def fillLoop (root_ : Option Nat) (character : Char) (target : Option Nat) :
    Nat → Automaton → Option Nat → Option Automaton
  | 0, _, _ => none
  | fuel + 1, h, new_cur =>
    if new_cur ≠ root_ then
      match new_cur with
      | none => none
      | some n =>
        match mapFind (h.node n).automaton_transitions_cache character with
        | none =>
          let h1 := insertTransition h n character target
          fillLoop root_ character target fuel h1 (h1.node n).suffix_link
        | some _ => some h
    else some h

/-- The loop of `ExamineEdge` when no transition was found: every node of the
chain before the root receives the entry `(character, root_)`, unless it has
the key. -/
def fillRootLoop (root_ : Option Nat) (character : Char) :
    Nat → Automaton → Option Nat → Option Automaton
  | 0, _, _ => none
  | fuel + 1, h, new_cur =>
    if new_cur ≠ root_ then
      match new_cur with
      | none => none
      | some n =>
        let h1 := insertTransition h n character root_
        fillRootLoop root_ character fuel h1 (h1.node n).suffix_link
    else some h

/-- The class `SuffixLinkCalculator` of ideone_yYDo30.cpp. -/
def SuffixLinkCalculator (root_ : Option Nat) : BfsVisitor where
  DiscoverVertex := fun h _ => some h
  ExamineVertex := fun h node =>
    if some node = root_ then some (h.setSuffixLink node root_) else some h
  ExamineEdge := fun h edge =>
    if some edge.source = root_ then some (h.setSuffixLink edge.target root_)
    else
      match chainLoop h root_ edge.character (h.size + 1) (h.node edge.source).suffix_link with
      | none => none
      | some none => none
      | some (some cur) =>
        match mapFind (h.node cur).automaton_transitions_cache edge.character with
        | some target =>
          let h1 := h.setSuffixLink edge.target target
          fillLoop root_ edge.character target (h1.size + 1) h1 (h1.node edge.source).suffix_link
        | none =>
          match fillRootLoop root_ edge.character (h.size + 1) h
              (h.node edge.source).suffix_link with
          | none => none
          | some h1 => some (h1.setSuffixLink edge.target root_)

/-- The class `TerminalLinkCalculator` of ideone_yYDo30.cpp; `DiscoverVertex`
has no test for the root. -/
def TerminalLinkCalculator (_calculator_root : Option Nat) : BfsVisitor where
  ExamineVertex := fun h _ => some h
  ExamineEdge := fun h _ => some h
  DiscoverVertex := fun h node =>
    match (h.node node).suffix_link with
    | none => none
    | some s =>
      if (h.node s).terminated_string_ids.length ≠ 0 then
        some (h.setTerminalLink node (some s))
      else some (h.setTerminalLink node (h.node s).terminal_link)

/-- Method `NodeReference::Next(character)` of ideone_yYDo30.cpp. -/
def Next (h : Automaton) (ref : NodeReference) (character : Char) :
    Option (Automaton × NodeReference) :=
  match ref.node_ with
  | none => none
  | some n =>
    match mapFind (h.node n).automaton_transitions_cache character with
    | some target => some (h, ⟨target, ref.root_⟩)
    | none =>
      match chainLoop h ref.root_ character (h.size + 1) (some n) with
      | none => none
      | some none => none
      | some (some tec_node) =>
        let tec_node1 : Option Nat :=
          match mapFind (h.node tec_node).automaton_transitions_cache character with
          | some target => target
          | none => some tec_node
        some (insertTransition h n character tec_node1, ⟨tec_node1, ref.root_⟩)

/-- Method `Automaton::GenerateMatches(node, on_match)` of ideone_yYDo30.cpp,
with the fuel of the `while (tec_node)` loop as a parameter; the loop is the one
of interface.cpp. -/
def GenerateMatches {σ : Type} (h : Automaton) (fuel : Nat) (node : NodeReference)
    (on_match : σ → Nat → σ) (s : σ) : Option σ :=
  generateMatchesLoop h on_match fuel node.node_ s

/-- The `for (ind ...)` loop of `AddString` of ideone_yYDo30.cpp. -/
def addStringLoop : Automaton → Nat → List Char → Automaton × Nat
  | h, cur_state, [] => (h, cur_state)
  | h, cur_state, symbol :: rest =>
    match mapFind (h.node cur_state).trie_transitions symbol with
    | some child => addStringLoop h child rest
    | none =>
      -- trie_transitions.insert({symbol, new_state}); new_cur_state = &...find(symbol)->second
      let r := trieIndex h cur_state symbol
      let h1 := insertTransition r.1 cur_state symbol (some r.2)
      addStringLoop h1 r.2 rest

/-- Method `AutomatonBuilder::AddString(root, string_id, string)` of
ideone_yYDo30.cpp. -/
def AddString (h : Automaton) (root : Nat) (string_id : Nat) (string : List Char) :
    Automaton :=
  let r := addStringLoop h root string
  r.1.setNode r.2
    { r.1.node r.2 with
      terminated_string_ids := (r.1.node r.2).terminated_string_ids ++ [string_id] }

/-- Method `AutomatonBuilder::BuildTrie(words, ids, automaton)` of
ideone_yYDo30.cpp. -/
def BuildTrie : List (List Char × Nat) → Automaton → Automaton
  | [], h => h
  | (word, id) :: rest, h => BuildTrie rest (AddString h 0 id word)

/-- Method `AutomatonBuilder::BuildSuffixLinks(automaton)` of ideone_yYDo30.cpp. -/
def BuildSuffixLinks (h : Automaton) : Option Automaton :=
  BreadthFirstSearch 0 h (SuffixLinkCalculator h.rootPtr)

/-- Method `AutomatonBuilder::BuildTerminalLinks(automaton)` of ideone_yYDo30.cpp. -/
def BuildTerminalLinks (h : Automaton) : Option Automaton :=
  BreadthFirstSearch 0 h (TerminalLinkCalculator h.rootPtr)

/-- Method `AutomatonBuilder::Build()` of ideone_yYDo30.cpp for a builder that
received `Add(word, id)` for each pair of `added`, in order. -/
def Build (added : List (List Char × Nat)) : Option Automaton :=
  match BuildSuffixLinks (BuildTrie added Automaton.new) with
  | none => none
  | some h => BuildTerminalLinks h

/-- The `for (ind ...)` loop of `Split` of ideone_yYDo30.cpp, whose second
argument is the delimiter itself: the pieces are the maximal runs of delimiters
and the maximal runs of other characters, alternating. -/
def splitLoop (is_delimiter : Char) :
    List Char → Bool → List Char → List (List Char) → List (List Char)
  | [], _, cur, ans => if cur.length ≠ 0 then ans ++ [cur] else ans
  | symbol :: rest, is_wildcards, cur, ans =>
    if symbol ≠ is_delimiter ∧ is_wildcards = false then
      splitLoop is_delimiter rest false (cur ++ [symbol]) ans
    else if symbol ≠ is_delimiter ∧ is_wildcards = true then
      splitLoop is_delimiter rest false [symbol] (ans ++ [cur])
    else if symbol = is_delimiter ∧ is_wildcards = true then
      splitLoop is_delimiter rest true (cur ++ [symbol]) ans
    else
      splitLoop is_delimiter rest true [symbol] (ans ++ [cur])

/-- Function `Split(string, is_delimiter)` of ideone_yYDo30.cpp; `string[0]` of
an empty string is the terminating null character. -/
def Split (string : List Char) (is_delimiter : Char) : List (List Char) :=
  splitLoop is_delimiter string (decide (string.headD (Char.ofNat 0) = is_delimiter)) [] []

/-- The class `WildCardMatcher` of ideone_yYDo30.cpp. -/
structure WildCardMatcher where
  words_occurence_by_position : List Nat
  state_ : NodeReference
  number_of_words_ : Nat
  pattern_length_ : Nat
  aho_corasick_automaton_ : Option Automaton

end ideone_yYDo30

namespace ideone_yYDo30

open traverses

namespace WildCardMatcher

/-- The constructor `WildCardMatcher()`. -/
def new : WildCardMatcher :=
  { words_occurence_by_position := [], state_ := NodeReference.null,
    number_of_words_ := 0, pattern_length_ := 0, aho_corasick_automaton_ := none }

/-- The loop of `Init` over the pieces: the counters `tec_length` and
`number_of_words_`, and the pairs passed to `automaton_builder.Add`.  A piece is
left out when its first character is `'?'`, whatever the wildcard is. -/
def initLoop : List (List Char) → Nat → Nat → List (List Char × Nat) →
    Nat × Nat × List (List Char × Nat)
  | [], tec_length, number_of_words, added => (tec_length, number_of_words, added)
  | piece :: rest, tec_length, number_of_words, added =>
    let tec_length1 := tec_length + piece.length
    if piece.headD (Char.ofNat 0) ≠ '?' then
      initLoop rest tec_length1 (number_of_words + 1) (added ++ [(piece, tec_length1)])
    else
      initLoop rest tec_length1 number_of_words added

/-- Method `WildCardMatcher::Init(pattern, wildcard)`. -/
def Init (m : WildCardMatcher) (pattern : List Char) (wildcard : Char) :
    Option WildCardMatcher :=
  let splitted_pattern := Split pattern wildcard
  let r := initLoop splitted_pattern 0 m.number_of_words_ []
  match Build r.2.2 with
  | none => none
  | some h =>
    some { m with number_of_words_ := r.2.1, aho_corasick_automaton_ := some h,
                  state_ := h.Root, pattern_length_ := pattern.length }

/-- The callback that `Scan` passes to `GenerateMatches`, acting on the deque. -/
def countOccurrence (words : List Nat) (num : Nat) : List Nat :=
  if words.length ≥ num then words.modify (fun x => x + 1) (words.length - num)
  else words

/-- Method `WildCardMatcher::Scan(character, on_match)`; `on_match` acts on the
caller's state.  `pop_front` on an empty deque has no defined result. -/
def Scan {σ : Type} (m : WildCardMatcher) (character : Char) (on_match : σ → σ) (s : σ) :
    Option (WildCardMatcher × σ) :=
  match m.aho_corasick_automaton_ with
  | none => none
  | some h =>
    match Next h m.state_ character with
    | none => none
    | some (h1, state1) =>
      let popped : Option (List Nat) :=
        if m.words_occurence_by_position.length = m.pattern_length_ then
          match m.words_occurence_by_position with
          | [] => none
          | _ :: rest => some rest
        else some m.words_occurence_by_position
      match popped with
      | none => none
      | some words =>
        match GenerateMatches h1 (h1.size + 1) state1 countOccurrence (words ++ [0]) with
        | none => none
        | some words1 =>
          let s1 :=
            if words1.length = m.pattern_length_ ∧ words1.head? = some m.number_of_words_ then
              on_match s
            else s
          some ({ m with words_occurence_by_position := words1, state_ := state1,
                         aho_corasick_automaton_ := some h1 }, s1)

end WildCardMatcher

end ideone_yYDo30

namespace ideone_yYDo30

open traverses

/-- The `for (offset ...)` loop of `FindFuzzyMatches` of ideone_yYDo30.cpp. -/
def findFuzzyLoop (pattern_size : Nat) :
    List Char → Nat → WildCardMatcher → List Nat → Option (List Nat)
  | [], _, _, occurences => some occurences
  | character :: rest, offset, matcher, occurences =>
    match matcher.Scan character
        (fun occ => occ ++ [size_t_sub (offset + 1) pattern_size]) occurences with
    | none => none
    | some (matcher1, occurences1) =>
      findFuzzyLoop pattern_size rest (offset + 1) matcher1 occurences1

/-- Function `FindFuzzyMatches(patternWithWildcards, text, wildcard)` of
ideone_yYDo30.cpp. -/
def FindFuzzyMatches (patternWithWildcards text : List Char) (wildcard : Char) :
    Option (List Nat) :=
  match WildCardMatcher.new.Init patternWithWildcards wildcard with
  | none => none
  | some matcher => findFuzzyLoop patternWithWildcards.length text 0 matcher []

end ideone_yYDo30

/-! Embedding of `src/Algo/Review3/Review3.cpp`.  A key is an `int`, kept as an
integer; sizes and table positions are natural numbers, and a conversion of a
size to `int` that does not fit 31 bits, or a signed overflow, has no result.
The draws of the random generator of `ChooseGoodHash` are an argument: the list
of the pairs (multiplier, summand) that the generator would produce. -/

namespace Review3

/-- The constant `kKeyShift`. -/
def kKeyShift : Int := -1000000001

/-- The constant `IPerfectHashTable::kPrimeModulo`. -/
def kPrimeModulo : Nat := 2 ^ 31 - 1

/-- The constant `IPerfectHashTable::kNoKey`. -/
def kNoKey : Int := 0

/-- The constant `FixedSet::kSizeCoefficient`. -/
def kSizeCoefficient : Nat := 3

/-- The class `HashFunction`; the four members are `uint64_t` values. -/
structure HashFunction where
  multiplier_ : Nat
  summand_ : Nat
  prime_modulo_ : Nat
  modulo_ : Nat
deriving DecidableEq

/-- The default constructor `HashFunction()`, which leaves the members
unset; with these values every application is undefined. -/
def HashFunction.unset : HashFunction := ⟨0, 0, 0, 0⟩

/-- Method `HashFunction::operator()(value)`, in 64-bit unsigned arithmetic; a
remainder by zero has no result. -/
def HashFunction.apply (f : HashFunction) (value : Nat) : Option Nat :=
  if f.prime_modulo_ = 0 ∨ f.modulo_ = 0 then none
  else some (((f.multiplier_ * value + f.summand_) % 2 ^ 64 % f.prime_modulo_) % f.modulo_)

/-- Conversion of an `int` argument to the `uint64_t` parameter of
`operator()`. -/
def uint64_of_int (key : Int) : Nat := (key % 2 ^ 64).toNat

/-- Conversion of a size to `int`. -/
def int_of_size (n : Nat) : Option Nat := if n < 2 ^ 31 then some n else none

/-- Function `SumOfSquares(numbers)`. -/
def SumOfSquares (numbers : List Nat) : Nat :=
  numbers.foldl (fun size_sum subtable_size => size_sum + subtable_size * subtable_size) 0

/-- The element `*std::max_element(begin, end)`; there is none in an empty
range. -/
def maxElement : List Nat → Option Nat
  | [] => none
  | x :: rest => some (rest.foldl max x)

end Review3

namespace Review3

namespace IPerfectHashTable

/-- Method `IPerfectHashTable::PositionInTable(key)`. -/
def PositionInTable (hash_ : HashFunction) (key : Int) : Option Nat :=
  hash_.apply (uint64_of_int key)

/-- The loop of `MakeChains`: `buckets[hash_(key)].push_back(key)`. -/
def makeChainsLoop (hash_ : HashFunction) : List Int → List (List Int) → Option (List (List Int))
  | [], buckets => some buckets
  | key :: rest, buckets =>
    match hash_.apply (uint64_of_int key) with
    | none => none
    | some position =>
      if position < buckets.length then
        makeChainsLoop hash_ rest (buckets.modify (fun bucket => bucket ++ [key]) position)
      else none

/-- Method `IPerfectHashTable::MakeChains(numbers)`. -/
def MakeChains (hash_ : HashFunction) (size_ : Nat) (numbers : List Int) :
    Option (List (List Int)) :=
  makeChainsLoop hash_ numbers (List.replicate size_ [])

/-- The loop of `ComputeChainSizes`: `++bucket_sizes[hash_(key)]`. -/
def chainSizesLoop (hash_ : HashFunction) : List Int → List Nat → Option (List Nat)
  | [], bucket_sizes => some bucket_sizes
  | key :: rest, bucket_sizes =>
    match hash_.apply (uint64_of_int key) with
    | none => none
    | some position =>
      if position < bucket_sizes.length then
        chainSizesLoop hash_ rest (bucket_sizes.modify (fun size => size + 1) position)
      else none

/-- Method `IPerfectHashTable::ComputeChainSizes(numbers)`. -/
def ComputeChainSizes (hash_ : HashFunction) (size_ : Nat) (numbers : List Int) :
    Option (List Nat) :=
  chainSizesLoop hash_ numbers (List.replicate size_ 0)

/-- Method `IPerfectHashTable::ChooseGoodHash(numbers)`: the `do ... while`
loop takes one draw of `UniversalHashGenerator::Generate(size_)` per iteration
and ends at the first function that the virtual `IsHashOk` accepts; when the
draws are used up the loop has not ended. -/
def ChooseGoodHash (IsHashOk : HashFunction → Option Bool) (size_ : Nat) :
    List (Nat × Nat) → Option HashFunction
  | [] => none
  | draw :: rest =>
    let hash_ : HashFunction := ⟨draw.1, draw.2, kPrimeModulo, size_⟩
    match IsHashOk hash_ with
    | none => none
    | some true => some hash_
    | some false => ChooseGoodHash IsHashOk size_ rest

end IPerfectHashTable

end Review3

namespace Review3

/-- The class `PolynomialHashTable`. -/
structure PolynomialHashTable where
  hash_ : HashFunction
  size_ : Nat
  table_ : List Int
deriving DecidableEq

end Review3

namespace Review3

namespace PolynomialHashTable

/-- The constructor `PolynomialHashTable()`. -/
def new : PolynomialHashTable := ⟨HashFunction.unset, 0, []⟩

/-- Method `PolynomialHashTable::IsHashOk(numbers)`. -/
def IsHashOk (size_ : Nat) (numbers : List Int) (hash_ : HashFunction) : Option Bool :=
  match IPerfectHashTable.ComputeChainSizes hash_ size_ numbers with
  | none => none
  | some bucket_sizes =>
    match maxElement bucket_sizes with
    | none => none
    | some largest => some (decide (largest ≤ 1))

/-- Method `PolynomialHashTable::MakeTable(numbers)`. -/
def MakeTable (t : PolynomialHashTable) (numbers : List Int) : Option PolynomialHashTable :=
  match IPerfectHashTable.MakeChains t.hash_ t.size_ numbers with
  | none => none
  | some chains =>
    some { t with
      table_ := t.table_ ++ chains.map fun keys =>
        match keys.getLast? with
        | none => kNoKey
        | some key => key }

/-- Method `PolynomialHashTable::Initialize(numbers)`. -/
def Initialize (t : PolynomialHashTable) (numbers : List Int) (draws : List (Nat × Nat)) :
    Option PolynomialHashTable :=
  match int_of_size (numbers.length * numbers.length) with
  | none => none
  | some size_ =>
    if size_ = 0 then some { t with size_ := size_ }
    else
      match IPerfectHashTable.ChooseGoodHash (IsHashOk size_ numbers) size_ draws with
      | none => none
      | some hash_ => MakeTable { t with size_ := size_, hash_ := hash_ } numbers

/-- Method `PolynomialHashTable::GetSameHashKey(key)`. -/
def GetSameHashKey (t : PolynomialHashTable) (key : Int) : Option Int :=
  if t.size_ = 0 then some kNoKey
  else
    match IPerfectHashTable.PositionInTable t.hash_ key with
    | none => none
    | some position => t.table_[position]?

end PolynomialHashTable

end Review3

namespace Review3

/-- The class `FixedSet`. -/
structure FixedSet where
  hash_ : HashFunction
  size_ : Nat
  subtables_ : List PolynomialHashTable
deriving DecidableEq

end Review3

namespace Review3

namespace FixedSet

/-- The constructor `FixedSet()`. -/
def new : FixedSet := ⟨HashFunction.unset, 0, []⟩

/-- Method `FixedSet::IsHashOk(numbers)`; the product `kSizeCoefficient * size_`
is an `int`. -/
def IsHashOk (size_ : Nat) (numbers : List Int) (hash_ : HashFunction) : Option Bool :=
  match IPerfectHashTable.ComputeChainSizes hash_ size_ numbers with
  | none => none
  | some bucket_sizes =>
    match int_of_size (kSizeCoefficient * size_) with
    | none => none
    | some bound => some (decide (SumOfSquares bucket_sizes ≤ bound))

/-- The loop of `FixedSet::MakeSubtables(buckets)`; the subtable of the bucket
with index `i` draws its hash functions from `draws i`. -/
def makeSubtablesLoop (draws : Nat → List (Nat × Nat)) :
    List (List Int) → List PolynomialHashTable → Option (List PolynomialHashTable)
  | [], subtables_ => some subtables_
  | bucket :: rest, subtables_ =>
    match PolynomialHashTable.new.Initialize bucket (draws subtables_.length) with
    | none => none
    | some subtable => makeSubtablesLoop draws rest (subtables_ ++ [subtable])

/-- Method `FixedSet::Initialize(numbers)`; `first` are the draws of the
generator of the set, `second i` the draws of the generator of subtable `i`. -/
def Initialize (s : FixedSet) (numbers : List Int) (first : List (Nat × Nat))
    (second : Nat → List (Nat × Nat)) : Option FixedSet :=
  match int_of_size numbers.length with
  | none => none
  | some size_ =>
    match IPerfectHashTable.ChooseGoodHash (IsHashOk size_ numbers) size_ first with
    | none => none
    | some hash_ =>
      match IPerfectHashTable.MakeChains hash_ size_ numbers with
      | none => none
      | some buckets =>
        match makeSubtablesLoop second buckets s.subtables_ with
        | none => none
        | some subtables_ => some { hash_ := hash_, size_ := size_, subtables_ := subtables_ }

/-- Method `FixedSet::GetSameHashKey(key)`. -/
def GetSameHashKey (s : FixedSet) (key : Int) : Option Int :=
  match IPerfectHashTable.PositionInTable s.hash_ key with
  | none => none
  | some position =>
    match s.subtables_[position]? with
    | none => none
    | some subtable => subtable.GetSameHashKey key

/-- Method `IPerfectHashTable::Contains(number)` on a `FixedSet`. -/
def Contains (s : FixedSet) (number : Int) : Option Bool :=
  match s.GetSameHashKey number with
  | none => none
  | some key => some (decide (number = key))

end FixedSet

end Review3

namespace Review3

/-- The state of the set of a scenario: the numbers 0, 5, 2 and -3 under the
first-level function with multiplier 1 and summand 0; the subtable at position
1 holds 5 and -3 under the function with multiplier 2. -/
def scenarioSet : FixedSet :=
  ⟨⟨1, 0, 2147483647, 4⟩, 4,
    [⟨⟨1, 0, 2147483647, 1⟩, 1, [0]⟩, ⟨⟨2, 0, 2147483647, 4⟩, 4, [0, -3, 5, 0]⟩,
      ⟨⟨1, 0, 2147483647, 1⟩, 1, [2]⟩, ⟨HashFunction.unset, 0, []⟩]⟩

/-- The draws of the subtables in the scenario: the subtable at position 1
rejects its first draw. -/
def scenarioDraws (i : Nat) : List (Nat × Nat) :=
  if i = 1 then [(1, 0), (2, 0)] else [(1, 0)]

/-- The state of the set that holds 1 and 3 under the first-level function with
multiplier 1 and summand 0: no key is sent to position 0. -/
def oddSet : FixedSet :=
  ⟨⟨1, 0, 2147483647, 2⟩, 2,
    [⟨HashFunction.unset, 0, []⟩, ⟨⟨1, 0, 2147483647, 4⟩, 4, [0, 1, 0, 3]⟩]⟩

end Review3

/-! Embedding of `src/Algo/Review_2_2/Review_2_2/condensation_review.cpp`.  A
vertex is a non-negative `int`, kept as a natural number.  An `unordered_set` of
vertices is the list of its elements in the order of insertion; only membership
in it is meaningful. -/

namespace condensation_review

/-- The class `Graph::Edge`. -/
structure Edge where
  source_ : Nat
  target_ : Nat
deriving DecidableEq

/-- The class `Graph`. -/
structure Graph where
  adjacency_lists_ : List (List Nat)
deriving DecidableEq

/-- The constructor `Graph(vertices_count)`. -/
def Graph.new (vertices_count : Nat) : Graph := ⟨List.replicate vertices_count []⟩

/-- Method `Graph::GetVerticesCount()`. -/
def Graph.GetVerticesCount (graph : Graph) : Nat := graph.adjacency_lists_.length

/-- Method `Graph::GetAdjacentVertices(vertex)`; an index past the end of
`adjacency_lists_` has no result. -/
def Graph.GetAdjacentVertices (graph : Graph) (vertex : Nat) : Option (List Nat) :=
  graph.adjacency_lists_[vertex]?

/-- Method `Graph::AddEdge(edge)`. -/
def Graph.AddEdge (graph : Graph) (edge : Edge) : Option Graph :=
  if edge.source_ < graph.adjacency_lists_.length then
    some ⟨graph.adjacency_lists_.modify (fun targets => targets ++ [edge.target_]) edge.source_⟩
  else none

/-- The loop of the constructor `Graph(vertices_count, edges_begin, edges_end)`. -/
def Graph.addEdges : List Edge → Graph → Option Graph
  | [], graph => some graph
  | edge :: rest, graph =>
    match graph.AddEdge edge with
    | none => none
    | some graph1 => Graph.addEdges rest graph1

/-- The constructor `Graph(vertices_count, edges_begin, edges_end)`. -/
def Graph.ofEdges (vertices_count : Nat) (edges : List Edge) : Option Graph :=
  Graph.addEdges edges (Graph.new vertices_count)

/-- The enumeration `DepthFirstSearcher::VertexStatus`. -/
inductive VertexStatus where
  | kGrey
  | kBlack
deriving DecidableEq

/-- The class `DfsVisitor`, acting on a state of the visitor; `FinishVertex` of
a derived class may index a vector. -/
structure DfsVisitor (σ : Type) where
  DiscoverVertex : σ → Nat → σ
  FinishVertex : σ → Nat → Option σ
  ForwardOrCrossEdge : σ → Edge → σ
  BackEdge : σ → Edge → σ
  InitializeComponent : σ → σ

/-- The member `vertices_status_` of `DepthFirstSearcher`. -/
abbrev StatusMap := Nat → Option VertexStatus

/-- Method `DepthFirstSearcher::IsVertexBlack(vertex)`. -/
def IsVertexBlack (vertices_status_ : StatusMap) (vertex : Nat) : Bool :=
  vertices_status_ vertex == some VertexStatus.kBlack

/-- Method `DepthFirstSearcher::IsVertexGrey(vertex)`. -/
def IsVertexGrey (vertices_status_ : StatusMap) (vertex : Nat) : Bool :=
  vertices_status_ vertex == some VertexStatus.kGrey

/-- The assignment `vertices_status_[vertex] = status`. -/
def setStatus (vertices_status_ : StatusMap) (vertex : Nat) (status : VertexStatus) :
    StatusMap :=
  fun v => if v = vertex then some status else vertices_status_ v

/-- The `for` loop of `DepthFirstSearcher::Search` over the adjacent vertices;
`search` stands for the recursive call. -/
def searchEdges {σ : Type} (visitor : DfsVisitor σ)
    (search : Nat → StatusMap × σ → Option (StatusMap × σ)) (origin_vertex : Nat) :
    List Nat → StatusMap × σ → Option (StatusMap × σ)
  | [], state => some state
  | vertex :: rest, state =>
    if ¬ IsVertexBlack state.1 vertex then
      if ¬ IsVertexGrey state.1 vertex then
        match search vertex (state.1, visitor.DiscoverVertex state.2 vertex) with
        | none => none
        | some state1 => searchEdges visitor search origin_vertex rest state1
      else
        searchEdges visitor search origin_vertex rest
          (state.1, visitor.BackEdge state.2 ⟨origin_vertex, vertex⟩)
    else
      searchEdges visitor search origin_vertex rest
        (state.1, visitor.ForwardOrCrossEdge state.2 ⟨origin_vertex, vertex⟩)

/-- Method `DepthFirstSearcher::Search(origin_vertex, visitor)`, one level of
recursion per unit of fuel. -/
def Search {σ : Type} (graph : Graph) (visitor : DfsVisitor σ) :
    Nat → Nat → StatusMap × σ → Option (StatusMap × σ)
  | 0, _, _ => none
  | fuel + 1, origin_vertex, state =>
    match graph.GetAdjacentVertices origin_vertex with
    | none => none
    | some adjacent =>
      match searchEdges visitor (Search graph visitor fuel) origin_vertex adjacent
          (setStatus state.1 origin_vertex VertexStatus.kGrey, state.2) with
      | none => none
      | some state1 =>
        match visitor.FinishVertex state1.2 origin_vertex with
        | none => none
        | some s2 => some (setStatus state1.1 origin_vertex VertexStatus.kBlack, s2)

/-- Method `DepthFirstSearcher::operator()(origin_vertex, visitor)`.  The
recursion of `Search` is never deeper than the number of vertices. -/
def DepthFirstSearcher.call {σ : Type} (graph : Graph) (visitor : DfsVisitor σ)
    (origin_vertex : Nat) (state : StatusMap × σ) : Option (StatusMap × σ) :=
  if ¬ IsVertexBlack state.1 origin_vertex then
    Search graph visitor graph.GetVerticesCount origin_vertex
      (state.1, visitor.DiscoverVertex state.2 origin_vertex)
  else some state

/-- The loop of `DisjointDepthFirstSearch(graph, visitor, order_begin, order_end)`. -/
def disjointLoop {σ : Type} (graph : Graph) (visitor : DfsVisitor σ) :
    List Nat → StatusMap × σ → Option (StatusMap × σ)
  | [], state => some state
  | vertex :: rest, state =>
    if ¬ IsVertexBlack state.1 vertex then
      match DepthFirstSearcher.call graph visitor vertex
          (state.1, visitor.InitializeComponent state.2) with
      | none => none
      | some state1 => disjointLoop graph visitor rest state1
    else disjointLoop graph visitor rest state

/-- Function `DisjointDepthFirstSearch(graph, visitor, order_begin, order_end)`;
the result is the state of the visitor. -/
def DisjointDepthFirstSearch {σ : Type} (graph : Graph) (visitor : DfsVisitor σ)
    (order : List Nat) (s : σ) : Option σ :=
  match disjointLoop graph visitor order (fun _ => none, s) with
  | none => none
  | some state => some state.2

/-- The class `TopologicalSorter`. -/
structure TopologicalSorter where
  order_ : List Nat
  has_order_ : Bool

/-- The constructor `TopologicalSorter()`. -/
def TopologicalSorter.new : TopologicalSorter := ⟨[], true⟩

/-- The overrides of `TopologicalSorter`. -/
def TopologicalSorter.visitor : DfsVisitor TopologicalSorter where
  DiscoverVertex := fun s _ => s
  FinishVertex := fun s vertex => some { s with order_ := s.order_ ++ [vertex] }
  ForwardOrCrossEdge := fun s _ => s
  BackEdge := fun s _ => { s with has_order_ := false }
  InitializeComponent := fun s => s

/-- The class `StrongConnectComponentFinder`. -/
structure StrongConnectComponentFinder where
  current_component_id_ : Int
  component_vertices_ : List (List Nat)

/-- The constant `StrongConnectComponentFinder::kNoComponents`. -/
def kNoComponents : Int := -1

/-- The constructor `StrongConnectComponentFinder()`. -/
def StrongConnectComponentFinder.new : StrongConnectComponentFinder := ⟨kNoComponents, []⟩

/-- The call `set.insert(vertex)` on an `unordered_set`. -/
def setInsert (set : List Nat) (vertex : Nat) : List Nat :=
  if vertex ∈ set then set else set ++ [vertex]

/-- The overrides of `StrongConnectComponentFinder`. -/
def StrongConnectComponentFinder.visitor : DfsVisitor StrongConnectComponentFinder where
  DiscoverVertex := fun s _ => s
  FinishVertex := fun s vertex =>
    -- component_vertices_[current_component_id_].insert(vertex);
    if 0 ≤ s.current_component_id_ ∧
        s.current_component_id_.toNat < s.component_vertices_.length then
      some { s with
        component_vertices_ :=
          s.component_vertices_.modify (fun set => setInsert set vertex)
            s.current_component_id_.toNat }
    else none
  ForwardOrCrossEdge := fun s _ => s
  BackEdge := fun s _ => s
  InitializeComponent := fun s =>
    { current_component_id_ := s.current_component_id_ + 1,
      component_vertices_ := s.component_vertices_ ++ [[]] }

/-- The edges collected by the loops of `MakeTransposedGraph`. -/
def reversedEdges (graph : Graph) : List Edge :=
  graph.adjacency_lists_.enum.flatMap fun entry =>
    entry.2.map fun target => ⟨target, entry.1⟩

/-- Function `MakeTransposedGraph(graph)`. -/
def MakeTransposedGraph (graph : Graph) : Option Graph :=
  Graph.ofEdges graph.GetVerticesCount (reversedEdges graph)

/-- Function `DisjointDepthFirstSearch(graph, visitor)`: the order is
`0, 1, ..., GetVerticesCount() - 1`. -/
def DisjointDepthFirstSearchAll {σ : Type} (graph : Graph) (visitor : DfsVisitor σ) (s : σ) :
    Option σ :=
  DisjointDepthFirstSearch graph visitor (List.range graph.GetVerticesCount) s

/-- Function `ComputeTopologicalOrder(graph)`. -/
def ComputeTopologicalOrder (graph : Graph) : Option (List Nat) :=
  match DisjointDepthFirstSearchAll graph TopologicalSorter.visitor TopologicalSorter.new with
  | none => none
  | some order_calculator => some order_calculator.order_

/-- Function `FindStrongConnectivityComponents(graph)`. -/
def FindStrongConnectivityComponents (graph : Graph) : Option (List (List Nat)) :=
  match ComputeTopologicalOrder graph with
  | none => none
  | some ordered_vertices =>
    match MakeTransposedGraph graph with
    | none => none
    | some transposed_graph =>
      match DisjointDepthFirstSearch transposed_graph StrongConnectComponentFinder.visitor
          ordered_vertices.reverse StrongConnectComponentFinder.new with
      | none => none
      | some component_finder => some component_finder.component_vertices_

/-- An edge of the graph: `b` is in the adjacency list of `a`. -/
def Graph.Adj (graph : Graph) (a b : Nat) : Prop :=
  ∃ targets, graph.adjacency_lists_[a]? = some targets ∧ b ∈ targets

/-- Every target of an edge is a vertex of the graph. -/
def Graph.InRange (graph : Graph) : Prop :=
  ∀ targets ∈ graph.adjacency_lists_, ∀ b ∈ targets, b < graph.adjacency_lists_.length

instance (graph : Graph) : Decidable graph.InRange :=
  inferInstanceAs (Decidable (∀ targets ∈ graph.adjacency_lists_, ∀ b ∈ targets,
    b < graph.adjacency_lists_.length))

/-- Vertex `b` is reachable from `a` along edges. -/
def Graph.Reach (graph : Graph) : Nat → Nat → Prop := Relation.ReflTransGen graph.Adj

/-- State of a depth-first search: `finished` lists the black vertices in the
order of their `FinishVertex` calls and `grey` the grey ones.  No edge leaves a
black vertex for a white one; and whatever a black vertex `a` reaches was
finished no later than `a`, unless `a` lies on a cycle with a vertex that is
grey or was finished later. -/
structure DfsInv (graph : Graph) (status : StatusMap) (finished grey : List Nat) : Prop where
  black : ∀ v, status v = some VertexStatus.kBlack ↔ v ∈ finished
  is_grey : ∀ v, status v = some VertexStatus.kGrey ↔ v ∈ grey
  nodup : (finished ++ grey).Nodup
  lt : ∀ v ∈ finished ++ grey, v < graph.adjacency_lists_.length
  closed : ∀ a ∈ finished, ∀ b, graph.Adj a b → b ∈ finished ∨ b ∈ grey
  later : ∀ a ∈ finished, ∀ b, graph.Reach a b →
    (b ∈ finished ∧ finished.indexOf b ≤ finished.indexOf a) ∨
    ∃ x, graph.Reach a x ∧ graph.Reach x a ∧
      (x ∈ grey ∨ (x ∈ finished ∧ finished.indexOf a < finished.indexOf x))

/-- A property of the visitor state that follows the list of finished vertices:
only `FinishVertex` changes what it says. -/
structure Tracks {σ : Type} (visitor : DfsVisitor σ) (P : List Nat → σ → Prop) : Prop where
  discover : ∀ O s v, P O s → P O (visitor.DiscoverVertex s v)
  back : ∀ O s e, P O s → P O (visitor.BackEdge s e)
  forward : ∀ O s e, P O s → P O (visitor.ForwardOrCrossEdge s e)
  finish : ∀ O s v, P O s → ∃ s', visitor.FinishVertex s v = some s' ∧ P (O ++ [v]) s'

/-- State of `StrongConnectComponentFinder` between two trees of the second
search: the sets found so far are classes of mutual reachability in `graph`,
they cover the finished vertices, and no edge of `graph` leads from a set to an
earlier one. -/
structure FinderInv (graph : Graph) (O : List Nat) (s : StrongConnectComponentFinder) :
    Prop where
  id : s.current_component_id_ = (s.component_vertices_.length : Int) - 1
  cover : ∀ v, v ∈ O ↔ ∃ c ∈ s.component_vertices_, v ∈ c
  nonempty : ∀ c ∈ s.component_vertices_, c ≠ []
  nodup : ∀ c ∈ s.component_vertices_, c.Nodup
  disjoint : s.component_vertices_.Pairwise List.Disjoint
  classes : ∀ c ∈ s.component_vertices_, ∀ a ∈ c, ∀ b,
    b ∈ c ↔ (graph.Reach a b ∧ graph.Reach b a)
  sorted : s.component_vertices_.Pairwise fun earlier later =>
    ∀ a ∈ later, ∀ b ∈ earlier, ¬ graph.Adj a b

/-- State of `StrongConnectComponentFinder` inside the tree started from the
state `s` with the finished vertices `O`: the last set holds the vertices
finished since. -/
def FinderTree (O : List Nat) (s : StrongConnectComponentFinder) (O' : List Nat)
    (s' : StrongConnectComponentFinder) : Prop :=
  ∃ X c, O' = O ++ X ∧ s'.component_vertices_ = s.component_vertices_ ++ [c] ∧
    s'.current_component_id_ = (s.component_vertices_.length : Int) ∧ c.Nodup ∧
    ∀ v, v ∈ c ↔ v ∈ X

end condensation_review

namespace ideone_WhZ8P4

/-- Method `WildcardMatcher::Reset()` of ideone_WhZ8P4.cpp; the class has the
members and the constructor of the one of interface.cpp.  The call
`aho_corasick_automaton_->Root()` goes through the `unique_ptr`, which is null
until `Init` has assigned it. -/
def Reset (m : WildcardMatcher) : Except Fault WildcardMatcher :=
  match m.aho_corasick_automaton_ with
  | none => Except.error Fault.null_dereference
  | some h => Except.ok { m with words_occurrences_by_position_ := [], state_ := h.Root }

/-- Method `WildcardMatcher::Init(pattern, wildcard)` of ideone_WhZ8P4.cpp: the
first statement is `Reset()`; `Split` and the loop over the fragments are the
ones of interface.cpp, and the automaton is assigned after the loop. -/
def Init (m : WildcardMatcher) (pattern : List Char) (wildcard : Char) :
    Option WildcardMatcher :=
  match Reset m with
  | Except.error _ => none
  | Except.ok m1 =>
    let patterns := Split pattern fun symbol => symbol == wildcard
    let r := WildcardMatcher.initLoop patterns 0 0 []
    match Build r.2.2 with
    | none => none
    | some h =>
      some { m1 with number_of_words_ := r.2.1, pattern_length_ := pattern.length,
                     aho_corasick_automaton_ := some h, state_ := h.Root }

end ideone_WhZ8P4

namespace traverses

/-- A call that `BreadthFirstSearch` makes to its visitor. -/
inductive VisitorCall where
  | ExamineVertex (vertex : Nat)
  | ExamineEdge (edge : Edge)
  | DiscoverVertex (vertex : Nat)

/-- The base class `BfsVisitor` of interface.cpp, whose three methods have empty
bodies. -/
def BfsVisitor.base : BfsVisitor where
  DiscoverVertex := fun h _ => some h
  ExamineEdge := fun h _ => some h
  ExamineVertex := fun h _ => some h

/-- The loop of `visitEdges` with a record of the calls made to the visitor,
appended to `calls` in the order in which they are made. -/
def visitEdgesCalls (visitor : BfsVisitor) :
    List Edge → Automaton → List Nat → List VisitorCall →
      Option (Automaton × List Nat × List VisitorCall)
  | [], h, queue, calls => some (h, queue, calls)
  | edge :: edges, h, queue, calls =>
    match visitor.ExamineEdge h edge with
    | none => none
    | some h1 =>
      match visitor.DiscoverVertex h1 (GetTarget edge) with
      | none => none
      | some h2 =>
        visitEdgesCalls visitor edges h2 (queue ++ [GetTarget edge])
          (calls ++ [VisitorCall.ExamineEdge edge, VisitorCall.DiscoverVertex (GetTarget edge)])

/-- The loop of `bfsLoop` with a record of the calls made to the visitor. -/
def bfsLoopCalls (visitor : BfsVisitor) :
    Nat → List Nat → Automaton → List VisitorCall → Option (Automaton × List VisitorCall)
  | _, [], h, calls => some (h, calls)
  | 0, _ :: _, _, _ => none
  | fuel + 1, vertex :: queue, h, calls =>
    match visitor.ExamineVertex h vertex with
    | none => none
    | some h1 =>
      match visitEdgesCalls visitor (OutgoingEdges h1 vertex) h1 queue
          (calls ++ [VisitorCall.ExamineVertex vertex]) with
      | none => none
      | some (h2, queue2, calls2) => bfsLoopCalls visitor fuel queue2 h2 calls2

/-- Function `BreadthFirstSearch(origin_vertex, graph, visitor)` of interface.cpp
together with the sequence of the calls that it makes to the visitor. -/
def BreadthFirstSearchCalls (origin_vertex : Nat) (h : Automaton) (visitor : BfsVisitor) :
    Option (Automaton × List VisitorCall) :=
  bfsLoopCalls visitor h.size [origin_vertex] h []

/-- The calls made while `vertex` is at the front of the queue, over the trie
`h`: `ExamineVertex`, then `ExamineEdge` and `DiscoverVertex` for each out-edge. -/
def callsAt (h : Automaton) (vertex : Nat) : List VisitorCall :=
  VisitorCall.ExamineVertex vertex ::
    (OutgoingEdges h vertex).flatMap fun edge =>
      [VisitorCall.ExamineEdge edge, VisitorCall.DiscoverVertex (GetTarget edge)]

/-- A visitor whose methods, when they return, leave the tries of all nodes as
they are. -/
def KeepsTrie (visitor : BfsVisitor) : Prop :=
  (∀ h v h', visitor.ExamineVertex h v = some h' →
    ∀ n, (h'.node n).trie_transitions = (h.node n).trie_transitions) ∧
  (∀ h e h', visitor.ExamineEdge h e = some h' →
    ∀ n, (h'.node n).trie_transitions = (h.node n).trie_transitions) ∧
  (∀ h v h', visitor.DiscoverVertex h v = some h' →
    ∀ n, (h'.node n).trie_transitions = (h.node n).trie_transitions)

/-- The order in which the loop of `BreadthFirstSearch` takes the vertices from
the queue, over the trie `h`. -/
def bfsOrder (h : Automaton) : Nat → List Nat → List Nat
  | _, [] => []
  | 0, _ :: _ => []
  | fuel + 1, vertex :: queue =>
    vertex :: bfsOrder h fuel (queue ++ (h.node vertex).trie_transitions.map Prod.snd)

end traverses

namespace condensation_review

/-- The struct `Game`. -/
structure Game where
  winner_id : Nat
  loser_id : Nat
deriving DecidableEq

/-- The conversion `Game::operator Graph::Edge()`: the edge from the winner to
the loser. -/
def Game.toEdge (game : Game) : Edge := ⟨game.winner_id, game.loser_id⟩

/-- The type `Graph::VertexMapping`, an `unordered_map` from vertices to
vertices, as `operator[]` reads it: a key that was never assigned reads as `0`. -/
abbrev VertexMapping := Nat → Nat

/-- The inner loop of the first loop nest of `MakeCondensedGraph`:
`component_mapping[component_vertex] = i` for the vertices of one set. -/
def mapComponent (i : Nat) : List Nat → VertexMapping → VertexMapping
  | [], component_mapping => component_mapping
  | component_vertex :: rest, component_mapping =>
    mapComponent i rest fun vertex =>
      if vertex = component_vertex then i else component_mapping vertex

/-- The first loop nest of `MakeCondensedGraph`, from the set with index `i` on. -/
def mapComponents : List (List Nat) → Nat → VertexMapping → VertexMapping
  | [], _, component_mapping => component_mapping
  | component :: rest, i, component_mapping =>
    mapComponents rest (i + 1) (mapComponent i component component_mapping)

/-- The innermost loop of `MakeCondensedGraph`, over the vertices adjacent to
one vertex of the set `component_id`; the state is `condensation_graph` with the
set `adjacent_components_id`. -/
def condenseAdjacent (component_mapping : VertexMapping) (component_id : Nat) :
    List Nat → Graph × List Nat → Option (Graph × List Nat)
  | [], state => some state
  | adjacent_vertex :: rest, state =>
    let vertex_component := component_mapping adjacent_vertex
    if vertex_component ∉ state.2 ∧ component_mapping adjacent_vertex ≠ component_id then
      match state.1.AddEdge ⟨component_id, component_mapping adjacent_vertex⟩ with
      | none => none
      | some condensation_graph =>
        condenseAdjacent component_mapping component_id rest
          (condensation_graph, setInsert state.2 (component_mapping adjacent_vertex))
    else condenseAdjacent component_mapping component_id rest state

/-- The loop of `MakeCondensedGraph` over the vertices of the set
`component_id`. -/
def condenseComponent (graph : Graph) (component_mapping : VertexMapping)
    (component_id : Nat) : List Nat → Graph × List Nat → Option (Graph × List Nat)
  | [], state => some state
  | component_vertex :: rest, state =>
    match graph.GetAdjacentVertices component_vertex with
    | none => none
    | some adjacent =>
      match condenseAdjacent component_mapping component_id adjacent state with
      | none => none
      | some state1 => condenseComponent graph component_mapping component_id rest state1

/-- The loop of `MakeCondensedGraph` over the sets, from `component_id` on. -/
def condenseLoop (graph : Graph) (component_mapping : VertexMapping) :
    List (List Nat) → Nat → Graph → Option Graph
  | [], _, condensation_graph => some condensation_graph
  | component :: rest, component_id, condensation_graph =>
    match condenseComponent graph component_mapping component_id component
        (condensation_graph, []) with
    | none => none
    | some state => condenseLoop graph component_mapping rest (component_id + 1) state.1

/-- Function `MakeCondensedGraph(graph, vertices_components)`. -/
def MakeCondensedGraph (graph : Graph) (vertices_components : List (List Nat)) :
    Option Graph :=
  condenseLoop graph (mapComponents vertices_components 0 fun _ => 0) vertices_components 0
    (Graph.new vertices_components.length)

/-- The loop `is_source[vertex] = false` of `FindSourceVertices` over the
vertices adjacent to one vertex; an index past the end of the vector has no
result. -/
def clearTargets : List Nat → List Bool → Option (List Bool)
  | [], is_source => some is_source
  | vertex :: rest, is_source =>
    if vertex < is_source.length then clearTargets rest (is_source.set vertex false)
    else none

/-- The first loop of `FindSourceVertices`, over the vertices `i`. -/
def clearLoop (graph : Graph) : List Nat → List Bool → Option (List Bool)
  | [], is_source => some is_source
  | i :: rest, is_source =>
    match graph.GetAdjacentVertices i with
    | none => none
    | some adjacent =>
      match clearTargets adjacent is_source with
      | none => none
      | some is_source1 => clearLoop graph rest is_source1

/-- Function `FindSourceVertices(graph)`; the set it returns is listed in the
order of insertion. -/
def FindSourceVertices (graph : Graph) : Option (List Nat) :=
  match clearLoop graph (List.range graph.GetVerticesCount)
      (List.replicate graph.GetVerticesCount true) with
  | none => none
  | some is_source =>
    some ((List.range graph.GetVerticesCount).filter fun i => is_source[i]? == some true)

/-- The loop of `CountMinSourceComponentSize` over the source vertices of the
condensation; the minimum does not depend on the order of the iteration. -/
def minSizeLoop (components : List (List Nat)) : List Nat → Nat → Option Nat
  | [], min_size => some min_size
  | source :: rest, min_size =>
    match components[source]? with
    | none => none
    | some component =>
      if component.length < min_size then minSizeLoop components rest component.length
      else minSizeLoop components rest min_size

/-- Function `CountMinSourceComponentSize(graph)`. -/
def CountMinSourceComponentSize (graph : Graph) : Option Nat :=
  match FindStrongConnectivityComponents graph with
  | none => none
  | some components =>
    match MakeCondensedGraph graph components with
    | none => none
    | some condensation_graph =>
      match FindSourceVertices condensation_graph with
      | none => none
      | some sources => minSizeLoop components sources graph.GetVerticesCount

/-- Function `FindMaxCompanySize(people_number, games)`. -/
def FindMaxCompanySize (people_number : Nat) (games : List Game) : Option Int :=
  match Graph.ofEdges people_number (games.map Game.toEdge) with
  | none => none
  | some graph =>
    match CountMinSourceComponentSize graph with
    | none => none
    | some min_component_size =>
      some ((people_number : Int) - (min_component_size : Int) + 1)

/-- A strongly connected component of the graph, as a list of its vertices: a
non-empty set of vertices of the graph that holds, with each of its members,
exactly the vertices mutually reachable with it. -/
def Graph.IsComponent (graph : Graph) (c : List Nat) : Prop :=
  c ≠ [] ∧ (∀ a ∈ c, a < graph.GetVerticesCount) ∧
    ∀ a ∈ c, ∀ b, b ∈ c ↔ (graph.Reach a b ∧ graph.Reach b a)

/-- No edge enters the set from outside. -/
def Graph.IsSourceSet (graph : Graph) (c : List Nat) : Prop :=
  ∀ a b, graph.Adj a b → b ∈ c → a ∈ c

end condensation_review

/-! Embedding of `src/Algo/Review_2_2/Review_2_2/prog.cpp`.  A vertex is a
`size_t`, kept as a natural number; the iterators of `begins_` are offsets into
`edges_`; an `unordered_set` of vertices is the list of its elements in the
order of insertion.  The result of `std::sort`, which leaves the order of edges
with the same source unspecified, is given by a function argument `sort`. -/

namespace review_2_2_prog

/-- The class `graphs::Edge`. -/
structure Edge where
  source_ : Nat
  target_ : Nat
deriving DecidableEq

/-- Method `Edge::Reverse()`. -/
def Edge.Reverse (edge : Edge) : Edge := ⟨edge.target_, edge.source_⟩

/-- The class `graphs::Graph`. -/
structure Graph where
  number_of_vertices_ : Nat
  edges_ : List Edge
  begins_ : List Nat

/-- The call `std::find_if(current_iterator, edges_.cend(), source != vertex_index)`
on offsets. -/
def findNext (edges_ : List Edge) (vertex_index current_iterator : Nat) : Nat :=
  current_iterator +
    ((edges_.drop current_iterator).takeWhile fun edge => edge.source_ == vertex_index).length

/-- The loop of the constructor of `Graph` that fills `begins_`. -/
def beginsLoop (edges_ : List Edge) : List Nat → Nat → List Nat
  | [], _ => []
  | vertex_index :: rest, current_iterator =>
    current_iterator :: beginsLoop edges_ rest (findNext edges_ vertex_index current_iterator)

/-- The constructor `Graph(number_of_vertices, edges)`; `sort` is the effect of
`std::sort` with the comparison of the sources. -/
def Graph.new (sort : List Edge → List Edge) (number_of_vertices : Nat) (edges : List Edge) :
    Graph :=
  let edges_ := sort edges
  { number_of_vertices_ := number_of_vertices, edges_ := edges_,
    begins_ := beginsLoop edges_ (List.range number_of_vertices) 0 ++ [edges_.length] }

/-- Method `Graph::OutgoingEdges(vertex)`: the range from `begins_[vertex]` to
`begins_[vertex + 1]`; an index past the end of `begins_`, or a range whose end
lies before its begin, has no result. -/
def Graph.OutgoingEdges (graph : Graph) (vertex : Nat) : Option (List Edge) :=
  match graph.begins_[vertex]?, graph.begins_[vertex + 1]? with
  | some first, some last =>
    if first ≤ last ∧ last ≤ graph.edges_.length then
      some ((graph.edges_.drop first).take (last - first))
    else none
  | _, _ => none

/-- Method `Graph::Reverse()`. -/
def Graph.Reverse (sort : List Edge → List Edge) (graph : Graph) : Graph :=
  Graph.new sort graph.number_of_vertices_ (graph.edges_.map Edge.Reverse)

/-- Method `Graph::GetNumberOfVertices()`. -/
def Graph.GetNumberOfVertices (graph : Graph) : Nat := graph.number_of_vertices_

/-- The class `traverses::DfsVisitor`, acting on a state of the visitor. -/
structure DfsVisitor (σ : Type) where
  DiscoverVertex : σ → Nat → σ
  FinishVertex : σ → Nat → σ
  ForwardOrCrossEdge : σ → Edge → σ
  BackEdge : σ → Edge → σ

/-- The members `black_vertices_` and `gray_vertices_` of
`traverses::DepthFirstSearch`. -/
structure DepthFirstSearch where
  black_vertices_ : List Nat
  gray_vertices_ : List Nat

/-- The constructor `DepthFirstSearch(graph)`. -/
def DepthFirstSearch.new : DepthFirstSearch := ⟨[], []⟩

/-- Method `DepthFirstSearch::IsBlack(vertex)`. -/
def DepthFirstSearch.IsBlack (dfs : DepthFirstSearch) (vertex : Nat) : Bool :=
  decide (vertex ∈ dfs.black_vertices_)

/-- Method `DepthFirstSearch::IsGray(vertex)`. -/
def DepthFirstSearch.IsGray (dfs : DepthFirstSearch) (vertex : Nat) : Bool :=
  decide (vertex ∈ dfs.gray_vertices_)

/-- The `for` loop of `DepthFirstSearch::Search` over the outgoing edges;
`search` stands for the recursive call. -/
def searchEdges {σ : Type} (visitor : DfsVisitor σ)
    (search : Nat → DepthFirstSearch × σ → Option (DepthFirstSearch × σ)) :
    List Edge → DepthFirstSearch × σ → Option (DepthFirstSearch × σ)
  | [], state => some state
  | edge :: rest, state =>
    let vertex := edge.target_
    if ¬ state.1.IsBlack vertex then
      if ¬ state.1.IsGray vertex then
        match search vertex (state.1, visitor.DiscoverVertex state.2 vertex) with
        | none => none
        | some state1 => searchEdges visitor search rest state1
      else searchEdges visitor search rest (state.1, visitor.BackEdge state.2 edge)
    else searchEdges visitor search rest (state.1, visitor.ForwardOrCrossEdge state.2 edge)

/-- Method `DepthFirstSearch::Search(origin_vertex, visitor)`, one level of
recursion per unit of fuel. -/
def Search {σ : Type} (graph : Graph) (visitor : DfsVisitor σ) :
    Nat → Nat → DepthFirstSearch × σ → Option (DepthFirstSearch × σ)
  | 0, _, _ => none
  | fuel + 1, origin_vertex, state =>
    match graph.OutgoingEdges origin_vertex with
    | none => none
    | some edges =>
      match searchEdges visitor (Search graph visitor fuel) edges
          ({ state.1 with
              gray_vertices_ := condensation_review.setInsert state.1.gray_vertices_
                origin_vertex }, state.2) with
      | none => none
      | some state1 =>
        some ({ black_vertices_ :=
                  condensation_review.setInsert state1.1.black_vertices_ origin_vertex,
                gray_vertices_ := state1.1.gray_vertices_.erase origin_vertex },
          visitor.FinishVertex state1.2 origin_vertex)

/-- Method `DepthFirstSearch::operator()(origin_vertex, visitor)`.  The
recursion of `Search` is never deeper than the number of vertices. -/
def DepthFirstSearch.call {σ : Type} (graph : Graph) (visitor : DfsVisitor σ)
    (origin_vertex : Nat) (state : DepthFirstSearch × σ) : Option (DepthFirstSearch × σ) :=
  if ¬ state.1.IsBlack origin_vertex then
    Search graph visitor graph.GetNumberOfVertices origin_vertex
      (state.1, visitor.DiscoverVertex state.2 origin_vertex)
  else some state

/-- The class `TopoOrderCalculator`. -/
structure TopoOrderCalculator where
  order_ : List Nat
  has_order_ : Bool

/-- The constructor `TopoOrderCalculator()`. -/
def TopoOrderCalculator.new : TopoOrderCalculator := ⟨[], true⟩

/-- The overrides of `TopoOrderCalculator`. -/
def TopoOrderCalculator.visitor : DfsVisitor TopoOrderCalculator where
  DiscoverVertex := fun s _ => s
  FinishVertex := fun s vertex => { s with order_ := s.order_ ++ [vertex] }
  ForwardOrCrossEdge := fun s _ => s
  BackEdge := fun s _ => { s with has_order_ := false }

/-- The class `SourceComponentSizeCalculator`. -/
structure SourceComponentSizeCalculator where
  is_source_ : Bool
  component_vertices_ : List Nat

/-- The constructor `SourceComponentSizeCalculator()`. -/
def SourceComponentSizeCalculator.new : SourceComponentSizeCalculator := ⟨true, []⟩

/-- The overrides of `SourceComponentSizeCalculator`. -/
def SourceComponentSizeCalculator.visitor : DfsVisitor SourceComponentSizeCalculator where
  DiscoverVertex := fun s _ => s
  FinishVertex := fun s vertex =>
    { s with component_vertices_ := condensation_review.setInsert s.component_vertices_ vertex }
  ForwardOrCrossEdge := fun s edge =>
    if edge.target_ ∉ s.component_vertices_ then { s with is_source_ := false } else s
  BackEdge := fun s _ => s

/-- The first loop of `FindMinSourceComponentSize`: `forward_dfs(index,
order_calculator)` for every vertex index. -/
def forwardLoop (graph : Graph) :
    List Nat → DepthFirstSearch × TopoOrderCalculator →
      Option (DepthFirstSearch × TopoOrderCalculator)
  | [], state => some state
  | index :: rest, state =>
    match DepthFirstSearch.call graph TopoOrderCalculator.visitor index state with
    | none => none
    | some state1 => forwardLoop graph rest state1

/-- The second loop of `FindMinSourceComponentSize`, over the reversed order;
the state is `backward_dfs` with `min_size`. -/
def backwardLoop (reversed_graph : Graph) :
    List Nat → DepthFirstSearch × Nat → Option (DepthFirstSearch × Nat)
  | [], state => some state
  | vertex :: rest, state =>
    if ¬ state.1.IsBlack vertex then
      match DepthFirstSearch.call reversed_graph SourceComponentSizeCalculator.visitor vertex
          (state.1, SourceComponentSizeCalculator.new) with
      | none => none
      | some (backward_dfs, size_calculator) =>
        let size := size_calculator.component_vertices_.length
        let is_source := size_calculator.is_source_
        if is_source ∧ size < state.2 then backwardLoop reversed_graph rest (backward_dfs, size)
        else backwardLoop reversed_graph rest (backward_dfs, state.2)
    else backwardLoop reversed_graph rest state

/-- Function `FindMinSourceComponentSize(graph)`. -/
def FindMinSourceComponentSize (sort : List Edge → List Edge) (graph : Graph) : Option Nat :=
  match forwardLoop graph (List.range graph.GetNumberOfVertices)
      (DepthFirstSearch.new, TopoOrderCalculator.new) with
  | none => none
  | some (_, order_calculator) =>
    match backwardLoop (graph.Reverse sort) order_calculator.order_.reverse
        (DepthFirstSearch.new, graph.GetNumberOfVertices) with
    | none => none
    | some (_, min_size) => some min_size

/-- An effect that `std::sort` with the comparison `first.GetSource() <
second.GetSource()` can have: the result is a rearrangement of the argument in
which no edge comes before an edge of smaller source. -/
def IsSort (sort : List Edge → List Edge) : Prop :=
  ∀ edges, (sort edges).Perm edges ∧
    (sort edges).Pairwise fun first second => first.source_ ≤ second.source_

/-- A sort that keeps the order of the edges with the same source. -/
def stableSort (edges : List Edge) : List Edge :=
  edges.insertionSort fun first second => first.source_ ≤ second.source_

/-- The visitor of condensation_review.cpp that makes the calls of a visitor of
prog.cpp. -/
def DfsVisitor.toReview {σ : Type} (visitor : DfsVisitor σ) :
    condensation_review.DfsVisitor σ where
  DiscoverVertex := visitor.DiscoverVertex
  FinishVertex := fun s vertex => some (visitor.FinishVertex s vertex)
  ForwardOrCrossEdge := fun s edge => visitor.ForwardOrCrossEdge s ⟨edge.source_, edge.target_⟩
  BackEdge := fun s edge => visitor.BackEdge s ⟨edge.source_, edge.target_⟩
  InitializeComponent := fun s => s

/-- The graph of condensation_review.cpp with the adjacency lists that
`OutgoingEdges` gives. -/
def Graph.toReview (graph : Graph) : condensation_review.Graph :=
  ⟨(List.range graph.number_of_vertices_).map fun vertex =>
    ((graph.OutgoingEdges vertex).getD []).map Edge.target_⟩

/-- Every vertex has a range of outgoing edges, and these start at the vertex. -/
def Graph.WellFormed (graph : Graph) : Prop :=
  ∀ v, v < graph.number_of_vertices_ →
    ∃ es, graph.OutgoingEdges v = some es ∧ ∀ e ∈ es, e.source_ = v

/-- The two sets of `DepthFirstSearch` hold the vertices that have the status
black and grey in `DepthFirstSearcher`. -/
structure Rel (dfs : DepthFirstSearch) (status : condensation_review.StatusMap) : Prop where
  black : ∀ v, status v = some condensation_review.VertexStatus.kBlack ↔
    v ∈ dfs.black_vertices_
  gray : ∀ v, status v = some condensation_review.VertexStatus.kGrey ↔
    v ∈ dfs.gray_vertices_
  nodup : dfs.gray_vertices_.Nodup

/-- State of one tree of the backward search: `old` holds the vertices that were
black before the tree, and the black vertices are these and the ones of
`component_vertices_`. -/
structure SourcePre (old : List Nat) (status : condensation_review.StatusMap)
    (s : SourceComponentSizeCalculator) : Prop where
  black : ∀ x, status x = some condensation_review.VertexStatus.kBlack ↔
    x ∈ old ∨ x ∈ s.component_vertices_
  fresh : ∀ x ∈ s.component_vertices_, x ∉ old

/-- Effect of a part of the backward search on `is_source_`: it stays true
exactly when no edge leads from a vertex finished in that part to a vertex that
was black before the tree. -/
structure SourceStep (graph : condensation_review.Graph) (old : List Nat)
    (s s' : SourceComponentSizeCalculator) : Prop where
  mono : ∀ x ∈ s.component_vertices_, x ∈ s'.component_vertices_
  source : s'.is_source_ = true ↔ (s.is_source_ = true ∧
    ∀ u ∈ s'.component_vertices_, u ∉ s.component_vertices_ →
      ∀ t, graph.Adj u t → t ∉ old)

end review_2_2_prog

/-! Embedding of `src/Algo/Review1/paulin.cpp`.  The nodes are kept in the arena
of interface.cpp: its fields `trie_transitions`, `automaton_transitions_cache`,
`suffix_link` and `terminal_link` are the ones of this file's node, and its
field `terminated_string_ids`, which this file's node does not have, stays
empty.  The flag `terminated` and the vector `dp` of the nodes are two maps
from node indices.  An `int32_t` or `int64_t` value is an integer; an
assignment to `int32_t` reduces it to the range of 32 bits. -/

namespace paulin

open aho_corasick aho_corasick.internal traverses

/-- Function `GetTrieTransition(node, character)` of paulin.cpp:
`node->automaton_transitions_cache.count(character) ?
node->automaton_transitions_cache[character] : nullptr`. -/
def GetTrieTransition (h : aho_corasick.Automaton) (node : Nat) (character : Char) :
    Option Nat :=
  match mapFind (h.node node).automaton_transitions_cache character with
  | some target => target
  | none => none

/-- The loop `while (node != root && !GetTrieTransition(node, character))
node = node->suffix_link;` of `GetAutomatonTransition`, one test of the loop
condition per unit of fuel; the result is the value of `node` after the loop. -/
def walkLoop (h : aho_corasick.Automaton) (root : Option Nat) (character : Char) :
    Nat → Option Nat → Option (Option Nat)
  | 0, _ => none
  | fuel + 1, node =>
    if node ≠ root then
      match node with
      | none => none
      | some n =>
        match GetTrieTransition h n character with
        | none => walkLoop h root character fuel (h.node n).suffix_link
        | some _ => some node
    else some node

/-- Function `GetAutomatonTransition(node, root, character)` of paulin.cpp.  The
test `node->automaton_transitions_cache[character]` inserts a null entry when
the key is missing; the assignment after the loop is made at the node where the
loop stopped.  The loop follows suffix links, which never needs more tests than
there are nodes, plus one. -/
def GetAutomatonTransition (h : aho_corasick.Automaton) (node root : Option Nat)
    (character : Char) : Option (aho_corasick.Automaton × Option Nat) :=
  match node with
  | none => none
  | some n =>
    let h1 := setCache h n character (getCache h n character)
    match getCache h1 n character with
    | some r => some (h1, some r)
    | none =>
      match walkLoop h1 root character (h1.size + 1) (some n) with
      | none => none
      | some none => none
      | some (some stop) =>
        let h2 := setCache h1 stop character
          (match GetTrieTransition h1 stop character with
            | some transition => some transition
            | none => some stop)
        some (h2, getCache h2 stop character)

/-- The loop of `OutgoingEdges` over `automaton_transitions_cache`.  An edge with
a null target has no representation: both visitors of the file write through
`edge.target`. -/
def edgesOf (vertex : Nat) : List (Char × Option Nat) → Option (List Edge)
  | [] => some []
  | (_, none) :: _ => none
  | (character, some target) :: rest =>
    match edgesOf vertex rest with
    | none => none
    | some edges => some (⟨vertex, target, character⟩ :: edges)

/-- Function `OutgoingEdges(graph, vertex)` of paulin.cpp: one edge per entry of
`automaton_transitions_cache`, in key order. -/
def OutgoingEdges (h : aho_corasick.Automaton) (vertex : Nat) : Option (List Edge) :=
  edgesOf vertex (h.node vertex).automaton_transitions_cache

/-- The `while (!vertex_queue.empty())` loop of `BreadthFirstSearch` of
paulin.cpp, one iteration per unit of fuel; the loop over the edges is the one
of interface.cpp. -/
def bfsLoop (visitor : BfsVisitor) :
    Nat → List Nat → aho_corasick.Automaton → Option aho_corasick.Automaton
  | _, [], h => some h
  | 0, _ :: _, _ => none
  | fuel + 1, vertex :: queue, h =>
    match visitor.ExamineVertex h vertex with
    | none => none
    | some h1 =>
      match OutgoingEdges h1 vertex with
      | none => none
      | some edges =>
        match visitEdges visitor edges h1 queue with
        | none => none
        | some (h2, queue2) => bfsLoop visitor fuel queue2 h2

/-- Function `BreadthFirstSearch(origin_vertex, graph, visitor)` of paulin.cpp. -/
def BreadthFirstSearch (origin_vertex : Nat) (h : aho_corasick.Automaton)
    (visitor : BfsVisitor) : Option aho_corasick.Automaton :=
  bfsLoop visitor h.size [origin_vertex] h

/-- The loop `while (current_node &&
!current_node->automaton_transitions_cache.count(edge.character))` of
`SuffixLinkCalculator::ExamineEdge`, one test of the loop condition per unit of
fuel; the result is the value of `current_node` after the loop. -/
def suffixWalk (h : aho_corasick.Automaton) (character : Char) :
    Nat → Option Nat → Option (Option Nat)
  | 0, _ => none
  | _ + 1, none => some none
  | fuel + 1, some current_node =>
    match mapFind (h.node current_node).automaton_transitions_cache character with
    | none => suffixWalk h character fuel (h.node current_node).suffix_link
    | some _ => some (some current_node)

/-- The class `SuffixLinkCalculator` of paulin.cpp: only `ExamineEdge` is
overridden, so the suffix link of the root stays null. -/
def SuffixLinkCalculator (root_ : Option Nat) : BfsVisitor where
  DiscoverVertex := fun h _ => some h
  ExamineVertex := fun h _ => some h
  ExamineEdge := fun h edge =>
    match suffixWalk h edge.character (h.size + 1) (h.node edge.source).suffix_link with
    | none => none
    | some (some current_node) =>
      -- the loop has found the key present, so `operator[]` inserts nothing
      some (h.setSuffixLink edge.target (getCache h current_node edge.character))
    | some none => some (h.setSuffixLink edge.target root_)

/-- The class `TerminalLinkCalculator` of paulin.cpp; `terminated` holds the
flags of the nodes, which the search does not change. -/
def TerminalLinkCalculator (terminated : Nat → Bool) (root_ : Option Nat) : BfsVisitor where
  ExamineVertex := fun h _ => some h
  ExamineEdge := fun h _ => some h
  DiscoverVertex := fun h node =>
    if some node = root_ then some h
    else
      match (h.node node).suffix_link with
      | none => none
      | some s =>
        if terminated s = true then some (h.setTerminalLink node (some s))
        else some (h.setTerminalLink node (h.node s).terminal_link)

/-- The class `Automaton` of paulin.cpp, with the flags `terminated` and the
vectors `dp` of its nodes. -/
structure Automaton where
  arena : aho_corasick.Automaton
  terminated : Nat → Bool
  dp : Nat → List Int

/-- The constructor `Automaton()`: a root made by `AutomatonNode()`, which gives
a node the flag `false` and `dp(1001, -1)`. -/
def Automaton.new : Automaton :=
  { arena := aho_corasick.Automaton.new, terminated := fun _ => false,
    dp := fun _ => List.replicate 1001 (-1) }

/-- The `for (char symbol : string)` loop of `AddString` of paulin.cpp. -/
def addStringLoop :
    aho_corasick.Automaton → Nat → List Char → Option (aho_corasick.Automaton × Nat)
  | h, current_node, [] => some (h, current_node)
  | h, current_node, symbol :: rest =>
    match GetTrieTransition h current_node symbol with
    | some next_node => addStringLoop h next_node rest
    | none =>
      -- current_node->trie_transitions[symbol] = AutomatonNode();
      let r := trieIndex h current_node symbol
      let h1 := r.1.setNode r.2 AutomatonNode.default
      -- current_node->automaton_transitions_cache[symbol] = &current_node->trie_transitions[symbol];
      let h2 := setCache h1 current_node symbol (some r.2)
      match GetTrieTransition h2 current_node symbol with
      | none => none
      | some next => addStringLoop h2 next rest

/-- Method `AutomatonBuilder::AddString(root, string)` of paulin.cpp. -/
def AddString (h : Automaton) (root : Nat) (string : List Char) : Option Automaton :=
  match addStringLoop h.arena root string with
  | none => none
  | some r =>
    some { h with
      arena := r.1,
      terminated := fun node => if node = r.2 then true else h.terminated node }

/-- Method `AutomatonBuilder::BuildTrie(words, automaton)` of paulin.cpp. -/
def BuildTrie : List (List Char) → Automaton → Option Automaton
  | [], h => some h
  | word :: rest, h =>
    match AddString h 0 word with
    | none => none
    | some h1 => BuildTrie rest h1

/-- Method `AutomatonBuilder::BuildSuffixLinks(automaton)` of paulin.cpp. -/
def BuildSuffixLinks (h : Automaton) : Option Automaton :=
  match BreadthFirstSearch 0 h.arena (SuffixLinkCalculator h.arena.rootPtr) with
  | none => none
  | some arena => some { h with arena := arena }

/-- Method `AutomatonBuilder::BuildTerminalLinks(automaton)` of paulin.cpp. -/
def BuildTerminalLinks (h : Automaton) : Option Automaton :=
  match BreadthFirstSearch 0 h.arena (TerminalLinkCalculator h.terminated h.arena.rootPtr) with
  | none => none
  | some arena => some { h with arena := arena }

/-- Method `AutomatonBuilder::Build()` of paulin.cpp for a builder that received
`Add(word)` for each word of `words`, in order. -/
def Build (words : List (List Char)) : Option Automaton :=
  match BuildTrie words Automaton.new with
  | none => none
  | some h0 =>
    match BuildSuffixLinks h0 with
    | none => none
    | some h1 => BuildTerminalLinks h1

/-- The constant `kMod`. -/
def kMod : Int := 1000000007

/-- The value that an assignment to an `int32_t` variable stores. -/
def toInt32 (value : Int) : Int := (value + 2 ^ 31) % 2 ^ 32 - 2 ^ 31

/-- The loop `for (int i = 0; i < alpha_size; ++i)` of `LazyDP`; `lazy` stands
for the recursive call with `len - 1`.  The character `'a' + i` is taken below
128, where it fits a `char`. -/
def lazyLoop (lazy : Automaton → Nat → Option (Automaton × Int)) (node : Nat) :
    List Nat → Automaton → Int → Option (Automaton × Int)
  | [], h, result => some (h, result)
  | i :: rest, h, result =>
    if 97 + i < 128 then
      match GetAutomatonTransition h.arena (some node) h.arena.rootPtr (Char.ofNat (97 + i)) with
      | none => none
      | some (_, none) => none
      | some (arena, some next) =>
        match lazy { h with arena := arena } next with
        | none => none
        | some (h1, value) =>
          -- result += LazyDP(...); result %= kMod;
          lazyLoop lazy node rest h1 ((toInt32 (result + value)).tmod kMod)
    else none

/-- Function `LazyDP(node, len, alpha_size, automaton)`, one level of recursion
per unit of fuel; `len` is not negative.  An index past the end of `dp` has no
result. -/
def LazyDP : Nat → Automaton → Nat → Nat → Nat → Option (Automaton × Int)
  | 0, _, _, _, _ => none
  | fuel + 1, h, node, len, alpha_size =>
    if h.terminated node = true ∨ (h.arena.node node).terminal_link ≠ none then some (h, 0)
    else if len = 0 then some (h, 1)
    else
      match (h.dp node)[len]? with
      | none => none
      | some memo =>
        if memo ≠ -1 then some (h, memo)
        else
          match lazyLoop (fun h1 next => LazyDP fuel h1 next (len - 1) alpha_size) node
              (List.range alpha_size) h 0 with
          | none => none
          | some (h1, result) =>
            some ({ h1 with
                dp := fun n => if n = node then (h1.dp n).set len result else h1.dp n },
              result)

/-- Function `CountOkStrings(patterns, num, alpha_size)`.  The recursion of
`LazyDP` is never deeper than `num + 1`. -/
def CountOkStrings (patterns : List (List Char)) (num alpha_size : Nat) : Option Int :=
  match Build patterns with
  | none => none
  | some automaton => (LazyDP (num + 1) automaton 0 num alpha_size).map Prod.snd

/-- An arena of ideone_WhZ8P4.cpp without the field that the node of paulin.cpp
does not have. -/
def strip (a : aho_corasick.Automaton) : aho_corasick.Automaton :=
  { size := a.size, node := fun n => { a.node n with terminated_string_ids := [] } }

/-- The flags `terminated` of the nodes of an arena with lists of ids: set
where a string ends. -/
def flags (a : aho_corasick.Automaton) : Nat → Bool :=
  fun n => decide ((a.node n).terminated_string_ids ≠ [])

/-- State of the arena of paulin.cpp after `Build()` and any number of calls of
`GetAutomatonTransition`, against the arena `hW` that `Build()` returned: the
trie and the links are the ones of `hW`; a non-null entry of
`automaton_transitions_cache` points to the child under its key, or it is the
entry of the root that points to the root under a key without child. -/
structure Walks (hW a : aho_corasick.Automaton) : Prop where
  size : a.size = hW.size
  suffix : ∀ n, (a.node n).suffix_link = (hW.node n).suffix_link
  terminal : ∀ n, (a.node n).terminal_link = (hW.node n).terminal_link
  child : ∀ n c m, mapFind (hW.node n).trie_transitions c = some m → getCache a n c = some m
  cached : ∀ n c m, getCache a n c = some m →
    mapFind (hW.node n).trie_transitions c = some m ∨
      (n = 0 ∧ m = 0 ∧ mapFind (hW.node 0).trie_transitions c = none)

/-- The characters `'a' + i` for `i` below `alpha_size`. -/
def letters (alpha_size : Nat) : List Char :=
  (List.range alpha_size).map fun i => Char.ofNat (97 + i)

/-- The number that `LazyDP(node, len, alpha_size, automaton)` returns at a node
with the path `x`: the number, reduced modulo `kMod`, of the strings of length
`len` over the first `alpha_size` letters such that no added word is a suffix of
`x` followed by an initial part of the string. -/
def lazyValue (added : List (List Char × Nat)) (alpha_size len : Nat) (x : List Char) : Nat :=
  (prog.avoiding added (letters alpha_size) len x).length % 1000000007

/-- State of paulin.cpp between two calls of `LazyDP`: an entry of `dp` is `-1`
or the number that `LazyDP` returns for its node and length. -/
structure DpOK (hW : aho_corasick.Automaton) (path : Nat → List Char)
    (added : List (List Char × Nat)) (alpha_size : Nat) (h : Automaton) : Prop where
  walks : Walks hW h.arena
  flags : h.terminated = flags hW
  length : ∀ n, (h.dp n).length = 1001
  memo : ∀ n len v, n < hW.size → (h.dp n)[len]? = some v →
    v = -1 ∨ v = (lazyValue added alpha_size len (path n) : Int)

end paulin

/-! ## Theorems -/

/-! ## Finite maps -/

namespace aho_corasick

theorem mapFind_mapSet {β : Type} (m : List (Char × β)) (k : Char) (v : β) (k' : Char) :
    mapFind (mapSet m k v) k' = if k' = k then some v else mapFind m k' := by
  induction m with
  | nil => simp [mapSet, mapFind]
  | cons hd tl ih =>
    obtain ⟨a, b⟩ := hd
    simp only [mapSet]
    by_cases h1 : k < a
    · simp only [h1, if_true, mapFind]
    · simp only [h1, if_false]
      by_cases h2 : k = a
      · subst h2
        simp only [if_true, mapFind]
        by_cases h3 : k' = k <;> simp [h3]
      · simp only [h2, if_false, mapFind, ih]
        by_cases h3 : k' = a
        · subst h3
          have : ¬ k' = k := fun e => h2 e.symm
          simp [this]
        · simp [h3]

theorem mapFind_eq_none_iff {β : Type} (m : List (Char × β)) (k : Char) :
    mapFind m k = none ↔ k ∉ m.map Prod.fst := by
  induction m with
  | nil => simp [mapFind]
  | cons hd tl ih =>
    obtain ⟨a, b⟩ := hd
    by_cases h : k = a
    · simp [mapFind, h]
    · simp [mapFind, h, ih]

theorem mem_of_mapFind {β : Type} (m : List (Char × β)) (k : Char) (v : β)
    (h : mapFind m k = some v) : (k, v) ∈ m := by
  induction m with
  | nil => simp [mapFind] at h
  | cons hd tl ih =>
    obtain ⟨a, b⟩ := hd
    by_cases h1 : k = a
    · simp [mapFind, h1] at h
      simp [h1, h]
    · simp only [mapFind, h1, if_false] at h
      exact List.mem_cons_of_mem _ (ih h)

theorem mapFind_of_mem {β : Type} (m : List (Char × β)) (k : Char) (v : β)
    (hn : (m.map Prod.fst).Nodup) (h : (k, v) ∈ m) : mapFind m k = some v := by
  induction m with
  | nil => simp at h
  | cons hd tl ih =>
    obtain ⟨a, b⟩ := hd
    simp only [List.map_cons, List.nodup_cons] at hn
    rcases List.mem_cons.1 h with h1 | h1
    · cases h1
      simp [mapFind]
    · have hk : k ≠ a := by
        rintro rfl
        exact hn.1 (List.mem_map.2 ⟨(k, v), h1, rfl⟩)
      simp only [mapFind, hk, if_false]
      exact ih hn.2 h1

theorem mem_mapSet {β : Type} (m : List (Char × β)) (k : Char) (v : β) (x : Char × β) :
    x ∈ mapSet m k v → x = (k, v) ∨ x ∈ m := by
  induction m with
  | nil => simp [mapSet]
  | cons hd tl ih =>
    obtain ⟨a, b⟩ := hd
    simp only [mapSet]
    by_cases h1 : k < a
    · simp only [h1, if_true]
      intro h
      simpa using h
    · simp only [h1, if_false]
      by_cases h2 : k = a
      · simp only [h2, if_true]
        intro h
        rcases List.mem_cons.1 h with h | h
        · exact Or.inl (by simpa [h2] using h)
        · exact Or.inr (List.mem_cons_of_mem _ h)
      · simp only [h2, if_false]
        intro h
        rcases List.mem_cons.1 h with h | h
        · exact Or.inr (by simp [h])
        · rcases ih h with h | h
          · exact Or.inl h
          · exact Or.inr (List.mem_cons_of_mem _ h)

theorem keys_mapSet_nodup {β : Type} (m : List (Char × β)) (k : Char) (v : β)
    (hn : (m.map Prod.fst).Nodup) (hk : mapFind m k = none) :
    ((mapSet m k v).map Prod.fst).Nodup := by
  induction m with
  | nil => simp [mapSet]
  | cons hd tl ih =>
    obtain ⟨a, b⟩ := hd
    have hka : k ≠ a := by
      rintro rfl
      simp [mapFind] at hk
    have hk' : mapFind tl k = none := by simpa [mapFind, hka] using hk
    simp only [List.map_cons, List.nodup_cons] at hn
    simp only [mapSet]
    by_cases h1 : k < a
    · simp only [h1, if_true, List.map_cons, List.nodup_cons]
      refine ⟨?_, hn⟩
      have := (mapFind_eq_none_iff ((a, b) :: tl) k).1 hk
      simpa using this
    · simp only [h1, if_false, hka, List.map_cons, List.nodup_cons]
      refine ⟨?_, ih hn.2 hk'⟩
      intro hmem
      obtain ⟨x, hx, hxa⟩ := List.mem_map.1 hmem
      rcases mem_mapSet tl k v x hx with h | h
      · rw [h] at hxa
        exact hka hxa
      · exact hn.1 (List.mem_map.2 ⟨x, h, hxa⟩)

@[simp] theorem setNode_size (h : Automaton) (i : Nat) (v : AutomatonNode) :
    (h.setNode i v).size = h.size := rfl

theorem setNode_node (h : Automaton) (i : Nat) (v : AutomatonNode) (j : Nat) :
    (h.setNode i v).node j = if j = i then v else h.node j := rfl

@[simp] theorem setNode_node_same (h : Automaton) (i : Nat) (v : AutomatonNode) :
    (h.setNode i v).node i = v := by simp [setNode_node]

theorem setNode_node_ne (h : Automaton) (i : Nat) (v : AutomatonNode) (j : Nat) (hj : j ≠ i) :
    (h.setNode i v).node j = h.node j := by simp [setNode_node, hj]

end aho_corasick

/-! ## Strings: trie paths and longest suffixes -/

namespace aho_corasick

theorem isTriePath_nil (added : List (List Char × Nat)) : IsTriePath added [] := Or.inl rfl

theorem isTriePath_of_initial {added : List (List Char × Nat)} {v w : List Char}
    (h : IsTriePath added w) (hv : v <+: w) : IsTriePath added v := by
  rcases h with h | ⟨p, hp, hw⟩
  · subst h
    exact Or.inl (List.prefix_nil.1 hv)
  · exact Or.inr ⟨p, hp, hv.trans hw⟩

theorem longestPathSuffix_of_path {added : List (List Char × Nat)} {w : List Char}
    (h : IsTriePath added w) : longestPathSuffix added w = w := by
  cases w with
  | nil => rfl
  | cons a t => simp [longestPathSuffix, h]

theorem longestPathSuffix_spec (added : List (List Char × Nat)) (u : List Char) :
    IsLongestPathSuffix added (longestPathSuffix added u) u := by
  induction u with
  | nil =>
    refine ⟨List.suffix_refl _, isTriePath_nil _, ?_⟩
    intro v' hv' _
    simp [List.suffix_nil.1 hv', longestPathSuffix]
  | cons a t ih =>
    by_cases h : IsTriePath added (a :: t)
    · rw [longestPathSuffix_of_path h]
      exact ⟨List.suffix_refl _, h, fun v' hv' _ => hv'.length_le⟩
    · have e : longestPathSuffix added (a :: t) = longestPathSuffix added t := by
        simp [longestPathSuffix, h]
      rw [e]
      refine ⟨ih.1.trans (List.suffix_cons a t), ih.2.1, ?_⟩
      intro v' hv' hp
      rcases List.suffix_cons_iff.1 hv' with h1 | h1
      · subst h1
        exact absurd hp h
      · exact ih.2.2 v' h1 hp

theorem isLongestPathSuffix_unique {added : List (List Char × Nat)} {v v' u : List Char}
    (h : IsLongestPathSuffix added v u) (h' : IsLongestPathSuffix added v' u) : v = v' := by
  have l1 := h.2.2 v' h'.1 h'.2.1
  have l2 := h'.2.2 v h.1 h.2.1
  have hl : v.length = v'.length := le_antisymm l2 l1
  obtain ⟨a, ha⟩ := h.1
  obtain ⟨b, hb⟩ := h'.1
  have hab : a.length = b.length := by
    have e1 := congrArg List.length ha
    have e2 := congrArg List.length hb
    simp only [List.length_append] at e1 e2
    omega
  exact (List.append_inj (ha.trans hb.symm) hab).2

theorem longestPathSuffix_snoc (added : List (List Char × Nat)) (x : List Char) (c : Char) :
    longestPathSuffix added (x ++ [c]) =
      longestPathSuffix added (longestPathSuffix added x ++ [c]) := by
  induction x with
  | nil => rfl
  | cons a t ih =>
    by_cases h : IsTriePath added (a :: t)
    · rw [longestPathSuffix_of_path h]
    · have h' : ¬ IsTriePath added (a :: (t ++ [c])) := fun hp =>
        h (isTriePath_of_initial hp ⟨[c], rfl⟩)
      have e : longestPathSuffix added (a :: t) = longestPathSuffix added t := by
        simp [longestPathSuffix, h]
      have e' : longestPathSuffix added (a :: t ++ [c]) = longestPathSuffix added (t ++ [c]) := by
        simp only [List.cons_append]
        simp [longestPathSuffix, h']
      rw [e, e', ih]

theorem longestPathSuffix_length_le (added : List (List Char × Nat)) (u : List Char) :
    (longestPathSuffix added u).length ≤ u.length :=
  (longestPathSuffix_spec added u).1.length_le

/-- The longest proper suffix that is a path is the longest path suffix of the
tail. -/
theorem isLongestProperPathSuffix_tail (added : List (List Char × Nat)) (a : Char)
    (t : List Char) :
    IsLongestProperPathSuffix added (longestPathSuffix added t) (a :: t) := by
  have ih := longestPathSuffix_spec added t
  refine ⟨ih.1.trans (List.suffix_cons a t), ?_, ih.2.1, ?_⟩
  · intro e
    have := ih.1.length_le
    rw [e] at this
    simp at this
  · intro v' hv' hne hp
    rcases List.suffix_cons_iff.1 hv' with h1 | h1
    · exact absurd h1 hne
    · exact ih.2.2 v' h1 hp

end aho_corasick

/-! ## The trie built by `BuildTrie` -/

namespace aho_corasick

theorem TrieInv.path_ne_nil {h : Automaton} {path : Nat → List Char} (inv : TrieInv h path)
    {m : Nat} (hm : m < h.size) (h0 : m ≠ 0) : path m ≠ [] := by
  obtain ⟨n, c, hn, hc⟩ := inv.parent m hm h0
  rw [(inv.child n c m hn hc).2]
  simp

theorem TrieInv.path_inj {h : Automaton} {path : Nat → List Char} (inv : TrieInv h path) :
    ∀ (k : Nat) (n m : Nat), (path n).length = k → n < h.size → m < h.size →
      path n = path m → n = m := by
  intro k
  induction k with
  | zero =>
    intro n m hk hn hm e
    have e1 : path n = [] := List.length_eq_zero.1 hk
    have e2 : path m = [] := e ▸ e1
    have n0 : n = 0 := by
      by_contra hne
      exact inv.path_ne_nil hn hne e1
    have m0 : m = 0 := by
      by_contra hne
      exact inv.path_ne_nil hm hne e2
    rw [n0, m0]
  | succ k ih =>
    intro n m hk hn hm e
    have n0 : n ≠ 0 := by
      rintro rfl
      rw [inv.path_root] at hk
      simp at hk
    have m0 : m ≠ 0 := by
      rintro rfl
      rw [e, inv.path_root] at hk
      simp at hk
    obtain ⟨pn, cn, hpn, hcn⟩ := inv.parent n hn n0
    obtain ⟨pm, cm, hpm, hcm⟩ := inv.parent m hm m0
    have e1 := (inv.child pn cn n hpn hcn).2
    have e2 := (inv.child pm cm m hpm hcm).2
    have e3 : path pn ++ [cn] = path pm ++ [cm] := by rw [← e1, ← e2, e]
    have e4 := List.append_inj' e3 rfl
    have hl : (path pn).length = k := by
      have := congrArg List.length e1
      simp only [List.length_append, List.length_singleton] at this
      omega
    have hp : pn = pm := ih pn pm hl hpn hpm e4.1
    have hc : cn = cm := by simpa using e4.2
    subst hp
    subst hc
    rw [hcn] at hcm
    exact Option.some.inj hcm

theorem TrieInv.inj_path {h : Automaton} {path : Nat → List Char} (inv : TrieInv h path)
    {n m : Nat} (hn : n < h.size) (hm : m < h.size) (e : path n = path m) : n = m :=
  inv.path_inj _ n m rfl hn hm e

/-- Every prefix of a node's path is the path of a node. -/
theorem TrieInv.prefix_node {h : Automaton} {path : Nat → List Char} (inv : TrieInv h path) :
    ∀ (v u : List Char) (n : Nat), n < h.size → path n = u ++ v →
      ∃ m, m < h.size ∧ path m = u := by
  intro v
  induction v using List.reverseRecOn with
  | nil =>
    intro u n hn e
    exact ⟨n, hn, by simpa using e⟩
  | append_singleton v c ih =>
    intro u n hn e
    have n0 : n ≠ 0 := by
      rintro rfl
      rw [inv.path_root] at e
      simp at e
    obtain ⟨p, cp, hp, hcp⟩ := inv.parent n hn n0
    have e1 := (inv.child p cp n hp hcp).2
    have e2 : path p ++ [cp] = (u ++ v) ++ [c] := by
      rw [← e1, e, List.append_assoc]
    exact ih u p hp (List.append_inj' e2 rfl).1

theorem trieIndex_some {h : Automaton} {cur : Nat} {c : Char} {x : Nat}
    (hx : mapFind (h.node cur).trie_transitions c = some x) : trieIndex h cur c = (h, x) := by
  simp [trieIndex, hx]

theorem trieIndex_none {h : Automaton} {cur : Nat} {c : Char}
    (hx : mapFind (h.node cur).trie_transitions c = none) (hcur : cur < h.size) :
    (trieIndex h cur c).2 = h.size ∧ (trieIndex h cur c).1.size = h.size + 1 ∧
    ∀ j, (trieIndex h cur c).1.node j =
      if j = cur then
        { h.node cur with
          trie_transitions := mapSet (h.node cur).trie_transitions c h.size }
      else if j = h.size then AutomatonNode.default else h.node j := by
  have hne : cur ≠ h.size := Nat.ne_of_lt hcur
  refine ⟨by simp [trieIndex, hx], by simp [trieIndex, hx], ?_⟩
  intro j
  simp only [trieIndex, hx, setNode_node, hne, if_false]

theorem trieIndex_inv {h : Automaton} {path : Nat → List Char}
    {all done : List (List Char × Nat)} (inv : BuildInv h path all done)
    (cur : Nat) (c : Char) (hcur : cur < h.size) (hp : IsTriePath all (path cur ++ [c])) :
    ∃ path', BuildInv (trieIndex h cur c).1 path' all done ∧
      (trieIndex h cur c).2 < (trieIndex h cur c).1.size ∧
      path' (trieIndex h cur c).2 = path cur ++ [c] := by
  cases hx : mapFind (h.node cur).trie_transitions c with
  | some x =>
    rw [trieIndex_some hx]
    exact ⟨path, inv, (inv.trie.child cur c x hcur hx).1, (inv.trie.child cur c x hcur hx).2⟩
  | none =>
    obtain ⟨e2, esz, enode⟩ := trieIndex_none hx hcur
    have hne : cur ≠ h.size := Nat.ne_of_lt hcur
    -- no existing node spells `path cur ++ [c]`
    have hnew : ∀ n, n < h.size → path n ≠ path cur ++ [c] := by
      intro n hn e
      have n0 : n ≠ 0 := by
        rintro rfl
        rw [inv.trie.path_root] at e
        simp at e
      obtain ⟨p, cp, hp', hcp⟩ := inv.trie.parent n hn n0
      have e1 := (inv.trie.child p cp n hp' hcp).2
      have e3 := List.append_inj' (e1.symm.trans e) rfl
      have : p = cur := inv.trie.inj_path hp' hcur e3.1
      have hc : cp = c := by simpa using e3.2
      subst this
      subst hc
      rw [hx] at hcp
      exact Option.noConfusion hcp
    refine ⟨fun j => if j = h.size then path cur ++ [c] else path j, ?_, ?_, ?_⟩
    · refine ⟨⟨?_, ?_, ?_, ?_, ?_, ?_⟩, ?_, ?_, ?_, ?_⟩
      · rw [esz]
        omega
      · have : (0 : Nat) ≠ h.size := Nat.ne_of_lt inv.trie.size_pos
        simp [this, inv.trie.path_root]
      · intro n
        rw [enode]
        by_cases h1 : n = cur
        · simp only [h1, if_true]
          exact keys_mapSet_nodup _ _ _ (inv.trie.keys_nodup cur) hx
        · by_cases h2 : n = h.size
          · subst h2
            simp [hne.symm, AutomatonNode.default]
          · simp only [h1, h2, if_false]
            exact inv.trie.keys_nodup n
      · intro n c' m hn hm
        rw [esz] at hn ⊢
        rw [enode] at hm
        by_cases h1 : n = cur
        · subst h1
          simp only [if_true, mapFind_mapSet] at hm
          by_cases h3 : c' = c
          · subst h3
            simp only [if_true, Option.some.injEq] at hm
            subst hm
            simp [hne]
          · simp only [h3, if_false] at hm
            obtain ⟨l1, l2⟩ := inv.trie.child n c' m hcur hm
            have : m ≠ h.size := Nat.ne_of_lt l1
            simp only [this, hne, if_false]
            exact ⟨by omega, l2⟩
        · by_cases h2 : n = h.size
          · subst h2
            simp [hne.symm, AutomatonNode.default, mapFind] at hm
          · simp only [h1, h2, if_false] at hm
            have hn' : n < h.size := by omega
            obtain ⟨l1, l2⟩ := inv.trie.child n c' m hn' hm
            have : m ≠ h.size := Nat.ne_of_lt l1
            simp only [this, h2, if_false]
            exact ⟨by omega, l2⟩
      · intro m hm m0
        rw [esz] at hm
        by_cases h2 : m = h.size
        · refine ⟨cur, c, by rw [esz]; omega, ?_⟩
          rw [enode]
          simp [mapFind_mapSet, h2]
        · have hm' : m < h.size := by omega
          obtain ⟨n, c', hn, hc'⟩ := inv.trie.parent m hm' m0
          refine ⟨n, c', by rw [esz]; omega, ?_⟩
          rw [enode]
          by_cases h1 : n = cur
          · subst h1
            have h3 : c' ≠ c := by
              rintro rfl
              rw [hx] at hc'
              exact Option.noConfusion hc'
            simp [mapFind_mapSet, h3, hc']
          · have : n ≠ h.size := Nat.ne_of_lt hn
            simp [h1, this, hc']
      · intro n hn
        rw [esz] at hn
        by_cases h2 : n = h.size
        · subst h2
          have := inv.trie.depth_le cur hcur
          simp only [if_true, List.length_append, List.length_singleton]
          omega
        · simp only [h2, if_false]
          exact inv.trie.depth_le n (by omega)
      · intro n
        rw [enode]
        by_cases h1 : n = cur
        · subst h1
          simpa using inv.fresh n
        · by_cases h2 : n = h.size
          · subst h2
            simp [hne.symm, AutomatonNode.default]
          · simpa [h1, h2] using inv.fresh n
      · intro n hn
        rw [esz] at hn
        by_cases h2 : n = h.size
        · simpa [h2] using hp
        · simp only [h2, if_false]
          exact inv.paths n (by omega)
      · intro p hp'
        obtain ⟨n, hn, e⟩ := inv.words p hp'
        have : n ≠ h.size := Nat.ne_of_lt hn
        exact ⟨n, by rw [esz]; omega, by simp [this, e]⟩
      · intro n hn
        rw [esz] at hn
        rw [enode]
        by_cases h2 : n = h.size
        · subst h2
          simp only [hne.symm, if_false, if_true, AutomatonNode.default]
          symm
          rw [List.map_eq_nil_iff, List.filter_eq_nil_iff]
          intro p hp' hdec
          obtain ⟨n', hn', e⟩ := inv.words p hp'
          exact hnew n' hn' (e.trans (by simpa using hdec))
        · have hn' : n < h.size := by omega
          by_cases h1 : n = cur
          · subst h1
            simpa [h2] using inv.ids n hn'
          · simpa [h1, h2] using inv.ids n hn'
    · rw [e2, esz]
      omega
    · rw [e2]
      simp

theorem addStringLoop_inv {all done : List (List Char × Nat)} :
    ∀ (s : List Char) (h : Automaton) (path : Nat → List Char) (cur : Nat),
      BuildInv h path all done → cur < h.size → IsTriePath all (path cur ++ s) →
      ∃ path', BuildInv (addStringLoop h cur s).1 path' all done ∧
        (addStringLoop h cur s).2 < (addStringLoop h cur s).1.size ∧
        path' (addStringLoop h cur s).2 = path cur ++ s := by
  intro s
  induction s with
  | nil =>
    intro h path cur inv hcur _
    exact ⟨path, inv, hcur, by simp [addStringLoop]⟩
  | cons c rest ih =>
    intro h path cur inv hcur hp
    have hp1 : IsTriePath all (path cur ++ [c]) :=
      isTriePath_of_initial hp ⟨rest, by simp⟩
    obtain ⟨path1, inv1, hlt1, e1⟩ := trieIndex_inv inv cur c hcur hp1
    have hp2 : IsTriePath all (path1 (trieIndex h cur c).2 ++ rest) := by
      rw [e1]
      simpa using hp
    obtain ⟨path2, inv2, hlt2, e2⟩ := ih _ path1 _ inv1 hlt1 hp2
    refine ⟨path2, inv2, hlt2, ?_⟩
    simp only [addStringLoop]
    rw [e2, e1]
    simp

theorem AddString_inv {all done : List (List Char × Nat)} {h : Automaton}
    {path : Nat → List Char} (inv : BuildInv h path all done) (w : List Char) (id : Nat)
    (hw : (w, id) ∈ all) :
    ∃ path', BuildInv (AddString h 0 id w) path' all (done ++ [(w, id)]) := by
  have hp : IsTriePath all (path 0 ++ w) := by
    rw [inv.trie.path_root]
    exact Or.inr ⟨(w, id), hw, List.prefix_refl _⟩
  obtain ⟨path', inv', hlt, e⟩ := addStringLoop_inv w h path 0 inv inv.trie.size_pos hp
  rw [inv.trie.path_root, List.nil_append] at e
  refine ⟨path', ⟨⟨?_, ?_, ?_, ?_, ?_, ?_⟩, ?_, ?_, ?_, ?_⟩⟩
  · exact inv'.trie.size_pos
  · exact inv'.trie.path_root
  · intro n
    simp only [AddString, setNode_node]
    by_cases h1 : n = (addStringLoop h 0 w).2
    · simp only [h1, if_true]
      exact inv'.trie.keys_nodup _
    · simp only [h1, if_false]
      exact inv'.trie.keys_nodup _
  · intro n c m hn hm
    simp only [AddString, setNode_node, setNode_size] at hn hm ⊢
    by_cases h1 : n = (addStringLoop h 0 w).2
    · simp only [h1, if_true] at hm
      rw [h1]
      exact inv'.trie.child _ c m hlt hm
    · simp only [h1, if_false] at hm
      exact inv'.trie.child n c m hn hm
  · intro m hm m0
    simp only [AddString, setNode_size] at hm
    obtain ⟨n, c, hn, hc⟩ := inv'.trie.parent m hm m0
    refine ⟨n, c, hn, ?_⟩
    simp only [AddString, setNode_node]
    by_cases h1 : n = (addStringLoop h 0 w).2
    · simp only [h1, if_true]
      rw [h1] at hc
      exact hc
    · simp only [h1, if_false]
      exact hc
  · intro n hn
    exact inv'.trie.depth_le n hn
  · intro n
    simp only [AddString, setNode_node]
    by_cases h1 : n = (addStringLoop h 0 w).2
    · simp only [h1, if_true]
      exact inv'.fresh _
    · simp only [h1, if_false]
      exact inv'.fresh _
  · intro n hn
    exact inv'.paths n hn
  · intro p hp'
    rcases List.mem_append.1 hp' with h1 | h1
    · exact inv'.words p h1
    · simp only [List.mem_singleton] at h1
      subst h1
      exact ⟨_, hlt, e⟩
  · intro n hn
    simp only [AddString, setNode_size] at hn
    simp only [AddString, setNode_node, List.filter_append, List.map_append]
    by_cases h1 : n = (addStringLoop h 0 w).2
    · simp only [h1, if_true]
      rw [inv'.ids _ hlt, e]
      simp
    · simp only [h1, if_false]
      rw [inv'.ids n hn]
      have : w ≠ path' n := by
        intro e'
        exact h1 (inv'.trie.inj_path hn hlt (e'.symm.trans e.symm))
      simp [this]

theorem BuildTrie_inv {all : List (List Char × Nat)} :
    ∀ (rest done : List (List Char × Nat)) (h : Automaton) (path : Nat → List Char),
      BuildInv h path all done → (∀ p ∈ rest, p ∈ all) →
      ∃ path', BuildInv (BuildTrie rest h) path' all (done ++ rest) := by
  intro rest
  induction rest with
  | nil =>
    intro done h path inv _
    exact ⟨path, by simpa [BuildTrie] using inv⟩
  | cons p rest ih =>
    intro done h path inv hall
    obtain ⟨w, id⟩ := p
    obtain ⟨path1, inv1⟩ := AddString_inv inv w id (hall _ (List.mem_cons_self _ _))
    obtain ⟨path2, inv2⟩ := ih _ _ path1 inv1 fun q hq => hall q (List.mem_cons_of_mem _ hq)
    exact ⟨path2, by simpa [BuildTrie] using inv2⟩

theorem BuildInv_new (all : List (List Char × Nat)) :
    BuildInv Automaton.new (fun _ => []) all [] := by
  refine ⟨⟨?_, rfl, ?_, ?_, ?_, ?_⟩, ?_, ?_, ?_, ?_⟩
  · simp [Automaton.new]
  · intro n
    simp [Automaton.new, AutomatonNode.default]
  · intro n c m _ hm
    simp [Automaton.new, AutomatonNode.default, mapFind] at hm
  · intro m hm m0
    simp only [Automaton.new] at hm
    omega
  · intro n _
    simp
  · intro n
    simp [Automaton.new, AutomatonNode.default]
  · intro n _
    exact isTriePath_nil _
  · intro p hp
    simp at hp
  · intro n _
    simp [Automaton.new, AutomatonNode.default]

/-- The trie after `BuildTrie(words_, ids_, automaton)`. -/
theorem BuildTrie_spec (added : List (List Char × Nat)) :
    ∃ path, BuildInv (BuildTrie added Automaton.new) path added added := by
  obtain ⟨path, inv⟩ := BuildTrie_inv added [] _ _ (BuildInv_new added) fun _ hp => hp
  exact ⟨path, by simpa using inv⟩

/-- Every trie path is the path of a node. -/
theorem BuildInv.node_of_path {h : Automaton} {path : Nat → List Char}
    {added : List (List Char × Nat)} (inv : BuildInv h path added added) {w : List Char}
    (hw : IsTriePath added w) : ∃ n, n < h.size ∧ path n = w := by
  rcases hw with hw | ⟨p, hp, v, hv⟩
  · exact ⟨0, inv.trie.size_pos, by rw [hw, inv.trie.path_root]⟩
  · obtain ⟨n, hn, e⟩ := inv.words p hp
    exact inv.trie.prefix_node v w n hn (by rw [e, hv])

end aho_corasick

/-! ## The transition function -/

namespace aho_corasick

theorem BuildInv.trieOK {h : Automaton} {path : Nat → List Char}
    {added : List (List Char × Nat)} (inv : BuildInv h path added added) :
    TrieOK h path added :=
  ⟨inv.trie, inv.paths, fun _ hw => inv.node_of_path hw, inv.ids⟩

theorem SameButCache.cache_refl (h : Automaton) : SameButCache h h :=
  ⟨rfl, fun _ => ⟨rfl, rfl, rfl, rfl⟩⟩

theorem SameButCache.cache_trans {h1 h2 h3 : Automaton} (a : SameButCache h1 h2)
    (b : SameButCache h2 h3) : SameButCache h1 h3 :=
  ⟨b.1.trans a.1, fun n =>
    ⟨(b.2 n).1.trans (a.2 n).1, (b.2 n).2.1.trans (a.2 n).2.1,
      (b.2 n).2.2.1.trans (a.2 n).2.2.1, (b.2 n).2.2.2.trans (a.2 n).2.2.2⟩⟩

theorem SameButCache.cache_sameTrie {h h' : Automaton} (a : SameButCache h h') : SameTrie h h' :=
  ⟨a.1, fun n => ⟨(a.2 n).1, (a.2 n).2.1⟩⟩

theorem SameTrie.trie_refl (h : Automaton) : SameTrie h h := ⟨rfl, fun _ => ⟨rfl, rfl⟩⟩

theorem SameTrie.trie_trans {h1 h2 h3 : Automaton} (a : SameTrie h1 h2) (b : SameTrie h2 h3) :
    SameTrie h1 h3 :=
  ⟨b.1.trans a.1, fun n => ⟨(b.2 n).1.trans (a.2 n).1, (b.2 n).2.trans (a.2 n).2⟩⟩

theorem TrieOK.of_same {h h' : Automaton} {path : Nat → List Char}
    {added : List (List Char × Nat)} (t : TrieOK h path added) (s : SameTrie h h') :
    TrieOK h' path added := by
  obtain ⟨hs, hn⟩ := s
  refine ⟨⟨?_, t.trie.path_root, ?_, ?_, ?_, ?_⟩, ?_, ?_, ?_⟩
  · rw [hs]
    exact t.trie.size_pos
  · intro n
    rw [(hn n).1]
    exact t.trie.keys_nodup n
  · intro n c m hlt hm
    rw [hs] at hlt ⊢
    rw [(hn n).1] at hm
    exact t.trie.child n c m hlt hm
  · intro m hm m0
    rw [hs] at hm
    obtain ⟨n, c, h1, h2⟩ := t.trie.parent m hm m0
    exact ⟨n, c, by rw [hs]; exact h1, by rw [(hn n).1]; exact h2⟩
  · intro n hlt
    rw [hs] at hlt
    exact t.trie.depth_le n hlt
  · intro n hlt
    rw [hs] at hlt
    exact t.paths n hlt
  · intro w hw
    obtain ⟨n, h1, h2⟩ := t.complete w hw
    exact ⟨n, by rw [hs]; exact h1, h2⟩
  · intro n hlt
    rw [hs] at hlt
    rw [(hn n).2]
    exact t.ids n hlt

theorem TrieOK.inj {h : Automaton} {path : Nat → List Char}
    {added : List (List Char × Nat)} (t : TrieOK h path added) {n m : Nat}
    (hn : n < h.size) (hm : m < h.size) (e : path n = path m) : n = m :=
  t.trie.inj_path hn hm e

/-- A node without a trie child on `c` has no trie path `path n ++ [c]`. -/
theorem TrieOK.no_child {h : Automaton} {path : Nat → List Char}
    {added : List (List Char × Nat)} (t : TrieOK h path added) {n : Nat} {c : Char}
    (hn : n < h.size) (hx : mapFind (h.node n).trie_transitions c = none) :
    ¬ IsTriePath added (path n ++ [c]) := by
  intro hp
  obtain ⟨x, hxl, e⟩ := t.complete _ hp
  have x0 : x ≠ 0 := by
    rintro rfl
    rw [t.trie.path_root] at e
    simp at e
  obtain ⟨p, cp, hp', hcp⟩ := t.trie.parent x hxl x0
  have e1 := (t.trie.child p cp x hp' hcp).2
  have e3 := List.append_inj' (e1.symm.trans e) rfl
  have : p = n := t.inj hp' hn e3.1
  have hc : cp = c := by simpa using e3.2
  subst this
  subst hc
  rw [hx] at hcp
  exact Option.noConfusion hcp

theorem getCache_setCache (h : Automaton) (n : Nat) (c : Char) (v : Option Nat)
    (n' : Nat) (c' : Char) :
    getCache (setCache h n c v) n' c' = if n' = n ∧ c' = c then v else getCache h n' c' := by
  simp only [getCache, setCache, setNode_node]
  by_cases h1 : n' = n
  · subst h1
    simp only [if_true, mapFind_mapSet, true_and]
    by_cases h2 : c' = c <;> simp [h2]
  · simp [h1]

theorem setCache_same (h : Automaton) (n : Nat) (c : Char) (v : Option Nat) :
    SameButCache h (setCache h n c v) := by
  refine ⟨rfl, fun j => ?_⟩
  simp only [setCache, setNode_node]
  by_cases h1 : j = n
  · subst h1
    simp
  · simp [h1]

theorem SuffixOK.of_cache_change {h h' : Automaton} {path : Nat → List Char}
    {added : List (List Char × Nat)} {n : Nat} (s : SuffixOK h path added n)
    (a : SameButCache h h') : SuffixOK h' path added n := by
  obtain ⟨x, h1, h2, h3⟩ := s
  exact ⟨x, by rw [(a.2 n).2.2.1]; exact h1, by rw [a.1]; exact h2, h3⟩

theorem longestPathSuffix_snoc_of_not_path {added : List (List Char × Nat)}
    {w : List Char} {c : Char} (hp : ¬ IsTriePath added (w ++ [c])) :
    longestPathSuffix added (w ++ [c]) = longestPathSuffix added (w.tail ++ [c]) := by
  cases w with
  | nil =>
    have : ¬ IsTriePath added [c] := by simpa using hp
    simp [longestPathSuffix, this]
  | cons a t =>
    have : ¬ IsTriePath added (a :: (t ++ [c])) := by simpa using hp
    simp [longestPathSuffix, this]

/-- Specification of one call of `GetAutomatonTransition` at a node whose
suffix chain is already linked. -/
theorem GetAutomatonTransitionAux_spec {path : Nat → List Char}
    {added : List (List Char × Nat)} (c : Char) :
    ∀ (fuel : Nat) (h : Automaton) (n : Nat), TrieOK h path added → CacheOK h path added →
      n < h.size → (path n).length < fuel →
      (∀ u, u < h.size → (path u).length ≤ (path n).length → u ≠ 0 →
        SuffixOK h path added u) →
      ∃ h' r, GetAutomatonTransitionAux fuel h (some n) (some 0) c = some (h', some r) ∧
        r < h.size ∧ path r = longestPathSuffix added (path n ++ [c]) ∧
        SameButCache h h' ∧ CacheOK h' path added ∧ getCache h' n c = some r := by
  intro fuel
  induction fuel with
  | zero =>
    intro h n _ _ _ hf
    omega
  | succ fuel ih =>
    intro h n t hc hn hf hs
    have g1 : ∀ n' c', getCache (setCache h n c (getCache h n c)) n' c' = getCache h n' c' := by
      intro n' c'
      rw [getCache_setCache]
      by_cases h1 : n' = n ∧ c' = c
      · simp [h1]
      · simp [h1]
    have s1 : SameButCache h (setCache h n c (getCache h n c)) := setCache_same _ _ _ _
    have c1 : CacheOK (setCache h n c (getCache h n c)) path added := by
      intro n' c' r hlt hr
      rw [g1] at hr
      exact hc n' c' r hlt hr
    simp only [GetAutomatonTransitionAux]
    rw [g1]
    cases hg : getCache h n c with
    | some r =>
      obtain ⟨l1, l2⟩ := hc n c r hn hg
      refine ⟨_, r, rfl, l1, l2, ?_, ?_, ?_⟩
      · rw [← hg]
        exact s1
      · rw [← hg]
        exact c1
      · rw [← hg, g1]
    | none =>
      rw [hg] at s1 c1 g1
      simp only [GetTrieTransition]
      rw [(s1.2 n).1]
      cases hd : mapFind (h.node n).trie_transitions c with
      | some d =>
        obtain ⟨l1, l2⟩ := t.trie.child n c d hn hd
        have l3 : path d = longestPathSuffix added (path n ++ [c]) := by
          rw [← l2, longestPathSuffix_of_path (t.paths d l1)]
        refine ⟨_, d, rfl, l1, l3, s1.cache_trans (setCache_same _ _ _ _), ?_, ?_⟩
        · intro n' c' r hlt hr
          rw [getCache_setCache] at hr
          by_cases h1 : n' = n ∧ c' = c
          · simp only [h1, and_self, if_true, Option.some.injEq] at hr
            subst hr
            rw [h1.1, h1.2]
            exact ⟨l1, l3⟩
          · simp only [h1, if_false] at hr
            exact c1 n' c' r hlt hr
        · rw [getCache_setCache]
          simp
      | none =>
        have np := t.no_child hn hd
        by_cases hroot : n = 0
        · subst hroot
          simp only [ne_eq, not_true_eq_false, if_false]
          have l3 : path 0 = longestPathSuffix added (path 0 ++ [c]) := by
            rw [longestPathSuffix_snoc_of_not_path np, t.trie.path_root]
            have : ¬ IsTriePath added [c] := by simpa [t.trie.path_root] using np
            simp [longestPathSuffix, this]
          refine ⟨_, 0, rfl, hn, l3, s1.cache_trans (setCache_same _ _ _ _), ?_, ?_⟩
          · intro n' c' r hlt hr
            rw [getCache_setCache] at hr
            by_cases h1 : n' = 0 ∧ c' = c
            · simp only [h1, and_self, if_true, Option.some.injEq] at hr
              subst hr
              rw [h1.1, h1.2]
              exact ⟨hn, l3⟩
            · simp only [h1, if_false] at hr
              exact c1 n' c' r hlt hr
          · rw [getCache_setCache]
            simp
        · have hne : (some n : Option Nat) ≠ some 0 := by simpa using hroot
          simp only [hne, ne_eq, not_false_eq_true, if_true]
          obtain ⟨s, e1, e2, e3⟩ := hs n hn le_rfl hroot
          rw [(s1.2 n).2.2.1, e1]
          have hlen : (path s).length < (path n).length := by
            rw [e3]
            have := longestPathSuffix_length_le added (path n).tail
            have hne' := t.trie.path_ne_nil hn hroot
            have : (path n).tail.length < (path n).length := by
              cases hp : path n with
              | nil => exact absurd hp hne'
              | cons a tl => simp
            omega
          have t1 : TrieOK (setCache h n c none) path added := t.of_same s1.cache_sameTrie
          obtain ⟨h2, r, hr, l1, l2, s2, c2, _⟩ := ih (setCache h n c none) s t1 c1
            (by rw [s1.1]; exact e2) (by omega)
            (fun u hu hul u0 => (hs u (by rw [← s1.1]; exact hu) (by omega) u0).of_cache_change s1)
          rw [hr]
          have l1' : r < h.size := by rw [← s1.1]; exact l1
          have l3 : path r = longestPathSuffix added (path n ++ [c]) := by
            rw [l2, e3, ← longestPathSuffix_snoc, longestPathSuffix_snoc_of_not_path np]
          have s3 := (s1.cache_trans s2).cache_trans (setCache_same h2 n c (some r))
          refine ⟨_, r, rfl, l1', l3, s3, ?_, ?_⟩
          · intro n' c' r' hlt hr'
            rw [getCache_setCache] at hr'
            rw [s3.1]
            by_cases h1 : n' = n ∧ c' = c
            · simp only [h1, and_self, if_true, Option.some.injEq] at hr'
              subst hr'
              rw [h1.1, h1.2]
              exact ⟨l1', l3⟩
            · simp only [h1, if_false] at hr'
              have := c2 n' c' r' (by simpa using hlt) hr'
              rw [s2.1, s1.1] at this
              exact this
          · rw [getCache_setCache]
            simp

end aho_corasick

/-! ## Breadth-first search over the trie -/

namespace traverses

theorem nodup_length_le {l : List Nat} {n : Nat} (hn : l.Nodup) (hl : ∀ x ∈ l, x < n) :
    l.length ≤ n := by
  have h1 : l.toFinset ⊆ Finset.range n := by
    intro x hx
    exact Finset.mem_range.2 (hl x (List.mem_toFinset.1 hx))
  have h2 := Finset.card_le_card h1
  rw [List.toFinset_card_of_nodup hn, Finset.card_range] at h2
  exact h2

theorem BfsInv.below {h0 : Automaton} {path : Nat → List Char} {popped queue : List Nat}
    (t : TrieInv h0 path) (b : BfsInv h0 path popped queue) :
    ∀ (k u : Nat), (path u).length = k → u < h0.size →
      (∀ x ∈ queue, (path u).length < (path x).length) → u ∈ popped := by
  intro k
  induction k with
  | zero =>
    intro u hk hu hq
    have u0 : u = 0 := by
      by_contra hne
      exact t.path_ne_nil hu hne (List.length_eq_zero.1 hk)
    subst u0
    rcases List.mem_append.1 b.root with h1 | h1
    · exact h1
    · exact absurd (hq 0 h1) (lt_irrefl _)
  | succ k ih =>
    intro u hk hu hq
    have u0 : u ≠ 0 := by
      rintro rfl
      rw [t.path_root] at hk
      simp at hk
    obtain ⟨p, c, hp, hc⟩ := t.parent u hu u0
    have e := (t.child p c u hp hc).2
    have hl : (path u).length = (path p).length + 1 := by
      rw [e]
      simp
    have hpp : p ∈ popped := ih p (by omega) hp fun x hx => by
      have := hq x hx
      omega
    rcases List.mem_append.1 (b.closed p hpp c u hc) with h1 | h1
    · exact h1
    · exact absurd (hq u h1) (lt_irrefl _)

theorem BfsInv.visiting {h0 : Automaton} {path : Nat → List Char} {popped q : List Nat}
    {v : Nat} (t : TrieInv h0 path) (b : BfsInv h0 path popped (v :: q)) :
    Visiting h0 path v (popped ++ v :: q) := by
  have hsorted : ∀ x ∈ v :: q, (path v).length ≤ (path x).length := by
    intro x hx
    rcases List.mem_cons.1 hx with h1 | h1
    · rw [h1]
    · have := (List.pairwise_append.1 b.sorted).2.1
      exact List.rel_of_pairwise_cons this h1
  refine ⟨by simp, b.lt, ?_⟩
  intro u hu hle
  by_cases u0 : u = 0
  · rw [u0]
    exact b.root
  · obtain ⟨p, c, hp, hc⟩ := t.parent u hu u0
    have e := (t.child p c u hp hc).2
    have hl : (path u).length = (path p).length + 1 := by
      rw [e]
      simp
    have hpp : p ∈ popped := b.below t _ p rfl hp fun x hx => by
      have := hsorted x hx
      omega
    exact b.closed p hpp c u hc

theorem visitEdges_spec (visitor : BfsVisitor) {h0 : Automaton} {path : Nat → List Char}
    (v : Nat) (J' : Nat → List Nat → Automaton → Prop)
    (hE : ∀ D h c m, J' v D h → Visiting h0 path v D →
      mapFind (h0.node v).trie_transitions c = some m → m ∉ D →
      ∃ h1 h2, visitor.ExamineEdge h ⟨v, m, c⟩ = some h1 ∧
        visitor.DiscoverVertex h1 m = some h2 ∧ J' v (D ++ [m]) h2)
    (hlt : ∀ c m, mapFind (h0.node v).trie_transitions c = some m → m < h0.size) :
    ∀ (es : List (Char × Nat)) (D : List Nat) (h : Automaton) (q : List Nat),
      J' v D h → Visiting h0 path v D →
      (∀ e ∈ es, mapFind (h0.node v).trie_transitions e.1 = some e.2) →
      (es.map Prod.snd).Nodup → (∀ m ∈ es.map Prod.snd, m ∉ D) →
      ∃ h', visitEdges visitor (es.map fun t => ⟨v, t.2, t.1⟩) h q =
          some (h', q ++ es.map Prod.snd) ∧
        J' v (D ++ es.map Prod.snd) h' := by
  intro es
  induction es with
  | nil =>
    intro D h q hj _ _ _ _
    exact ⟨h, by simp [visitEdges], by simpa using hj⟩
  | cons e es ih =>
    intro D h q hj hv hmem hnd hnot
    obtain ⟨c, m⟩ := e
    have hm : mapFind (h0.node v).trie_transitions c = some m := hmem (c, m) (by simp)
    have hmD : m ∉ D := hnot m (by simp)
    obtain ⟨h1, h2, e1, e2, hj2⟩ := hE D h c m hj hv hm hmD
    have hv2 : Visiting h0 path v (D ++ [m]) := by
      refine ⟨List.mem_append_left _ hv.mem, ?_, fun u hu hl =>
        List.mem_append_left _ (hv.shallow u hu hl)⟩
      intro x hx
      rcases List.mem_append.1 hx with h3 | h3
      · exact hv.lt x h3
      · simp only [List.mem_singleton] at h3
        rw [h3]
        exact hlt c m hm
    simp only [List.map_cons, List.nodup_cons] at hnd
    obtain ⟨h', e3, hj3⟩ := ih (D ++ [m]) h2 (q ++ [m]) hj2 hv2
      (fun e he => hmem e (List.mem_cons_of_mem _ he)) hnd.2 (by
        intro x hx hxD
        rcases List.mem_append.1 hxD with h3 | h3
        · exact hnot x (by simp only [List.map_cons]; exact List.mem_cons_of_mem _ hx) h3
        · simp only [List.mem_singleton] at h3
          rw [h3] at hx
          exact hnd.1 hx)
    refine ⟨h', ?_, ?_⟩
    · simp only [List.map_cons, visitEdges, GetTarget, e1, e2, e3]
      simp
    · simpa using hj3

theorem children_nodup {h0 : Automaton} {path : Nat → List Char} (t : TrieInv h0 path)
    {v : Nat} (hv : v < h0.size) : ((h0.node v).trie_transitions.map Prod.snd).Nodup := by
  have hk := t.keys_nodup v
  refine List.Nodup.map_on ?_ (List.Nodup.of_map _ hk)
  intro x hx y hy e
  obtain ⟨c1, m1⟩ := x
  obtain ⟨c2, m2⟩ := y
  simp only at e
  subst e
  have e1 := (t.child v c1 m1 hv (mapFind_of_mem _ _ _ hk hx)).2
  have e2 := (t.child v c2 m1 hv (mapFind_of_mem _ _ _ hk hy)).2
  have := List.append_inj' (e1.symm.trans e2) rfl
  have hc : c1 = c2 := by simpa using this.2
  rw [hc]

theorem bfsLoop_inv (visitor : BfsVisitor) {h0 : Automaton} {path : Nat → List Char}
    (t : TrieInv h0 path) (J : List Nat → List Nat → Automaton → Prop)
    (J' : Nat → List Nat → Automaton → Prop)
    (hJ' : ∀ v D h, J' v D h →
      ∀ n, (h.node n).trie_transitions = (h0.node n).trie_transitions)
    (hV : ∀ popped D h v, J popped D h → Visiting h0 path v D → (popped = [] → v = 0) →
      ∃ h', visitor.ExamineVertex h v = some h' ∧ J' v D h')
    (hE : ∀ v D h c m, J' v D h → Visiting h0 path v D →
      mapFind (h0.node v).trie_transitions c = some m → m ∉ D →
      ∃ h1 h2, visitor.ExamineEdge h ⟨v, m, c⟩ = some h1 ∧
        visitor.DiscoverVertex h1 m = some h2 ∧ J' v (D ++ [m]) h2)
    (hF : ∀ v popped D h, J' v D h → J (popped ++ [v]) D h) :
    ∀ (fuel : Nat) (popped queue : List Nat) (h : Automaton),
      BfsInv h0 path popped queue → J popped (popped ++ queue) h →
      h0.size ≤ fuel + popped.length →
      ∃ h' D, bfsLoop visitor fuel queue h = some h' ∧ J D D h' ∧
        ∀ n, n < h0.size → n ∈ D := by
  have done : ∀ (fuel : Nat) (popped : List Nat) (h : Automaton),
      BfsInv h0 path popped [] → J popped (popped ++ []) h →
      ∃ h' D, bfsLoop visitor fuel [] h = some h' ∧ J D D h' ∧
        ∀ n, n < h0.size → n ∈ D := by
    intro fuel popped h b hj
    rw [List.append_nil] at hj
    refine ⟨h, popped, by cases fuel <;> simp [bfsLoop], hj, ?_⟩
    intro n hn
    exact b.below t _ n rfl hn (by simp)
  intro fuel
  induction fuel with
  | zero =>
    intro popped queue h b hj hf
    cases queue with
    | nil => exact done 0 popped h b hj
    | cons v q =>
      have := nodup_length_le b.nodup b.lt
      simp only [List.length_append, List.length_cons] at this
      omega
  | succ f ih =>
    intro popped queue h b hj hf
    cases queue with
    | nil => exact done _ popped h b hj
    | cons v q =>
      have hvis := b.visiting t
      have hvlt : v < h0.size := b.lt v (by simp)
      have hfirst : popped = [] → v = 0 := by
        intro hp
        subst hp
        have h0mem : (0 : Nat) ∈ v :: q := by simpa using b.root
        have hle : (path v).length ≤ (path 0).length := by
          rcases List.mem_cons.1 h0mem with h3 | h3
          · rw [← h3]
          · have := b.sorted
            simp only [List.nil_append] at this
            exact List.rel_of_pairwise_cons this h3
        rw [t.path_root] at hle
        by_contra hne
        exact t.path_ne_nil hvlt hne (List.length_eq_zero.1 (Nat.le_zero.1 hle))
      obtain ⟨h1, e1, hj1⟩ := hV _ _ h v hj hvis hfirst
      have hout : OutgoingEdges h1 v =
          (h0.node v).trie_transitions.map fun t => ⟨v, t.2, t.1⟩ := by
        simp only [OutgoingEdges, hJ' v _ h1 hj1 v]
      have hk := t.keys_nodup v
      have hchild : ∀ e ∈ (h0.node v).trie_transitions,
          mapFind (h0.node v).trie_transitions e.1 = some e.2 :=
        fun e he => mapFind_of_mem _ _ _ hk he
      have hvpop : v ∉ popped := by
        intro hv
        have := (List.nodup_append.1 b.nodup).2.2
        exact this hv (List.mem_cons_self _ _) 
      have hnotD : ∀ m ∈ (h0.node v).trie_transitions.map Prod.snd, m ∉ popped ++ v :: q := by
        intro m hm hmD
        obtain ⟨e, he, rfl⟩ := List.mem_map.1 hm
        have hc := t.child v e.1 e.2 hvlt (hchild e he)
        have m0 : e.2 ≠ 0 := by
          intro e0
          have := hc.2
          rw [e0, t.path_root] at this
          simp at this
        obtain ⟨p, hp, c', hc'⟩ := b.par e.2 hmD m0
        have hplt : p < h0.size := b.lt p (List.mem_append_left _ hp)
        have e2 := (t.child p c' e.2 hplt hc').2
        have := List.append_inj' (e2.symm.trans hc.2) rfl
        have hpv : p = v := t.inj_path hplt hvlt this.1
        exact hvpop (hpv ▸ hp)
      obtain ⟨h2, e2, hj2⟩ := visitEdges_spec visitor v J' (hE v)
        (fun c m hm => (t.child v c m hvlt hm).1) (h0.node v).trie_transitions
        (popped ++ v :: q) h1 q hj1 hvis hchild (children_nodup t hvlt) hnotD
      have hD : popped ++ v :: q ++ (h0.node v).trie_transitions.map Prod.snd =
          (popped ++ [v]) ++ (q ++ (h0.node v).trie_transitions.map Prod.snd) := by
        simp
      have b' : BfsInv h0 path (popped ++ [v])
          (q ++ (h0.node v).trie_transitions.map Prod.snd) := by
        refine ⟨?_, ?_, ?_, ?_, ?_, ?_⟩
        · rw [← hD]
          refine List.Nodup.append b.nodup (children_nodup t hvlt) ?_
          intro x hx1 hx2
          exact hnotD x hx2 hx1
        · rw [← hD]
          intro m hm
          rcases List.mem_append.1 hm with h3 | h3
          · exact b.lt m h3
          · obtain ⟨e, he, rfl⟩ := List.mem_map.1 h3
            exact (t.child v e.1 e.2 hvlt (hchild e he)).1
        · rw [← hD]
          intro m hm m0
          rcases List.mem_append.1 hm with h3 | h3
          · obtain ⟨p, hp, c, hc⟩ := b.par m h3 m0
            exact ⟨p, List.mem_append_left _ hp, c, hc⟩
          · obtain ⟨e, he, rfl⟩ := List.mem_map.1 h3
            exact ⟨v, by simp, e.1, hchild e he⟩
        · rw [← hD]
          refine List.pairwise_append.2 ⟨b.sorted, ?_, ?_⟩
          · refine List.Pairwise.imp_of_mem ?_ (List.pairwise_of_forall (R := fun _ _ => True) (fun _ _ => trivial))
            intro x y hx hy _
            obtain ⟨e, he, rfl⟩ := List.mem_map.1 hx
            obtain ⟨e', he', rfl⟩ := List.mem_map.1 hy
            rw [(t.child v e.1 e.2 hvlt (hchild e he)).2,
              (t.child v e'.1 e'.2 hvlt (hchild e' he')).2]
            simp
          · intro x hx y hy
            obtain ⟨e, he, rfl⟩ := List.mem_map.1 hy
            rw [(t.child v e.1 e.2 hvlt (hchild e he)).2]
            simp only [List.length_append, List.length_singleton]
            have hpv : ∀ p ∈ popped, (path p).length ≤ (path v).length := by
              intro p hp
              exact (List.pairwise_append.1 b.sorted).2.2 p hp v (List.mem_cons_self _ _)
            by_cases x0 : x = 0
            · rw [x0, t.path_root]
              simp
            · obtain ⟨p, hp, c, hc⟩ := b.par x hx x0
              have hplt : p < h0.size := b.lt p (List.mem_append_left _ hp)
              rw [(t.child p c x hplt hc).2]
              simp only [List.length_append, List.length_singleton]
              have := hpv p hp
              omega
        · rw [← hD]
          intro p hp c m hm
          rcases List.mem_append.1 hp with h3 | h3
          · exact List.mem_append_left _ (b.closed p h3 c m hm)
          · simp only [List.mem_singleton] at h3
            subst h3
            exact List.mem_append_right _
              (List.mem_map.2 ⟨(c, m), mem_of_mapFind _ _ _ hm, rfl⟩)
        · rw [← hD]
          exact List.mem_append_left _ b.root
      have hj3 : J (popped ++ [v])
          ((popped ++ [v]) ++ (q ++ (h0.node v).trie_transitions.map Prod.snd)) h2 := by
        rw [← hD]
        exact hF v _ _ h2 hj2
      obtain ⟨h', D, e3, hj4, hall⟩ := ih (popped ++ [v]) _ h2 b' hj3 (by
        simp only [List.length_append, List.length_singleton]
        omega)
      refine ⟨h', D, ?_, hj4, hall⟩
      simp only [bfsLoop, e1, hout, e2, e3]

/-- Specification of `BreadthFirstSearch` from the root of a trie: the search
ends within its budget, having discovered every node. -/
theorem BreadthFirstSearch_spec (visitor : BfsVisitor) {h0 : Automaton}
    {path : Nat → List Char} (t : TrieInv h0 path) (J : List Nat → List Nat → Automaton → Prop)
    (J' : Nat → List Nat → Automaton → Prop)
    (hJ' : ∀ v D h, J' v D h →
      ∀ n, (h.node n).trie_transitions = (h0.node n).trie_transitions)
    (hV : ∀ popped D h v, J popped D h → Visiting h0 path v D → (popped = [] → v = 0) →
      ∃ h', visitor.ExamineVertex h v = some h' ∧ J' v D h')
    (hE : ∀ v D h c m, J' v D h → Visiting h0 path v D →
      mapFind (h0.node v).trie_transitions c = some m → m ∉ D →
      ∃ h1 h2, visitor.ExamineEdge h ⟨v, m, c⟩ = some h1 ∧
        visitor.DiscoverVertex h1 m = some h2 ∧ J' v (D ++ [m]) h2)
    (hF : ∀ v popped D h, J' v D h → J (popped ++ [v]) D h) (hinit : J [] [0] h0) :
    ∃ h' D, BreadthFirstSearch 0 h0 visitor = some h' ∧ J D D h' ∧
      ∀ n, n < h0.size → n ∈ D := by
  have b : BfsInv h0 path [] [0] := by
    refine ⟨by simp, ?_, ?_, by simp, ?_, by simp⟩
    · intro m hm
      simp only [List.nil_append, List.mem_singleton] at hm
      rw [hm]
      exact t.size_pos
    · intro m hm m0
      simp only [List.nil_append, List.mem_singleton] at hm
      exact absurd hm m0
    · intro p hp
      simp at hp
  exact bfsLoop_inv visitor t J J' hJ' hV hE hF h0.size [] [0] h0 b hinit (by simp)

end traverses

/-! ## The suffix-link pass -/

namespace aho_corasick

open traverses

theorem setSuffix_same (h : Automaton) (m : Nat) (x : Option Nat) :
    SameButSuffixAt m h (h.setSuffixLink m x) := by
  refine ⟨rfl, fun n => ?_⟩
  simp only [Automaton.setSuffixLink, setNode_node]
  by_cases h1 : n = m
  · subst h1
    simp
  · simp [h1]

@[simp] theorem setSuffixLink_size (h : Automaton) (m : Nat) (x : Option Nat) :
    (h.setSuffixLink m x).size = h.size := rfl

@[simp] theorem setSuffixLink_link (h : Automaton) (m : Nat) (x : Option Nat) :
    ((h.setSuffixLink m x).node m).suffix_link = x := by
  simp [Automaton.setSuffixLink]

theorem SameButSuffixAt.suffix_sameTrie {m : Nat} {h h' : Automaton} (a : SameButSuffixAt m h h') :
    SameTrie h h' :=
  ⟨a.1, fun n => ⟨(a.2 n).1, (a.2 n).2.1⟩⟩

theorem SameButSuffixAt.suffix_cacheOK {m : Nat} {h h' : Automaton} {path : Nat → List Char}
    {added : List (List Char × Nat)} (a : SameButSuffixAt m h h')
    (c : CacheOK h path added) : CacheOK h' path added := by
  intro n ch r hn hr
  rw [a.1] at hn ⊢
  have : getCache h' n ch = getCache h n ch := by
    simp only [getCache, (a.2 n).2.2.2.1]
  rw [this] at hr
  exact c n ch r hn hr

theorem SameButSuffixAt.suffix_suffixOK {m : Nat} {h h' : Automaton} {path : Nat → List Char}
    {added : List (List Char × Nat)} {n : Nat} (a : SameButSuffixAt m h h')
    (s : SuffixOK h path added n) (hn : n ≠ m) : SuffixOK h' path added n := by
  obtain ⟨x, h1, h2, h3⟩ := s
  exact ⟨x, by rw [(a.2 n).2.2.2.2 hn]; exact h1, by rw [a.1]; exact h2, h3⟩

theorem SufBase.setSuffix {h0 h h' : Automaton} {path : Nat → List Char}
    {added : List (List Char × Nat)} {m : Nat} (b : SufBase h0 h path added)
    (a : SameButSuffixAt m h h') : SufBase h0 h' path added :=
  ⟨b.same.trie_trans a.suffix_sameTrie, fun n => by rw [(a.2 n).2.2.1]; exact b.term n, a.suffix_cacheOK b.cache⟩

theorem suffixOK_at_root {h : Automaton} {path : Nat → List Char}
    {added : List (List Char × Nat)} (t : TrieOK h path added) :
    SuffixOK h path added 0 ↔ (h.node 0).suffix_link = some 0 := by
  constructor
  · rintro ⟨s, h1, h2, h3⟩
    rw [t.trie.path_root] at h3
    have : s = 0 := t.inj h2 t.trie.size_pos (by rw [h3, t.trie.path_root]; rfl)
    rw [h1, this]
  · intro h1
    exact ⟨0, h1, t.trie.size_pos, by rw [t.trie.path_root]; rfl⟩

theorem suffix_examineVertex {h0 : Automaton} {path : Nat → List Char}
    {added : List (List Char × Nat)} (t : TrieOK h0 path added)
    (popped D : List Nat) (h : Automaton) (v : Nat)
    (hj : SufJ h0 path added popped D h) (hv : Visiting h0 path v D)
    (hfirst : popped = [] → v = 0) :
    ∃ h', (SuffixLinkCalculator (some 0)).ExamineVertex h v = some h' ∧
      SufJ' h0 path added v D h' := by
  obtain ⟨base, hD, hroot⟩ := hj
  have th : TrieOK h path added := t.of_same base.same
  have h0D : (0 : Nat) ∈ D := hv.shallow 0 t.trie.size_pos (by simp [t.trie.path_root])
  suffices hs : ∃ h', (SuffixLinkCalculator (some 0)).ExamineVertex h v = some h' ∧
      SufBase h0 h' path added ∧ ∀ n ∈ D, SuffixOK h' path added n by
    obtain ⟨h', e1, e2, e3⟩ := hs
    exact ⟨h', e1, e2, e3, e3 0 h0D⟩
  by_cases hlink : (h.node v).suffix_link = none
  · have v0 : v = 0 := by
      by_contra hne
      obtain ⟨s, h1, _⟩ := hD v hv.mem hne
      rw [hlink] at h1
      exact Option.noConfusion h1
    subst v0
    have a := setSuffix_same h 0 (some 0)
    refine ⟨_, by simp only [SuffixLinkCalculator, hlink, if_true], base.setSuffix a, ?_⟩
    intro n hn
    by_cases n0 : n = 0
    · subst n0
      exact (suffixOK_at_root (th.of_same a.suffix_sameTrie)).2 (by simp)
    · exact a.suffix_suffixOK (hD n hn n0) n0
  · refine ⟨h, by simp only [SuffixLinkCalculator, hlink, if_false], base, ?_⟩
    have hr : SuffixOK h path added 0 := by
      rcases hroot with ⟨hp, hl⟩ | hr
      · have := hfirst hp
        subst this
        exact absurd hl hlink
      · exact hr
    intro n hn
    by_cases n0 : n = 0
    · subst n0
      exact hr
    · exact hD n hn n0

theorem suffix_examineEdge {h0 : Automaton} {path : Nat → List Char}
    {added : List (List Char × Nat)} (t : TrieOK h0 path added)
    (v : Nat) (D : List Nat) (h : Automaton) (c : Char) (m : Nat)
    (hj : SufJ' h0 path added v D h) (hv : Visiting h0 path v D)
    (hm : mapFind (h0.node v).trie_transitions c = some m) (hmD : m ∉ D) :
    ∃ h1 h2, (SuffixLinkCalculator (some 0)).ExamineEdge h ⟨v, m, c⟩ = some h1 ∧
      (SuffixLinkCalculator (some 0)).DiscoverVertex h1 m = some h2 ∧
      SufJ' h0 path added v (D ++ [m]) h2 := by
  obtain ⟨base, hD, _⟩ := hj
  have th : TrieOK h path added := t.of_same base.same
  have h0D : (0 : Nat) ∈ D := hv.shallow 0 t.trie.size_pos (by simp [t.trie.path_root])
  suffices hs : ∃ h1 h2, (SuffixLinkCalculator (some 0)).ExamineEdge h ⟨v, m, c⟩ = some h1 ∧
      (SuffixLinkCalculator (some 0)).DiscoverVertex h1 m = some h2 ∧
      SufBase h0 h2 path added ∧ ∀ n ∈ D ++ [m], SuffixOK h2 path added n by
    obtain ⟨h1, h2, e1, e2, e3, e4⟩ := hs
    exact ⟨h1, h2, e1, e2, e3, e4, e4 0 (List.mem_append_left _ h0D)⟩
  have hvlt : v < h0.size := hv.lt v hv.mem
  obtain ⟨hmlt, hpm⟩ := t.trie.child v c m hvlt hm
  have hmv : m ≠ v := fun e => hmD (e ▸ hv.mem)
  obtain ⟨s, hs1, hs2, hs3⟩ := hD v hv.mem
  have a1 := setSuffix_same h m (h.node v).suffix_link
  by_cases v0 : v = 0
  · subst v0
    have hs0 := (suffixOK_at_root th).1 ⟨s, hs1, hs2, hs3⟩
    refine ⟨_, _, by simp only [SuffixLinkCalculator, if_true], rfl, base.setSuffix a1, ?_⟩
    intro n hn
    rcases List.mem_append.1 hn with h3 | h3
    · exact a1.suffix_suffixOK (hD n h3) (fun e => hmD (e ▸ h3))
    · simp only [List.mem_singleton] at h3
      subst h3
      refine ⟨0, by simp [hs0], by simpa using th.trie.size_pos, ?_⟩
      rw [hpm, t.trie.path_root]
      rfl
  · have hne : ¬ ((some v : Option Nat) = some 0) := by simpa using v0
    have hsz : h.size = h0.size := base.same.1
    have b1 := base.setSuffix a1
    have t1 : TrieOK (h.setSuffixLink m (h.node v).suffix_link) path added :=
      th.of_same a1.suffix_sameTrie
    have hpv : path v ≠ [] := t.trie.path_ne_nil hvlt v0
    have hlen : (path s).length < (path v).length := by
      rw [hs3]
      have := longestPathSuffix_length_le added (path v).tail
      have : (path v).tail.length < (path v).length := by
        cases hp : path v with
        | nil => exact absurd hp hpv
        | cons a tl => simp
      omega
    have hdv := t.trie.depth_le v hvlt
    obtain ⟨h2, r, hr, l1, l2, s2, c2, _⟩ := GetAutomatonTransitionAux_spec c h.size
      (h.setSuffixLink m (h.node v).suffix_link) s t1 b1.cache
      (by simpa using hs2) (by omega)
      (fun u hu hul _ => by
        have hu' : u < h0.size := by simpa [hsz] using hu
        have huD : u ∈ D := hv.shallow u hu' (by omega)
        exact a1.suffix_suffixOK (hD u huD) (fun e => hmD (e ▸ huD)))
    have a3 := setSuffix_same h2 m (some r)
    have hex : (SuffixLinkCalculator (some 0)).ExamineEdge h ⟨v, m, c⟩ =
        some (h2.setSuffixLink m (some r)) := by
      rw [hs1] at hr
      simp only [SuffixLinkCalculator, hne, if_false, GetAutomatonTransition,
        setSuffixLink_size, setSuffixLink_link, hs1, hr]
    have b2 : SufBase h0 h2 path added :=
      ⟨b1.same.trie_trans s2.cache_sameTrie, fun n => by rw [(s2.2 n).2.2.2]; exact b1.term n, c2⟩
    refine ⟨_, _, hex, rfl, b2.setSuffix a3, ?_⟩
    intro n hn
    rcases List.mem_append.1 hn with h3 | h3
    · have hnm : n ≠ m := fun e => hmD (e ▸ h3)
      exact a3.suffix_suffixOK ((a1.suffix_suffixOK (hD n h3) hnm).of_cache_change s2) hnm
    · simp only [List.mem_singleton] at h3
      subst h3
      refine ⟨r, by simp, ?_, ?_⟩
      · simpa [s2.1] using l1
      · rw [l2, hs3, ← longestPathSuffix_snoc, hpm]
        cases hp : path v with
        | nil => exact absurd hp hpv
        | cons a tl => simp

/-- The arena after `BuildSuffixLinks`: every node carries its suffix link. -/
theorem BuildSuffixLinks_spec {h0 : Automaton} {path : Nat → List Char}
    {added : List (List Char × Nat)} (inv : BuildInv h0 path added added) :
    ∃ h1, BuildSuffixLinks h0 = some h1 ∧ SufBase h0 h1 path added ∧
      ∀ n, n < h0.size → SuffixOK h1 path added n := by
  have t := inv.trieOK
  have hinit : SufJ h0 path added [] [0] h0 := by
    refine ⟨⟨SameTrie.trie_refl _, fun n => (inv.fresh n).2.1, ?_⟩, ?_, Or.inl ⟨rfl, (inv.fresh 0).1⟩⟩
    · intro n c r _ hr
      simp [getCache, (inv.fresh n).2.2, mapFind] at hr
    · intro n hn n0
      simp only [List.mem_singleton] at hn
      exact absurd hn n0
  obtain ⟨h1, D, e, hj, hall⟩ := BreadthFirstSearch_spec (SuffixLinkCalculator (some 0))
    t.trie (SufJ h0 path added) (SufJ' h0 path added)
    (fun v D h hj n => (hj.1.same.2 n).1)
    (suffix_examineVertex t) (suffix_examineEdge t)
    (fun v popped D h hj => ⟨hj.1, fun n hn _ => hj.2.1 n hn, Or.inr hj.2.2⟩)
    hinit
  refine ⟨h1, e, hj.1, fun n hn => ?_⟩
  by_cases n0 : n = 0
  · subst n0
    rcases hj.2.2 with ⟨hD, _⟩ | hr
    · have := hall 0 hn
      rw [hD] at this
      simp at this
    · exact hr
  · exact hj.2.1 n (hall n hn) n0

end aho_corasick

/-! ## The terminal-link pass -/

namespace aho_corasick

open traverses

theorem SameButTerminal.terminal_refl (h : Automaton) : SameButTerminal h h :=
  ⟨rfl, fun _ => ⟨rfl, rfl, rfl, rfl⟩⟩

theorem SameButTerminal.terminal_trans {h1 h2 h3 : Automaton} (a : SameButTerminal h1 h2)
    (b : SameButTerminal h2 h3) : SameButTerminal h1 h3 :=
  ⟨b.1.trans a.1, fun n =>
    ⟨(b.2 n).1.trans (a.2 n).1, (b.2 n).2.1.trans (a.2 n).2.1,
      (b.2 n).2.2.1.trans (a.2 n).2.2.1, (b.2 n).2.2.2.trans (a.2 n).2.2.2⟩⟩

theorem SameButTerminal.terminal_sameTrie {h h' : Automaton} (a : SameButTerminal h h') :
    SameTrie h h' :=
  ⟨a.1, fun n => ⟨(a.2 n).1, (a.2 n).2.1⟩⟩

theorem SameButTerminal.terminal_cacheOK {h h' : Automaton} {path : Nat → List Char}
    {added : List (List Char × Nat)} (a : SameButTerminal h h')
    (c : CacheOK h path added) : CacheOK h' path added := by
  intro n ch r hn hr
  rw [a.1] at hn ⊢
  have : getCache h' n ch = getCache h n ch := by
    simp only [getCache, (a.2 n).2.2.2]
  rw [this] at hr
  exact c n ch r hn hr

theorem SameButTerminal.terminal_suffixOK {h h' : Automaton} {path : Nat → List Char}
    {added : List (List Char × Nat)} {n : Nat} (a : SameButTerminal h h')
    (s : SuffixOK h path added n) : SuffixOK h' path added n := by
  obtain ⟨x, h1, h2, h3⟩ := s
  exact ⟨x, by rw [(a.2 n).2.2.1]; exact h1, by rw [a.1]; exact h2, h3⟩

@[simp] theorem setTerminalLink_size (h : Automaton) (m : Nat) (x : Option Nat) :
    (h.setTerminalLink m x).size = h.size := rfl

@[simp] theorem setTerminalLink_link (h : Automaton) (m : Nat) (x : Option Nat) :
    ((h.setTerminalLink m x).node m).terminal_link = x := by
  simp [Automaton.setTerminalLink]

theorem setTerminalLink_node_ne (h : Automaton) (m : Nat) (x : Option Nat) (n : Nat)
    (hn : n ≠ m) : (h.setTerminalLink m x).node n = h.node n := by
  simp [Automaton.setTerminalLink, setNode_node, hn]

theorem setTerminalLink_same (h : Automaton) (m : Nat) (x : Option Nat) :
    SameButTerminal h (h.setTerminalLink m x) := by
  refine ⟨rfl, fun n => ?_⟩
  simp only [Automaton.setTerminalLink, setNode_node]
  by_cases h1 : n = m
  · subst h1
    simp
  · simp [h1]

theorem terminal_discoverVertex {h0 h1 : Automaton} {path : Nat → List Char}
    {added : List (List Char × Nat)} (t : TrieOK h0 path added) (hsz : h1.size = h0.size)
    (hsuf : ∀ n, n < h0.size → SuffixOK h1 path added n)
    (v : Nat) (D : List Nat) (h : Automaton) (c : Char) (m : Nat)
    (hj : TermJ h1 D h) (hv : Visiting h0 path v D)
    (hm : mapFind (h0.node v).trie_transitions c = some m) (hmD : m ∉ D) :
    ∃ h2 h3, (TerminalLinkCalculator (some 0)).ExamineEdge h ⟨v, m, c⟩ = some h2 ∧
      (TerminalLinkCalculator (some 0)).DiscoverVertex h2 m = some h3 ∧
      TermJ h1 (D ++ [m]) h3 := by
  obtain ⟨same, hroot, hrec, hclosed⟩ := hj
  have hvlt : v < h0.size := hv.lt v hv.mem
  obtain ⟨hmlt, hpm⟩ := t.trie.child v c m hvlt hm
  have h0D : (0 : Nat) ∈ D := hv.shallow 0 t.trie.size_pos (by simp [t.trie.path_root])
  have m0 : m ≠ 0 := fun e => hmD (e ▸ h0D)
  obtain ⟨s, hs1, hs2, hs3⟩ := same.terminal_suffixOK (hsuf m hmlt)
  have hsD : s ∈ D := by
    refine hv.shallow s (by rw [← hsz, ← same.1]; exact hs2) ?_
    rw [hs3, hpm]
    have := longestPathSuffix_length_le added (path v ++ [c]).tail
    have h2 : (path v ++ [c]).tail.length = (path v).length := by simp
    omega
  have hsm : s ≠ m := fun e => hmD (e ▸ hsD)
  -- the link written by `DiscoverVertex`
  obtain ⟨x, hx, hxv⟩ : ∃ x, (TerminalLinkCalculator (some 0)).DiscoverVertex h m =
      some (h.setTerminalLink m x) ∧
      x = if (h.node s).terminated_string_ids = [] then (h.node s).terminal_link
        else some s := by
    by_cases he : (h.node s).terminated_string_ids = []
    · exact ⟨(h.node s).terminal_link, by simp [TerminalLinkCalculator, hs1, he],
        by simp [he]⟩
    · exact ⟨some s, by simp [TerminalLinkCalculator, hs1, he], by simp [he]⟩
  refine ⟨h, _, rfl, hx, same.terminal_trans (setTerminalLink_same _ _ _), ?_, ?_, ?_⟩
  · rw [setTerminalLink_node_ne _ _ _ _ (Ne.symm m0)]
    exact hroot
  · intro n hn n0
    rcases List.mem_append.1 hn with h3 | h3
    · have hnm : n ≠ m := fun e => hmD (e ▸ h3)
      obtain ⟨s', e1, e2⟩ := hrec n h3 n0
      have hs'm : s' ≠ m := fun e => hmD (e ▸ hclosed n h3 n0 s' e1)
      refine ⟨s', ?_, ?_⟩
      · rw [setTerminalLink_node_ne _ _ _ _ hnm]
        exact e1
      · rw [setTerminalLink_node_ne _ _ _ _ hnm, setTerminalLink_node_ne _ _ _ _ hs'm]
        exact e2
    · simp only [List.mem_singleton] at h3
      subst h3
      refine ⟨s, ?_, ?_⟩
      · rw [((setTerminalLink_same h n x).2 n).2.2.1]
        exact hs1
      · rw [setTerminalLink_link, setTerminalLink_node_ne _ _ _ _ hsm]
        exact hxv
  · intro n hn n0 s' hs'
    rw [((setTerminalLink_same h m x).2 n).2.2.1] at hs'
    rcases List.mem_append.1 hn with h3 | h3
    · exact List.mem_append_left _ (hclosed n h3 n0 s' hs')
    · simp only [List.mem_singleton] at h3
      subst h3
      rw [hs1] at hs'
      exact List.mem_append_left _ ((Option.some.inj hs') ▸ hsD)

/-- The arena after `BuildTerminalLinks`. -/
theorem BuildTerminalLinks_spec {h0 h1 : Automaton} {path : Nat → List Char}
    {added : List (List Char × Nat)} (t : TrieOK h0 path added) (base : SufBase h0 h1 path added)
    (hsuf : ∀ n, n < h0.size → SuffixOK h1 path added n) :
    ∃ h2, BuildTerminalLinks h1 = some h2 ∧ SameButTerminal h1 h2 ∧
      (h2.node 0).terminal_link = none ∧ ∀ n, n < h0.size → n ≠ 0 → TermRec h2 n := by
  have t1 : TrieOK h1 path added := t.of_same base.same
  have hvis : ∀ v D, Visiting h1 path v D → Visiting h0 path v D := by
    intro v D hv
    exact ⟨hv.mem, fun x hx => by rw [← base.same.1]; exact hv.lt x hx,
      fun u hu hl => hv.shallow u (by rw [base.same.1]; exact hu) hl⟩
  obtain ⟨h2, D, e, hj, hall⟩ := BreadthFirstSearch_spec (TerminalLinkCalculator (some 0))
    t1.trie (fun _ D h => TermJ h1 D h) (fun _ D h => TermJ h1 D h)
    (fun v D h hj n => (hj.1.2 n).1)
    (fun popped D h v hj _ _ => ⟨h, rfl, hj⟩)
    (fun v D h c m hj hv hm hmD =>
      terminal_discoverVertex t base.same.1 hsuf v D h c m hj (hvis v D hv)
        (by rw [← (base.same.2 v).1]; exact hm) hmD)
    (fun v popped D h hj => hj)
    ⟨SameButTerminal.terminal_refl _, base.term 0, fun n hn n0 => by
        simp only [List.mem_singleton] at hn
        exact absurd hn n0,
      fun n hn n0 => by
        simp only [List.mem_singleton] at hn
        exact absurd hn n0⟩
  exact ⟨h2, e, hj.1, hj.2.1, fun n hn n0 =>
    hj.2.2.1 n (hall n (by rw [base.same.1]; exact hn)) n0⟩

/-- Totality of `Build()`: it returns an automaton, for every list of added pairs. -/
theorem Build_spec (added : List (List Char × Nat)) :
    ∃ h path, Build added = some h ∧ Built h path added := by
  obtain ⟨path, inv⟩ := BuildTrie_spec added
  have t := inv.trieOK
  obtain ⟨h1, e1, base, hsuf⟩ := BuildSuffixLinks_spec inv
  obtain ⟨h2, e2, same, hroot, hrec⟩ := BuildTerminalLinks_spec t base hsuf
  have hsz : h2.size = (BuildTrie added Automaton.new).size := same.1.trans base.same.1
  refine ⟨h2, path, by simp only [Build, e1, e2], ?_⟩
  exact ⟨(t.of_same base.same).of_same same.terminal_sameTrie,
    fun n hn => same.terminal_suffixOK (hsuf n (by rw [← hsz]; exact hn)), hroot,
    fun n hn n0 => hrec n (by rw [← hsz]; exact hn) n0, same.terminal_cacheOK base.cache⟩

end aho_corasick

namespace aho_corasick

theorem Built.child_of_path {h : Automaton} {path : Nat → List Char}
    {added : List (List Char × Nat)} (b : TrieOK h path added) {a m : Nat} {c : Char}
    (ha : a < h.size) (hm : m < h.size) (e : path m = path a ++ [c]) :
    mapFind (h.node a).trie_transitions c = some m := by
  cases hx : mapFind (h.node a).trie_transitions c with
  | none =>
    exact absurd (e ▸ b.paths m hm) (b.no_child ha hx)
  | some x =>
    obtain ⟨l1, l2⟩ := b.trie.child a c x ha hx
    rw [b.inj l1 hm (l2.trans e.symm)]

theorem trieWalk_iff {h : Automaton} {path : Nat → List Char}
    {added : List (List Char × Nat)} (b : TrieOK h path added) :
    ∀ (w : List Char) (a n : Nat), a < h.size →
      (trieWalk h a w = some n ↔ n < h.size ∧ path n = path a ++ w) := by
  intro w
  induction w with
  | nil =>
    intro a n ha
    simp only [trieWalk, Option.some.injEq, List.append_nil]
    constructor
    · rintro rfl
      exact ⟨ha, rfl⟩
    · rintro ⟨hn, e⟩
      exact (b.inj hn ha e).symm
  | cons c cs ih =>
    intro a n ha
    simp only [trieWalk, GetTrieTransition]
    constructor
    · intro hw
      cases hx : mapFind (h.node a).trie_transitions c with
      | none => simp [hx] at hw
      | some x =>
        simp only [hx] at hw
        obtain ⟨l1, l2⟩ := b.trie.child a c x ha hx
        have := (ih x n l1).1 hw
        exact ⟨this.1, by rw [this.2, l2]; simp⟩
    · rintro ⟨hn, e⟩
      obtain ⟨x, hx, ex⟩ := b.trie.prefix_node cs (path a ++ [c]) n hn (by rw [e]; simp)
      rw [Built.child_of_path b ha hx ex]
      exact (ih x n hx).2 ⟨hn, by rw [e, ex]; simp⟩

theorem trieWalk_from_root {h : Automaton} {path : Nat → List Char}
    {added : List (List Char × Nat)} (b : TrieOK h path added) (w : List Char) (n : Nat) :
    trieWalk h 0 w = some n ↔ n < h.size ∧ path n = w := by
  rw [trieWalk_iff b w 0 n b.trie.size_pos, b.trie.path_root, List.nil_append]

theorem Built.of_sameButCache {h h' : Automaton} {path : Nat → List Char}
    {added : List (List Char × Nat)} (b : Built h path added) (s : SameButCache h h')
    (c : CacheOK h' path added) : Built h' path added := by
  refine ⟨b.trie.of_same s.cache_sameTrie, ?_, ?_, ?_, c⟩
  · intro n hn
    rw [s.1] at hn
    exact (b.suffix n hn).of_cache_change s
  · rw [(s.2 0).2.2.2]
    exact b.term_root
  · intro n hn n0
    rw [s.1] at hn
    obtain ⟨x, e1, e2⟩ := b.term n hn n0
    refine ⟨x, by rw [(s.2 n).2.2.1]; exact e1, ?_⟩
    rw [(s.2 n).2.2.2, (s.2 x).2.1, (s.2 x).2.2.2]
    exact e2

/-- One transition of a built automaton. -/
theorem Built.transition {h : Automaton} {path : Nat → List Char}
    {added : List (List Char × Nat)} (b : Built h path added) {n : Nat} (hn : n < h.size)
    (c : Char) :
    ∃ h' r, GetAutomatonTransition h (some n) (some 0) c = some (h', some r) ∧
      r < h.size ∧ path r = longestPathSuffix added (path n ++ [c]) ∧
      SameButCache h h' ∧ Built h' path added := by
  have hd := b.trie.trie.depth_le n hn
  obtain ⟨h', r, e, l1, l2, s, c', _⟩ := GetAutomatonTransitionAux_spec c h.size h n b.trie
    b.cache hn (by omega) (fun u hu _ _ => b.suffix u hu)
  exact ⟨h', r, e, l1, l2, s, b.of_sameButCache s c'⟩

theorem Built.next {h : Automaton} {path : Nat → List Char}
    {added : List (List Char × Nat)} (b : Built h path added) {n : Nat} (hn : n < h.size)
    (c : Char) :
    ∃ h' r, NodeReference.Next h ⟨some n, some 0⟩ c = some (h', ⟨some r, some 0⟩) ∧
      r < h.size ∧ path r = longestPathSuffix added (path n ++ [c]) ∧
      SameButCache h h' ∧ Built h' path added := by
  obtain ⟨h', r, e, rest⟩ := b.transition hn c
  exact ⟨h', r, by simp only [NodeReference.Next, e], rest⟩

theorem longestPathSuffix_append (added : List (List Char × Nat)) (x y : List Char) :
    longestPathSuffix added (longestPathSuffix added x ++ y) =
      longestPathSuffix added (x ++ y) := by
  induction y using List.reverseRecOn with
  | nil =>
    simp only [List.append_nil]
    rw [longestPathSuffix_of_path (longestPathSuffix_spec added x).2.1]
  | append_singleton y d ih =>
    rw [← List.append_assoc, ← List.append_assoc, longestPathSuffix_snoc, ih,
      ← longestPathSuffix_snoc]

/-- Scanning a text from a node moves to the node of the longest suffix that is
a trie path. -/
theorem Built.scan {path : Nat → List Char} {added : List (List Char × Nat)} :
    ∀ (T : List Char) (h : Automaton) (n : Nat), Built h path added → n < h.size →
      ∃ h' r, scanText h ⟨some n, some 0⟩ T = some (h', ⟨some r, some 0⟩) ∧
        r < h.size ∧ path r = longestPathSuffix added (path n ++ T) ∧
        SameButCache h h' ∧ Built h' path added := by
  intro T
  induction T with
  | nil =>
    intro h n b hn
    refine ⟨h, n, rfl, hn, ?_, SameButCache.cache_refl h, b⟩
    rw [List.append_nil, longestPathSuffix_of_path (b.trie.paths n hn)]
  | cons c cs ih =>
    intro h n b hn
    obtain ⟨h1, r1, e1, l1, l2, s1, b1⟩ := b.next hn c
    obtain ⟨h2, r2, e2, m1, m2, s2, b2⟩ := ih h1 r1 b1 (by rw [s1.1]; exact l1)
    refine ⟨h2, r2, by simp only [scanText, e1, e2], by rw [← s1.1]; exact m1, ?_,
      s1.cache_trans s2, b2⟩
    rw [m2, l2, longestPathSuffix_append]
    simp

end aho_corasick

/-! ## Match enumeration -/

namespace aho_corasick

theorem foldl_snoc_eq (acc ids : List Nat) :
    ids.foldl (fun acc id => acc ++ [id]) acc = acc ++ ids := by
  induction ids generalizing acc with
  | nil => simp
  | cons a t ih => simp [ih]

/-- The loop of `GenerateMatches` reports the ids of the nodes of the terminal
chain, in order. -/
theorem generateMatchesLoop_eq_chain (h : Automaton) :
    ∀ (fuel : Nat) (x : Option Nat) (acc : List Nat),
      generateMatchesLoop h (fun acc id => acc ++ [id]) fuel x acc =
        (terminalChain h fuel x).map fun ch =>
          acc ++ ch.flatMap fun m => (h.node m).terminated_string_ids := by
  intro fuel
  induction fuel with
  | zero =>
    intro x acc
    simp [generateMatchesLoop, terminalChain]
  | succ fuel ih =>
    intro x acc
    cases x with
    | none => simp [generateMatchesLoop, terminalChain]
    | some n =>
      simp only [generateMatchesLoop, terminalChain, ih, foldl_snoc_eq, Option.map_map]
      congr 1
      funext ch
      simp

/-- A general callback sees the reported ids one after the other. -/
theorem generateMatchesLoop_fold {σ : Type} (h : Automaton) (f : σ → Nat → σ) :
    ∀ (fuel : Nat) (x : Option Nat) (s : σ),
      generateMatchesLoop h f fuel x s =
        (generateMatchesLoop h (fun acc id => acc ++ [id]) fuel x []).map
          fun ids => ids.foldl f s := by
  intro fuel
  induction fuel with
  | zero =>
    intro x s
    simp [generateMatchesLoop]
  | succ fuel ih =>
    intro x s
    cases x with
    | none => simp [generateMatchesLoop]
    | some n =>
      simp only [generateMatchesLoop]
      rw [ih, generateMatchesLoop_eq_chain h fuel _ (List.foldl _ _ _),
        generateMatchesLoop_eq_chain h fuel _ []]
      simp only [Option.map_map, foldl_snoc_eq, List.nil_append]
      congr 1
      funext ch
      simp [List.foldl_append]

theorem idsOf_eq_nil_of_not_path {added : List (List Char × Nat)} {w : List Char}
    (hw : ¬ IsTriePath added w) : idsOf added w = [] := by
  simp only [idsOf, List.map_eq_nil_iff, List.filter_eq_nil_iff]
  intro p hp hd
  have : p.1 = w := by simpa using hd
  exact hw (Or.inr ⟨p, hp, by rw [this]⟩)

theorem tails_flatMap_longestPathSuffix (added : List (List Char × Nat)) (t : List Char) :
    t.tails.flatMap (idsOf added) = (longestPathSuffix added t).tails.flatMap (idsOf added) := by
  induction t with
  | nil => rfl
  | cons a t ih =>
    by_cases hp : IsTriePath added (a :: t)
    · rw [longestPathSuffix_of_path hp]
    · have e : longestPathSuffix added (a :: t) = longestPathSuffix added t := by
        simp [longestPathSuffix, hp]
      rw [e, ← ih]
      simp [List.flatMap, idsOf_eq_nil_of_not_path hp]

theorem tails_eq_cons_tail (u : List Char) : u.tails = u :: u.tails.tail := by
  cases u <;> simp

theorem Built.ids_eq {h : Automaton} {path : Nat → List Char}
    {added : List (List Char × Nat)} (b : Built h path added) {n : Nat} (hn : n < h.size) :
    (h.node n).terminated_string_ids = idsOf added (path n) :=
  b.trie.ids n hn

theorem Built.suffix_depth {h : Automaton} {path : Nat → List Char}
    {added : List (List Char × Nat)} (b : Built h path added) {n : Nat} (hn : n < h.size)
    (n0 : n ≠ 0) :
    ∃ s, (h.node n).suffix_link = some s ∧ s < h.size ∧
      path s = longestPathSuffix added (path n).tail ∧ (path s).length < (path n).length := by
  obtain ⟨s, e1, e2, e3⟩ := b.suffix n hn
  refine ⟨s, e1, e2, e3, ?_⟩
  rw [e3]
  have h1 := longestPathSuffix_length_le added (path n).tail
  have hne := b.trie.trie.path_ne_nil hn n0
  have : (path n).tail.length < (path n).length := by
    cases hp : path n with
    | nil => exact absurd hp hne
    | cons a tl => simp
  omega

/-- From the terminal link of a node on, the loop reports the ids of the proper
suffixes of the node's path, longest first. -/
theorem Built.matches_link {h : Automaton} {path : Nat → List Char}
    {added : List (List Char × Nat)} (b : Built h path added) :
    ∀ (k n : Nat), (path n).length ≤ k → n < h.size →
      ∀ (fuel : Nat) (acc : List Nat), (path n).length + 1 ≤ fuel →
        generateMatchesLoop h (fun acc id => acc ++ [id]) fuel (h.node n).terminal_link acc =
          some (acc ++ (path n).tails.tail.flatMap (idsOf added)) := by
  intro k
  induction k with
  | zero =>
    intro n hk hn fuel acc hf
    have n0 : n = 0 := by
      by_contra hne
      exact b.trie.trie.path_ne_nil hn hne (List.length_eq_zero.1 (Nat.le_zero.1 hk))
    subst n0
    obtain ⟨f, rfl⟩ : ∃ f, fuel = f + 1 := ⟨fuel - 1, by omega⟩
    rw [b.term_root, b.trie.trie.path_root]
    simp [generateMatchesLoop]
  | succ k ih =>
    intro n hk hn fuel acc hf
    by_cases n0 : n = 0
    · subst n0
      obtain ⟨f, rfl⟩ : ∃ f, fuel = f + 1 := ⟨fuel - 1, by omega⟩
      rw [b.term_root, b.trie.trie.path_root]
      simp [generateMatchesLoop]
    · obtain ⟨s, e1, e2, e3, e4⟩ := b.suffix_depth hn n0
      obtain ⟨s', e1', e5⟩ := b.term n hn n0
      rw [e1] at e1'
      cases Option.some.inj e1'
      have htails : (path n).tails.tail.flatMap (idsOf added) =
          idsOf added (path s) ++ (path s).tails.tail.flatMap (idsOf added) := by
        have hne := b.trie.trie.path_ne_nil hn n0
        have : (path n).tails.tail = (path n).tail.tails := by
          cases hp : path n with
          | nil => exact absurd hp hne
          | cons a tl => simp
        rw [this, tails_flatMap_longestPathSuffix, ← e3, tails_eq_cons_tail (path s)]
        simp [List.flatMap]
      rw [htails, e5, ← b.ids_eq e2]
      by_cases he : (h.node s).terminated_string_ids = []
      · simp only [he, if_true, List.nil_append]
        exact ih s (by omega) e2 fuel acc (by omega)
      · simp only [he, if_false]
        obtain ⟨f, rfl⟩ : ∃ f, fuel = f + 1 := ⟨fuel - 1, by omega⟩
        simp only [generateMatchesLoop, foldl_snoc_eq]
        rw [ih s (by omega) e2 f _ (by omega), List.append_assoc]

/-- At a node with path `w`, `GenerateMatches` reports the ids of the
suffixes of `w`, longest first. -/
theorem Built.matchesAt_spec {h : Automaton} {path : Nat → List Char}
    {added : List (List Char × Nat)} (b : Built h path added) {n : Nat} (hn : n < h.size)
    (r : Option Nat) :
    aho_corasick.matchesAt h ⟨some n, r⟩ = some ((path n).tails.flatMap (idsOf added)) := by
  have hd := b.trie.trie.depth_le n hn
  simp only [aho_corasick.matchesAt, NodeReference.GenerateMatches, generateMatchesLoop,
    foldl_snoc_eq, List.nil_append]
  rw [b.matches_link _ n le_rfl hn h.size _ (by omega), b.ids_eq hn]
  conv_rhs => rw [tails_eq_cons_tail]
  simp [List.flatMap]

theorem filter_or_perm {α : Type} (l : List α) (P Q : α → Bool)
    (hd : ∀ x ∈ l, ¬ (P x = true ∧ Q x = true)) :
    (l.filter fun x => P x || Q x).Perm (l.filter P ++ l.filter Q) := by
  induction l with
  | nil => simp
  | cons x l ih =>
    have ih' := ih fun y hy => hd y (List.mem_cons_of_mem _ hy)
    have hx := hd x (List.mem_cons_self _ _)
    cases hp : P x with
    | true =>
      have hq : Q x = false := by
        cases hq : Q x with
        | false => rfl
        | true => exact absurd ⟨hp, hq⟩ hx
      simp only [List.filter_cons, hp, hq, Bool.or_false, if_true, List.cons_append]
      simpa using ih'.cons x
    | false =>
      cases hq : Q x with
      | true =>
        simp only [List.filter_cons, hp, hq, Bool.or_true, if_true]
        exact (ih'.cons x).trans List.perm_middle.symm
      | false =>
        simp only [List.filter_cons, hp, hq, Bool.or_false]
        simpa using ih'

/-- The ids of the suffixes of `w`, longest first, are the ids of the added
pairs whose word is a suffix of `w`. -/
theorem tails_flatMap_idsOf_perm (added : List (List Char × Nat)) (w : List Char) :
    (w.tails.flatMap (idsOf added)).Perm
      ((added.filter fun p => decide (p.1 <:+ w)).map Prod.snd) := by
  induction w with
  | nil =>
    have : (added.filter fun p => decide (p.1 <:+ ([] : List Char))) =
        added.filter fun p => decide (p.1 = []) := by
      apply List.filter_congr
      intro p _
      simp
    simp [List.flatMap, idsOf, this]
  | cons a t ih =>
    have e : (added.filter fun p => decide (p.1 <:+ a :: t)) =
        added.filter fun p => decide (p.1 = a :: t) || decide (p.1 <:+ t) := by
      apply List.filter_congr
      intro p _
      simp [List.suffix_cons_iff]
    have hdisj : ∀ p ∈ added,
        ¬ (decide (p.1 = a :: t) = true ∧ decide (p.1 <:+ t) = true) := by
      intro p _ hpq
      have h1 : p.1 = a :: t := by simpa using hpq.1
      have h2 : p.1 <:+ t := by simpa using hpq.2
      have := h2.length_le
      rw [h1] at this
      simp at this
    have h3 := (filter_or_perm added (fun p => decide (p.1 = a :: t))
      (fun p => decide (p.1 <:+ t)) hdisj).map Prod.snd
    rw [e]
    refine List.Perm.trans ?_ h3.symm
    simp only [List.tails_cons, List.flatMap, List.map_cons, List.flatten_cons, List.map_append]
    exact List.Perm.append_left _ ih

/-- The added words that are suffixes of `U` are the ones that are suffixes of
the longest suffix of `U` that is a trie path. -/
theorem filter_suffix_longestPathSuffix (added : List (List Char × Nat)) (U : List Char) :
    (added.filter fun p => decide (p.1 <:+ longestPathSuffix added U)) =
      added.filter fun p => decide (p.1 <:+ U) := by
  apply List.filter_congr
  intro p hp
  have hs := longestPathSuffix_spec added U
  have : p.1 <:+ longestPathSuffix added U ↔ p.1 <:+ U := by
    constructor
    · intro h1
      exact h1.trans hs.1
    · intro h1
      exact List.suffix_of_suffix_length_le h1 hs.1
        (hs.2.2 p.1 h1 (Or.inr ⟨p, hp, List.prefix_refl _⟩))
  simp [this]

theorem Built.scanMatches_spec {path : Nat → List Char} {added : List (List Char × Nat)} :
    ∀ (T : List Char) (h : Automaton) (n : Nat), Built h path added → n < h.size →
      ∃ out, aho_corasick.scanMatches h ⟨some n, some 0⟩ T = some out ∧
        out.length = T.length ∧
        ∀ i, i < T.length → out[i]? = some
          ((longestPathSuffix added (path n ++ T.take (i + 1))).tails.flatMap (idsOf added)) := by
  intro T
  induction T with
  | nil =>
    intro h n _ _
    exact ⟨[], rfl, rfl, fun i hi => by simp at hi⟩
  | cons c cs ih =>
    intro h n b hn
    obtain ⟨h1, r1, e1, l1, l2, s1, b1⟩ := b.next hn c
    have hr1 : r1 < h1.size := by rw [s1.1]; exact l1
    obtain ⟨out, e2, hlen, hout⟩ := ih h1 r1 b1 hr1
    refine ⟨(path r1).tails.flatMap (idsOf added) :: out, by simp only [aho_corasick.scanMatches, e1, b1.matchesAt_spec hr1, e2],
      by simp [hlen], ?_⟩
    intro i hi
    cases i with
    | zero => simp [l2]
    | succ i =>
      simp only [List.length_cons, Nat.add_lt_add_iff_right] at hi
      simp only [List.getElem?_cons_succ, hout i hi, l2, longestPathSuffix_append,
        List.take_succ_cons]
      simp

end aho_corasick

/-- C1: scanning a text `T` from `Root()` with `Next` and calling
`GenerateMatches` after every character reports, after the first `i`
characters, exactly the multiset of ids of the added pairs whose pattern is a
suffix of `T[0..i)`. -/
theorem scan_reports_exactly_suffix_patterns (added : List (List Char × Nat))
    (T : List Char) (i : Nat) (h1 : 1 ≤ i) (h2 : i ≤ T.length) :
    ∃ (h : Automaton) (out : List (List Nat)) (ids : List Nat),
      Build added = some h ∧ scanMatches h h.Root T = some out ∧
      out.length = T.length ∧ out[i - 1]? = some ids ∧
      Multiset.ofList ids =
        Multiset.ofList ((added.filter fun p => decide (p.1 <:+ T.take i)).map Prod.snd) := by
  obtain ⟨h, path, e, b⟩ := Build_spec added
  obtain ⟨out, e2, hlen, hout⟩ := Built.scanMatches_spec T h 0 b b.trie.trie.size_pos
  refine ⟨h, out, _, e, e2, hlen, hout (i - 1) (by omega), ?_⟩
  have hi : i - 1 + 1 = i := by omega
  rw [hi, b.trie.trie.path_root, List.nil_append]
  refine Multiset.coe_eq_coe.2 ((tails_flatMap_idsOf_perm added _).trans ?_)
  rw [filter_suffix_longestPathSuffix]

/-- The scenario of C1: patterns a, ab, bab, bc, bca, c, caa over the text
abccab; the ids reported after each of the six characters. -/
theorem scan_reports_exactly_suffix_patterns_witness :
    (1 ≤ 3 ∧ 3 ≤ "abccab".toList.length) ∧
    (∃ (h : Automaton) (out : List (List Nat)) (ids : List Nat),
      Build scenarioPatterns = some h ∧
      scanMatches h h.Root "abccab".toList = some out ∧
      out.length = "abccab".toList.length ∧ out[3 - 1]? = some ids ∧
      Multiset.ofList ids =
        Multiset.ofList ((scenarioPatterns.filter
            fun p => decide (p.1 <:+ "abccab".toList.take 3)).map Prod.snd)) ∧
    ((Build scenarioPatterns).bind fun h => scanMatches h h.Root "abccab".toList) =
      some [[1], [2], [4, 6], [6], [1], [2]] :=
  ⟨by decide, scan_reports_exactly_suffix_patterns _ _ 3 (by decide) (by decide), by decide⟩

namespace aho_corasick

theorem Built.closedTransition_spec {h : Automaton} {path : Nat → List Char}
    {added : List (List Char × Nat)} (b : Built h path added) (c : Char) :
    ∀ (fuel n : Nat), n < h.size → (path n).length < fuel →
      ∃ r, aho_corasick.closedTransition h fuel n c = some r ∧ r < h.size ∧
        path r = longestPathSuffix added (path n ++ [c]) := by
  intro fuel
  induction fuel with
  | zero =>
    intro n _ hf
    omega
  | succ fuel ih =>
    intro n hn hf
    simp only [aho_corasick.closedTransition, GetTrieTransition]
    cases hd : mapFind (h.node n).trie_transitions c with
    | some d =>
      obtain ⟨l1, l2⟩ := b.trie.trie.child n c d hn hd
      exact ⟨d, rfl, l1, by rw [← l2, longestPathSuffix_of_path (b.trie.paths d l1)]⟩
    | none =>
      have np := b.trie.no_child hn hd
      by_cases n0 : n = 0
      · subst n0
        refine ⟨0, by simp, hn, ?_⟩
        rw [longestPathSuffix_snoc_of_not_path np, b.trie.trie.path_root]
        have : ¬ IsTriePath added [c] := by simpa [b.trie.trie.path_root] using np
        simp [longestPathSuffix, this]
      · obtain ⟨s, e1, e2, e3, e4⟩ := b.suffix_depth hn n0
        obtain ⟨r, hr, l1, l2⟩ := ih s e2 (by omega)
        refine ⟨r, by simp only [n0, if_false, e1, hr], l1, ?_⟩
        rw [l2, e3, ← longestPathSuffix_snoc, longestPathSuffix_snoc_of_not_path np]

theorem Built.closed {h : Automaton} {path : Nat → List Char}
    {added : List (List Char × Nat)} (b : Built h path added) (c : Char) {n : Nat}
    (hn : n < h.size) :
    ∃ r, aho_corasick.closedTransition h h.size n c = some r ∧ r < h.size ∧
      path r = longestPathSuffix added (path n ++ [c]) := by
  have hd := b.trie.trie.depth_le n hn
  exact b.closedTransition_spec c h.size n hn (by omega)

theorem Built.has_path {h : Automaton} {path : Nat → List Char}
    {added : List (List Char × Nat)} (b : Built h path added) {n : Nat} (hn : n < h.size) :
    trieWalk h 0 (path n) = some n :=
  (trieWalk_from_root b.trie (path n) n).2 ⟨hn, rfl⟩

theorem Built.nextCalls_spec {path : Nat → List Char} {added : List (List Char × Nat)} :
    ∀ (calls : List (Nat × Char)) (h : Automaton), Built h path added →
      (∀ x ∈ calls, x.1 < h.size) →
      ∃ h', aho_corasick.nextCalls h calls = some h' ∧ SameButCache h h' ∧
        Built h' path added := by
  intro calls
  induction calls with
  | nil =>
    intro h b _
    exact ⟨h, rfl, SameButCache.cache_refl h, b⟩
  | cons x calls ih =>
    intro h b hv
    obtain ⟨h1, r, e1, _, _, s1, b1⟩ := b.next (hv x (List.mem_cons_self _ _)) x.2
    obtain ⟨h2, e2, s2, b2⟩ := ih h1 b1 fun y hy => by
      rw [s1.1]
      exact hv y (List.mem_cons_of_mem _ hy)
    refine ⟨h2, ?_, s1.cache_trans s2, b2⟩
    simp only [aho_corasick.nextCalls, Automaton.rootPtr, e1, e2]

end aho_corasick

/-- C3: after `Build`, `GetAutomatonTransition(n, root, c)` returns the trie
child of `n` on `c` if there is one; otherwise the root at the root, and the
result of `GetAutomatonTransition(suffix_link(n), root, c)` elsewhere.  The
result is the closed form, and it is the trie node of the longest suffix of
`path(n) + c` that is a trie path. -/
theorem transition_closed_form (added : List (List Char × Nat)) :
    ∃ h, Build added = some h ∧ ∀ (n : Nat) (c : Char), n < h.size →
      ∃ h' r, GetAutomatonTransition h (some n) h.rootPtr c = some (h', some r) ∧
        (∀ d, GetTrieTransition h n c = some d → r = d) ∧
        (GetTrieTransition h n c = none → n = 0 → r = 0) ∧
        (GetTrieTransition h n c = none → n ≠ 0 →
          ∃ s h'', (h.node n).suffix_link = some s ∧
            GetAutomatonTransition h (some s) h.rootPtr c = some (h'', some r)) ∧
        closedTransition h h.size n c = some r ∧
        (∃ w, trieWalk h 0 w = some n) ∧
        ∀ w, trieWalk h 0 w = some n →
          ∃ v, trieWalk h 0 v = some r ∧ IsLongestPathSuffix added v (w ++ [c]) := by
  obtain ⟨h, path, e, b⟩ := Build_spec added
  refine ⟨h, e, fun n c hn => ?_⟩
  obtain ⟨h', r, e1, l1, l2, _, _⟩ := b.transition hn c
  obtain ⟨r', e3, l3, l4⟩ := b.closed c hn
  have hrr : r' = r := b.trie.inj l3 l1 (l4.trans l2.symm)
  subst hrr
  refine ⟨h', r', e1, ?_, ?_, ?_, e3, ⟨path n, b.has_path hn⟩, ?_⟩
  · intro d hd
    obtain ⟨m1, m2⟩ := b.trie.trie.child n c d hn hd
    refine b.trie.inj l1 m1 ?_
    rw [l2, m2, ← m2, longestPathSuffix_of_path (b.trie.paths d m1)]
  · intro hd n0
    have np := b.trie.no_child hn hd
    subst n0
    refine b.trie.inj l1 hn ?_
    rw [l2, longestPathSuffix_snoc_of_not_path np, b.trie.trie.path_root]
    have : ¬ IsTriePath added [c] := by simpa [b.trie.trie.path_root] using np
    simp [longestPathSuffix, this]
  · intro hd n0
    have np := b.trie.no_child hn hd
    obtain ⟨s, e4, e5, e6, _⟩ := b.suffix_depth hn n0
    obtain ⟨h'', r2, e7, m1, m2, _, _⟩ := b.transition e5 c
    have : r2 = r' := by
      refine b.trie.inj m1 l1 ?_
      rw [m2, l2, e6, ← longestPathSuffix_snoc, longestPathSuffix_snoc_of_not_path np]
    subst this
    exact ⟨s, h'', e4, e7⟩
  · intro w hw
    have hp := ((trieWalk_from_root b.trie w n).1 hw).2
    refine ⟨path r', b.has_path l1, ?_⟩
    rw [l2, hp]
    exact longestPathSuffix_spec added _

/-- C4: in every cache state reached from the built automaton by `Next`
calls, following a character sequence from any node reaches the same node as on
the freshly built automaton; every non-null cache entry is the closed-form
transition, and one more call of `GetAutomatonTransition` keeps it so. -/
theorem memoization_unobservable (added : List (List Char × Nat)) :
    ∃ h, Build added = some h ∧
      ∀ calls : List (Nat × Char), (∀ x ∈ calls, x.1 < h.size) →
        ∃ h', nextCalls h calls = some h' ∧ h'.size = h.size ∧
          (∀ (n : Nat) (s : List Char), n < h.size →
            ∃ ha hb r, scanText h' ⟨some n, h'.rootPtr⟩ s = some (ha, r) ∧
              scanText h ⟨some n, h.rootPtr⟩ s = some (hb, r) ∧ r.node_ ≠ none) ∧
          (∀ (n : Nat) (c : Char) (r : Nat), n < h.size → getCache h' n c = some r →
            closedTransition h h.size n c = some r) ∧
          (∀ (n : Nat) (c : Char), n < h.size →
            ∃ h'' r, GetAutomatonTransition h' (some n) h'.rootPtr c = some (h'', some r) ∧
              closedTransition h h.size n c = some r ∧
              ∀ (n' : Nat) (c' : Char) (r' : Nat), n' < h.size →
                getCache h'' n' c' = some r' → closedTransition h h.size n' c' = some r') := by
  obtain ⟨h, path, e, b⟩ := Build_spec added
  refine ⟨h, e, fun calls hv => ?_⟩
  obtain ⟨h', e1, s1, b1⟩ := Built.nextCalls_spec calls h b hv
  have hcache : ∀ (g : Automaton), g.size = h.size → CacheOK g path added →
      ∀ (n : Nat) (c : Char) (r : Nat), n < h.size → getCache g n c = some r →
        closedTransition h h.size n c = some r := by
    intro g hg cg n c r hn hr
    obtain ⟨l1, l2⟩ := cg n c r (by rw [hg]; exact hn) hr
    obtain ⟨r', e3, l3, l4⟩ := b.closed c hn
    rw [e3, b.trie.inj l3 (by rw [← hg]; exact l1) (l4.trans l2.symm)]
  refine ⟨h', e1, s1.1, ?_, hcache h' s1.1 b1.cache, ?_⟩
  · intro n s hn
    obtain ⟨ha, r, e2, l1, l2, _, _⟩ := Built.scan s h' n b1 (by rw [s1.1]; exact hn)
    obtain ⟨hb, r', e3, m1, m2, _, _⟩ := Built.scan s h n b hn
    have : r = r' := b.trie.inj (by rw [← s1.1]; exact l1) m1 (l2.trans m2.symm)
    subst this
    exact ⟨ha, hb, _, e2, e3, by simp⟩
  · intro n c hn
    obtain ⟨h'', r, e2, l1, l2, s2, b2⟩ := b1.transition (by rw [s1.1]; exact hn) c
    obtain ⟨r', e3, l3, l4⟩ := b.closed c hn
    have : r' = r := b.trie.inj l3 (by rw [← s1.1]; exact l1) (l4.trans l2.symm)
    subst this
    exact ⟨h'', r', e2, e3, hcache h'' (s2.1.trans s1.1) b2.cache⟩

namespace aho_corasick

theorem Built.walk_iff_path {h : Automaton} {path : Nat → List Char}
    {added : List (List Char × Nat)} (b : Built h path added) (w : List Char) :
    (∃ n, trieWalk h 0 w = some n) ↔ IsTriePath added w := by
  constructor
  · rintro ⟨n, hn⟩
    obtain ⟨l1, l2⟩ := (trieWalk_from_root b.trie w n).1 hn
    exact l2 ▸ b.trie.paths n l1
  · intro hw
    obtain ⟨n, l1, l2⟩ := b.trie.complete w hw
    exact ⟨n, (trieWalk_from_root b.trie w n).2 ⟨l1, l2⟩⟩

end aho_corasick

/-- C5: after `Build`, the suffix link of every non-root trie node with path
`w` is the trie node of the longest proper suffix of `w` that is a trie path
(a prefix of an added pattern, or the empty string); it is the root for the
children of the root and when no non-empty proper suffix is a trie path. -/
theorem suffix_links_are_longest_proper_suffixes (added : List (List Char × Nat)) :
    ∃ h, Build added = some h ∧
      (∀ w, (∃ n, trieWalk h 0 w = some n) ↔ IsTriePath added w) ∧
      (∀ n, n < h.size → ∃ w, trieWalk h 0 w = some n) ∧
      ∀ (n : Nat) (w : List Char), n ≠ 0 → trieWalk h 0 w = some n →
        ∃ s v, (h.node n).suffix_link = some s ∧ trieWalk h 0 v = some s ∧
          IsLongestProperPathSuffix added v w ∧
          (w.length = 1 → s = 0) ∧
          ((∀ v', v' <:+ w → v' ≠ w → v' ≠ [] → ¬ IsTriePath added v') → s = 0) := by
  obtain ⟨h, path, e, b⟩ := Build_spec added
  refine ⟨h, e, b.walk_iff_path, fun n hn => ⟨path n, b.has_path hn⟩, ?_⟩
  intro n w n0 hw
  obtain ⟨hn, hp⟩ := (trieWalk_from_root b.trie w n).1 hw
  obtain ⟨s, e1, e2, e3, _⟩ := b.suffix_depth hn n0
  have hne := b.trie.trie.path_ne_nil hn n0
  rw [hp] at e3 hne
  cases w with
  | nil => exact absurd rfl hne
  | cons a t =>
    simp only [List.tail_cons] at e3
    have hl := isLongestProperPathSuffix_tail added a t
    have hroot : path s = [] → s = 0 := fun hs =>
      b.trie.inj e2 b.trie.trie.size_pos (hs.trans b.trie.trie.path_root.symm)
    refine ⟨s, path s, e1, b.has_path e2, e3 ▸ hl, ?_, ?_⟩
    · intro hlen
      have ht : t = [] := by
        simp only [List.length_cons, Nat.add_left_eq_self] at hlen
        exact List.length_eq_zero.1 hlen
      subst ht
      exact hroot (by rw [e3]; rfl)
    · intro hno
      apply hroot
      by_contra hs
      rw [e3] at hs
      exact hno _ hl.1 hl.2.1 hs hl.2.2.1

namespace aho_corasick

/-- The suffix chain of a node ends at the root within `depth` steps, and the
terminal link is its first node that carries ids. -/
theorem Built.suffixChain_spec {h : Automaton} {path : Nat → List Char}
    {added : List (List Char × Nat)} (b : Built h path added) :
    ∀ (k n : Nat), (path n).length ≤ k → n < h.size → n ≠ 0 →
      ∀ fuel, (path n).length ≤ fuel →
        ∃ s chain, (h.node n).suffix_link = some s ∧
          aho_corasick.suffixChain h fuel n = some chain ∧
          chain.getLast? = some 0 ∧ chain.head? = some s ∧ chain.length ≤ (path n).length ∧
          (h.node n).terminal_link =
            chain.find? fun m => !(h.node m).terminated_string_ids.isEmpty := by
  intro k
  induction k with
  | zero =>
    intro n hk hn n0
    exact absurd (List.length_eq_zero.1 (Nat.le_zero.1 hk)) (b.trie.trie.path_ne_nil hn n0)
  | succ k ih =>
    intro n hk hn n0 fuel hf
    obtain ⟨s, e1, e2, e3, e4⟩ := b.suffix_depth hn n0
    obtain ⟨s', e1', e5⟩ := b.term n hn n0
    rw [e1] at e1'
    cases Option.some.inj e1'
    have hpos : 0 < (path n).length :=
      List.length_pos.2 (b.trie.trie.path_ne_nil hn n0)
    obtain ⟨f, rfl⟩ : ∃ f, fuel = f + 1 := ⟨fuel - 1, by omega⟩
    by_cases s0 : s = 0
    · subst s0
      refine ⟨0, [0], e1, by simp [aho_corasick.suffixChain, e1], rfl, rfl, by simpa using hpos, ?_⟩
      rw [e5, b.term_root]
      by_cases he : (h.node 0).terminated_string_ids = [] <;> simp [he]
    · obtain ⟨s2, chain, e6, e7, e8, e9, e10, e11⟩ := ih s (by omega) e2 s0 f (by omega)
      have hcne : chain ≠ [] := by
        intro hc
        rw [hc] at e9
        simp at e9
      refine ⟨s, s :: chain, e1, by simp [aho_corasick.suffixChain, e1, s0, e7], ?_, rfl,
        by simp only [List.length_cons]; omega, ?_⟩
      · cases chain with
        | nil => exact absurd rfl hcne
        | cons c0 rest => simpa [List.getLast?_cons_cons] using e8
      · rw [e5, e11]
        by_cases he : (h.node s).terminated_string_ids = [] <;> simp [he]

/-- Terminal links point to strictly shallower nodes. -/
theorem Built.terminal_depth {h : Automaton} {path : Nat → List Char}
    {added : List (List Char × Nat)} (b : Built h path added) :
    ∀ (k n t : Nat), (path n).length ≤ k → n < h.size →
      (h.node n).terminal_link = some t →
      t < h.size ∧ (path t).length < (path n).length := by
  intro k
  induction k with
  | zero =>
    intro n t hk hn ht
    have n0 : n = 0 := by
      by_contra hne
      exact b.trie.trie.path_ne_nil hn hne (List.length_eq_zero.1 (Nat.le_zero.1 hk))
    subst n0
    rw [b.term_root] at ht
    exact Option.noConfusion ht
  | succ k ih =>
    intro n t hk hn ht
    by_cases n0 : n = 0
    · subst n0
      rw [b.term_root] at ht
      exact Option.noConfusion ht
    · obtain ⟨s, e1, e2, e3, e4⟩ := b.suffix_depth hn n0
      obtain ⟨s', e1', e5⟩ := b.term n hn n0
      rw [e1] at e1'
      cases Option.some.inj e1'
      rw [e5] at ht
      by_cases he : (h.node s).terminated_string_ids = []
      · simp only [he, if_true] at ht
        obtain ⟨l1, l2⟩ := ih s t (by omega) e2 ht
        exact ⟨l1, by omega⟩
      · simp only [he, if_false, Option.some.injEq] at ht
        subst ht
        exact ⟨e2, e4⟩

/-- The terminal chain of a node: strictly decreasing depth. -/
theorem Built.terminalChain_spec {h : Automaton} {path : Nat → List Char}
    {added : List (List Char × Nat)} (b : Built h path added) :
    ∀ (d : Nat) (x : Option Nat), (∀ m, x = some m → m < h.size ∧ (path m).length < d) →
      ∀ fuel, d + 1 ≤ fuel →
        ∃ chain, aho_corasick.terminalChain h fuel x = some chain ∧ chain.head? = x ∧
          chain.Pairwise (fun a b => (path b).length < (path a).length) ∧
          ∀ m ∈ chain, m < h.size ∧ (path m).length < d := by
  intro d
  induction d with
  | zero =>
    intro x hx fuel hf
    obtain ⟨f, rfl⟩ : ∃ f, fuel = f + 1 := ⟨fuel - 1, by omega⟩
    cases x with
    | none => exact ⟨[], rfl, rfl, List.Pairwise.nil, fun m hm => by simp at hm⟩
    | some m => exact absurd (hx m rfl).2 (Nat.not_lt_zero _)
  | succ d ih =>
    intro x hx fuel hf
    obtain ⟨f, rfl⟩ : ∃ f, fuel = f + 1 := ⟨fuel - 1, by omega⟩
    cases x with
    | none => exact ⟨[], rfl, rfl, List.Pairwise.nil, fun m hm => by simp at hm⟩
    | some m =>
      obtain ⟨hm, hd⟩ := hx m rfl
      have hlink : ∀ t, (h.node m).terminal_link = some t →
          t < h.size ∧ (path t).length < (path m).length :=
        fun t ht => b.terminal_depth _ m t le_rfl hm ht
      obtain ⟨chain, e1, e2, e3, e4⟩ := ih (h.node m).terminal_link
        (fun t ht => ⟨(hlink t ht).1, by have := (hlink t ht).2; omega⟩) f (by omega)
      have hall : ∀ t ∈ chain, (path t).length < (path m).length := by
        intro t ht
        cases chain with
        | nil => simp at ht
        | cons c0 rest =>
          have hc0 : (h.node m).terminal_link = some c0 := by simpa using e2.symm
          have h0 := (hlink c0 hc0).2
          rcases List.mem_cons.1 ht with h1 | h1
          · rw [h1]
            exact h0
          · have := List.rel_of_pairwise_cons e3 h1
            omega
      refine ⟨m :: chain, by simp [aho_corasick.terminalChain, e1], rfl,
        List.pairwise_cons.2 ⟨hall, e3⟩, ?_⟩
      intro t ht
      rcases List.mem_cons.1 ht with h1 | h1
      · rw [h1]
        exact ⟨hm, hd⟩
      · exact ⟨(e4 t h1).1, by have := (e4 t h1).2; omega⟩

/-- A list of nodes of strictly decreasing depth below `d` has at most `d`
elements, all different. -/
theorem decreasing_chain_bound {path : Nat → List Char} :
    ∀ (chain : List Nat) (d : Nat),
      chain.Pairwise (fun a b => (path b).length < (path a).length) →
      (∀ m ∈ chain, (path m).length < d) → chain.length ≤ d ∧ chain.Nodup := by
  intro chain
  induction chain with
  | nil =>
    intro d _ _
    exact ⟨Nat.zero_le _, List.nodup_nil⟩
  | cons a rest ih =>
    intro d hp hd
    obtain ⟨h1, h2⟩ := List.pairwise_cons.1 hp
    obtain ⟨l1, l2⟩ := ih (path a).length h2 h1
    have := hd a (List.mem_cons_self _ _)
    refine ⟨by simp only [List.length_cons]; omega, List.nodup_cons.2 ⟨?_, l2⟩⟩
    intro ha
    exact absurd (h1 a ha) (lt_irrefl _)

end aho_corasick

/-- C6: after `Build`, the terminal link of a non-root node is the first node
of its suffix-link chain (which ends at the root, the root included) whose
`terminated_string_ids` is not empty, and null when there is none; it obeys the
recurrence through the suffix link.  The terminal link of the root is null. -/
theorem terminal_links_nearest_pattern_suffix (added : List (List Char × Nat)) :
    ∃ h, Build added = some h ∧ (h.node 0).terminal_link = none ∧
      ∀ n, n < h.size → n ≠ 0 →
        ∃ s chain, (h.node n).suffix_link = some s ∧ suffixChain h h.size n = some chain ∧
          chain.head? = some s ∧ chain.getLast? = some 0 ∧
          (h.node n).terminal_link =
            chain.find? (fun m => !(h.node m).terminated_string_ids.isEmpty) ∧
          (h.node n).terminal_link =
            if (h.node s).terminated_string_ids ≠ [] then some s
            else (h.node s).terminal_link := by
  obtain ⟨h, path, e, b⟩ := Build_spec added
  refine ⟨h, e, b.term_root, fun n hn n0 => ?_⟩
  have hd := b.trie.trie.depth_le n hn
  obtain ⟨s, chain, e1, e2, e3, e4, _, e5⟩ := b.suffixChain_spec _ n le_rfl hn n0 h.size (by omega)
  obtain ⟨s', e1', e6⟩ := b.term n hn n0
  rw [e1] at e1'
  cases Option.some.inj e1'
  refine ⟨s, chain, e1, e2, e4, e3, e5, ?_⟩
  rw [e6]
  by_cases he : (h.node s).terminated_string_ids = [] <;> simp [he]

namespace aho_corasick

theorem pairwise_flatMap_depth (depth : Nat → Nat) (l : Nat → List Nat) :
    ∀ chain : List Nat, chain.Pairwise (fun a b => depth b < depth a) →
      (chain.flatMap fun m => (l m).map fun _ => depth m).Pairwise (· ≥ ·) := by
  intro chain
  induction chain with
  | nil =>
    intro _
    simp [List.flatMap]
  | cons a rest ih =>
    intro hp
    obtain ⟨h1, h2⟩ := List.pairwise_cons.1 hp
    simp only [List.flatMap, List.map_cons, List.flatten_cons]
    refine List.pairwise_append.2 ⟨?_, ih h2, ?_⟩
    · refine List.pairwise_of_forall_mem_list ?_
      intro x hx y hy
      obtain ⟨_, _, rfl⟩ := List.mem_map.1 hx
      obtain ⟨_, _, rfl⟩ := List.mem_map.1 hy
      exact le_rfl
    · intro x hx y hy
      obtain ⟨_, _, rfl⟩ := List.mem_map.1 hx
      obtain ⟨ys, hys, hy'⟩ := List.mem_flatten.1 hy
      obtain ⟨m, hm, rfl⟩ := List.mem_map.1 hys
      obtain ⟨_, _, rfl⟩ := List.mem_map.1 hy'
      exact Nat.le_of_lt (h1 m hm)

theorem Built.chain_of_node {h : Automaton} {path : Nat → List Char}
    {added : List (List Char × Nat)} (b : Built h path added) {n : Nat} (hn : n < h.size)
    (fuel : Nat) (hf : (path n).length + 2 ≤ fuel) :
    ∃ chain, aho_corasick.terminalChain h fuel (some n) = some chain ∧
      chain.head? = some n ∧
      chain.Pairwise (fun a b => (path b).length < (path a).length) ∧
      (∀ m ∈ chain, m < h.size) ∧ chain.Nodup ∧ chain.length ≤ (path n).length + 1 := by
  obtain ⟨chain, e1, e2, e3, e4⟩ := b.terminalChain_spec ((path n).length + 1) (some n)
    (fun m hm => by cases hm; exact ⟨hn, Nat.lt_succ_self _⟩) fuel (by omega)
  obtain ⟨l1, l2⟩ := decreasing_chain_bound chain _ e3 fun m hm => (e4 m hm).2
  exact ⟨chain, e1, e2, e3, fun m hm => (e4 m hm).1, l2, l1⟩

theorem Built.suffix_root {h : Automaton} {path : Nat → List Char}
    {added : List (List Char × Nat)} (b : Built h path added) :
    (h.node 0).suffix_link = some 0 :=
  (suffixOK_at_root b.trie).1 (b.suffix 0 b.trie.trie.size_pos)

theorem Built.iter_suffix_root {h : Automaton} {path : Nat → List Char}
    {added : List (List Char × Nat)} (b : Built h path added) (k : Nat) :
    iterLink (fun x => (h.node x).suffix_link) k 0 = some 0 := by
  induction k with
  | zero => rfl
  | succ k ih => simp only [iterLink, b.suffix_root, ih]

theorem Built.iter_suffix_depth {h : Automaton} {path : Nat → List Char}
    {added : List (List Char × Nat)} (b : Built h path added) :
    ∀ (k n m : Nat), n < h.size → n ≠ 0 →
      iterLink (fun x => (h.node x).suffix_link) (k + 1) n = some m →
      (path m).length < (path n).length := by
  intro k
  induction k with
  | zero =>
    intro n m hn n0 hm
    obtain ⟨s, e1, _, _, e4⟩ := b.suffix_depth hn n0
    simp only [iterLink, e1, Option.some.injEq] at hm
    exact hm ▸ e4
  | succ k ih =>
    intro n m hn n0 hm
    obtain ⟨s, e1, e2, _, e4⟩ := b.suffix_depth hn n0
    rw [iterLink] at hm
    simp only [e1] at hm
    by_cases s0 : s = 0
    · subst s0
      rw [b.iter_suffix_root] at hm
      cases Option.some.inj hm
      exact e4
    · have := ih s m e2 s0 hm
      omega

theorem Built.iter_terminal_depth {h : Automaton} {path : Nat → List Char}
    {added : List (List Char × Nat)} (b : Built h path added) :
    ∀ (k n m : Nat), n < h.size →
      iterLink (fun x => (h.node x).terminal_link) (k + 1) n = some m →
      m < h.size ∧ (path m).length < (path n).length := by
  intro k
  induction k with
  | zero =>
    intro n m hn hm
    cases ht : (h.node n).terminal_link with
    | none => simp [iterLink, ht] at hm
    | some t =>
      simp only [iterLink, ht, Option.some.injEq] at hm
      exact hm ▸ b.terminal_depth _ n t le_rfl hn ht
  | succ k ih =>
    intro n m hn hm
    rw [iterLink] at hm
    cases ht : (h.node n).terminal_link with
    | none => simp [ht] at hm
    | some t =>
      simp only [ht] at hm
      obtain ⟨l1, l2⟩ := b.terminal_depth _ n t le_rfl hn ht
      obtain ⟨l3, l4⟩ := ih t m l1 hm
      exact ⟨l3, by omega⟩

end aho_corasick

/-- C7: at every node `n` of a built automaton, `GenerateMatches` passes to
the callback the `terminated_string_ids` of `n`, `terminal_link(n)`,
`terminal_link(terminal_link(n))`, ... in that order.  The nodes of this chain
get strictly shallower, so the lengths of the reported patterns do not increase
along the output, and the ids at one node are the ids of the pairs added with
that node's string, in the order added. -/
theorem match_enumeration_order (added : List (List Char × Nat)) :
    ∃ h, Build added = some h ∧ ∀ n, n < h.size →
      ∃ (chain : List Nat) (depth : Nat → Nat),
        terminalChain h (h.size + 1) (some n) = some chain ∧ chain.head? = some n ∧
        (∀ r, matchesAt h ⟨some n, r⟩ =
          some (chain.flatMap fun m => (h.node m).terminated_string_ids)) ∧
        (∀ m ∈ chain, ∃ w, trieWalk h 0 w = some m ∧ w.length = depth m ∧
          (h.node m).terminated_string_ids = idsOf added w) ∧
        chain.Pairwise (fun a b => depth b < depth a) ∧
        (chain.flatMap fun m =>
          (h.node m).terminated_string_ids.map fun _ => depth m).Pairwise (· ≥ ·) := by
  obtain ⟨h, path, e, b⟩ := Build_spec added
  refine ⟨h, e, fun n hn => ?_⟩
  have hd := b.trie.trie.depth_le n hn
  obtain ⟨chain, e1, e2, e3, e4, _, _⟩ := b.chain_of_node hn (h.size + 1) (by omega)
  refine ⟨chain, fun m => (path m).length, e1, e2, ?_, ?_, e3,
    pairwise_flatMap_depth _ _ chain e3⟩
  · intro r
    simp only [matchesAt, NodeReference.GenerateMatches, generateMatchesLoop_eq_chain, e1,
      Option.map_some', List.nil_append]
  · intro m hm
    exact ⟨path m, b.has_path (e4 m hm), rfl, b.ids_eq (e4 m hm)⟩

/-- C8: for every list of added pairs (the empty string allowed) and every
node `n` of the built automaton, the terminal-link walk of `GenerateMatches`
started at `n` ends, visits no node twice and visits at most `depth(n) + 1`
nodes. -/
theorem match_enumeration_terminates (added : List (List Char × Nat)) :
    ∃ h, Build added = some h ∧ (∀ n, n < h.size → ∃ w, trieWalk h 0 w = some n) ∧
      ∀ (n : Nat) (w : List Char), trieWalk h 0 w = some n →
        (∃ ids, matchesAt h ⟨some n, h.rootPtr⟩ = some ids) ∧
        ∀ fuel, w.length + 2 ≤ fuel →
          ∃ chain, terminalChain h fuel (some n) = some chain ∧ chain.Nodup ∧
            chain.length ≤ w.length + 1 ∧
            generateMatchesLoop h (fun acc id => acc ++ [id]) fuel (some n) [] =
              some (chain.flatMap fun m => (h.node m).terminated_string_ids) := by
  obtain ⟨h, path, e, b⟩ := Build_spec added
  refine ⟨h, e, fun n hn => ⟨path n, b.has_path hn⟩, fun n w hw => ?_⟩
  obtain ⟨hn, hp⟩ := (trieWalk_from_root b.trie w n).1 hw
  subst hp
  refine ⟨⟨_, b.matchesAt_spec hn _⟩, fun fuel hf => ?_⟩
  obtain ⟨chain, e1, _, _, _, e5, e6⟩ := b.chain_of_node hn fuel hf
  refine ⟨chain, e1, e5, e6, ?_⟩
  simp only [generateMatchesLoop_eq_chain, e1, Option.map_some', List.nil_append]

/-- C9: after `Build`, the suffix link of the root is the root; for a non-root
node both links lead to strictly shallower nodes, the suffix links reach the
root within `depth(n)` steps, and no link path returns to its start. -/
theorem link_depth_invariant (added : List (List Char × Nat)) :
    ∃ h, Build added = some h ∧ (h.node 0).suffix_link = some 0 ∧
      (∀ n, n < h.size → ∃ w, trieWalk h 0 w = some n) ∧
      (∀ (n k : Nat), n < h.size →
        iterLink (fun x => (h.node x).terminal_link) (k + 1) n ≠ some n) ∧
      ∀ (n : Nat) (w : List Char), n ≠ 0 → trieWalk h 0 w = some n →
        (∃ s v, (h.node n).suffix_link = some s ∧ trieWalk h 0 v = some s ∧
          v.length < w.length) ∧
        (∀ t, (h.node n).terminal_link = some t →
          ∃ v, trieWalk h 0 v = some t ∧ v.length < w.length) ∧
        (∃ chain, suffixChain h w.length n = some chain ∧ chain.length ≤ w.length ∧
          chain.getLast? = some 0) ∧
        ∀ k, iterLink (fun x => (h.node x).suffix_link) (k + 1) n ≠ some n := by
  obtain ⟨h, path, e, b⟩ := Build_spec added
  refine ⟨h, e, b.suffix_root, fun n hn => ⟨path n, b.has_path hn⟩, ?_, ?_⟩
  · intro n k hn hk
    exact absurd (b.iter_terminal_depth k n n hn hk).2 (lt_irrefl _)
  · intro n w n0 hw
    obtain ⟨hn, hp⟩ := (trieWalk_from_root b.trie w n).1 hw
    subst hp
    obtain ⟨s, e1, e2, _, e4⟩ := b.suffix_depth hn n0
    refine ⟨⟨s, path s, e1, b.has_path e2, e4⟩, ?_, ?_, ?_⟩
    · intro t ht
      obtain ⟨l1, l2⟩ := b.terminal_depth _ n t le_rfl hn ht
      exact ⟨path t, b.has_path l1, l2⟩
    · obtain ⟨_, chain, _, c2, c3, _, c5, _⟩ :=
        b.suffixChain_spec _ n le_rfl hn n0 (path n).length le_rfl
      exact ⟨chain, c2, c5, c3⟩
    · intro k hk
      exact absurd (b.iter_suffix_depth k n n hn n0 hk) (lt_irrefl _)

/-- C10: `Next` is total on a built automaton: in every cache state reached
by `Next` calls, at the cursor reached from `Root()` over any text and for any
character, `Next` returns a cursor on a node of the same automaton, and every
node has a non-null suffix link. -/
theorem next_is_total (added : List (List Char × Nat)) :
    ∃ h, Build added = some h ∧
      ∀ calls : List (Nat × Char), (∀ x ∈ calls, x.1 < h.size) →
        ∃ h1, nextCalls h calls = some h1 ∧
          ∀ (T : List Char) (c : Char),
            ∃ h2 n h3 m, scanText h1 h1.Root T = some (h2, ⟨some n, h.rootPtr⟩) ∧
              n < h.size ∧
              NodeReference.Next h2 ⟨some n, h.rootPtr⟩ c = some (h3, ⟨some m, h.rootPtr⟩) ∧
              m < h.size ∧ h3.size = h.size ∧
              ∀ k, k < h.size → ∃ s, (h3.node k).suffix_link = some s ∧ s < h.size := by
  obtain ⟨h, path, e, b⟩ := Build_spec added
  refine ⟨h, e, fun calls hv => ?_⟩
  obtain ⟨h1, e1, s1, b1⟩ := Built.nextCalls_spec calls h b hv
  refine ⟨h1, e1, fun T c => ?_⟩
  obtain ⟨h2, n, e2, l1, _, s2, b2⟩ := Built.scan T h1 0 b1 b1.trie.trie.size_pos
  have hn2 : n < h2.size := by rw [s2.1]; exact l1
  obtain ⟨h3, m, e3, m1, _, s3, b3⟩ := b2.next hn2 c
  have hsz3 : h3.size = h.size := (s3.1.trans s2.1).trans s1.1
  refine ⟨h2, n, h3, m, e2, by rw [← s1.1]; exact l1, e3,
    by rw [← s1.1, ← s2.1]; exact m1, hsz3, fun k hk => ?_⟩
  obtain ⟨s, f1, f2, _⟩ := b3.suffix k (by rw [hsz3]; exact hk)
  exact ⟨s, f1, by rw [← hsz3]; exact f2⟩

/-! ## The wildcard matcher -/

namespace WildcardMatcher

theorem countOccurrence_getElem? (d : List Nat) (id j : Nat) :
    (countOccurrence d id)[j]? =
      d[j]?.map fun a => if id ≤ d.length ∧ d.length - id = j then a + 1 else a := by
  unfold countOccurrence
  by_cases h : d.length ≥ id
  · simp only [h, if_true, List.getElem?_modify, true_and, Option.map_eq_map]
  · have : ¬ id ≤ d.length := h
    simp [h, this]

theorem countOccurrence_length (d : List Nat) (id : Nat) :
    (countOccurrence d id).length = d.length := by
  unfold countOccurrence
  by_cases h : d.length ≥ id <;> simp [h]

theorem foldl_countOccurrence (ids : List Nat) (hids : ∀ id ∈ ids, 1 ≤ id) :
    ∀ (d : List Nat) (j : Nat),
      (ids.foldl countOccurrence d)[j]? = d[j]?.map fun a => a + ids.count (d.length - j) := by
  induction ids with
  | nil =>
    intro d j
    simp
  | cons id ids ih =>
    intro d j
    have h1 := hids id (List.mem_cons_self _ _)
    rw [List.foldl_cons, ih (fun x hx => hids x (List.mem_cons_of_mem _ hx)),
      countOccurrence_getElem?, countOccurrence_length]
    cases hj : d[j]? with
    | none => simp
    | some a =>
      have hlt : j < d.length := by
        by_contra hge
        rw [List.getElem?_eq_none (by omega)] at hj
        exact Option.noConfusion hj
      simp only [Option.map_some', Option.some.injEq, List.count_cons]
      by_cases h2 : id = d.length - j
      · subst h2
        have e1 : d.length - j ≤ d.length ∧ d.length - (d.length - j) = j := by omega
        simp only [e1, and_self, if_true, beq_self_eq_true]
        omega
      · have : ¬ (id ≤ d.length ∧ d.length - id = j) := by omega
        simp [this, h2]

theorem foldl_countOccurrence_length (ids : List Nat) :
    ∀ d : List Nat, (ids.foldl countOccurrence d).length = d.length := by
  induction ids with
  | nil => intro d; rfl
  | cons id ids ih =>
    intro d
    rw [List.foldl_cons, ih, countOccurrence_length]

end WildcardMatcher

namespace aho_corasick

theorem count_map_filter (added : List (List Char × Nat)) (P : List Char × Nat → Bool)
    (x : Nat) :
    ((added.filter P).map Prod.snd).count x =
      added.countP fun q => P q && decide (q.2 = x) := by
  induction added with
  | nil => rfl
  | cons q rest ih =>
    by_cases hp : P q = true
    · by_cases hx : q.2 = x
      · simp [List.filter_cons, hp, hx, ih, List.countP_cons]
      · simp [List.filter_cons, hp, hx, ih, List.countP_cons, List.count_cons]
    · simp [List.filter_cons, hp, ih, List.countP_cons]

theorem hits_succ (added : List (List Char × Nat)) (text : List Char) (p t : Nat)
    (hids : ∀ q ∈ added, 1 ≤ q.2) (hp : p ≤ t) :
    hits added text p (t + 1) = hits added text p t +
      ((added.filter fun q => decide (q.1 <:+ text.take (t + 1))).map Prod.snd).count
        (t + 1 - p) := by
  rw [count_map_filter]
  unfold hits
  induction added with
  | nil => rfl
  | cons q rest ih =>
    have ih' := ih fun x hx => hids x (List.mem_cons_of_mem _ hx)
    have h1 := hids q (List.mem_cons_self _ _)
    obtain ⟨w, id⟩ := q
    simp only at h1
    simp only [List.countP_cons, ih']
    by_cases h2 : p + id ≤ t
    · have h3 : p + id ≤ t + 1 := by omega
      have h4 : ¬ id = t + 1 - p := by omega
      simp [h2, h3, h4]
      omega
    · by_cases h3 : p + id = t + 1
      · have h4 : id = t + 1 - p := by omega
        subst h4
        rw [h3]
        by_cases h6 : w <:+ List.take (t + 1) text <;> simp [h6]
        omega
      · have h4 : ¬ id = t + 1 - p := by omega
        have h5 : ¬ p + id ≤ t + 1 := by omega
        simp [h2, h5, h4]

theorem hits_self (added : List (List Char × Nat)) (text : List Char) (p : Nat)
    (hids : ∀ q ∈ added, 1 ≤ q.2) : hits added text p p = 0 := by
  unfold hits
  rw [List.countP_eq_zero]
  intro q hq
  have := hids q hq
  simp
  intro h
  omega

end aho_corasick

namespace WildcardMatcher

theorem initLoop_append (l1 l2 : List (List Char)) :
    ∀ (a b : Nat) (c : List (List Char × Nat)),
      initLoop (l1 ++ l2) a b c =
        initLoop l2 (initLoop l1 a b c).1 (initLoop l1 a b c).2.1 (initLoop l1 a b c).2.2 := by
  induction l1 with
  | nil => intro a b c; rfl
  | cons f l1 ih =>
    intro a b c
    simp only [List.cons_append, initLoop]
    by_cases hf : f.isEmpty = true
    · simp [hf, ih]
    · simp [hf, ih]

theorem suffix_snoc_iff (x y : List Char) (a b : Char) :
    x ++ [a] <:+ y ++ [b] ↔ x <:+ y ∧ a = b := by
  rw [← List.reverse_prefix, List.reverse_append, List.reverse_append]
  simp only [List.reverse_singleton, List.singleton_append]
  rw [List.cons_prefix_cons, List.reverse_prefix]
  exact and_comm

theorem suffix_take_succ (cur txt : List Char) (a : Char) (k : Nat) (hk : k < txt.length) :
    cur ++ [a] <:+ txt.take (k + 1) ↔ cur <:+ txt.take k ∧ txt[k]? = some a := by
  rw [List.take_succ, List.getElem?_eq_getElem hk]
  simp only [Option.toList_some]
  rw [suffix_snoc_iff]
  simp [eq_comm]

theorem fuzzyPrefix_snoc (wc : Char) (pre txt : List Char) (a : Char) :
    FuzzyPrefix wc (pre ++ [a]) txt ↔
      FuzzyPrefix wc pre txt ∧ (a = wc ∨ txt[pre.length]? = some a) := by
  constructor
  · intro hf
    refine ⟨fun j hj => ?_, ?_⟩
    · have := hf j (by simp; omega)
      rwa [List.getElem?_append_left hj] at this
    · have := hf pre.length (by simp)
      simp only [List.getElem?_concat_length, Option.some.injEq] at this
      rcases this with h | h
      · exact Or.inl h
      · exact Or.inr h.symm
  · rintro ⟨hf, ha⟩ j hj
    simp only [List.length_append, List.length_singleton] at hj
    by_cases hlt : j < pre.length
    · rw [List.getElem?_append_left hlt]
      exact hf j hlt
    · have : j = pre.length := by omega
      subst this
      simp only [List.getElem?_concat_length, Option.some.injEq]
      rcases ha with h | h
      · exact Or.inl h
      · exact Or.inr h.symm

/-- Closing the fragment `cur` at the end of `pre`. -/
theorem SplitInv.close {wc : Char} {pre : List Char} {subs : List (List Char)}
    {cur : List Char} (inv : SplitInv wc pre subs cur) :
    (initLoop (subs ++ [cur]) 0 0 []).1 = pre.length + 1 ∧
    (initLoop (subs ++ [cur]) 0 0 []).2.1 = (initLoop (subs ++ [cur]) 0 0 []).2.2.length ∧
    (∀ q ∈ (initLoop (subs ++ [cur]) 0 0 []).2.2,
      1 ≤ q.2 ∧ q.1.length ≤ q.2 ∧ q.2 ≤ pre.length) ∧
    ∀ txt : List Char, pre.length ≤ txt.length →
      (FuzzyPrefix wc pre txt ↔
        ∀ q ∈ (initLoop (subs ++ [cur]) 0 0 []).2.2, q.1 <:+ txt.take q.2) := by
  have ht := inv.total
  rw [initLoop_append]
  by_cases hc : cur = []
  · subst hc
    simp only [List.length_nil, Nat.add_zero] at ht
    simp only [initLoop, List.isEmpty_nil, not_true_eq_false, if_false, List.length_nil,
      Nat.add_zero]
    refine ⟨by omega, inv.words, fun q hq => ?_, fun txt hl => ?_⟩
    · have := inv.bound q hq
      omega
    · rw [inv.fuzzy txt hl]
      simp
  · have hne : cur.isEmpty = false := by simpa using hc
    have hpos : 0 < cur.length := List.length_pos.2 hc
    simp only [initLoop, hne, Bool.false_eq_true, not_false_eq_true, if_true]
    refine ⟨by omega, by simp [inv.words], fun q hq => ?_, fun txt hl => ?_⟩
    · rcases List.mem_append.1 hq with h1 | h1
      · have := inv.bound q h1
        omega
      · simp only [List.mem_singleton] at h1
        subst h1
        simp only
        omega
    · rw [inv.fuzzy txt hl]
      constructor
      · rintro ⟨h1, h2⟩ q hq
        rcases List.mem_append.1 hq with h3 | h3
        · exact h1 q h3
        · simp only [List.mem_singleton] at h3
          subst h3
          simpa [ht] using h2
      · intro h1
        refine ⟨fun q hq => h1 q (List.mem_append_left _ hq), ?_⟩
        have := h1 (cur, (initLoop subs 0 0 []).1 + cur.length) (by simp)
        simpa [ht] using this

theorem splitLoop_spec (wc : Char) :
    ∀ (rest pre : List Char) (subs : List (List Char)) (cur : List Char),
      SplitInv wc pre subs cur →
      (initLoop (splitLoop (fun s => s == wc) rest cur subs) 0 0 []).2.1 =
        (initLoop (splitLoop (fun s => s == wc) rest cur subs) 0 0 []).2.2.length ∧
      (∀ q ∈ (initLoop (splitLoop (fun s => s == wc) rest cur subs) 0 0 []).2.2,
        1 ≤ q.2 ∧ q.1.length ≤ q.2 ∧ q.2 ≤ (pre ++ rest).length) ∧
      ∀ txt : List Char, (pre ++ rest).length ≤ txt.length →
        (FuzzyPrefix wc (pre ++ rest) txt ↔
          ∀ q ∈ (initLoop (splitLoop (fun s => s == wc) rest cur subs) 0 0 []).2.2,
            q.1 <:+ txt.take q.2) := by
  intro rest
  induction rest with
  | nil =>
    intro pre subs cur inv
    simp only [splitLoop, List.append_nil]
    by_cases hc : cur = []
    · subst hc
      have ht := inv.total
      simp only [List.isEmpty_nil, if_true]
      refine ⟨inv.words, fun q hq => ?_, fun txt hl => ?_⟩
      · have := inv.bound q hq
        simp only [List.length_nil, Nat.add_zero] at ht
        omega
      · rw [inv.fuzzy txt hl]
        simp
    · have hne : ¬ cur.isEmpty = true := by simpa using hc
      simp only [hne, if_false]
      exact inv.close.2
  | cons a rest ih =>
    intro pre subs cur inv
    have e : pre ++ a :: rest = (pre ++ [a]) ++ rest := by simp
    rw [e]
    by_cases ha : a = wc
    · subst ha
      simp only [splitLoop, beq_self_eq_true, if_true]
      obtain ⟨c1, c2, c3, c4⟩ := inv.close
      refine ih (pre ++ [a]) (subs ++ [cur]) [] ⟨?_, c2, fun q hq => ?_, fun txt hl => ?_⟩
      · simp [c1]
      · have := c3 q hq
        omega
      · simp only [List.length_append, List.length_singleton] at hl
        rw [fuzzyPrefix_snoc, c4 txt (by omega)]
        simp
    · have hb : (a == wc) = false := by simpa using ha
      simp only [splitLoop, hb, Bool.false_eq_true, if_false]
      refine ih (pre ++ [a]) subs (cur ++ [a]) ⟨?_, inv.words, inv.bound, fun txt hl => ?_⟩
      · have := inv.total
        simp only [List.length_append, List.length_singleton]
        omega
      · simp only [List.length_append, List.length_singleton] at hl
        rw [fuzzyPrefix_snoc, inv.fuzzy txt (by omega), List.length_append,
          List.length_singleton, suffix_take_succ cur txt a pre.length (by omega)]
        simp [ha, and_assoc]

/-- The pairs that `Init` passes to the builder determine whether the pattern
matches at the beginning of a text. -/
theorem init_pairs_spec (pattern : List Char) (wc : Char) :
    (initLoop (Split pattern fun s => s == wc) 0 0 []).2.1 =
      (initLoop (Split pattern fun s => s == wc) 0 0 []).2.2.length ∧
    (∀ q ∈ (initLoop (Split pattern fun s => s == wc) 0 0 []).2.2,
      1 ≤ q.2 ∧ q.1.length ≤ q.2 ∧ q.2 ≤ pattern.length) ∧
    ∀ txt : List Char, pattern.length ≤ txt.length →
      (FuzzyPrefix wc pattern txt ↔
        ∀ q ∈ (initLoop (Split pattern fun s => s == wc) 0 0 []).2.2,
          q.1 <:+ txt.take q.2) := by
  have inv : SplitInv wc [] [] [] :=
    ⟨rfl, rfl, fun q hq => by simp [initLoop] at hq, fun txt _ => by
      simp [FuzzyPrefix, initLoop]⟩
  simpa [Split] using splitLoop_spec wc pattern [] [] [] inv

/-- The counters after the callbacks of one `UpdateWordOccurrences`. -/
theorem window_update (added : List (List Char × Nat)) (text : List Char) (lo len t : Nat)
    (hlen : lo + len = t + 1) (hids : ∀ q ∈ added, 1 ≤ q.2) (ids : List Nat)
    (hperm : ids.Perm
      ((added.filter fun q => decide (q.1 <:+ text.take (t + 1))).map Prod.snd)) :
    ids.foldl countOccurrence ((List.range len).map fun j => hits added text (lo + j) t) =
      (List.range len).map fun j => hits added text (lo + j) (t + 1) := by
  have hpos : ∀ id ∈ ids, 1 ≤ id := by
    intro id hid
    have := (hperm.mem_iff).1 hid
    obtain ⟨q, hq, rfl⟩ := List.mem_map.1 this
    exact hids q (List.mem_of_mem_filter hq)
  apply List.ext_getElem?
  intro j
  rw [foldl_countOccurrence ids hpos]
  by_cases hj : j < len
  · simp only [List.getElem?_map, List.getElem?_range hj, Option.map_some', List.length_map,
      List.length_range, Option.some.injEq]
    rw [hits_succ added text (lo + j) t hids (by omega), hperm.count_eq]
    congr 2
    omega
  · have h1 : ((List.range len).map fun j => hits added text (lo + j) t)[j]? = none :=
      List.getElem?_eq_none (by simp; omega)
    have h2 : ((List.range len).map fun j => hits added text (lo + j) (t + 1))[j]? = none :=
      List.getElem?_eq_none (by simp; omega)
    rw [h1, h2]
    rfl

theorem size_t_sub_eq (a b : Nat) (ha : a < 2 ^ 64) (hb : b ≤ a) : size_t_sub a b = a - b := by
  unfold size_t_sub
  have h1 : a % 2 ^ 64 = a := Nat.mod_eq_of_lt ha
  have h2 : b % 2 ^ 64 = b := Nat.mod_eq_of_lt (by omega)
  rw [h1, h2]
  have h3 : a + 2 ^ 64 - b = (a - b) + 2 ^ 64 := by omega
  rw [h3, Nat.add_mod_right]
  exact Nat.mod_eq_of_lt (by omega)

theorem scan_step (added : List (List Char × Nat)) (text : List Char) (L t : Nat)
    (hL : 1 ≤ L) (hids : ∀ q ∈ added, 1 ≤ q.2) (htext : text.length < 2 ^ 64)
    (m : WildcardMatcher) (occ : List Nat) (inv : MatcherInv added text L t m occ)
    (c : Char) (hc : text[t]? = some c) :
    ∃ m' occ', m.Scan c (fun o => o ++ [size_t_sub (t + 1) L]) occ = some (m', occ') ∧
      MatcherInv added text L (t + 1) m' occ' := by
  obtain ⟨h, path, n, e1, b, e2, hn, hp, e3, e4, e5, e6⟩ := inv
  have ht : t < text.length := by
    by_contra hge
    rw [List.getElem?_eq_none (by omega)] at hc
    exact Option.noConfusion hc
  obtain ⟨h1, r, f1, f2, f3, s1, b1⟩ := b.next hn c
  have hr : r < h1.size := by rw [s1.1]; exact f2
  have htake : text.take (t + 1) = text.take t ++ [c] := by
    rw [List.take_succ, hc]
    rfl
  have hpr : path r = longestPathSuffix added (text.take (t + 1)) := by
    rw [f3, hp, htake, ← longestPathSuffix_snoc]
  -- the ids reported at the new state
  have hgen : generateMatchesLoop h1 countOccurrence (h1.size + 1) (some r)
      (m.words_occurrences_by_position_ ++ [0]) =
      some (((path r).tails.flatMap (idsOf added)).foldl countOccurrence
        (m.words_occurrences_by_position_ ++ [0])) := by
    have := b1.matchesAt_spec hr (some 0)
    simp only [matchesAt, NodeReference.GenerateMatches] at this
    rw [generateMatchesLoop_fold, this]
    rfl
  have hperm : ((path r).tails.flatMap (idsOf added)).Perm
      ((added.filter fun q => decide (q.1 <:+ text.take (t + 1))).map Prod.snd) := by
    have := tails_flatMap_idsOf_perm added (path r)
    rw [hpr, filter_suffix_longestPathSuffix] at this
    rw [hpr]
    exact this
  have hlo : t + 1 - L ≤ t := by omega
  have hwin0 : m.words_occurrences_by_position_ ++ [0] =
      (List.range (t - (t + 1 - L) + 1)).map fun j => hits added text (t + 1 - L + j) t := by
    rw [e5, List.range_succ, List.map_append]
    congr 1
    simp only [List.map_cons, List.map_nil]
    have : t + 1 - L + (t - (t + 1 - L)) = t := by omega
    rw [this, hits_self added text t hids]
  have hwin := window_update added text (t + 1 - L) (t - (t + 1 - L) + 1) t (by omega) hids _
    hperm
  rw [← hwin0] at hwin
  obtain ⟨words, state, nw, L', aut⟩ := m
  simp only at e1 e2 e3 e4 e5 hgen hwin
  subst e1 e2 e3
  have e4' := e4.symm
  subst e4'
  simp only [Scan, f1, UpdateWordOccurrences, NodeReference.GenerateMatches, hgen, hwin,
    List.length_map, List.length_range, ShiftWordOccurrencesCounters]
  by_cases hfull : L ≤ t + 1
  · have hlen : t - (t + 1 - L) + 1 ≥ L := by omega
    have hlen' : t - (t + 1 - L) + 1 = (L - 1) + 1 := by omega
    simp only [hlen, if_true]
    refine ⟨_, _, rfl, h1, path, r, rfl, b1, rfl, hr, hpr, rfl, rfl, ?_, ?_⟩
    · simp only
      rw [hlen', List.range_succ_eq_map, List.map_cons, List.tail_cons, List.map_map]
      have hl2 : t + 1 - (t + 1 + 1 - L) = L - 1 := by omega
      rw [hl2]
      apply List.map_congr_left
      intro j _
      simp only [Function.comp]
      congr 1
      omega
    · have hl3 : t + 1 + 1 - L = (t + 1 - L) + 1 := by omega
      have hsub : size_t_sub (t + 1) L = t + 1 - L := size_t_sub_eq _ _ (by omega) hfull
      have hhead : ((List.range (t - (t + 1 - L) + 1)).map fun j =>
          hits added text (t + 1 - L + j) (t + 1)).head? =
          some (hits added text (t + 1 - L) (t + 1)) := by
        rw [hlen', List.range_succ_eq_map]
        simp
      have hplus : t + 1 - L + L = t + 1 := by omega
      rw [hhead, hsub, hl3, List.range_succ, List.filter_append, ← e6]
      by_cases hm : hits added text (t + 1 - L) (t + 1) = added.length
      · simp [hm, hplus]
      · simp [hm, hplus]
  · have hlen : ¬ (t - (t + 1 - L) + 1 ≥ L) := by omega
    simp only [hlen, if_false]
    refine ⟨_, _, rfl, h1, path, r, rfl, b1, rfl, hr, hpr, rfl, rfl, ?_, ?_⟩
    · simp only
      have h0 : t + 1 - L = 0 := by omega
      have h0' : t + 1 + 1 - L = 0 := by omega
      rw [h0, h0']
      simp
    · have h0 : t + 1 - L = 0 := by omega
      have h0' : t + 1 + 1 - L = 0 := by omega
      rw [e6, h0, h0']

theorem findFuzzyLoop_spec (added : List (List Char × Nat)) (text : List Char) (L : Nat)
    (hL : 1 ≤ L) (hids : ∀ q ∈ added, 1 ≤ q.2) (htext : text.length < 2 ^ 64) :
    ∀ (rest : List Char) (t : Nat) (m : WildcardMatcher) (occ : List Nat),
      text.drop t = rest → t ≤ text.length → MatcherInv added text L t m occ →
      findFuzzyLoop L rest t m occ =
        some ((List.range (text.length + 1 - L)).filter fun p =>
          decide (hits added text p (p + L) = added.length)) := by
  intro rest
  induction rest with
  | nil =>
    intro t m occ hd ht inv
    have hlen : text.length ≤ t := by
      have := congrArg List.length hd
      simp only [List.length_drop, List.length_nil] at this
      omega
    have : t = text.length := by omega
    subst this
    obtain ⟨_, _, _, _, _, _, _, _, _, _, _, e6⟩ := inv
    simp only [findFuzzyLoop, e6]
  | cons c rest ih =>
    intro t m occ hd ht inv
    have hlt : t < text.length := by
      have := congrArg List.length hd
      simp only [List.length_drop, List.length_cons] at this
      omega
    have hc : text[t]? = some c := by
      have := congrArg (fun l => l[0]?) hd
      simpa [List.getElem?_drop] using this
    have hd' : text.drop (t + 1) = rest := by
      have := congrArg List.tail hd
      simpa [List.tail_drop] using this
    obtain ⟨m', occ', e1, inv'⟩ := scan_step added text L t hL hids htext m occ inv c hc
    simp only [findFuzzyLoop, e1]
    exact ih (t + 1) m' occ' hd' (by omega) inv'

theorem Init_spec (pattern : List Char) (wc : Char) (text : List Char)
    (hp : 1 ≤ pattern.length) :
    ∃ m, WildcardMatcher.new.Init pattern wc = some m ∧
      MatcherInv (initLoop (Split pattern fun s => s == wc) 0 0 []).2.2 text pattern.length 0
        m [] := by
  obtain ⟨h, path, e, b⟩ := Build_spec (initLoop (Split pattern fun s => s == wc) 0 0 []).2.2
  have e0 : WildcardMatcher.new.Init pattern wc = some
      { words_occurrences_by_position_ := [], state_ := h.Root,
        number_of_words_ := (initLoop (Split pattern fun s => s == wc) 0 0 []).2.1,
        pattern_length_ := pattern.length, aho_corasick_automaton_ := some h } := by
    simp only [Init, e, Reset]
  refine ⟨_, e0, h, path, 0, rfl, b, rfl, b.trie.trie.size_pos, ?_,
    (init_pairs_spec pattern wc).1, rfl, ?_, ?_⟩
  · rw [b.trie.trie.path_root]
    rfl
  · have : 0 + 1 - pattern.length = 0 := by omega
    simp [this]
  · have : 0 + 1 - pattern.length = 0 := by omega
    simp [this]

theorem suffix_take_drop (w text : List Char) (i id : Nat) (hw : w.length ≤ id)
    (hi : i + id ≤ text.length) :
    w <:+ (text.drop i).take id ↔ w <:+ text.take (i + id) := by
  have e : text.take (i + id) = text.take i ++ (text.drop i).take id := List.take_add _ _ _
  rw [e]
  constructor
  · intro h
    exact h.trans (List.suffix_append _ _)
  · intro h
    refine List.suffix_of_suffix_length_le h (List.suffix_append _ _) ?_
    simp only [List.length_take, List.length_drop]
    omega

/-- The counters of a start position are full exactly when the pattern matches
there. -/
theorem hits_full_iff (pattern text : List Char) (wc : Char) (i : Nat)
    (hi : i + pattern.length ≤ text.length) :
    hits (initLoop (Split pattern fun s => s == wc) 0 0 []).2.2 text i (i + pattern.length) =
        (initLoop (Split pattern fun s => s == wc) 0 0 []).2.2.length ↔
      ∀ j, j < pattern.length → pattern[j]? = some wc ∨ pattern[j]? = text[i + j]? := by
  obtain ⟨_, hb, hf⟩ := init_pairs_spec pattern wc
  have hfz := hf (text.drop i) (by simp only [List.length_drop]; omega)
  have e : (∀ j, j < pattern.length → pattern[j]? = some wc ∨ pattern[j]? = text[i + j]?) ↔
      FuzzyPrefix wc pattern (text.drop i) := by
    unfold FuzzyPrefix
    simp only [List.getElem?_drop]
  rw [e, hfz]
  unfold hits
  rw [List.countP_eq_length]
  constructor
  · intro h q hq
    have := h q hq
    simp only [decide_eq_true_eq] at this
    obtain ⟨_, h2, h3⟩ := hb q hq
    exact (suffix_take_drop q.1 text i q.2 h2 (by omega)).2 this.2
  · intro h q hq
    obtain ⟨_, h2, h3⟩ := hb q hq
    simp only [decide_eq_true_eq]
    exact ⟨by omega, (suffix_take_drop q.1 text i q.2 h2 (by omega)).1 (h q hq)⟩

end WildcardMatcher

/-- C2: for a non-empty pattern, `FindFuzzyMatches(pattern, text, w)` returns,
in strictly increasing order, exactly the start positions `i` with
`i + |pattern| <= |text|` at which every pattern character is the wildcard `w`
or equals the text character at the same offset.  (Lengths are `size_t`
values.) -/
theorem find_fuzzy_matches_correct (pattern text : List Char) (wildcard : Char)
    (hp : pattern ≠ []) (ht : text.length < 2 ^ 64) :
    ∃ occ, FindFuzzyMatches pattern text wildcard = some occ ∧
      occ.Pairwise (· < ·) ∧
      ∀ i, i ∈ occ ↔
        (i + pattern.length ≤ text.length ∧
          ∀ j, j < pattern.length →
            pattern[j]? = some wildcard ∨ pattern[j]? = text[i + j]?) := by
  have hL : 1 ≤ pattern.length := List.length_pos.2 hp
  obtain ⟨m, e1, inv⟩ := WildcardMatcher.Init_spec pattern wildcard text hL
  have hids := fun q hq => ((WildcardMatcher.init_pairs_spec pattern wildcard).2.1 q hq).1
  have e2 := WildcardMatcher.findFuzzyLoop_spec _ text pattern.length hL hids ht text 0 m []
    rfl (Nat.zero_le _) inv
  have e3 : FindFuzzyMatches pattern text wildcard = some
      ((List.range (text.length + 1 - pattern.length)).filter fun p =>
        decide (hits (WildcardMatcher.initLoop (Split pattern fun s => s == wildcard) 0 0 []).2.2
          text p (p + pattern.length) =
          (WildcardMatcher.initLoop (Split pattern fun s => s == wildcard) 0 0 []).2.2.length)) := by
    simp only [FindFuzzyMatches, e1, e2]
  refine ⟨_, e3, ?_, ?_⟩
  · exact List.Pairwise.filter _ (List.pairwise_lt_range _)
  · intro i
    simp only [List.mem_filter, List.mem_range, decide_eq_true_eq]
    constructor
    · rintro ⟨h1, h2⟩
      have hi : i + pattern.length ≤ text.length := by omega
      exact ⟨hi, (WildcardMatcher.hits_full_iff pattern text wildcard i hi).1 h2⟩
    · rintro ⟨hi, h2⟩
      exact ⟨by omega, (WildcardMatcher.hits_full_iff pattern text wildcard i hi).2 h2⟩

/-- The scenario of C2: pattern a?c with wildcard ? over the text xabcay
matches at position 1 only. -/
theorem find_fuzzy_matches_correct_witness :
    ("a?c".toList ≠ [] ∧ "xabcay".toList.length < 2 ^ 64) ∧
    (∃ occ, FindFuzzyMatches "a?c".toList "xabcay".toList '?' = some occ ∧
      occ.Pairwise (· < ·) ∧
      ∀ i, i ∈ occ ↔
        (i + "a?c".toList.length ≤ "xabcay".toList.length ∧
          ∀ j, j < "a?c".toList.length →
            "a?c".toList[j]? = some '?' ∨ "a?c".toList[j]? = "xabcay".toList[i + j]?)) ∧
    FindFuzzyMatches "a?c".toList "xabcay".toList '?' = some [1] :=
  ⟨⟨by decide, by decide⟩, find_fuzzy_matches_correct _ _ _ (by decide) (by decide),
    by decide⟩

/-! ## The cache after Build -/

namespace aho_corasick

theorem cacheKey_setCache (h : Automaton) (n : Nat) (c : Char) (v : Option Nat)
    (n' : Nat) (c' : Char) :
    mapFind ((setCache h n c v).node n').automaton_transitions_cache c' =
      if n' = n ∧ c' = c then some v
      else mapFind (h.node n').automaton_transitions_cache c' := by
  by_cases hn : n' = n
  · subst hn
    by_cases hc : c' = c
    · simp [setCache, Automaton.setNode, mapFind_mapSet, hc]
    · simp [setCache, Automaton.setNode, mapFind_mapSet, hc]
  · simp [setCache, Automaton.setNode, hn]

theorem setCache_grows (h : Automaton) (n : Nat) (c : Char) (v : Option Nat)
    (hv : v ≠ none ∨ getCache h n c = none) (n' : Nat) (c' : Char) :
    ((mapFind (h.node n').automaton_transitions_cache c').isSome →
      (mapFind ((setCache h n c v).node n').automaton_transitions_cache c').isSome) ∧
    (getCache h n' c' ≠ none → getCache (setCache h n c v) n' c' ≠ none) := by
  rw [cacheKey_setCache, getCache_setCache]
  by_cases e : n' = n ∧ c' = c
  · obtain ⟨e1, e2⟩ := e
    subst e1
    subst e2
    simp only [and_self, if_true, Option.isSome_some, implies_true, true_and]
    rcases hv with hv | hv
    · exact fun _ => hv
    · exact fun hne => absurd hv hne
  · simp [e]

theorem GetAutomatonTransitionAux_cache_grows (c : Char) (root : Option Nat) :
    ∀ (fuel : Nat) (h : Automaton) (x : Option Nat) (h' : Automaton) (r : Option Nat),
      GetAutomatonTransitionAux fuel h x root c = some (h', r) →
      r ≠ none ∧ ∀ n' c',
        ((mapFind (h.node n').automaton_transitions_cache c').isSome →
          (mapFind (h'.node n').automaton_transitions_cache c').isSome) ∧
        (getCache h n' c' ≠ none → getCache h' n' c' ≠ none) := by
  intro fuel
  induction fuel with
  | zero =>
    intro h x h' r hres
    simp [GetAutomatonTransitionAux] at hres
  | succ fuel ih =>
    intro h x h' r hres
    cases x with
    | none => simp [GetAutomatonTransitionAux] at hres
    | some n =>
      simp only [GetAutomatonTransitionAux] at hres
      have h1g : ∀ n' c',
          ((mapFind (h.node n').automaton_transitions_cache c').isSome →
            (mapFind ((setCache h n c (getCache h n c)).node n').automaton_transitions_cache
              c').isSome) ∧
          (getCache h n' c' ≠ none →
            getCache (setCache h n c (getCache h n c)) n' c' ≠ none) := by
        intro n' c'
        apply setCache_grows
        by_cases e : getCache h n c = none
        · exact Or.inr e
        · exact Or.inl e
      have h1c : getCache (setCache h n c (getCache h n c)) n c = getCache h n c := by
        simp [getCache_setCache]
      split at hres
      · rename_i r0 hr0
        simp only [Option.some.injEq, Prod.mk.injEq] at hres
        obtain ⟨e1, e2⟩ := hres
        subst e1
        subst e2
        exact ⟨by simp, h1g⟩
      · rename_i hr0
        split at hres
        · rename_i d hd
          simp only [Option.some.injEq, Prod.mk.injEq] at hres
          obtain ⟨e1, e2⟩ := hres
          subst e1
          subst e2
          refine ⟨by simp, fun n' c' => ?_⟩
          have g2 := setCache_grows (setCache h n c (getCache h n c)) n c (some d)
            (Or.inl (by simp)) n' c'
          exact ⟨fun a => g2.1 ((h1g n' c').1 a), fun a => g2.2 ((h1g n' c').2 a)⟩
        · rename_i hd
          split at hres
          · rename_i hroot
            split at hres
            · simp at hres
            · rename_i h2 r2 hrec
              simp only [Option.some.injEq, Prod.mk.injEq] at hres
              obtain ⟨e1, e2⟩ := hres
              subst e1
              subst e2
              obtain ⟨hr2, g⟩ := ih _ _ _ _ hrec
              refine ⟨hr2, fun n' c' => ?_⟩
              have g2 := setCache_grows h2 n c r2 (Or.inl hr2) n' c'
              exact ⟨fun a => g2.1 ((g n' c').1 ((h1g n' c').1 a)),
                fun a => g2.2 ((g n' c').2 ((h1g n' c').2 a))⟩
          · rename_i hroot
            simp only [Option.some.injEq, Prod.mk.injEq] at hres
            obtain ⟨e1, e2⟩ := hres
            subst e1
            subst e2
            have hroot' : root = some n := by
              by_contra hne
              exact hroot (fun e => hne e.symm)
            refine ⟨by simp [hroot'], fun n' c' => ?_⟩
            have g2 := setCache_grows (setCache h n c (getCache h n c)) n c root
              (Or.inl (by simp [hroot'])) n' c'
            exact ⟨fun a => g2.1 ((h1g n' c').1 a), fun a => g2.2 ((h1g n' c').2 a)⟩

theorem Built.next_cache {h : Automaton} {path : Nat → List Char}
    {added : List (List Char × Nat)} (b : Built h path added) {n : Nat} (hn : n < h.size)
    (c : Char) :
    ∃ h' r, NodeReference.Next h ⟨some n, some 0⟩ c = some (h', ⟨some r, some 0⟩) ∧
      r < h.size ∧ path r = longestPathSuffix added (path n ++ [c]) ∧
      SameButCache h h' ∧ Built h' path added ∧
      (∀ n' c', (mapFind (h.node n').automaton_transitions_cache c').isSome →
        (mapFind (h'.node n').automaton_transitions_cache c').isSome) ∧
      (∀ n' c' v, n' < h.size → getCache h n' c' = some v → getCache h' n' c' = some v) := by
  obtain ⟨h', r, e, hr, hp, same, b'⟩ := b.next hn c
  refine ⟨h', r, e, hr, hp, same, b', ?_, ?_⟩
  all_goals
    have e' : GetAutomatonTransitionAux h.size h (some n) (some 0) c = some (h', some r) := by
      simp only [NodeReference.Next, GetAutomatonTransition] at e
      split at e
      · simp at e
      · rename_i h1 r1 hh
        simp only [Option.some.injEq, Prod.mk.injEq, NodeReference.mk.injEq, and_true] at e
        rw [hh, e.1, e.2]
    have g := (GetAutomatonTransitionAux_cache_grows c (some 0) _ _ _ _ _ e').2
  · exact fun n' c' => (g n' c').1
  · intro n' c' v hn' hv
    have hne : getCache h' n' c' ≠ none := (g n' c').2 (by simp [hv])
    obtain ⟨v', hv'⟩ := Option.ne_none_iff_exists'.mp hne
    obtain ⟨hvlt, hvp⟩ := b.cache n' c' v hn' hv
    obtain ⟨hvlt', hvp'⟩ := b'.cache n' c' v' (by rw [same.1]; exact hn') hv'
    have : v' = v := b.trie.inj (by rw [← same.1]; exact hvlt') hvlt (by rw [hvp', hvp])
    rw [hv', this]

theorem Built.nextCalls_cache {path : Nat → List Char} {added : List (List Char × Nat)} :
    ∀ (calls : List (Nat × Char)) (h : Automaton), Built h path added →
      (∀ x ∈ calls, x.1 < h.size) →
      ∃ h', aho_corasick.nextCalls h calls = some h' ∧ SameButCache h h' ∧
        Built h' path added ∧
        (∀ n' c', (mapFind (h.node n').automaton_transitions_cache c').isSome →
          (mapFind (h'.node n').automaton_transitions_cache c').isSome) ∧
        (∀ n' c' v, n' < h.size → getCache h n' c' = some v →
          getCache h' n' c' = some v) := by
  intro calls
  induction calls with
  | nil =>
    intro h b _
    exact ⟨h, rfl, SameButCache.cache_refl h, b, fun _ _ a => a, fun _ _ _ _ a => a⟩
  | cons x calls ih =>
    intro h b hv
    obtain ⟨h1, r, e, _, _, same, b1, k1, v1⟩ := b.next_cache (hv x (by simp)) x.2
    obtain ⟨h2, e2, same2, b2, k2, v2⟩ := ih h1 b1 (fun y hy => by
      rw [same.1]; exact hv y (by simp [hy]))
    refine ⟨h2, ?_, same.cache_trans same2, b2, fun n' c' a => k2 n' c' (k1 n' c' a),
      fun n' c' v hn' a => v2 n' c' v (by rw [same.1]; exact hn') (v1 n' c' v hn' a)⟩
    simp only [aho_corasick.nextCalls, Automaton.rootPtr]
    rw [e]
    exact e2

/-- C18: after Build, any sequence of Next calls leaves the pattern ids, trie
transitions, suffix links and terminal links of every node as they are; keys of
the transition caches are only added, and a non-null cache entry keeps its
node.  GenerateMatches returns no arena at all (it is a const method), and the
ids it reports at a node are the same before and after the calls. -/
theorem only_the_cache_changes_after_build (added : List (List Char × Nat)) :
    ∃ h, Build added = some h ∧
      ∀ calls1 calls2 : List (Nat × Char), (∀ x ∈ calls1 ++ calls2, x.1 < h.size) →
        ∃ h1 h2, nextCalls h calls1 = some h1 ∧ nextCalls h1 calls2 = some h2 ∧
          h2.size = h1.size ∧
          (∀ n, (h2.node n).terminated_string_ids = (h1.node n).terminated_string_ids ∧
            (h2.node n).trie_transitions = (h1.node n).trie_transitions ∧
            (h2.node n).suffix_link = (h1.node n).suffix_link ∧
            (h2.node n).terminal_link = (h1.node n).terminal_link) ∧
          (∀ n c, (mapFind (h1.node n).automaton_transitions_cache c).isSome →
            (mapFind (h2.node n).automaton_transitions_cache c).isSome) ∧
          (∀ n c v, n < h.size → getCache h1 n c = some v → getCache h2 n c = some v) ∧
          (∀ n, n < h.size → ∃ ids, matchesAt h1 ⟨some n, h.rootPtr⟩ = some ids ∧
            matchesAt h2 ⟨some n, h.rootPtr⟩ = some ids) := by
  obtain ⟨h, path, e, b⟩ := Build_spec added
  refine ⟨h, e, fun calls1 calls2 hv => ?_⟩
  obtain ⟨h1, e1, same1, b1, _, _⟩ :=
    Built.nextCalls_cache calls1 h b (fun x hx => hv x (by simp [hx]))
  obtain ⟨h2, e2, same2, b2, k2, v2⟩ :=
    Built.nextCalls_cache calls2 h1 b1 (fun x hx => by
      rw [same1.1]; exact hv x (by simp [hx]))
  refine ⟨h1, h2, e1, e2, same2.1, fun n => ?_, k2, fun n c v hn a =>
    v2 n c v (by rw [same1.1]; exact hn) a, fun n hn => ?_⟩
  · obtain ⟨t1, t2, t3, t4⟩ := same2.2 n
    exact ⟨t2, t1, t3, t4⟩
  · exact ⟨_, b1.matchesAt_spec (by rw [same1.1]; exact hn) _,
      b2.matchesAt_spec (by rw [same2.1, same1.1]; exact hn) _⟩

end aho_corasick

/-! ## Boundary cases of the automaton -/

namespace aho_corasick

theorem longestPathSuffix_nil_added (u : List Char) : longestPathSuffix [] u = [] := by
  have h := (longestPathSuffix_spec [] u).2.1
  simpa [IsTriePath] using h

theorem idsOf_nil_added (w : List Char) : idsOf [] w = [] := rfl

theorem Built.generateMatches_fold {h : Automaton} {path : Nat → List Char}
    {added : List (List Char × Nat)} (b : Built h path added) {n : Nat} (hn : n < h.size)
    (r : Option Nat) {σ : Type} (on_match : σ → Nat → σ) (s : σ) :
    NodeReference.GenerateMatches h ⟨some n, r⟩ on_match s =
      some (((path n).tails.flatMap (idsOf added)).foldl on_match s) := by
  have e := b.matchesAt_spec hn r
  simp only [aho_corasick.matchesAt, NodeReference.GenerateMatches] at e
  simp only [NodeReference.GenerateMatches]
  rw [generateMatchesLoop_fold, e]
  rfl

theorem longestPathSuffix_out_of_alphabet {added : List (List Char × Nat)} {c : Char}
    (hc : ∀ p ∈ added, c ∉ p.1) (u : List Char) :
    longestPathSuffix added (u ++ [c]) = [] := by
  obtain ⟨hs, hp, _⟩ := longestPathSuffix_spec added (u ++ [c])
  rcases hp with hp | ⟨p, hp, hpre⟩
  · exact hp
  · by_contra hne
    obtain ⟨t, ht⟩ := hs
    have hl : (t ++ longestPathSuffix added (u ++ [c])).getLast? = (u ++ [c]).getLast? := by
      rw [ht]
    rw [List.getLast?_append_of_ne_nil _ hne] at hl
    rw [List.getLast?_concat] at hl
    exact hc p hp (hpre.subset (List.mem_of_getLast?_eq_some hl))

theorem tails_eq_front {α : Type} (w : List α) :
    ∃ fr, w.tails = fr ++ [[]] ∧ ∀ v ∈ fr, v ≠ [] := by
  induction w with
  | nil => exact ⟨[], rfl, by simp⟩
  | cons a t ih =>
    obtain ⟨fr, e, hfr⟩ := ih
    refine ⟨(a :: t) :: fr, by simp [e], ?_⟩
    intro v hv
    rcases List.mem_cons.mp hv with hv | hv
    · simp [hv]
    · exact hfr v hv

/-- C11: with no pattern added, Build succeeds; scanning any text from Root()
keeps the cursor at the root, GenerateMatches at the cursor reached leaves the
state of any callback untouched (the callback is never invoked), every further
Next returns the root cursor, and the ids reported after each character of the
text are none. -/
theorem empty_pattern_set_reports_nothing :
    ∃ h, Build [] = some h ∧
      ∀ T : List Char, ∃ h1, scanText h h.Root T = some (h1, h.Root) ∧
        (∀ (σ : Type) (on_match : σ → Nat → σ) (s : σ),
          h.Root.GenerateMatches h1 on_match s = some s) ∧
        matchesAt h1 h.Root = some [] ∧
        (∀ c, ∃ h2, h.Root.Next h1 c = some (h2, h.Root)) ∧
        scanMatches h h.Root T = some (List.replicate T.length []) := by
  obtain ⟨h, path, e, b⟩ := Build_spec []
  refine ⟨h, e, fun T => ?_⟩
  have root_of : ∀ (g : Automaton), Built g path [] → ∀ r, r < g.size → r = 0 := by
    intro g bg r hr
    apply bg.trie.inj hr bg.trie.trie.size_pos
    rw [bg.trie.trie.path_root]
    have := bg.trie.paths r hr
    simpa [IsTriePath] using this
  obtain ⟨h1, r, e1, hr, _, same, b1⟩ := Built.scan T h 0 b b.trie.trie.size_pos
  have hr0 : r = 0 := root_of h b r hr
  subst hr0
  have hpos1 : 0 < h1.size := b1.trie.trie.size_pos
  refine ⟨h1, e1, fun σ f s => ?_, ?_, fun c => ?_, ?_⟩
  · show NodeReference.GenerateMatches h1 ⟨some 0, some 0⟩ f s = some s
    rw [b1.generateMatches_fold hpos1]
    simp [b1.trie.trie.path_root, idsOf_nil_added]
  · show aho_corasick.matchesAt h1 ⟨some 0, some 0⟩ = some []
    rw [b1.matchesAt_spec hpos1]
    simp [b1.trie.trie.path_root, idsOf_nil_added]
  · obtain ⟨h2, r2, e2, hr2, _, _, _⟩ := b1.next hpos1 c
    have : r2 = 0 := root_of h1 b1 r2 hr2
    subst this
    exact ⟨h2, e2⟩
  · obtain ⟨out, eo, hlen, hout⟩ := Built.scanMatches_spec T h 0 b b.trie.trie.size_pos
    show aho_corasick.scanMatches h ⟨some 0, some 0⟩ T = _
    rw [eo]
    congr 1
    apply List.ext_getElem?
    intro i
    by_cases hi : i < T.length
    · rw [hout i hi, List.getElem?_replicate]
      simp [hi, longestPathSuffix_nil_added, idsOf_nil_added]
    · rw [List.getElem?_eq_none (by omega), List.getElem?_eq_none (by simp; omega)]

/-- C13: when the character c occurs in no added pattern, then in the built
automaton, also after any earlier Next calls, Next at any node on c succeeds
and returns the root cursor, and GenerateMatches at that cursor reports exactly
the ids of the pairs added with the empty string. -/
theorem out_of_alphabet_routes_to_root (added : List (List Char × Nat)) (c : Char)
    (hc : ∀ p ∈ added, c ∉ p.1) :
    ∃ h, Build added = some h ∧
      ∀ calls : List (Nat × Char), (∀ x ∈ calls, x.1 < h.size) →
        ∃ h1, nextCalls h calls = some h1 ∧
          ∀ n, n < h.size →
            ∃ h2, NodeReference.Next h1 ⟨some n, h.rootPtr⟩ c = some (h2, h.Root) ∧
              matchesAt h2 h.Root = some (idsOf added []) := by
  obtain ⟨h, path, e, b⟩ := Build_spec added
  refine ⟨h, e, fun calls hv => ?_⟩
  obtain ⟨h1, e1, same1, b1⟩ := Built.nextCalls_spec calls h b hv
  refine ⟨h1, e1, fun n hn => ?_⟩
  have hn1 : n < h1.size := by rw [same1.1]; exact hn
  obtain ⟨h2, r, e2, hr, hp, same2, b2⟩ := b1.next hn1 c
  have hr0 : r = 0 := by
    apply b1.trie.inj hr b1.trie.trie.size_pos
    rw [hp, b1.trie.trie.path_root, longestPathSuffix_out_of_alphabet hc]
  subst hr0
  refine ⟨h2, e2, ?_⟩
  show aho_corasick.matchesAt h2 ⟨some 0, some 0⟩ = _
  rw [b2.matchesAt_spec b2.trie.trie.size_pos]
  simp [b2.trie.trie.path_root]

/-- Witness of C13: the character z occurs in none of the patterns of the
scenario. -/
theorem out_of_alphabet_routes_to_root_witness :
    (∀ p ∈ scenarioPatterns, 'z' ∉ p.1) ∧
    ∃ h, Build scenarioPatterns = some h ∧
      ∀ calls : List (Nat × Char), (∀ x ∈ calls, x.1 < h.size) →
        ∃ h1, nextCalls h calls = some h1 ∧
          ∀ n, n < h.size →
            ∃ h2, NodeReference.Next h1 ⟨some n, h.rootPtr⟩ 'z' = some (h2, h.Root) ∧
              matchesAt h2 h.Root = some (idsOf scenarioPatterns []) :=
  ⟨by decide, out_of_alphabet_routes_to_root scenarioPatterns 'z' (by decide)⟩

/-- C19, as stated, at the empty pattern set: the empty string labels the empty
path from the root, and it is a prefix of no added pattern. -/
theorem trie_paths_counterexample :
    ∃ h, Build [] = some h ∧ (∃ n, trieWalk h 0 [] = some n) ∧
      ¬ ∃ p ∈ ([] : List (List Char × Nat)), ([] : List Char) <+: p.1 := by
  obtain ⟨h, _, e, _⟩ := Build_spec []
  exact ⟨h, e, ⟨0, rfl⟩, by simp⟩

/-- C19, amended: after Build over the added pairs, a string w labels a path of
trie_transitions from the root if and only if w is empty or a prefix of some
added pattern, and the node reached by w holds in terminated_string_ids exactly
the ids of the pairs whose pattern is w, once per pair, in the order added. -/
theorem trie_construction_paths_and_ids (added : List (List Char × Nat)) :
    ∃ h, Build added = some h ∧ ∀ w : List Char,
      ((∃ n, trieWalk h 0 w = some n) ↔ (w = [] ∨ ∃ p ∈ added, w <+: p.1)) ∧
      ∀ n, trieWalk h 0 w = some n →
        (h.node n).terminated_string_ids =
          (added.filter fun p => decide (p.1 = w)).map Prod.snd := by
  obtain ⟨h, path, e, b⟩ := Build_spec added
  refine ⟨h, e, fun w => ⟨b.walk_iff_path w, fun n hw => ?_⟩⟩
  obtain ⟨hn, hp⟩ := (trieWalk_from_root b.trie w n).mp hw
  rw [b.ids_eq hn, hp]
  rfl

/-- C12: Add with the empty string is accepted; after Build the ids of the root
are the ids added with the empty string, in the order added, so the root holds
every id added with the empty string, and these are what GenerateMatches reports
at Root(); at the cursor reached after scanning any text GenerateMatches reports
ids of non-empty patterns followed, as the last ids of its output, by the ids
added with the empty string in the order added, and an id added with the empty
string that no other added pair carries (distinct ids are the duty of the
caller of Add) is reported exactly once. -/
theorem empty_string_pattern_reported_last (added : List (List Char × Nat)) :
    ∃ h, Build added = some h ∧
      (h.node 0).terminated_string_ids = idsOf added [] ∧
      (∀ id, (([] : List Char), id) ∈ added → id ∈ (h.node 0).terminated_string_ids) ∧
      matchesAt h h.Root = some (idsOf added []) ∧
      ∀ T : List Char, ∃ h1 ref front, scanText h h.Root T = some (h1, ref) ∧
        matchesAt h1 ref = some (front ++ idsOf added []) ∧
        (∀ x ∈ front, ∃ p ∈ added, p.1 ≠ [] ∧ p.2 = x) ∧
        ∀ id, (([] : List Char), id) ∈ added → (added.map Prod.snd).count id = 1 →
          (front ++ idsOf added []).count id = 1 := by
  obtain ⟨h, path, e, b⟩ := Build_spec added
  have hpos := b.trie.trie.size_pos
  have hmem : ∀ id, (([] : List Char), id) ∈ added → id ∈ idsOf added [] := by
    intro id hid
    simp only [idsOf, List.mem_map, List.mem_filter, decide_eq_true_eq]
    exact ⟨([], id), ⟨hid, rfl⟩, rfl⟩
  have hids : (h.node 0).terminated_string_ids = idsOf added [] := by
    rw [b.ids_eq hpos, b.trie.trie.path_root]
  refine ⟨h, e, hids, fun id hid => by rw [hids]; exact hmem id hid, ?_, fun T => ?_⟩
  · show aho_corasick.matchesAt h ⟨some 0, some 0⟩ = _
    rw [b.matchesAt_spec hpos]
    simp [b.trie.trie.path_root]
  · obtain ⟨h1, r, e1, hr, hp, same, b1⟩ := Built.scan T h 0 b hpos
    obtain ⟨fr, efr, hfr⟩ := tails_eq_front (path r)
    have hr1 : r < h1.size := by rw [same.1]; exact hr
    have hm : aho_corasick.matchesAt h1 ⟨some r, some 0⟩ =
        some (fr.flatMap (idsOf added) ++ idsOf added []) := by
      rw [b1.matchesAt_spec hr1, efr]
      simp
    refine ⟨h1, ⟨some r, some 0⟩, fr.flatMap (idsOf added), e1, hm, ?_, ?_⟩
    · intro x hx
      obtain ⟨v, hv, hxv⟩ := List.mem_flatMap.mp hx
      simp only [idsOf, List.mem_map, List.mem_filter, decide_eq_true_eq] at hxv
      obtain ⟨p, ⟨hp1, hp2⟩, hp3⟩ := hxv
      exact ⟨p, hp1, by rw [hp2]; exact hfr v hv, hp3⟩
    · intro id hid hcount
      have hle : (fr.flatMap (idsOf added) ++ idsOf added []).count id ≤ 1 := by
        have e2 : fr.flatMap (idsOf added) ++ idsOf added [] =
            (path r).tails.flatMap (idsOf added) := by
          rw [efr]; simp
        rw [e2, (tails_flatMap_idsOf_perm added (path r)).count_eq, ← hcount]
        exact (List.Sublist.map _ (List.filter_sublist _)).count_le _
      have hge : 0 < (fr.flatMap (idsOf added) ++ idsOf added []).count id :=
        List.count_pos_iff.mpr (List.mem_append_right _ (hmem id hid))
      omega

/-- Witness of C12: after Add("a", 1) and Add("", 2) the root holds the id 2,
GenerateMatches at Root() reports exactly 2, and after scanning any text it
reports 2 last and exactly once. -/
theorem empty_string_pattern_reported_last_witness :
    ∃ h, Build [(['a'], 1), ([], 2)] = some h ∧
      2 ∈ (h.node 0).terminated_string_ids ∧
      matchesAt h h.Root = some [2] ∧
      ∀ T : List Char, ∃ h1 ref front, scanText h h.Root T = some (h1, ref) ∧
        matchesAt h1 ref = some (front ++ [2]) ∧ (front ++ [2]).count 2 = 1 := by
  obtain ⟨h, e, _, hmem, hroot, hscan⟩ :=
    empty_string_pattern_reported_last [(['a'], 1), ([], 2)]
  refine ⟨h, e, hmem 2 (by decide), hroot, fun T => ?_⟩
  obtain ⟨h1, ref, front, e1, hm, _, hc⟩ := hscan T
  exact ⟨h1, ref, front, e1, hm, hc 2 (by decide) (by decide)⟩

end aho_corasick

/-! ## Streams through the wildcard matcher -/

namespace WildcardMatcher

theorem scan_step_gen (added : List (List Char × Nat)) (text : List Char) (L t : Nat)
    (hL0 : L = 0 → added = []) (hids : ∀ q ∈ added, 1 ≤ q.2)
    (m : WildcardMatcher) (occ : List Nat) (inv : MatcherInv added text L t m occ)
    (c : Char) (hc : text[t]? = some c) {σ : Type} (f : σ → σ) (s : σ) :
    ∃ m' occ', m.Scan c f s = some (m',
        if L ≤ t + 1 ∧ hits added text (t + 1 - L) (t + 1) = added.length then f s else s) ∧
      MatcherInv added text L (t + 1) m' occ' := by
  obtain ⟨h, path, n, e1, b, e2, hn, hp, e3, e4, e5, e6⟩ := inv
  have ht : t < text.length := by
    by_contra hge
    rw [List.getElem?_eq_none (by omega)] at hc
    exact Option.noConfusion hc
  obtain ⟨h1, r, f1, f2, f3, s1, b1⟩ := b.next hn c
  have hr : r < h1.size := by rw [s1.1]; exact f2
  have htake : text.take (t + 1) = text.take t ++ [c] := by
    rw [List.take_succ, hc]
    rfl
  have hpr : path r = longestPathSuffix added (text.take (t + 1)) := by
    rw [f3, hp, htake, ← longestPathSuffix_snoc]
  have hgen : generateMatchesLoop h1 countOccurrence (h1.size + 1) (some r)
      (m.words_occurrences_by_position_ ++ [0]) =
      some (((path r).tails.flatMap (idsOf added)).foldl countOccurrence
        (m.words_occurrences_by_position_ ++ [0])) := by
    have := b1.matchesAt_spec hr (some 0)
    simp only [matchesAt, NodeReference.GenerateMatches] at this
    rw [generateMatchesLoop_fold, this]
    rfl
  by_cases hL : 1 ≤ L
  · have hperm : ((path r).tails.flatMap (idsOf added)).Perm
        ((added.filter fun q => decide (q.1 <:+ text.take (t + 1))).map Prod.snd) := by
      have := tails_flatMap_idsOf_perm added (path r)
      rw [hpr, filter_suffix_longestPathSuffix] at this
      rw [hpr]
      exact this
    have hlo : t + 1 - L ≤ t := by omega
    have hwin0 : m.words_occurrences_by_position_ ++ [0] =
        (List.range (t - (t + 1 - L) + 1)).map fun j => hits added text (t + 1 - L + j) t := by
      rw [e5, List.range_succ, List.map_append]
      congr 1
      simp only [List.map_cons, List.map_nil]
      have : t + 1 - L + (t - (t + 1 - L)) = t := by omega
      rw [this, hits_self added text t hids]
    have hwin := window_update added text (t + 1 - L) (t - (t + 1 - L) + 1) t (by omega) hids _
      hperm
    rw [← hwin0] at hwin
    obtain ⟨words, state, nw, L', aut⟩ := m
    simp only at e1 e2 e3 e4 e5 hgen hwin
    subst e1 e2 e3
    have e4' := e4.symm
    subst e4'
    simp only [Scan, f1, UpdateWordOccurrences, NodeReference.GenerateMatches, hgen, hwin,
      List.length_map, List.length_range, ShiftWordOccurrencesCounters]
    by_cases hfull : L ≤ t + 1
    · have hlen : t - (t + 1 - L) + 1 ≥ L := by omega
      have hlen' : t - (t + 1 - L) + 1 = (L - 1) + 1 := by omega
      have hhead : ((List.range (t - (t + 1 - L) + 1)).map fun j =>
          hits added text (t + 1 - L + j) (t + 1)).head? =
          some (hits added text (t + 1 - L) (t + 1)) := by
        rw [hlen', List.range_succ_eq_map]
        simp
      simp only [hlen, if_true, hhead, Option.some.injEq, hfull, true_and]
      refine ⟨_, _, rfl, h1, path, r, rfl, b1, rfl, hr, hpr, rfl, rfl, ?_, rfl⟩
      simp only
      rw [hlen', List.range_succ_eq_map, List.map_cons, List.tail_cons, List.map_map]
      have hl2 : t + 1 - (t + 1 + 1 - L) = L - 1 := by omega
      rw [hl2]
      apply List.map_congr_left
      intro j _
      simp only [Function.comp]
      congr 1
      omega
    · have hlen : ¬ (t - (t + 1 - L) + 1 ≥ L) := by omega
      simp only [hlen, if_false, hfull, false_and]
      refine ⟨_, _, rfl, h1, path, r, rfl, b1, rfl, hr, hpr, rfl, rfl, ?_, rfl⟩
      simp only
      have h0 : t + 1 - L = 0 := by omega
      have h0' : t + 1 + 1 - L = 0 := by omega
      rw [h0, h0']
      simp
  · have hL' : L = 0 := by omega
    have hadd := hL0 hL'
    subst hadd
    subst hL'
    obtain ⟨words, state, nw, L', aut⟩ := m
    simp only at e1 e2 e3 e4 e5 hgen
    subst e1 e2 e3 e4
    have hw : words = [] := by
      rw [e5]
      have : t - (t + 1 - 0) = 0 := by omega
      simp [this]
    subst hw
    have hnil : (path r).tails.flatMap (idsOf []) = [] := by
      apply List.eq_nil_iff_forall_not_mem.mpr
      intro x hx
      obtain ⟨v, _, hxv⟩ := List.mem_flatMap.mp hx
      simp [idsOf_nil_added] at hxv
    rw [hnil] at hgen
    simp only [List.foldl_nil, List.nil_append] at hgen
    have hcond : 0 ≤ t + 1 ∧
        hits [] text (t + 1 - 0) (t + 1) = ([] : List (List Char × Nat)).length := by
      simp [hits]
    rw [if_pos hcond]
    simp only [Scan, f1, UpdateWordOccurrences, NodeReference.GenerateMatches, hgen,
      List.nil_append, ShiftWordOccurrencesCounters, List.length_singleton, ge_iff_le,
      Nat.zero_le, if_true, List.head?_cons, List.length_nil, List.tail_cons]
    refine ⟨_, _, rfl, h1, path, r, rfl, b1, rfl, hr, hpr, rfl, rfl, ?_, rfl⟩
    have : t + 1 - (t + 1 + 1 - 0) = 0 := by omega
    simp [this]

theorem MatcherInv.window_length {added : List (List Char × Nat)} {text : List Char}
    {L t : Nat} {m : WildcardMatcher} {occ : List Nat} (inv : MatcherInv added text L t m occ) :
    m.words_occurrences_by_position_.length = t - (t + 1 - L) := by
  obtain ⟨_, _, _, _, _, _, _, _, _, _, e5, _⟩ := inv
  simp [e5]

theorem init_pairs_nil (wc : Char) :
    (initLoop (Split [] fun s => s == wc) 0 0 []).2.2 = [] := rfl

theorem init_pairs_of_length_zero (pattern : List Char) (wc : Char)
    (h : pattern.length = 0) : (initLoop (Split pattern fun s => s == wc) 0 0 []).2.2 = [] := by
  rw [List.length_eq_zero] at h
  subst h
  rfl

theorem Init_gen (pattern : List Char) (wc : Char) :
    ∃ m h, WildcardMatcher.new.Init pattern wc = some m ∧
      m.words_occurrences_by_position_ = [] ∧ m.aho_corasick_automaton_ = some h ∧
      m.state_ = h.Root ∧
      m.number_of_words_ = (initLoop (Split pattern fun s => s == wc) 0 0 []).2.2.length ∧
      m.pattern_length_ = pattern.length ∧
      Build (initLoop (Split pattern fun s => s == wc) 0 0 []).2.2 = some h ∧
      ∀ text : List Char, ∃ occ,
        MatcherInv (initLoop (Split pattern fun s => s == wc) 0 0 []).2.2 text pattern.length 0
          m occ := by
  obtain ⟨h, path, e, b⟩ := Build_spec (initLoop (Split pattern fun s => s == wc) 0 0 []).2.2
  have e0 : WildcardMatcher.new.Init pattern wc = some
      { words_occurrences_by_position_ := [], state_ := h.Root,
        number_of_words_ := (initLoop (Split pattern fun s => s == wc) 0 0 []).2.1,
        pattern_length_ := pattern.length, aho_corasick_automaton_ := some h } := by
    simp only [Init, e, Reset]
  refine ⟨_, h, e0, rfl, rfl, rfl, (init_pairs_spec pattern wc).1, rfl, e, fun text => ?_⟩
  refine ⟨_, h, path, 0, rfl, b, rfl, b.trie.trie.size_pos, ?_,
    (init_pairs_spec pattern wc).1, rfl, ?_, rfl⟩
  · rw [b.trie.trie.path_root]
    rfl
  · have : 0 - (0 + 1 - pattern.length) = 0 := by omega
    simp [this]

theorem Reset_gen {added : List (List Char × Nat)} {text : List Char} {L t : Nat}
    {m : WildcardMatcher} {occ : List Nat} (inv : MatcherInv added text L t m occ) :
    ∃ mR h, m.Reset = some mR ∧ mR.words_occurrences_by_position_ = [] ∧
      mR.aho_corasick_automaton_ = some h ∧ mR.state_ = h.Root ∧
      ∀ text' : List Char, ∃ occ', MatcherInv added text' L 0 mR occ' := by
  obtain ⟨h, path, n, e1, b, e2, hn, hp, e3, e4, e5, e6⟩ := inv
  refine ⟨{ m with words_occurrences_by_position_ := [], state_ := h.Root }, h, ?_, rfl, e1,
    rfl, fun text' => ?_⟩
  · simp only [Reset, e1]
  · refine ⟨_, h, path, 0, e1, b, rfl, b.trie.trie.size_pos, ?_, e3, e4, ?_, rfl⟩
    · rw [b.trie.trie.path_root]
      rfl
    · have : 0 - (0 + 1 - L) = 0 := by omega
      simp [this]

theorem scanStream_spec (added : List (List Char × Nat)) (text : List Char) (L : Nat)
    (hL0 : L = 0 → added = []) (hids : ∀ q ∈ added, 1 ≤ q.2) :
    ∀ (rest rest2 : List Char) (t : Nat) (m : WildcardMatcher) (occ : List Nat),
      text.drop t = rest ++ rest2 → MatcherInv added text L t m occ →
      ∃ m' occ', scanStream m rest = some (m', (List.range rest.length).map fun i =>
          decide (L ≤ t + i + 1 ∧
            hits added text (t + i + 1 - L) (t + i + 1) = added.length)) ∧
        MatcherInv added text L (t + rest.length) m' occ' := by
  intro rest
  induction rest with
  | nil =>
    intro rest2 t m occ hd inv
    exact ⟨m, occ, rfl, inv⟩
  | cons c rest ih =>
    intro rest2 t m occ hd inv
    have hc : text[t]? = some c := by
      have := congrArg (fun l => l[0]?) hd
      simpa [List.getElem?_drop] using this
    have hd' : text.drop (t + 1) = rest ++ rest2 := by
      have := congrArg List.tail hd
      simpa [List.tail_drop] using this
    obtain ⟨m1, occ1, e1, inv1⟩ :=
      scan_step_gen added text L t hL0 hids m occ inv c hc (fun _ => true) false
    obtain ⟨m2, occ2, e2, inv2⟩ := ih rest2 (t + 1) m1 occ1 hd' inv1
    have hl : t + (c :: rest).length = t + 1 + rest.length := by
      simp only [List.length_cons]; omega
    rw [hl]
    refine ⟨m2, occ2, ?_, inv2⟩
    simp only [scanStream, e1, e2, List.length_cons]
    rw [List.range_succ_eq_map, List.map_cons, List.map_map]
    congr 2
    simp only [List.cons.injEq, List.map_inj_left, Function.comp]
    refine ⟨by simp, fun i _ => ?_⟩
    have : t + 1 + i + 1 = t + (i + 1) + 1 := by omega
    rw [this]

theorem scanStream_fresh (added : List (List Char × Nat)) (text : List Char) (L : Nat)
    (hL0 : L = 0 → added = []) (hids : ∀ q ∈ added, 1 ≤ q.2) (m : WildcardMatcher)
    (occ : List Nat) (inv : MatcherInv added text L 0 m occ) :
    ∃ m' occ', scanStream m text = some (m', (List.range text.length).map fun i =>
        decide (L ≤ i + 1 ∧ hits added text (i + 1 - L) (i + 1) = added.length)) ∧
      MatcherInv added text L text.length m' occ' := by
  obtain ⟨m', occ', e, inv'⟩ :=
    scanStream_spec added text L hL0 hids text [] 0 m occ (by simp) inv
  rw [Nat.zero_add] at inv'
  refine ⟨m', occ', ?_, inv'⟩
  rw [e]
  congr 2
  apply List.map_congr_left
  intro i _
  simp

theorem update_step (added : List (List Char × Nat)) (text : List Char) (L t : Nat)
    (hids : ∀ q ∈ added, 1 ≤ q.2) (m : WildcardMatcher) (occ : List Nat)
    (inv : MatcherInv added text L t m occ) (c : Char) :
    ∃ h h1 state1 ids m2, m.aho_corasick_automaton_ = some h ∧
      m.state_.Next h c = some (h1, state1) ∧ matchesAt h1 state1 = some ids ∧
      UpdateWordOccurrences { m with state_ := state1, aho_corasick_automaton_ := some h1 } =
        some m2 ∧
      m2.words_occurrences_by_position_.length = m.words_occurrences_by_position_.length + 1 ∧
      ∀ id ∈ ids, 1 ≤ id := by
  obtain ⟨h, path, n, e1, b, e2, hn, hp, e3, e4, e5, e6⟩ := inv
  obtain ⟨h1, r, f1, f2, f3, s1, b1⟩ := b.next hn c
  have hr : r < h1.size := by rw [s1.1]; exact f2
  have hu : UpdateWordOccurrences
      { m with state_ := ⟨some r, some 0⟩, aho_corasick_automaton_ := some h1 } =
      some { m with
        words_occurrences_by_position_ :=
          ((path r).tails.flatMap (idsOf added)).foldl countOccurrence
            (m.words_occurrences_by_position_ ++ [0]),
        state_ := ⟨some r, some 0⟩, aho_corasick_automaton_ := some h1 } := by
    simp only [UpdateWordOccurrences]
    rw [b1.generateMatches_fold hr]
  refine ⟨h, h1, ⟨some r, some 0⟩, _, _, e1, by rw [e2]; exact f1, b1.matchesAt_spec hr _, hu,
    ?_, ?_⟩
  · simp [foldl_countOccurrence_length]
  · intro id hid
    obtain ⟨v, _, hv⟩ := List.mem_flatMap.mp hid
    simp only [idsOf, List.mem_map, List.mem_filter, decide_eq_true_eq] at hv
    obtain ⟨q, ⟨hq, _⟩, hq2⟩ := hv
    rw [← hq2]
    exact hids q hq

end WildcardMatcher

/-- C14: a matcher that was Init-ed, scanned the stream S1 and was Reset has an
empty counter window and its cursor at the root, and scanning S2 with it
invokes on_match at exactly the same Scan calls as scanning S2 with a newly
constructed matcher after the same Init. -/
theorem reset_equals_fresh_matcher (pattern : List Char) (wildcard : Char)
    (S1 S2 : List Char) :
    ∃ m0 m1 bs1 mR, WildcardMatcher.new.Init pattern wildcard = some m0 ∧
      scanStream m0 S1 = some (m1, bs1) ∧ m1.Reset = some mR ∧
      mR.words_occurrences_by_position_ = [] ∧
      (∃ h, mR.aho_corasick_automaton_ = some h ∧ mR.state_ = h.Root) ∧
      ∃ mA mB bs, scanStream mR S2 = some (mA, bs) ∧ scanStream m0 S2 = some (mB, bs) := by
  obtain ⟨m0, h0, e0, _, _, _, _, _, _, inv0⟩ := WildcardMatcher.Init_gen pattern wildcard
  have hL0 := WildcardMatcher.init_pairs_of_length_zero pattern wildcard
  have hids : ∀ q ∈ (WildcardMatcher.initLoop (Split pattern fun s => s == wildcard) 0 0 []).2.2,
      1 ≤ q.2 := fun q hq => ((WildcardMatcher.init_pairs_spec pattern wildcard).2.1 q hq).1
  obtain ⟨occ1, i1⟩ := inv0 S1
  obtain ⟨m1, occ1', e1, i1'⟩ := WildcardMatcher.scanStream_fresh _ S1 _ hL0 hids m0 occ1 i1
  obtain ⟨mR, hR, eR, w0, aR, sR, invR⟩ := WildcardMatcher.Reset_gen i1'
  obtain ⟨occ2, i2⟩ := invR S2
  obtain ⟨mA, _, eA, _⟩ := WildcardMatcher.scanStream_fresh _ S2 _ hL0 hids mR occ2 i2
  obtain ⟨occ3, i3⟩ := inv0 S2
  obtain ⟨mB, _, eB, _⟩ := WildcardMatcher.scanStream_fresh _ S2 _ hL0 hids m0 occ3 i3
  exact ⟨m0, m1, _, mR, e0, e1, eR, w0, ⟨hR, aR, sR⟩, mA, mB, _, eA, eB⟩

namespace WildcardMatcher

theorem splitLoop_replicate (w : Char) :
    ∀ (m : Nat) (subs : List (List Char)),
      splitLoop (fun s => s == w) (List.replicate m w) [] subs =
        subs ++ List.replicate m [] := by
  intro m
  induction m with
  | zero => intro subs; simp [splitLoop]
  | succ m ih =>
    intro subs
    simp only [List.replicate_succ, splitLoop, beq_self_eq_true, if_true]
    rw [ih]
    simp

theorem initLoop_replicate_nil :
    ∀ (m a b : Nat) (c : List (List Char × Nat)),
      initLoop (List.replicate m []) a b c = (a + m, b, c) := by
  intro m
  induction m with
  | zero => intro a b c; rfl
  | succ m ih =>
    intro a b c
    simp only [List.replicate_succ, initLoop, List.length_nil, List.isEmpty_nil]
    simp only [not_true_eq_false, if_false]
    rw [ih]
    congr 1
    omega

theorem init_pairs_replicate (m : Nat) (w : Char) :
    initLoop (Split (List.replicate m w) fun s => s == w) 0 0 [] = (m, 0, []) := by
  simp only [Split]
  rw [splitLoop_replicate, List.nil_append, initLoop_replicate_nil, Nat.zero_add]

end WildcardMatcher

/-- C15: a pattern made of m wildcard characters, m at least 1, yields
number_of_words_ = 0; scanning any text invokes on_match at every Scan call
from the m-th one on and at none before; and FindFuzzyMatches returns the
offsets 0, 1, ..., |text| - m (none when |text| is less than m), for a text
whose length is a size_t value. -/
theorem all_wildcard_pattern_matches_everywhere (m : Nat) (hm : 1 ≤ m) (w : Char)
    (text : List Char) :
    ∃ m0, WildcardMatcher.new.Init (List.replicate m w) w = some m0 ∧
      m0.number_of_words_ = 0 ∧
      (∃ m1, scanStream m0 text =
        some (m1, (List.range text.length).map fun i => decide (m ≤ i + 1))) ∧
      (text.length < 2 ^ 64 →
        FindFuzzyMatches (List.replicate m w) text w =
          some (List.range (text.length + 1 - m))) := by
  obtain ⟨m0, h0, e0, _, _, _, enw, _, _, inv0⟩ :=
    WildcardMatcher.Init_gen (List.replicate m w) w
  have hadd : (WildcardMatcher.initLoop (Split (List.replicate m w) fun s => s == w) 0 0 []).2.2
      = [] := by
    rw [WildcardMatcher.init_pairs_replicate]
  rw [hadd] at enw inv0
  simp only [List.length_replicate] at inv0
  refine ⟨m0, e0, enw, ?_, fun ht => ?_⟩
  · obtain ⟨occ, i0⟩ := inv0 text
    obtain ⟨m1, _, e1, _⟩ :=
      WildcardMatcher.scanStream_fresh [] text m (fun _ => rfl) (by simp) m0 occ i0
    refine ⟨m1, ?_⟩
    rw [e1]
    congr 2
    apply List.map_congr_left
    intro i _
    simp [hits]
  · obtain ⟨m0', e0', i0'⟩ := WildcardMatcher.Init_spec (List.replicate m w) w text
      (by simp; omega)
    rw [hadd] at i0'
    simp only [List.length_replicate] at i0'
    simp only [FindFuzzyMatches, e0', List.length_replicate]
    rw [WildcardMatcher.findFuzzyLoop_spec [] text m hm (by simp) ht text 0 m0' [] rfl
      (Nat.zero_le _) i0']
    congr 1
    apply List.filter_eq_self.mpr
    intro p _
    simp [hits]

/-- Witness of C15: the pattern "?" over the text ab. -/
theorem all_wildcard_pattern_matches_everywhere_witness :
    1 ≤ 1 ∧
    ∃ m0, WildcardMatcher.new.Init (List.replicate 1 '?') '?' = some m0 ∧
      m0.number_of_words_ = 0 ∧
      (∃ m1, scanStream m0 ['a', 'b'] =
        some (m1, (List.range ['a', 'b'].length).map fun i => decide (1 ≤ i + 1))) ∧
      (['a', 'b'].length < 2 ^ 64 →
        FindFuzzyMatches (List.replicate 1 '?') ['a', 'b'] '?' =
          some (List.range (['a', 'b'].length + 1 - 1))) :=
  ⟨by decide, all_wildcard_pattern_matches_everywhere 1 (by decide) '?' ['a', 'b']⟩

/-- C16: for a non-empty pattern of length L, started from Init or from a Reset
after any earlier stream, the deque holds min(t, L - 1) counters after the t-th
Scan of a stream; inside the next Scan, after UpdateWordOccurrences, it holds
one more, which is at most L; and every id reported to the callback of
UpdateWordOccurrences is at least 1, so the index size - id that it writes,
when the guard size >= id holds, is inside the deque. -/
theorem bounded_window (pattern : List Char) (wildcard : Char) (hp : pattern ≠ [])
    (S1 S : List Char) :
    ∃ m0 m1 bs1 mR, WildcardMatcher.new.Init pattern wildcard = some m0 ∧
      scanStream m0 S1 = some (m1, bs1) ∧ m1.Reset = some mR ∧
      ∀ start, start = m0 ∨ start = mR → ∀ t, t ≤ S.length →
        ∃ mt bs, scanStream start (S.take t) = some (mt, bs) ∧
          mt.words_occurrences_by_position_.length = min t (pattern.length - 1) ∧
          mt.words_occurrences_by_position_.length ≤ pattern.length ∧
          ∀ c, S[t]? = some c →
            ∃ h h1 state1 ids m2, mt.aho_corasick_automaton_ = some h ∧
              mt.state_.Next h c = some (h1, state1) ∧ matchesAt h1 state1 = some ids ∧
              WildcardMatcher.UpdateWordOccurrences
                { mt with state_ := state1, aho_corasick_automaton_ := some h1 } = some m2 ∧
              m2.words_occurrences_by_position_.length = min t (pattern.length - 1) + 1 ∧
              m2.words_occurrences_by_position_.length ≤ pattern.length ∧
              ∀ id ∈ ids, m2.words_occurrences_by_position_.length ≥ id →
                m2.words_occurrences_by_position_.length - id <
                  m2.words_occurrences_by_position_.length := by
  have hL : 1 ≤ pattern.length := by
    cases pattern with
    | nil => exact absurd rfl hp
    | cons a l => simp
  obtain ⟨m0, h0, e0, _, _, _, _, _, _, inv0⟩ := WildcardMatcher.Init_gen pattern wildcard
  have hL0 := WildcardMatcher.init_pairs_of_length_zero pattern wildcard
  have hids : ∀ q ∈ (WildcardMatcher.initLoop (Split pattern fun s => s == wildcard) 0 0 []).2.2,
      1 ≤ q.2 := fun q hq => ((WildcardMatcher.init_pairs_spec pattern wildcard).2.1 q hq).1
  obtain ⟨occ1, i1⟩ := inv0 S1
  obtain ⟨m1, occ1', e1, i1'⟩ := WildcardMatcher.scanStream_fresh _ S1 _ hL0 hids m0 occ1 i1
  obtain ⟨mR, hR, eR, _, _, _, invR⟩ := WildcardMatcher.Reset_gen i1'
  refine ⟨m0, m1, _, mR, e0, e1, eR, fun start hstart t ht => ?_⟩
  have invS : ∃ occ, WildcardMatcher.MatcherInv
      (WildcardMatcher.initLoop (Split pattern fun s => s == wildcard) 0 0 []).2.2 S
      pattern.length 0 start occ := by
    rcases hstart with hs | hs
    · rw [hs]; exact inv0 S
    · rw [hs]; exact invR S
  obtain ⟨occ, iS⟩ := invS
  obtain ⟨mt, occt, et, it⟩ := WildcardMatcher.scanStream_spec _ S _ hL0 hids (S.take t)
    (S.drop t) 0 start occ (by simp) iS
  have hlt : (S.take t).length = t := by simp [ht]
  rw [Nat.zero_add, hlt] at it
  have hwl := it.window_length
  refine ⟨mt, _, et, by rw [hwl]; omega, by rw [hwl]; omega, fun c _ => ?_⟩
  obtain ⟨h, h1, state1, ids, m2, a1, a2, a3, a4, a5, a6⟩ :=
    WildcardMatcher.update_step _ S _ t hids mt occt it c
  refine ⟨h, h1, state1, ids, m2, a1, a2, a3, a4, by rw [a5, hwl]; omega,
    by rw [a5, hwl]; omega, fun id hid hge => ?_⟩
  have := a6 id hid
  omega

/-- Witness of C16: the pattern a? with the streams a and ab. -/
theorem bounded_window_witness :
    (['a', '?'] : List Char) ≠ [] ∧
    ∃ m0 m1 bs1 mR, WildcardMatcher.new.Init ['a', '?'] '?' = some m0 ∧
      scanStream m0 ['a'] = some (m1, bs1) ∧ m1.Reset = some mR ∧
      ∀ start, start = m0 ∨ start = mR → ∀ t, t ≤ ['a', 'b'].length →
        ∃ mt bs, scanStream start (['a', 'b'].take t) = some (mt, bs) ∧
          mt.words_occurrences_by_position_.length = min t (['a', '?'].length - 1) ∧
          mt.words_occurrences_by_position_.length ≤ ['a', '?'].length ∧
          ∀ c, ['a', 'b'][t]? = some c →
            ∃ h h1 state1 ids m2, mt.aho_corasick_automaton_ = some h ∧
              mt.state_.Next h c = some (h1, state1) ∧ matchesAt h1 state1 = some ids ∧
              WildcardMatcher.UpdateWordOccurrences
                { mt with state_ := state1, aho_corasick_automaton_ := some h1 } = some m2 ∧
              m2.words_occurrences_by_position_.length = min t (['a', '?'].length - 1) + 1 ∧
              m2.words_occurrences_by_position_.length ≤ ['a', '?'].length ∧
              ∀ id ∈ ids, m2.words_occurrences_by_position_.length ≥ id →
                m2.words_occurrences_by_position_.length - id <
                  m2.words_occurrences_by_position_.length :=
  ⟨by decide, bounded_window ['a', '?'] '?' (by decide) ['a'] ['a', 'b']⟩

/-! ## Fragments and runs -/

namespace WildcardMatcher

theorem isMaximalRun_append_iff (wc : Char) (pre x : List Char) (s e : Nat)
    (he : e < pre.length) :
    IsMaximalRun wc (pre ++ x) s e ↔ IsMaximalRun wc pre s e := by
  have hg : ∀ j, j ≤ e → (pre ++ x)[j]? = pre[j]? := fun j hj =>
    List.getElem?_append_left (by omega)
  have hne : e ≠ (pre ++ x).length := by simp; omega
  have hne' : e ≠ pre.length := by omega
  constructor
  · rintro ⟨h1, _, h3, h4, h5⟩
    refine ⟨h1, by omega, fun j hs hj => ?_, ?_, ?_⟩
    · rw [← hg j (by omega)]; exact h3 j hs hj
    · rcases h4 with h4 | h4
      · exact Or.inl h4
      · rw [hg _ (by omega)] at h4; exact Or.inr h4
    · rcases h5 with h5 | h5
      · exact absurd h5 hne
      · rw [hg _ le_rfl] at h5; exact Or.inr h5
  · rintro ⟨h1, _, h3, h4, h5⟩
    refine ⟨h1, by simp; omega, fun j hs hj => ?_, ?_, ?_⟩
    · rw [hg j (by omega)]; exact h3 j hs hj
    · rcases h4 with h4 | h4
      · exact Or.inl h4
      · rw [← hg _ (by omega)] at h4; exact Or.inr h4
    · rcases h5 with h5 | h5
      · exact absurd h5 hne'
      · rw [← hg _ le_rfl] at h5; exact Or.inr h5

theorem slice_append (pre x : List Char) (s e : Nat) (hs : s ≤ e) (he : e ≤ pre.length) :
    ((pre ++ x).drop s).take (e - s) = (pre.drop s).take (e - s) := by
  rw [List.drop_append_of_le_length (by omega), List.take_append_of_le_length]
  simp; omega

theorem OpenRun.getElem {wc : Char} {pre cur : List Char} (o : OpenRun wc pre cur) (j : Nat)
    (h1 : pre.length - cur.length ≤ j) (_h2 : j < pre.length) : pre[j]? ≠ some wc := by
  intro hj
  have hc : (pre.drop (pre.length - cur.length))[j - (pre.length - cur.length)]? =
      some wc := by
    rw [List.getElem?_drop]
    have : pre.length - cur.length + (j - (pre.length - cur.length)) = j := by omega
    rw [this]; exact hj
  rw [← o.cur_eq] at hc
  exact o.nowild wc (List.getElem?_mem hc) rfl

theorem OpenRun.run {wc : Char} {pre cur : List Char} (o : OpenRun wc pre cur)
    (hcur : cur ≠ []) (x : List Char) (hx : x = [] ∨ x[0]? = some wc) :
    IsMaximalRun wc (pre ++ x) (pre.length - cur.length) pre.length := by
  have hpos : 0 < cur.length := List.length_pos.mpr hcur
  have hl := o.len_le
  refine ⟨by omega, by simp, fun j hs hj => ?_, ?_, ?_⟩
  · rw [List.getElem?_append_left hj]
    exact o.getElem j hs hj
  · rcases o.start with h | h
    · exact Or.inl (by omega)
    · right
      rw [List.getElem?_append_left (by omega)]
      exact h
  · rcases hx with hx | hx
    · left; simp [hx]
    · right
      rw [List.getElem?_append_right le_rfl]
      simpa using hx

theorem OpenRun.unique {wc : Char} {pre cur : List Char} (o : OpenRun wc pre cur)
    (x : List Char) (s : Nat) (h : IsMaximalRun wc (pre ++ x) s pre.length) :
    cur ≠ [] ∧ s = pre.length - cur.length := by
  obtain ⟨h1, _, h3, h4, _⟩ := h
  have hl := o.len_le
  have hg : ∀ j, j < pre.length → (pre ++ x)[j]? = pre[j]? := fun j hj =>
    List.getElem?_append_left hj
  have key : s = pre.length - cur.length := by
    by_contra hne
    rcases Nat.lt_or_gt_of_ne hne with hlt | hgt
    · rcases o.start with hs | hs
      · omega
      · have := h3 (pre.length - cur.length - 1) (by omega) (by omega)
        rw [hg _ (by omega)] at this
        exact this hs
    · rcases h4 with h4 | h4
      · omega
      · rw [hg _ (by omega)] at h4
        exact o.getElem (s - 1) (by omega) (by omega) h4
  refine ⟨?_, key⟩
  intro hc
  rw [hc] at key
  simp at key
  omega

theorem initLoop_snoc (subs : List (List Char)) (cur : List Char) :
    initLoop (subs ++ [cur]) 0 0 [] =
      if cur.isEmpty then
        ((initLoop subs 0 0 []).1 + 1, (initLoop subs 0 0 []).2.1, (initLoop subs 0 0 []).2.2)
      else
        ((initLoop subs 0 0 []).1 + cur.length + 1, (initLoop subs 0 0 []).2.1 + 1,
          (initLoop subs 0 0 []).2.2 ++ [(cur, (initLoop subs 0 0 []).1 + cur.length)]) := by
  rw [initLoop_append]
  by_cases hc : cur.isEmpty = true
  · have : cur = [] := List.isEmpty_iff.mp hc
    subst this
    simp [initLoop]
  · simp [initLoop, hc]

theorem RunInv.lt_of_mem {wc : Char} {pre : List Char} {subs : List (List Char)}
    {cur : List Char} {runs : List (Nat × Nat)} (inv : RunInv wc pre subs cur runs)
    {r : Nat × Nat} (hr : r ∈ runs) : r.1 < r.2 ∧ r.2 < pre.length := by
  have := (inv.mem r.1 r.2).mp hr
  exact ⟨this.1.1, this.2⟩

theorem RunInv.pairs_append {wc : Char} {pre : List Char} {subs : List (List Char)}
    {cur : List Char} {runs : List (Nat × Nat)} (inv : RunInv wc pre subs cur runs)
    (x : List Char) :
    (runs.map fun r => (((pre ++ x).drop r.1).take (r.2 - r.1), r.2)) =
      runs.map fun r => ((pre.drop r.1).take (r.2 - r.1), r.2) := by
  apply List.map_congr_left
  intro r hr
  have := inv.lt_of_mem hr
  rw [slice_append pre x r.1 r.2 (by omega) (by omega)]

theorem RunInv.char {wc : Char} {pre : List Char} {subs : List (List Char)}
    {cur : List Char} {runs : List (Nat × Nat)} (inv : RunInv wc pre subs cur runs)
    (a : Char) (ha : a ≠ wc) : RunInv wc (pre ++ [a]) subs (cur ++ [a]) runs := by
  have hl := inv.open_run.len_le
  refine ⟨by simp; have := inv.total; omega, by rw [inv.pairs_append, inv.pairs], ?_, ?_,
    inv.sorted⟩
  · refine ⟨by simp; omega, ?_, ?_, ?_⟩
    · have : (pre ++ [a]).length - (cur ++ [a]).length = pre.length - cur.length := by
        simp
      rw [this, List.drop_append_of_le_length (by omega), ← inv.open_run.cur_eq]
    · intro x hx
      rcases List.mem_append.mp hx with hx | hx
      · exact inv.open_run.nowild x hx
      · simp only [List.mem_singleton] at hx
        rw [hx]; exact ha
    · rcases inv.open_run.start with h | h
      · left; simp [h]
      · by_cases hc : cur.length = pre.length
        · left; simp [hc]
        · right
          have : (pre ++ [a]).length - (cur ++ [a]).length - 1 =
              pre.length - cur.length - 1 := by simp
          rw [this, List.getElem?_append_left (by omega)]
          exact h
  · intro s e
    rw [inv.mem]
    constructor
    · rintro ⟨hm, he⟩
      exact ⟨(isMaximalRun_append_iff wc pre [a] s e he).mpr hm, by simp; omega⟩
    · rintro ⟨hm, he⟩
      simp only [List.length_append, List.length_singleton] at he
      have hne : e ≠ pre.length := by
        intro heq
        subst heq
        rcases hm.2.2.2.2 with h | h
        · simp at h
        · simp at h
          exact ha h
      have he' : e < pre.length := by omega
      exact ⟨(isMaximalRun_append_iff wc pre [a] s e he').mp hm, he'⟩

theorem RunInv.wild {wc : Char} {pre : List Char} {subs : List (List Char)}
    {cur : List Char} {runs : List (Nat × Nat)} (inv : RunInv wc pre subs cur runs) :
    RunInv wc (pre ++ [wc]) (subs ++ [cur]) []
      (if cur.isEmpty then runs else runs ++ [(pre.length - cur.length, pre.length)]) := by
  have hl := inv.open_run.len_le
  have htot := inv.total
  have hopen : OpenRun wc (pre ++ [wc]) [] :=
    ⟨by simp, by simp, by simp, Or.inr (by simp)⟩
  by_cases hc : cur.isEmpty = true
  · have hcur : cur = [] := List.isEmpty_iff.mp hc
    simp only [hc, if_true]
    refine ⟨?_, ?_, hopen, ?_, inv.sorted⟩
    · rw [initLoop_snoc]; simp [hc]; subst hcur; simpa using htot
    · rw [initLoop_snoc]; simp only [hc, if_true]; rw [inv.pairs_append, inv.pairs]
    · intro s e
      rw [inv.mem]
      constructor
      · rintro ⟨hm, he⟩
        exact ⟨(isMaximalRun_append_iff wc pre [wc] s e he).mpr hm, by simp; omega⟩
      · rintro ⟨hm, he⟩
        simp only [List.length_append, List.length_singleton] at he
        have hne : e ≠ pre.length := by
          intro heq
          subst heq
          exact (inv.open_run.unique [wc] s hm).1 hcur
        have he' : e < pre.length := by omega
        exact ⟨(isMaximalRun_append_iff wc pre [wc] s e he').mp hm, he'⟩
  · have hcur : cur ≠ [] := fun h => hc (List.isEmpty_iff.mpr h)
    have hpos : 0 < cur.length := List.length_pos.mpr hcur
    simp only [hc, Bool.false_eq_true, if_false]
    refine ⟨?_, ?_, hopen, ?_, ?_⟩
    · rw [initLoop_snoc]; simp [hc]; omega
    · rw [initLoop_snoc]
      simp only [hc, Bool.false_eq_true, if_false]
      rw [List.map_append, inv.pairs_append, inv.pairs]
      simp only [List.map_cons, List.map_nil]
      congr 2
      rw [htot]
      congr 1
      have : pre.length - (pre.length - cur.length) = (pre.drop (pre.length - cur.length)).length := by
        simp
      rw [List.drop_append_of_le_length (by omega), this,
        List.take_append_of_le_length le_rfl, List.take_length]
      exact inv.open_run.cur_eq
    · intro s e
      rw [List.mem_append, inv.mem]
      constructor
      · rintro (⟨hm, he⟩ | hm)
        · exact ⟨(isMaximalRun_append_iff wc pre [wc] s e he).mpr hm, by simp; omega⟩
        · simp only [List.mem_singleton, Prod.mk.injEq] at hm
          rw [hm.1, hm.2]
          exact ⟨inv.open_run.run hcur [wc] (Or.inr (by simp)), by simp⟩
      · rintro ⟨hm, he⟩
        simp only [List.length_append, List.length_singleton] at he
        by_cases hne : e = pre.length
        · right
          subst hne
          have := (inv.open_run.unique [wc] s hm).2
          simp [this]
        · left
          have he' : e < pre.length := by omega
          exact ⟨(isMaximalRun_append_iff wc pre [wc] s e he').mp hm, he'⟩
    · rw [List.pairwise_append]
      refine ⟨inv.sorted, by simp, ?_⟩
      intro a ha b hb
      simp only [List.mem_singleton] at hb
      rw [hb]
      exact (inv.lt_of_mem ha).2

theorem isMaximalRun_snoc_wild (wc : Char) (pre : List Char) (s e : Nat)
    (he : e ≤ pre.length) :
    IsMaximalRun wc (pre ++ [wc]) s e ↔ IsMaximalRun wc pre s e := by
  have hg : ∀ j, j < pre.length → (pre ++ [wc])[j]? = pre[j]? := fun j hj =>
    List.getElem?_append_left hj
  constructor
  · rintro ⟨h1, _, h3, h4, h5⟩
    refine ⟨h1, he, fun j hs hj => ?_, ?_, ?_⟩
    · rw [← hg j (by omega)]; exact h3 j hs hj
    · rcases h4 with h4 | h4
      · exact Or.inl h4
      · rw [hg _ (by omega)] at h4; exact Or.inr h4
    · by_cases hl : e = pre.length
      · exact Or.inl hl
      · rcases h5 with h5 | h5
        · simp at h5; omega
        · rw [hg _ (by omega)] at h5; exact Or.inr h5
  · rintro ⟨h1, _, h3, h4, h5⟩
    refine ⟨h1, by simp; omega, fun j hs hj => ?_, ?_, ?_⟩
    · rw [hg j (by omega)]; exact h3 j hs hj
    · rcases h4 with h4 | h4
      · exact Or.inl h4
      · rw [← hg _ (by omega)] at h4; exact Or.inr h4
    · right
      by_cases hl : e = pre.length
      · rw [hl]; simp
      · rcases h5 with h5 | h5
        · exact absurd h5 hl
        · rw [hg _ (by omega)]; exact h5

theorem splitLoop_runs (wc : Char) :
    ∀ (rest pre : List Char) (subs : List (List Char)) (cur : List Char)
      (runs : List (Nat × Nat)), RunInv wc pre subs cur runs →
      ∃ runs' : List (Nat × Nat),
        (initLoop (splitLoop (fun s => s == wc) rest cur subs) 0 0 []).2.2 =
          (runs'.map fun r => (((pre ++ rest).drop r.1).take (r.2 - r.1), r.2)) ∧
        (∀ s e, (s, e) ∈ runs' ↔ IsMaximalRun wc (pre ++ rest) s e) ∧
        runs'.Pairwise fun a b => a.2 < b.2 := by
  intro rest
  induction rest with
  | nil =>
    intro pre subs cur runs inv
    have w := inv.wild
    have hadd : (initLoop (splitLoop (fun s => s == wc) [] cur subs) 0 0 []).2.2 =
        (initLoop (subs ++ [cur]) 0 0 []).2.2 := by
      by_cases hc : cur.isEmpty = true
      · simp only [splitLoop, hc, if_true]
        rw [initLoop_snoc]
        simp [hc]
      · simp only [splitLoop, hc]
        simp
    have hle : ∀ r ∈ (if cur.isEmpty then runs
        else runs ++ [(pre.length - cur.length, pre.length)]), r.1 < r.2 ∧ r.2 ≤ pre.length := by
      intro r hr
      have := w.lt_of_mem hr
      simp only [List.length_append, List.length_singleton] at this
      omega
    refine ⟨_, ?_, ?_, w.sorted⟩
    · rw [hadd, w.pairs, List.append_nil]
      apply List.map_congr_left
      intro r hr
      have := hle r hr
      rw [slice_append pre [wc] r.1 r.2 (by omega) (by omega)]
    · intro s e
      rw [List.append_nil, w.mem]
      constructor
      · rintro ⟨hm, he⟩
        simp only [List.length_append, List.length_singleton] at he
        exact (isMaximalRun_snoc_wild wc pre s e (by omega)).mp hm
      · intro hm
        exact ⟨(isMaximalRun_snoc_wild wc pre s e hm.2.1).mpr hm, by
          simp only [List.length_append, List.length_singleton]
          have := hm.2.1
          omega⟩
  | cons a rest ih =>
    intro pre subs cur runs inv
    have happ : pre ++ a :: rest = (pre ++ [a]) ++ rest := by simp
    rw [happ]
    by_cases ha : a = wc
    · subst ha
      simp only [splitLoop, beq_self_eq_true, if_true]
      exact ih _ _ _ _ inv.wild
    · have hb : (a == wc) = false := by simpa using ha
      simp only [splitLoop, hb, Bool.false_eq_true, if_false]
      exact ih _ _ _ _ (inv.char a ha)

theorem RunInv.run_start (wc : Char) : RunInv wc [] [] [] [] := by
  refine ⟨rfl, rfl, ⟨le_rfl, rfl, by simp, Or.inl rfl⟩, ?_, List.Pairwise.nil⟩
  intro s e
  simp

end WildcardMatcher

/-- C17: Init passes to the automaton builder exactly one pair
(pattern[s..e), e) for each maximal run of non-wildcard characters occupying the
positions s..e-1 of the pattern (the pairs are the image of a duplicate-free
list of all the runs), the automaton of the matcher is the one built from these
pairs, number_of_words_ is the number of runs and pattern_length_ is the length
of the pattern. -/
theorem init_fragment_tagging (pattern : List Char) (wildcard : Char) :
    ∃ m h, ∃ runs : List (Nat × Nat),
      WildcardMatcher.new.Init pattern wildcard = some m ∧
      runs.Nodup ∧ (∀ s e, (s, e) ∈ runs ↔ IsMaximalRun wildcard pattern s e) ∧
      (WildcardMatcher.initLoop (Split pattern fun symbol => symbol == wildcard) 0 0 []).2.2 =
        (runs.map fun r => ((pattern.drop r.1).take (r.2 - r.1), r.2)) ∧
      Build (runs.map fun r => ((pattern.drop r.1).take (r.2 - r.1), r.2)) = some h ∧
      m.aho_corasick_automaton_ = some h ∧
      m.number_of_words_ = runs.length ∧ m.pattern_length_ = pattern.length := by
  obtain ⟨m, h, e0, _, ea, _, enw, eL, eb, _⟩ := WildcardMatcher.Init_gen pattern wildcard
  obtain ⟨runs, hp, hm, hs⟩ :=
    WildcardMatcher.splitLoop_runs wildcard pattern [] [] [] [] (WildcardMatcher.RunInv.run_start _)
  rw [List.nil_append] at hp hm
  have hp' : (WildcardMatcher.initLoop (Split pattern fun symbol => symbol == wildcard)
      0 0 []).2.2 = (runs.map fun r => ((pattern.drop r.1).take (r.2 - r.1), r.2)) := hp
  refine ⟨m, h, runs, e0, ?_, hm, hp', ?_, ea, ?_, eL⟩
  · exact hs.imp fun hab heq => by rw [heq] at hab; exact Nat.lt_irrefl _ hab
  · rw [← hp']; exact eb
  · rw [enw, hp']; simp

/-! ## Breadth-first search with vertex colours -/

namespace traverses

theorem BfsInv.fresh {h0 : Automaton} {path : Nat → List Char} {popped q : List Nat}
    {v : Nat} (t : TrieInv h0 path) (b : BfsInv h0 path popped (v :: q)) :
    ∀ m ∈ (h0.node v).trie_transitions.map Prod.snd, m ∉ popped ++ v :: q := by
  have hvlt : v < h0.size := b.lt v (by simp)
  have hk := t.keys_nodup v
  have hchild : ∀ e ∈ (h0.node v).trie_transitions,
      mapFind (h0.node v).trie_transitions e.1 = some e.2 :=
    fun e he => mapFind_of_mem _ _ _ hk he
  have hvpop : v ∉ popped := by
    intro hv
    have := (List.nodup_append.1 b.nodup).2.2
    exact this hv (List.mem_cons_self _ _)
  intro m hm hmD
  obtain ⟨e, he, rfl⟩ := List.mem_map.1 hm
  have hc := t.child v e.1 e.2 hvlt (hchild e he)
  have m0 : e.2 ≠ 0 := by
    intro e0
    have := hc.2
    rw [e0, t.path_root] at this
    simp at this
  obtain ⟨p, hp, c', hc'⟩ := b.par e.2 hmD m0
  have hplt : p < h0.size := b.lt p (List.mem_append_left _ hp)
  have e2 := (t.child p c' e.2 hplt hc').2
  have := List.append_inj' (e2.symm.trans hc.2) rfl
  have hpv : p = v := t.inj_path hplt hvlt this.1
  exact hvpop (hpv ▸ hp)

theorem BfsInv.first {h0 : Automaton} {path : Nat → List Char} {popped q : List Nat}
    {v : Nat} (t : TrieInv h0 path) (b : BfsInv h0 path popped (v :: q)) :
    popped = [] → v = 0 := by
  have hvlt : v < h0.size := b.lt v (by simp)
  intro hp
  subst hp
  have h0mem : (0 : Nat) ∈ v :: q := by simpa using b.root
  have hle : (path v).length ≤ (path 0).length := by
    rcases List.mem_cons.1 h0mem with h3 | h3
    · rw [← h3]
    · have := b.sorted
      simp only [List.nil_append] at this
      exact List.rel_of_pairwise_cons this h3
  rw [t.path_root] at hle
  by_contra hne
  exact t.path_ne_nil hvlt hne (List.length_eq_zero.1 (Nat.le_zero.1 hle))

theorem BfsInv.step {h0 : Automaton} {path : Nat → List Char} {popped q : List Nat}
    {v : Nat} (t : TrieInv h0 path) (b : BfsInv h0 path popped (v :: q)) :
    BfsInv h0 path (popped ++ [v]) (q ++ (h0.node v).trie_transitions.map Prod.snd) := by
  have hvlt : v < h0.size := b.lt v (by simp)
  have hk := t.keys_nodup v
  have hchild : ∀ e ∈ (h0.node v).trie_transitions,
      mapFind (h0.node v).trie_transitions e.1 = some e.2 :=
    fun e he => mapFind_of_mem _ _ _ hk he
  have hnotD := b.fresh t
  have hD : popped ++ v :: q ++ (h0.node v).trie_transitions.map Prod.snd =
      (popped ++ [v]) ++ (q ++ (h0.node v).trie_transitions.map Prod.snd) := by
    simp
  refine ⟨?_, ?_, ?_, ?_, ?_, ?_⟩
  · rw [← hD]
    refine List.Nodup.append b.nodup (children_nodup t hvlt) ?_
    intro x hx1 hx2
    exact hnotD x hx2 hx1
  · rw [← hD]
    intro m hm
    rcases List.mem_append.1 hm with h3 | h3
    · exact b.lt m h3
    · obtain ⟨e, he, rfl⟩ := List.mem_map.1 h3
      exact (t.child v e.1 e.2 hvlt (hchild e he)).1
  · rw [← hD]
    intro m hm m0
    rcases List.mem_append.1 hm with h3 | h3
    · obtain ⟨p, hp, c, hc⟩ := b.par m h3 m0
      exact ⟨p, List.mem_append_left _ hp, c, hc⟩
    · obtain ⟨e, he, rfl⟩ := List.mem_map.1 h3
      exact ⟨v, by simp, e.1, hchild e he⟩
  · rw [← hD]
    refine List.pairwise_append.2 ⟨b.sorted, ?_, ?_⟩
    · refine List.Pairwise.imp_of_mem ?_
        (List.pairwise_of_forall (R := fun _ _ => True) (fun _ _ => trivial))
      intro x y hx hy _
      obtain ⟨e, he, rfl⟩ := List.mem_map.1 hx
      obtain ⟨e', he', rfl⟩ := List.mem_map.1 hy
      rw [(t.child v e.1 e.2 hvlt (hchild e he)).2,
        (t.child v e'.1 e'.2 hvlt (hchild e' he')).2]
      simp
    · intro x hx y hy
      obtain ⟨e, he, rfl⟩ := List.mem_map.1 hy
      rw [(t.child v e.1 e.2 hvlt (hchild e he)).2]
      simp only [List.length_append, List.length_singleton]
      have hpv : ∀ p ∈ popped, (path p).length ≤ (path v).length := by
        intro p hp
        exact (List.pairwise_append.1 b.sorted).2.2 p hp v (List.mem_cons_self _ _)
      by_cases x0 : x = 0
      · rw [x0, t.path_root]
        simp
      · obtain ⟨p, hp, c, hc⟩ := b.par x hx x0
        have hplt : p < h0.size := b.lt p (List.mem_append_left _ hp)
        rw [(t.child p c x hplt hc).2]
        simp only [List.length_append, List.length_singleton]
        have := hpv p hp
        omega
  · rw [← hD]
    intro p hp c m hm
    rcases List.mem_append.1 hp with h3 | h3
    · exact List.mem_append_left _ (b.closed p h3 c m hm)
    · simp only [List.mem_singleton] at h3
      subst h3
      exact List.mem_append_right _
        (List.mem_map.2 ⟨(c, m), mem_of_mapFind _ _ _ hm, rfl⟩)
  · rw [← hD]
    exact List.mem_append_left _ b.root

theorem BfsInv.bfs_start {h0 : Automaton} {path : Nat → List Char} (t : TrieInv h0 path) :
    BfsInv h0 path [] [0] := by
  refine ⟨by simp, ?_, ?_, by simp, ?_, by simp⟩
  · intro m hm
    simp only [List.nil_append, List.mem_singleton] at hm
    rw [hm]
    exact t.size_pos
  · intro m hm m0
    simp only [List.nil_append, List.mem_singleton] at hm
    exact absurd hm m0
  · intro p hp
    simp at hp

end traverses

namespace prog

open traverses

theorem visitEdges_colours (visitor : BfsVisitor) {h0 : Automaton} {path : Nat → List Char}
    (v : Nat) (J' : Nat → List Nat → Automaton → Prop)
    (hE : ∀ D h c m, J' v D h → Visiting h0 path v D →
      mapFind (h0.node v).trie_transitions c = some m → m ∉ D →
      ∃ h1 h2, visitor.DiscoverVertex h m = some h1 ∧
        visitor.ExamineEdge h1 ⟨v, m, c⟩ = some h2 ∧ J' v (D ++ [m]) h2)
    (hlt : ∀ c m, mapFind (h0.node v).trie_transitions c = some m → m < h0.size) :
    ∀ (es : List (Char × Nat)) (D : List Nat) (h : Automaton) (q gray black : List Nat),
      J' v D h → Visiting h0 path v D →
      (∀ e ∈ es, mapFind (h0.node v).trie_transitions e.1 = some e.2) →
      (es.map Prod.snd).Nodup → (∀ m ∈ es.map Prod.snd, m ∉ D) →
      (∀ x, x ∈ gray ∨ x ∈ black → x ∈ D) →
      ∃ h', prog.visitEdges visitor (es.map fun t => ⟨v, t.2, t.1⟩) h q gray black =
          some (h', q ++ es.map Prod.snd, gray ++ es.map Prod.snd) ∧
        J' v (D ++ es.map Prod.snd) h' := by
  intro es
  induction es with
  | nil =>
    intro D h q gray black hj _ _ _ _ _
    exact ⟨h, by simp [prog.visitEdges], by simpa using hj⟩
  | cons e es ih =>
    intro D h q gray black hj hv hmem hnd hnot hcol
    obtain ⟨c, m⟩ := e
    have hm : mapFind (h0.node v).trie_transitions c = some m := hmem (c, m) (by simp)
    have hmD : m ∉ D := hnot m (by simp)
    obtain ⟨h1, h2, e1, e2, hj2⟩ := hE D h c m hj hv hm hmD
    have hv2 : Visiting h0 path v (D ++ [m]) := by
      refine ⟨List.mem_append_left _ hv.mem, ?_, fun u hu hl =>
        List.mem_append_left _ (hv.shallow u hu hl)⟩
      intro x hx
      rcases List.mem_append.1 hx with h3 | h3
      · exact hv.lt x h3
      · simp only [List.mem_singleton] at h3
        rw [h3]
        exact hlt c m hm
    simp only [List.map_cons, List.nodup_cons] at hnd
    obtain ⟨h', e3, hj3⟩ := ih (D ++ [m]) h2 (q ++ [m]) (gray ++ [m]) black hj2 hv2
      (fun e he => hmem e (List.mem_cons_of_mem _ he)) hnd.2 (by
        intro x hx hxD
        rcases List.mem_append.1 hxD with h3 | h3
        · exact hnot x (by simp only [List.map_cons]; exact List.mem_cons_of_mem _ hx) h3
        · simp only [List.mem_singleton] at h3
          rw [h3] at hx
          exact hnd.1 hx) (by
        intro x hx
        rcases hx with hx | hx
        · rcases List.mem_append.1 hx with h3 | h3
          · exact List.mem_append_left _ (hcol x (Or.inl h3))
          · exact List.mem_append_right _ h3
        · exact List.mem_append_left _ (hcol x (Or.inr hx)))
    have hfresh : m ∉ gray ∧ m ∉ black :=
      ⟨fun hx => hmD (hcol m (Or.inl hx)), fun hx => hmD (hcol m (Or.inr hx))⟩
    refine ⟨h', ?_, ?_⟩
    · simp only [List.map_cons, prog.visitEdges, GetTarget, hfresh, not_false_eq_true,
        and_self, if_true, e1, e2, e3]
      simp
    · simpa using hj3

theorem bfsLoop_colours (visitor : BfsVisitor) {h0 : Automaton} {path : Nat → List Char}
    (t : TrieInv h0 path) (J : List Nat → List Nat → Automaton → Prop)
    (J' : Nat → List Nat → Automaton → Prop)
    (hJ' : ∀ v D h, J' v D h →
      ∀ n, (h.node n).trie_transitions = (h0.node n).trie_transitions)
    (hV : ∀ popped D h v, J popped D h → Visiting h0 path v D → (popped = [] → v = 0) →
      ∃ h', visitor.ExamineVertex h v = some h' ∧ J' v D h')
    (hE : ∀ v D h c m, J' v D h → Visiting h0 path v D →
      mapFind (h0.node v).trie_transitions c = some m → m ∉ D →
      ∃ h1 h2, visitor.DiscoverVertex h m = some h1 ∧
        visitor.ExamineEdge h1 ⟨v, m, c⟩ = some h2 ∧ J' v (D ++ [m]) h2)
    (hF : ∀ v popped D h, J' v D h → J (popped ++ [v]) D h) :
    ∀ (fuel : Nat) (popped queue gray black : List Nat) (h : Automaton),
      BfsInv h0 path popped queue → J popped (popped ++ queue) h →
      gray.Nodup → (∀ x, x ∈ gray ↔ x ∈ queue) → (∀ x, x ∈ black ↔ x ∈ popped) →
      h0.size ≤ fuel + popped.length →
      ∃ h' D, prog.bfsLoop visitor fuel queue gray black h = some h' ∧ J D D h' ∧
        ∀ n, n < h0.size → n ∈ D := by
  have done : ∀ (fuel : Nat) (popped gray black : List Nat) (h : Automaton),
      BfsInv h0 path popped [] → J popped (popped ++ []) h →
      ∃ h' D, prog.bfsLoop visitor fuel [] gray black h = some h' ∧ J D D h' ∧
        ∀ n, n < h0.size → n ∈ D := by
    intro fuel popped gray black h b hj
    rw [List.append_nil] at hj
    refine ⟨h, popped, by cases fuel <;> simp [prog.bfsLoop], hj, ?_⟩
    intro n hn
    exact b.below t _ n rfl hn (by simp)
  intro fuel
  induction fuel with
  | zero =>
    intro popped queue gray black h b hj _ _ _ hf
    cases queue with
    | nil => exact done 0 popped gray black h b hj
    | cons v q =>
      have := nodup_length_le b.nodup b.lt
      simp only [List.length_append, List.length_cons] at this
      omega
  | succ f ih =>
    intro popped queue gray black h b hj hgn hg hb hf
    cases queue with
    | nil => exact done _ popped gray black h b hj
    | cons v q =>
      have hvis := b.visiting t
      have hvlt : v < h0.size := b.lt v (by simp)
      obtain ⟨h1, e1, hj1⟩ := hV _ _ h v hj hvis (b.first t)
      have hout : OutgoingEdges h1 v =
          (h0.node v).trie_transitions.map fun t => ⟨v, t.2, t.1⟩ := by
        simp only [OutgoingEdges, hJ' v _ h1 hj1 v]
      have hk := t.keys_nodup v
      have hchild : ∀ e ∈ (h0.node v).trie_transitions,
          mapFind (h0.node v).trie_transitions e.1 = some e.2 :=
        fun e he => mapFind_of_mem _ _ _ hk he
      have hnotD := b.fresh t
      obtain ⟨h2, e2, hj2⟩ := visitEdges_colours visitor v J' (hE v)
        (fun c m hm => (t.child v c m hvlt hm).1) (h0.node v).trie_transitions
        (popped ++ v :: q) h1 (v :: q) gray black hj1 hvis hchild (children_nodup t hvlt)
        hnotD (by
          intro x hx
          rcases hx with hx | hx
          · exact List.mem_append_right _ ((hg x).1 hx)
          · exact List.mem_append_left _ ((hb x).1 hx))
      have hD : popped ++ v :: q ++ (h0.node v).trie_transitions.map Prod.snd =
          (popped ++ [v]) ++ (q ++ (h0.node v).trie_transitions.map Prod.snd) := by
        simp
      have b' := b.step t
      have hj3 : J (popped ++ [v])
          ((popped ++ [v]) ++ (q ++ (h0.node v).trie_transitions.map Prod.snd)) h2 := by
        rw [← hD]
        exact hF v _ _ h2 hj2
      have hgn2 : (gray ++ (h0.node v).trie_transitions.map Prod.snd).Nodup := by
        refine List.Nodup.append hgn (children_nodup t hvlt) ?_
        intro x hx1 hx2
        exact hnotD x hx2 (List.mem_append_right _ ((hg x).1 hx1))
      have hvq : v ∉ q := by
        have := (List.nodup_append.1 b.nodup).2.1
        exact (List.nodup_cons.1 this).1
      obtain ⟨h', D, e3, hj4, hall⟩ := ih (popped ++ [v])
        (q ++ (h0.node v).trie_transitions.map Prod.snd)
        ((gray ++ (h0.node v).trie_transitions.map Prod.snd).erase v) (black.insert v) h2
        b' hj3 (hgn2.erase v) (by
          intro x
          rw [hgn2.mem_erase_iff, List.mem_append, List.mem_append, hg]
          constructor
          · rintro ⟨hne, hx | hx⟩
            · rcases List.mem_cons.1 hx with h3 | h3
              · exact absurd h3 hne
              · exact Or.inl h3
            · exact Or.inr hx
          · rintro (hx | hx)
            · exact ⟨fun e => hvq (e ▸ hx), Or.inl (List.mem_cons_of_mem _ hx)⟩
            · exact ⟨fun e => hnotD x hx (by rw [e]; simp), Or.inr hx⟩) (by
          intro x
          rw [List.mem_insert_iff, hb, List.mem_append, List.mem_singleton]
          exact or_comm) (by
          simp only [List.length_append, List.length_singleton]
          omega)
      refine ⟨h', D, ?_, hj4, hall⟩
      simp only [prog.bfsLoop, e1, hout, e2, List.tail_cons, List.cons_append]
      exact e3

theorem BreadthFirstSearch_colours (visitor : BfsVisitor) {h0 : Automaton}
    {path : Nat → List Char} (t : TrieInv h0 path) (J : List Nat → List Nat → Automaton → Prop)
    (J' : Nat → List Nat → Automaton → Prop)
    (hJ' : ∀ v D h, J' v D h →
      ∀ n, (h.node n).trie_transitions = (h0.node n).trie_transitions)
    (hV : ∀ popped D h v, J popped D h → Visiting h0 path v D → (popped = [] → v = 0) →
      ∃ h', visitor.ExamineVertex h v = some h' ∧ J' v D h')
    (hE : ∀ v D h c m, J' v D h → Visiting h0 path v D →
      mapFind (h0.node v).trie_transitions c = some m → m ∉ D →
      ∃ h1 h2, visitor.DiscoverVertex h m = some h1 ∧
        visitor.ExamineEdge h1 ⟨v, m, c⟩ = some h2 ∧ J' v (D ++ [m]) h2)
    (hF : ∀ v popped D h, J' v D h → J (popped ++ [v]) D h) (hinit : J [] [0] h0) :
    ∃ h' D, prog.BreadthFirstSearch 0 h0 visitor = some h' ∧ J D D h' ∧
      ∀ n, n < h0.size → n ∈ D :=
  bfsLoop_colours visitor t J J' hJ' hV hE hF h0.size [] [0] [0] [] h0 (BfsInv.bfs_start t) hinit
    (by simp) (fun _ => Iff.rfl) (fun _ => Iff.rfl) (by simp)

end prog

/-! ## The automaton built by prog.cpp -/

namespace prog

open traverses

theorem setSuffixLink_twice (h : Automaton) (m : Nat) (x y : Option Nat) :
    (h.setSuffixLink m x).setSuffixLink m y = h.setSuffixLink m y := by
  simp only [Automaton.setSuffixLink, Automaton.setNode, Automaton.mk.injEq, true_and]
  funext j
  by_cases hj : j = m
  · simp [hj]
  · simp [hj]

theorem setSuffixLink_self (h : Automaton) (m : Nat) (x : Option Nat)
    (hx : (h.node m).suffix_link = x) : h.setSuffixLink m x = h := by
  cases h with
  | mk size node =>
    simp only [Automaton.setSuffixLink, Automaton.setNode, Automaton.mk.injEq, true_and]
    funext j
    by_cases hj : j = m
    · subst hj
      simp only at hx
      simp [← hx]
    · simp [hj]

theorem rootCounterLoop_spec {path : Nat → List Char} {added : List (List Char × Nat)}
    (c : Char) (m : Nat) (w : List Char) :
    ∀ (fuel : Nat) (h : Automaton) (rc s : Nat), TrieOK h path added →
      (h.node m).suffix_link = some s → s < h.size → s ≠ m →
      (path s).length + (2 - rc) < fuel →
      (∀ u, u < h.size → (path u).length ≤ (path s).length → u ≠ m ∧ SuffixOK h path added u) →
      longestPathSuffix added w = longestPathSuffix added (path s ++ [c]) →
      (rc = 0 ∨ (rc = 1 ∧ s = 0) ∨
        (rc = 2 ∧ s = 0 ∧ mapFind (h.node 0).trie_transitions c = none)) →
      ∃ r, rootCounterLoop (some 0) c m fuel h rc = some (h.setSuffixLink m (some r)) ∧
        r < h.size ∧ path r = longestPathSuffix added w := by
  intro fuel
  induction fuel with
  | zero =>
    intro h rc s _ _ _ _ hf
    omega
  | succ fuel ih =>
    intro h rc s t hs hslt hsm hf hsuf hw hrc
    simp only [rootCounterLoop]
    by_cases h2 : rc < 2
    · simp only [h2, if_true, hs, GetTrieTransition]
      cases hd : mapFind (h.node s).trie_transitions c with
      | some d =>
        obtain ⟨l1, l2⟩ := t.trie.child s c d hslt hd
        refine ⟨d, rfl, l1, ?_⟩
        rw [hw, ← l2, longestPathSuffix_of_path (t.paths d l1)]
      | none =>
        have np := t.no_child hslt hd
        obtain ⟨s', e1, e2, e3⟩ := (hsuf s hslt le_rfl).2
        have a := setSuffix_same h m (h.node s).suffix_link
        have t1 : TrieOK (h.setSuffixLink m (h.node s).suffix_link) path added :=
          t.of_same a.suffix_sameTrie
        have hlen : (path s').length ≤ (path s).length - 1 := by
          rw [e3]
          have := longestPathSuffix_length_le added (path s).tail
          simp only [List.length_tail] at this
          exact this
        have hs'm : s' ≠ m := (hsuf s' e2 (by omega)).1
        have hsuf' : ∀ u, u < (h.setSuffixLink m (h.node s).suffix_link).size →
            (path u).length ≤ (path s').length →
            u ≠ m ∧ SuffixOK (h.setSuffixLink m (h.node s).suffix_link) path added u := by
          intro u hu hl
          have := hsuf u hu (by omega)
          exact ⟨this.1, a.suffix_suffixOK this.2 this.1⟩
        have hw' : longestPathSuffix added w = longestPathSuffix added (path s' ++ [c]) := by
          rw [hw, e3, ← longestPathSuffix_snoc, longestPathSuffix_snoc_of_not_path np]
        simp only [setSuffixLink_link]
        by_cases hs0 : s = 0
        · subst hs0
          have hs'0 : s' = 0 := by
            apply t.inj e2 hslt
            rw [e3, t.trie.path_root]
            rfl
          subst hs'0
          have hrc' : rc = 0 ∨ rc = 1 := by omega
          obtain ⟨r, er, hr1, hr2⟩ := ih (h.setSuffixLink m (h.node 0).suffix_link) (rc + 1) 0
            t1 (by simp [e1]) hslt hsm (by omega) hsuf' hw' (by
              rcases hrc' with h3 | h3
              · right; left; exact ⟨by omega, rfl⟩
              · right; right
                refine ⟨by omega, rfl, ?_⟩
                rw [(a.2 0).1]; exact hd)
          refine ⟨r, ?_, hr1, hr2⟩
          rw [e1] at er
          simp only [e1, if_true]
          rw [er, setSuffixLink_twice]
        · have hrc0 : rc = 0 := by
            rcases hrc with h3 | h3 | h3
            · exact h3
            · exact absurd h3.2 hs0
            · exact absurd h3.2.1 hs0
          subst hrc0
          have hpos : 0 < (path s).length :=
            List.length_pos.mpr (t.trie.path_ne_nil hslt hs0)
          obtain ⟨r, er, hr1, hr2⟩ := ih (h.setSuffixLink m (h.node s).suffix_link)
            (0 + if (some s' : Option Nat) = some 0 then 1 else 0) s'
            t1 (by simp [e1]) e2 hs'm (by split <;> omega) hsuf' hw' (by
              by_cases h3 : s' = 0
              · right; left; simp [h3]
              · left; simp [h3])
          refine ⟨r, ?_, hr1, hr2⟩
          rw [e1] at er
          simp only [e1]
          rw [er, setSuffixLink_twice]
    · have hrc2 : rc = 2 ∧ s = 0 ∧ mapFind (h.node 0).trie_transitions c = none := by
        rcases hrc with h3 | h3 | h3
        · omega
        · omega
        · exact h3
      obtain ⟨_, hs0, hd⟩ := hrc2
      subst hs0
      simp only [h2, if_false]
      refine ⟨0, ?_, hslt, ?_⟩
      · rw [setSuffixLink_self h m (some 0) hs]
      · have np := t.no_child hslt hd
        rw [hw, longestPathSuffix_snoc_of_not_path np, t.trie.path_root]
        have : ¬ IsTriePath added [c] := by simpa [t.trie.path_root] using np
        simp [longestPathSuffix, this]

theorem suffix_examineEdge_loop {h0 : Automaton} {path : Nat → List Char}
    {added : List (List Char × Nat)} (t : TrieOK h0 path added)
    (v : Nat) (D : List Nat) (h : Automaton) (c : Char) (m : Nat)
    (hj : SufJ' h0 path added v D h) (hv : Visiting h0 path v D)
    (hm : mapFind (h0.node v).trie_transitions c = some m) (hmD : m ∉ D) :
    ∃ h1 h2, (prog.SuffixLinkCalculator (some 0)).DiscoverVertex h m = some h1 ∧
      (prog.SuffixLinkCalculator (some 0)).ExamineEdge h1 ⟨v, m, c⟩ = some h2 ∧
      SufJ' h0 path added v (D ++ [m]) h2 := by
  obtain ⟨base, hD, _⟩ := hj
  have th : TrieOK h path added := t.of_same base.same
  have h0D : (0 : Nat) ∈ D := hv.shallow 0 t.trie.size_pos (by simp [t.trie.path_root])
  suffices hs : ∃ h2, (prog.SuffixLinkCalculator (some 0)).ExamineEdge h ⟨v, m, c⟩ = some h2 ∧
      SufBase h0 h2 path added ∧ ∀ n ∈ D ++ [m], SuffixOK h2 path added n by
    obtain ⟨h2, e1, e3, e4⟩ := hs
    exact ⟨h, h2, rfl, e1, e3, e4, e4 0 (List.mem_append_left _ h0D)⟩
  have hvlt : v < h0.size := hv.lt v hv.mem
  obtain ⟨hmlt, hpm⟩ := t.trie.child v c m hvlt hm
  obtain ⟨s, hs1, hs2, hs3⟩ := hD v hv.mem
  have a1 := setSuffix_same h m (h.node v).suffix_link
  have hsz : h.size = h0.size := base.same.1
  by_cases v0 : v = 0
  · subst v0
    have hs0 := (suffixOK_at_root th).1 ⟨s, hs1, hs2, hs3⟩
    refine ⟨_, by simp only [prog.SuffixLinkCalculator, if_true], base.setSuffix a1, ?_⟩
    intro n hn
    rcases List.mem_append.1 hn with h3 | h3
    · exact a1.suffix_suffixOK (hD n h3) (fun e => hmD (e ▸ h3))
    · simp only [List.mem_singleton] at h3
      subst h3
      refine ⟨0, by simp [hs0], by simpa using th.trie.size_pos, ?_⟩
      rw [hpm, t.trie.path_root]
      rfl
  · have hne : ¬ ((some v : Option Nat) = some 0) := by simpa using v0
    have t1 : TrieOK (h.setSuffixLink m (h.node v).suffix_link) path added :=
      th.of_same a1.suffix_sameTrie
    have hpv : path v ≠ [] := t.trie.path_ne_nil hvlt v0
    have hlen : (path s).length < (path v).length := by
      rw [hs3]
      have := longestPathSuffix_length_le added (path v).tail
      have : (path v).tail.length < (path v).length := by
        cases hp : path v with
        | nil => exact absurd hp hpv
        | cons a tl => simp
      omega
    have hsD : s ∈ D := hv.shallow s (by rw [← hsz]; exact hs2) (by omega)
    have hds := t.trie.depth_le s (by rw [← hsz]; exact hs2)
    have htail : (path m).tail = (path v).tail ++ [c] := by
      rw [hpm]
      cases hp : path v with
      | nil => exact absurd hp hpv
      | cons a tl => simp
    obtain ⟨r, er, hr1, hr2⟩ := rootCounterLoop_spec c m ((path v).tail ++ [c]) (h.size + 2)
      (h.setSuffixLink m (h.node v).suffix_link) 0 s t1 (by simp [hs1]) (by simpa using hs2)
      (fun e => hmD (e ▸ hsD)) (by omega)
      (fun u hu hul => by
        have hu' : u < h0.size := by simpa [hsz] using hu
        have huD : u ∈ D := hv.shallow u hu' (by omega)
        exact ⟨fun e => hmD (e ▸ huD), a1.suffix_suffixOK (hD u huD) (fun e => hmD (e ▸ huD))⟩)
      (by rw [hs3, ← longestPathSuffix_snoc]) (Or.inl rfl)
    rw [setSuffixLink_twice] at er
    have a3 := setSuffix_same h m (some r)
    refine ⟨_, ?_, base.setSuffix a3, ?_⟩
    · simp only [prog.SuffixLinkCalculator, hne, if_false]
      exact er
    · intro n hn
      rcases List.mem_append.1 hn with h3 | h3
      · exact a3.suffix_suffixOK (hD n h3) (fun e => hmD (e ▸ h3))
      · simp only [List.mem_singleton] at h3
        subst h3
        exact ⟨r, by simp, by simpa using hr1, by rw [hr2, htail]⟩

theorem BuildSuffixLinks_loop_spec {h0 : Automaton} {path : Nat → List Char}
    {added : List (List Char × Nat)} (inv : BuildInv h0 path added added) :
    ∃ h1, prog.BuildSuffixLinks h0 = some h1 ∧ SufBase h0 h1 path added ∧
      ∀ n, n < h0.size → SuffixOK h1 path added n := by
  have t := inv.trieOK
  have hinit : SufJ h0 path added [] [0] h0 := by
    refine ⟨⟨SameTrie.trie_refl _, fun n => (inv.fresh n).2.1, ?_⟩, ?_,
      Or.inl ⟨rfl, (inv.fresh 0).1⟩⟩
    · intro n c r _ hr
      simp [getCache, (inv.fresh n).2.2, mapFind] at hr
    · intro n hn n0
      simp only [List.mem_singleton] at hn
      exact absurd hn n0
  obtain ⟨h1, D, e, hj, hall⟩ := BreadthFirstSearch_colours (prog.SuffixLinkCalculator (some 0))
    t.trie (SufJ h0 path added) (SufJ' h0 path added)
    (fun v D h hj n => (hj.1.same.2 n).1)
    (suffix_examineVertex t) (suffix_examineEdge_loop t)
    (fun v popped D h hj => ⟨hj.1, fun n hn _ => hj.2.1 n hn, Or.inr hj.2.2⟩)
    hinit
  refine ⟨h1, e, hj.1, fun n hn => ?_⟩
  by_cases n0 : n = 0
  · subst n0
    rcases hj.2.2 with ⟨hD, _⟩ | hr
    · have := hall 0 hn
      rw [hD] at this
      simp at this
    · exact hr
  · exact hj.2.1 n (hall n hn) n0

theorem BuildTerminalLinks_colours_spec {h0 h1 : Automaton} {path : Nat → List Char}
    {added : List (List Char × Nat)} (t : TrieOK h0 path added) (base : SufBase h0 h1 path added)
    (hsuf : ∀ n, n < h0.size → SuffixOK h1 path added n) :
    ∃ h2, prog.BuildTerminalLinks h1 = some h2 ∧ SameButTerminal h1 h2 ∧
      (h2.node 0).terminal_link = none ∧ ∀ n, n < h0.size → n ≠ 0 → TermRec h2 n := by
  have t1 : TrieOK h1 path added := t.of_same base.same
  have hvis : ∀ v D, Visiting h1 path v D → Visiting h0 path v D := by
    intro v D hv
    exact ⟨hv.mem, fun x hx => by rw [← base.same.1]; exact hv.lt x hx,
      fun u hu hl => hv.shallow u (by rw [base.same.1]; exact hu) hl⟩
  obtain ⟨h2, D, e, hj, hall⟩ := BreadthFirstSearch_colours (TerminalLinkCalculator (some 0))
    t1.trie (fun _ D h => TermJ h1 D h) (fun _ D h => TermJ h1 D h)
    (fun v D h hj n => (hj.1.2 n).1)
    (fun popped D h v hj _ _ => ⟨h, rfl, hj⟩)
    (fun v D h c m hj hv hm hmD => by
      obtain ⟨h2, h3, e2, e3, hj3⟩ :=
        terminal_discoverVertex t base.same.1 hsuf v D h c m hj (hvis v D hv)
          (by rw [← (base.same.2 v).1]; exact hm) hmD
      have : h2 = h := by
        simp only [TerminalLinkCalculator, Option.some.injEq] at e2
        exact e2.symm
      subst this
      exact ⟨h3, h3, e3, rfl, hj3⟩)
    (fun v popped D h hj => hj)
    ⟨SameButTerminal.terminal_refl _, base.term 0, fun n hn n0 => by
        simp only [List.mem_singleton] at hn
        exact absurd hn n0,
      fun n hn n0 => by
        simp only [List.mem_singleton] at hn
        exact absurd hn n0⟩
  exact ⟨h2, e, hj.1, hj.2.1, fun n hn n0 =>
    hj.2.2.1 n (hall n (by rw [base.same.1]; exact hn)) n0⟩

/-- Totality of `Build()` of prog.cpp, with the state of the automaton it
returns. -/
theorem Build_colours_spec (added : List (List Char × Nat)) :
    ∃ h path, prog.Build added = some h ∧ Built h path added := by
  obtain ⟨path, inv⟩ := BuildTrie_spec added
  have t := inv.trieOK
  obtain ⟨h1, e1, base, hsuf⟩ := BuildSuffixLinks_loop_spec inv
  obtain ⟨h2, e2, same, hroot, hrec⟩ := BuildTerminalLinks_colours_spec t base hsuf
  have hsz : h2.size = (BuildTrie added Automaton.new).size := same.1.trans base.same.1
  refine ⟨h2, path, by simp only [prog.Build, e1, e2], ?_⟩
  exact ⟨(t.of_same base.same).of_same same.terminal_sameTrie,
    fun n hn => same.terminal_suffixOK (hsuf n (by rw [← hsz]; exact hn)), hroot,
    fun n hn n0 => hrec n (by rw [← hsz]; exact hn) n0, same.terminal_cacheOK base.cache⟩

end prog

/-! ## Counting strings that avoid the prohibited ones -/

namespace prog

theorem avoiding_mem (added : List (List Char × Nat)) (alphabet : List Char) :
    ∀ (r : Nat) (x w : List Char), w ∈ avoiding added alphabet r x ↔
      w.length = r ∧ (∀ c ∈ w, c ∈ alphabet) ∧ ∀ u, u <+: w → Good added (x ++ u) := by
  intro r
  induction r with
  | zero =>
    intro x w
    simp only [avoiding]
    constructor
    · intro hw
      by_cases hg : Good added x
      · simp only [hg, if_true, List.mem_singleton] at hw
        subst hw
        refine ⟨rfl, by simp, fun u hu => ?_⟩
        rw [List.prefix_nil.mp hu, List.append_nil]
        exact hg
      · simp [hg] at hw
    · rintro ⟨hl, _, hu⟩
      have hw : w = [] := List.length_eq_zero.mp hl
      subst hw
      have := hu [] (List.prefix_refl _)
      rw [List.append_nil] at this
      simp [this]
  | succ r ih =>
    intro x w
    simp only [avoiding]
    constructor
    · intro hw
      by_cases hg : Good added x
      · simp only [hg, if_true, List.mem_flatMap, List.mem_map] at hw
        obtain ⟨c, hc, w', hw', rfl⟩ := hw
        obtain ⟨h1, h2, h3⟩ := (ih (x ++ [c]) w').mp hw'
        refine ⟨by simp [h1], ?_, ?_⟩
        · intro d hd
          rcases List.mem_cons.mp hd with h | h
          · rw [h]; exact hc
          · exact h2 d h
        · intro u hu
          cases u with
          | nil => rw [List.append_nil]; exact hg
          | cons a u' =>
            rw [List.cons_prefix_cons] at hu
            obtain ⟨ha, hu'⟩ := hu
            subst ha
            have := h3 u' hu'
            simpa using this
      · simp [hg] at hw
    · rintro ⟨hl, hc, hu⟩
      have hg : Good added x := by
        have := hu [] List.nil_prefix
        rwa [List.append_nil] at this
      cases w with
      | nil => simp at hl
      | cons c w' =>
        simp only [hg, if_true, List.mem_flatMap, List.mem_map]
        refine ⟨c, hc c (by simp), w', ?_, rfl⟩
        rw [ih]
        refine ⟨by simpa using hl, fun d hd => hc d (List.mem_cons_of_mem _ hd), fun u hu' => ?_⟩
        have := hu (c :: u) (by rw [List.cons_prefix_cons]; exact ⟨rfl, hu'⟩)
        simpa using this

theorem avoiding_nodup (added : List (List Char × Nat)) (alphabet : List Char)
    (ha : alphabet.Nodup) : ∀ (r : Nat) (x : List Char), (avoiding added alphabet r x).Nodup := by
  intro r
  induction r with
  | zero =>
    intro x
    simp only [avoiding]
    split <;> simp
  | succ r ih =>
    intro x
    simp only [avoiding]
    split
    · rw [List.nodup_flatMap]
      refine ⟨fun c _ => (ih _).map (fun a b h => by simpa using h), ?_⟩
      refine List.Nodup.pairwise_of_forall_ne ha ?_
      intro a _ b _ hab
      simp only [Function.onFun, List.Disjoint, List.mem_map]
      rintro w ⟨w1, _, rfl⟩ ⟨w2, _, h2⟩
      simp only [List.cons.injEq] at h2
      exact hab h2.1.symm
    · exact List.nodup_nil

theorem foldl_mod_sum (f g : Char → Nat) (modulo : Nat) (h2 : 2 ≤ modulo)
    (h63 : modulo ≤ 2 ^ 63) (hfg : ∀ c, f c = g c % modulo) :
    ∀ (cs : List Char) (acc : Nat), acc < modulo →
      cs.foldl (fun a c => (a + f c) % 2 ^ 64 % modulo) acc =
        (acc + (cs.map g).sum) % modulo := by
  intro cs
  induction cs with
  | nil =>
    intro acc hacc
    simp [Nat.mod_eq_of_lt hacc]
  | cons c cs ih =>
    intro acc hacc
    simp only [List.foldl_cons, List.map_cons, List.sum_cons]
    have hf : f c < modulo := by rw [hfg]; exact Nat.mod_lt _ (by omega)
    have hlt : acc + f c < 2 ^ 64 := by
      have : (2 : Nat) ^ 64 = 2 * 2 ^ 63 := by norm_num
      omega
    rw [Nat.mod_eq_of_lt hlt, ih _ (Nat.mod_lt _ (by omega)), hfg]
    rw [Nat.add_mod ((acc + g c % modulo) % modulo), Nat.mod_mod, ← Nat.add_mod]
    rw [Nat.add_mod (acc + g c % modulo), Nat.add_mod acc (g c % modulo), Nat.mod_mod,
      ← Nat.add_mod acc, ← Nat.add_mod, Nat.add_assoc]

theorem countValue_eq (added : List (List Char × Nat)) (alphabet : List Char) (modulo : Nat)
    (h2 : 2 ≤ modulo) (h63 : modulo ≤ 2 ^ 63) :
    ∀ (r : Nat) (x : List Char),
      countValue added alphabet modulo r x = (avoiding added alphabet r x).length % modulo := by
  intro r
  induction r with
  | zero =>
    intro x
    simp only [countValue, avoiding]
    split
    · simp [Nat.mod_eq_of_lt (show 1 < modulo by omega)]
    · simp
  | succ r ih =>
    intro x
    simp only [countValue, avoiding]
    split
    · rw [foldl_mod_sum (fun c => countValue added alphabet modulo r (x ++ [c]))
        (fun c => (avoiding added alphabet r (x ++ [c])).length) modulo h2 h63
        (fun c => ih _) alphabet 0 (by omega)]
      rw [Nat.zero_add, List.length_flatMap]
      congr 2
      apply List.map_congr_left
      intro c _
      simp
    · simp

theorem suffix_longestPathSuffix_iff {added : List (List Char × Nat)} {p : List Char × Nat}
    (hp : p ∈ added) (U : List Char) :
    p.1 <:+ longestPathSuffix added U ↔ p.1 <:+ U := by
  have hs := longestPathSuffix_spec added U
  constructor
  · intro h1
    exact h1.trans hs.1
  · intro h1
    exact List.suffix_of_suffix_length_le h1 hs.1
      (hs.2.2 p.1 h1 (Or.inr ⟨p, hp, List.prefix_refl _⟩))

theorem good_longestPathSuffix (added : List (List Char × Nat)) (U : List Char) :
    Good added (longestPathSuffix added U) ↔ Good added U := by
  constructor
  · intro h q hq hs
    exact h q hq ((suffix_longestPathSuffix_iff hq U).mpr hs)
  · intro h q hq hs
    exact h q hq ((suffix_longestPathSuffix_iff hq U).mp hs)

theorem countValue_longestPathSuffix (added : List (List Char × Nat)) (alphabet : List Char)
    (modulo : Nat) :
    ∀ (r : Nat) (x : List Char),
      countValue added alphabet modulo r (longestPathSuffix added x) =
        countValue added alphabet modulo r x := by
  intro r
  induction r with
  | zero =>
    intro x
    simp only [countValue, good_longestPathSuffix]
  | succ r ih =>
    intro x
    simp only [countValue, good_longestPathSuffix]
    split
    · congr 1
      funext acc c
      rw [← ih (longestPathSuffix added x ++ [c]), ← longestPathSuffix_snoc, ih]
    · rfl

theorem good_iff_no_match (added : List (List Char × Nat)) (w : List Char) :
    w.tails.flatMap (idsOf added) = [] ↔ Good added w := by
  have hperm := tails_flatMap_idsOf_perm added w
  rw [← List.length_eq_zero, hperm.length_eq, List.length_eq_zero, List.map_eq_nil_iff,
    List.filter_eq_nil_iff]
  simp only [decide_eq_true_eq, Good]

theorem good_prefixes_iff (added : List (List Char × Nat)) (w : List Char) :
    (∀ u, u <+: w → Good added ([] ++ u)) ↔ ∀ q ∈ added, ¬ q.1 <:+: w := by
  constructor
  · intro h q hq hin
    obtain ⟨s, t, e⟩ := hin
    exact h (s ++ q.1) ⟨t, e⟩ q hq ⟨s, rfl⟩
  · intro h u hu q hq hs
    apply h q hq
    obtain ⟨t, e⟩ := hu
    obtain ⟨s, e'⟩ := hs
    exact ⟨s, t, by rw [← e, e']; simp⟩

end prog

/-! ## The counters of prog.cpp -/

namespace prog

theorem Frame.frame_refl (S : Setting) (R : Nat) (st : CounterState) : Frame S R st st := by
  refine ⟨le_rfl, fun i o h => ⟨o, h, rfl, fun _ _ => rfl⟩, fun i o' h hi => ?_⟩
  have := (List.getElem?_eq_some_iff.mp h).1
  omega

theorem Frame.frame_trans {S : Setting} {R : Nat} {a b c : CounterState}
    (f : Frame S R a b) (g : Frame S R b c) : Frame S R a c := by
  refine ⟨f.len.trans g.len, fun i o h => ?_, fun i o' h hi j hj hjL => ?_⟩
  · obtain ⟨o1, h1, n1, s1⟩ := f.old i o h
    obtain ⟨o2, h2, n2, s2⟩ := g.old i o1 h1
    exact ⟨o2, h2, n2.trans n1, fun j hj => (s2 j hj).trans (s1 j hj)⟩
  · by_cases hb : b.objects.length ≤ i
    · exact g.new i o' h hb j hj hjL
    · obtain ⟨o1, h1⟩ : ∃ o1, b.objects[i]? = some o1 :=
        ⟨b.objects[i], List.getElem?_eq_getElem (by omega)⟩
      obtain ⟨o2, h2, n2, s2⟩ := g.old i o1 h1
      rw [h] at h2
      cases h2
      obtain ⟨n, hn, hv⟩ := f.new i o1 h1 hi j hj hjL
      exact ⟨n, n2.trans hn, by rw [s2 j hj]; exact hv⟩

theorem Frame.frame_mono {S : Setting} {R R' : Nat} {a b : CounterState}
    (f : Frame S R a b) (h : R ≤ R') : Frame S R' a b :=
  ⟨f.len, fun i o hi => by
      obtain ⟨o', h1, h2, h3⟩ := f.old i o hi
      exact ⟨o', h1, h2, fun j hj => h3 j (by omega)⟩,
    fun i o' h1 h2 j hj hjL => f.new i o' h1 h2 j (by omega) hjL⟩

theorem ObjOK.obj_mono {S : Setting} {R R' : Nat} {o : NodeReferenceCounter}
    (h : ObjOK S R' o) (hr : R ≤ R') : ObjOK S R o :=
  ⟨h.node, h.max, h.alpha, h.modulo, h.len, fun j h1 h2 h3 => h.slots j h1 (by omega) h3⟩

theorem ObjOK.obj_succ {S : Setting} {R : Nat} {o : NodeReferenceCounter}
    (h : ObjOK S R o) (hs : R + 1 ≤ S.L → SlotValid S o (R + 1)) : ObjOK S (R + 1) o :=
  ⟨h.node, h.max, h.alpha, h.modulo, h.len, fun j h1 h2 h3 => by
    by_cases hj : j ≤ R
    · exact h.slots j h1 hj h3
    · have : j = R + 1 := by omega
      subst this
      exact hs h3⟩

theorem StateOK.state_mono {S : Setting} {R R' : Nat} {st : CounterState}
    (h : StateOK S R' st) (hr : R ≤ R') : StateOK S R st :=
  ⟨h.built, h.size, fun i o hi => (h.objs i o hi).obj_mono hr, h.map⟩

theorem foldl_reset (ids : List Nat) :
    ∀ d : List Nat, ids.foldl (fun dp id => dp.set 0 (id * 0 % 2 ^ 64)) d =
      if ids = [] then d else d.set 0 0 := by
  induction ids with
  | nil => intro d; rfl
  | cons a t ih =>
    intro d
    rw [List.foldl_cons, ih]
    by_cases ht : t = []
    · simp [ht]
    · simp [ht, List.set_set]

theorem NodeReferenceCounter_new_spec (S : Setting) (ok : SettingOK S) {h : Automaton}
    (b : Built h S.path S.added) (hsz : h.size = S.size) {r : Nat} (hr : r < h.size) :
    ∃ o, NodeReferenceCounter.new h ⟨some r, some 0⟩ S.L S.k S.m = some o ∧
      o.node_ = ⟨some r, some 0⟩ ∧ ObjOK S S.L o ∧
      ∀ j, 1 ≤ j → j ≤ S.L → o.dynamic_function_[j]? = some 0 := by
  have hLm : (S.L + 1) % 2 ^ 64 = S.L + 1 := Nat.mod_eq_of_lt ok.hL
  have hkm : S.k % 256 = S.k := Nat.mod_eq_of_lt ok.hk
  have hgen := b.generateMatches_fold hr (some 0)
    (fun dp id => dp.set 0 (id * 0 % 2 ^ 64)) ((List.replicate (S.L + 1) 0).set 0 1)
  rw [foldl_reset] at hgen
  have hdp0 : ∀ x : Nat, ((List.replicate (S.L + 1) 0).set 0 x)[0]? = some x := by
    intro x
    simp [List.replicate_succ]
  have hdpj : ∀ (x j : Nat), 1 ≤ j → j ≤ S.L →
      ((List.replicate (S.L + 1) 0).set 0 x)[j]? = some 0 := by
    intro x j h1 h2
    rw [List.getElem?_set_ne (by omega)]
    simp [List.getElem?_replicate]
    omega
  by_cases hids : (S.path r).tails.flatMap (idsOf S.added) = []
  · have hg : Good S.added (S.path r) := (good_iff_no_match _ _).mp hids
    rw [if_pos hids] at hgen
    have e : NodeReferenceCounter.new h ⟨some r, some 0⟩ S.L S.k S.m = some
        { node_ := ⟨some r, some 0⟩, max_string_length_ := S.L, alphabet_size_ := S.k,
          modulo_ := S.m, dynamic_function_ := (List.replicate (S.L + 1) 0).set 0 1 } := by
      simp only [NodeReferenceCounter.new, hLm, List.length_replicate,
        Nat.add_one_ne_zero, if_false, hgen, hkm]
    refine ⟨_, e, rfl, ?_, fun j h1 h2 => hdpj 1 j h1 h2⟩
    refine ⟨⟨r, rfl, by rw [← hsz]; exact hr, by simp only [hg, if_true]; exact hdp0 1⟩,
      rfl, rfl, rfl, by simp, fun j h1 _ h3 => ⟨r, rfl, Or.inl (hdpj 1 j h1 h3)⟩⟩
  · have hg : ¬ Good S.added (S.path r) := fun g => hids ((good_iff_no_match _ _).mpr g)
    rw [if_neg hids, List.set_set] at hgen
    have e : NodeReferenceCounter.new h ⟨some r, some 0⟩ S.L S.k S.m = some
        { node_ := ⟨some r, some 0⟩, max_string_length_ := S.L, alphabet_size_ := S.k,
          modulo_ := S.m, dynamic_function_ := (List.replicate (S.L + 1) 0).set 0 0 } := by
      simp only [NodeReferenceCounter.new, hLm, List.length_replicate,
        Nat.add_one_ne_zero, if_false, hgen, hkm]
    refine ⟨_, e, rfl, ?_, fun j h1 h2 => hdpj 0 j h1 h2⟩
    refine ⟨⟨r, rfl, by rw [← hsz]; exact hr, by simp only [hg, if_false]; exact hdp0 0⟩,
      rfl, rfl, rfl, by simp, fun j h1 _ h3 => ⟨r, rfl, Or.inl (hdpj 0 j h1 h3)⟩⟩

theorem findCounter_append (l : List (Option Nat × Nat)) (key k : Option Nat) (v : Nat) :
    findCounter (l ++ [(k, v)]) key =
      match findCounter l key with
      | some a => some a
      | none => if key = k then some v else none := by
  induction l with
  | nil => simp [findCounter]
  | cons e l ih =>
    obtain ⟨k', v'⟩ := e
    simp only [List.cons_append, findCounter]
    by_cases h : key = k'
    · simp [h]
    · simp [h, ih]

theorem emplaceCounter_spec (S : Setting) (ok : SettingOK S) (R : Nat) (st : CounterState)
    (h1 : Automaton) (r : Nat) (this : NodeReferenceCounter) (sok : StateOK S R st)
    (b1 : Built h1 S.path S.added) (hsz : h1.size = S.size) (hr : r < h1.size)
    (ho : ObjOK S R this) :
    ∃ st1, emplaceCounter st h1 ⟨some r, some 0⟩ this = some st1 ∧ st1.automaton = h1 ∧
      StateOK S R st1 ∧ Frame S R st st1 ∧
      ∃ target ot, findCounter st1.automaton_ (some r) = some target ∧
        st1.objects[target]? = some ot ∧ ot.node_ = ⟨some r, some 0⟩ := by
  cases hf : findCounter st.automaton_ (some r) with
  | some a =>
    obtain ⟨ot, hot, hkey⟩ := sok.map _ _ hf
    obtain ⟨n', hn', _, _⟩ := (sok.objs a ot hot).node
    have : n' = r := by
      rw [hn'] at hkey
      simpa using hkey
    subst this
    refine ⟨{ st with automaton := h1 }, by simp only [emplaceCounter, hf], rfl,
      ⟨b1, hsz, sok.objs, sok.map⟩, ⟨le_rfl, fun i o h => ⟨o, h, rfl, fun _ _ => rfl⟩,
        fun i o' h hi => ?_⟩, a, ot, hf, hot, hn'⟩
    have := (List.getElem?_eq_some_iff.mp h).1
    simp only at this hi
    omega
  | none =>
    obtain ⟨cnt, ecnt, cnode, cok, czero⟩ := NodeReferenceCounter_new_spec S ok b1 hsz hr
    have hlen : st.objects.length < (st.objects ++ [cnt]).length := by simp
    refine ⟨{ automaton := h1, objects := st.objects ++ [cnt],
              automaton_ := st.automaton_ ++ [(some r, st.objects.length)] },
      by simp only [emplaceCounter, hf, ho.max, ho.alpha, ho.modulo, ecnt], rfl, ?_, ?_,
      st.objects.length, cnt, ?_, by simp, cnode⟩
    · refine ⟨b1, hsz, fun i o hi => ?_, fun key a hk => ?_⟩
      · simp only at hi
        by_cases hlt : i < st.objects.length
        · rw [List.getElem?_append_left hlt] at hi
          exact sok.objs i o hi
        · have hi' := (List.getElem?_eq_some_iff.mp hi).1
          simp only [List.length_append, List.length_singleton] at hi'
          have : i = st.objects.length := by omega
          subst this
          simp only [List.getElem?_concat_length, Option.some.injEq] at hi
          subst hi
          exact ⟨cok.node, cok.max, cok.alpha, cok.modulo, cok.len,
            fun j h1 _ h3 => cok.slots j h1 h3 h3⟩
      · simp only at hk
        rw [findCounter_append] at hk
        cases hk0 : findCounter st.automaton_ key with
        | some a0 =>
          rw [hk0] at hk
          simp only [Option.some.injEq] at hk
          subst hk
          obtain ⟨o, h1', h2'⟩ := sok.map _ _ hk0
          exact ⟨o, by
            simp only
            rw [List.getElem?_append_left (List.getElem?_eq_some_iff.mp h1').1]
            exact h1', h2'⟩
        | none =>
          rw [hk0] at hk
          simp only at hk
          by_cases hkey : key = some r
          · simp only [hkey, if_true, Option.some.injEq] at hk
            subst hk
            exact ⟨cnt, by simp, by rw [cnode, hkey]⟩
          · simp [hkey] at hk
    · refine ⟨by simp, fun i o h => ⟨o, ?_, rfl, fun _ _ => rfl⟩, fun i o' h hi j hj hjL => ?_⟩
      · simp only
        rw [List.getElem?_append_left (List.getElem?_eq_some_iff.mp h).1]
        exact h
      · simp only at h hi
        have hi' := (List.getElem?_eq_some_iff.mp h).1
        simp only [List.length_append, List.length_singleton] at hi'
        have : i = st.objects.length := by omega
        subst this
        simp only [List.getElem?_concat_length, Option.some.injEq] at h
        subst h
        exact ⟨r, cnode, Or.inl (czero j (by omega) hjL)⟩
    · simp only
      rw [findCounter_append, hf]
      simp

theorem set_slot_frame (S : Setting) (R self : Nat) (st2 : CounterState)
    (this2 : NodeReferenceCounter) (h2 : st2.objects[self]? = some this2) (u : Nat) :
    Frame S (R + 1) st2
      { st2 with
        objects := st2.objects.set self
          { this2 with dynamic_function_ := this2.dynamic_function_.set (R + 1) u } } := by
  refine ⟨by simp, fun i o h => ?_, fun i o' h hi => ?_⟩
  · by_cases his : i = self
    · subst his
      rw [h2] at h
      cases h
      refine ⟨{ this2 with dynamic_function_ := this2.dynamic_function_.set (R + 1) u }, ?_, rfl,
        fun j hj => ?_⟩
      · simp only
        rw [List.getElem?_set_self (List.getElem?_eq_some_iff.mp h2).1]
      · simp only
        rw [List.getElem?_set_ne (by omega)]
    · refine ⟨o, ?_, rfl, fun _ _ => rfl⟩
      simp only
      rw [List.getElem?_set_ne (fun e => his e.symm)]
      exact h
  · have := (List.getElem?_eq_some_iff.mp h).1
    simp only [List.length_set] at this hi
    omega

theorem countLoop_spec (S : Setting) (ok : SettingOK S) (R self n : Nat) (hR : R + 1 ≤ S.L)
    (count : CounterState → Nat → Option (CounterState × Nat))
    (hcount : ∀ (st : CounterState) (t : Nat) (o : NodeReferenceCounter) (r : Nat),
      StateOK S R st → st.objects[t]? = some o → o.node_ = ⟨some r, some 0⟩ →
      ∃ st', count st t = some (st', countValue S.added S.cs S.m R (S.path r)) ∧
        StateOK S R st' ∧ Frame S R st st') :
    ∀ (chars : List Char) (st : CounterState) (acc : Nat), LoopState S R self n acc st →
      ∃ st', countLoop count self (R + 1) chars st = some st' ∧
        LoopState S R self n
          (chars.foldl
            (fun a c => (a + countValue S.added S.cs S.m R (S.path n ++ [c])) % 2 ^ 64 % S.m)
            acc) st' ∧
        Frame S (R + 1) st st' := by
  intro chars
  induction chars with
  | nil =>
    intro st acc ls
    exact ⟨st, rfl, ls, Frame.frame_refl _ _ _⟩
  | cons c rest ih =>
    intro st acc ls
    obtain ⟨o, ho, hon, hacc⟩ := ls.slot
    have ook := ls.ok.objs self o ho
    obtain ⟨n', hn', hn'lt, _⟩ := ook.node
    have hnn : n' = n := by
      rw [hon] at hn'
      simpa using hn'.symm
    subst hnn
    have hnlt : n' < st.automaton.size := by rw [ls.ok.size]; exact hn'lt
    obtain ⟨h1, r, e1, hr, hp, same1, b1⟩ := ls.ok.built.next hnlt c
    have hsz1 : h1.size = S.size := by rw [same1.1, ls.ok.size]
    have hr1 : r < h1.size := by rw [same1.1]; exact hr
    obtain ⟨st1, ec, ha1, sok1, fr1, target, ot, hft, hot, hotn⟩ :=
      emplaceCounter_spec S ok R st h1 r o ls.ok b1 hsz1 hr1 ook
    have hn1 : n' < st1.automaton.size := by rw [ha1, hsz1]; exact hn'lt
    have b1' : Built st1.automaton S.path S.added := by rw [ha1]; exact b1
    obtain ⟨h2, r2, e2, hr2, hp2, same2, b2⟩ := b1'.next hn1 c
    have hr2r : r2 = r := by
      apply b1.trie.inj (by rw [← ha1]; exact hr2) hr1
      rw [hp2, hp]
    subst hr2r
    have hsz2 : h2.size = S.size := by rw [same2.1, ha1, hsz1]
    have sok1' : StateOK S R { st1 with automaton := h2 } :=
      ⟨b2, hsz2, sok1.objs, sok1.map⟩
    obtain ⟨st2, ecount, sok2, fr2⟩ := hcount { st1 with automaton := h2 } target ot r2
      sok1' hot hotn
    have fr2' : Frame S R st1 st2 := ⟨fr2.len, fr2.old, fr2.new⟩
    have fr : Frame S R st st2 := fr1.frame_trans fr2'
    obtain ⟨this2, ht2, ht2n, ht2s⟩ := fr.old self o ho
    have ook2 := sok2.objs self this2 ht2
    have hcur : this2.dynamic_function_[R + 1]? = some acc := by
      rw [ht2s (R + 1) (by omega)]; exact hacc
    have hval : countValue S.added S.cs S.m R (S.path r2) =
        countValue S.added S.cs S.m R (S.path n' ++ [c]) := by
      rw [hp, countValue_longestPathSuffix]
    have hself2 : self < st2.objects.length := (List.getElem?_eq_some_iff.mp ht2).1
    have hRlen : R + 1 < this2.dynamic_function_.length := by rw [ook2.len]; omega
    obtain ⟨u, hu⟩ : ∃ u, u =
        (acc + countValue S.added S.cs S.m R (S.path n' ++ [c])) % 2 ^ 64 % S.m := ⟨_, rfl⟩
    have ls3 : LoopState S R self n' u
        { st2 with
          objects := st2.objects.set self
            { this2 with dynamic_function_ := this2.dynamic_function_.set (R + 1) u } } := by
      have hnew : ObjOK S R
          { this2 with dynamic_function_ := this2.dynamic_function_.set (R + 1) u } := by
        obtain ⟨x, hx1, hx2, hx3⟩ := ook2.node
        refine ⟨⟨x, hx1, hx2, ?_⟩, ook2.max, ook2.alpha, ook2.modulo, by simp [ook2.len],
          fun j h1 h2 h3 => ?_⟩
        · simp only
          rw [List.getElem?_set_ne (by omega)]
          exact hx3
        · obtain ⟨y, hy1, hy2⟩ := ook2.slots j h1 h2 h3
          refine ⟨y, hy1, ?_⟩
          simp only
          rw [List.getElem?_set_ne (by omega)]
          exact hy2
      refine ⟨⟨sok2.built, sok2.size, fun i o3 hi => ?_, fun key a hk => ?_⟩,
        fun i o3 hne hi => ?_,
        ⟨{ this2 with dynamic_function_ := this2.dynamic_function_.set (R + 1) u }, ?_,
          ht2n.trans hon, ?_⟩⟩
      · simp only at hi
        by_cases his : i = self
        · subst his
          rw [List.getElem?_set_self hself2] at hi
          cases hi
          exact hnew
        · rw [List.getElem?_set_ne (fun e => his e.symm)] at hi
          exact sok2.objs i o3 hi
      · obtain ⟨o4, h4, h5⟩ := sok2.map key a hk
        by_cases has : a = self
        · subst has
          rw [ht2] at h4
          cases h4
          refine ⟨{ this2 with dynamic_function_ := this2.dynamic_function_.set (R + 1) u }, ?_, h5⟩
          simp only
          rw [List.getElem?_set_self hself2]
        · exact ⟨o4, by simp only; rw [List.getElem?_set_ne (fun e => has e.symm)]; exact h4, h5⟩
      · simp only at hi
        rw [List.getElem?_set_ne (fun e => hne e.symm)] at hi
        by_cases hlt : i < st.objects.length
        · obtain ⟨o0, ho0⟩ : ∃ o0, st.objects[i]? = some o0 :=
            ⟨st.objects[i], List.getElem?_eq_getElem hlt⟩
          obtain ⟨o', h1', h2', h3'⟩ := fr.old i o0 ho0
          rw [hi] at h1'
          cases h1'
          obtain ⟨y, hy1, hy2⟩ := ls.others i o0 hne ho0
          exact ⟨y, h2'.trans hy1, by rw [h3' (R + 1) (by omega)]; exact hy2⟩
        · exact fr.new i o3 hi (by omega) (R + 1) (by omega) hR
      · simp only
        rw [List.getElem?_set_self hself2]
      · simp only
        rw [List.getElem?_set_self hRlen]
    have fr3 : Frame S (R + 1) st _ :=
      (fr.frame_mono (Nat.le_succ R)).frame_trans (set_slot_frame S R self st2 this2 ht2 u)
    obtain ⟨st', e', ls', fr'⟩ := ih _ _ ls3
    subst hu
    refine ⟨st', ?_, ls', fr3.frame_trans fr'⟩
    have e1' : o.node_.Next st.automaton c = some (h1, ⟨some r2, some 0⟩) := by
      rw [hon]; exact e1
    have e2' : o.node_.Next st1.automaton c = some (h2, ⟨some r2, some 0⟩) := by
      rw [hon]; exact e2
    simp only [countLoop, ho, e1', ec, e2', hft, ecount, ht2, hcur, ook2.modulo, ok.hm,
      if_false, hval]
    simp only [ook2.modulo] at e'
    exact e'

theorem Count_spec (S : Setting) (ok : SettingOK S) :
    ∀ R, R ≤ S.L → ∀ (st : CounterState) (t : Nat) (o : NodeReferenceCounter) (r : Nat),
      StateOK S R st → st.objects[t]? = some o → o.node_ = ⟨some r, some 0⟩ →
      ∃ st', Count R st t = some (st', countValue S.added S.cs S.m R (S.path r)) ∧
        StateOK S R st' ∧ Frame S R st st' := by
  intro R
  induction R with
  | zero =>
    intro _ st t o r sok ho hon
    obtain ⟨n', hn', _, hd0⟩ := (sok.objs t o ho).node
    have hnn : n' = r := by
      rw [hon] at hn'
      simpa using hn'.symm
    subst hnn
    by_cases hg : Good S.added (S.path n')
    · simp only [hg, if_true] at hd0
      exact ⟨st, by simp [Count, ho, hd0, countValue, hg], sok, Frame.frame_refl _ _ _⟩
    · simp only [hg, if_false] at hd0
      exact ⟨st, by simp [Count, ho, hd0, countValue, hg], sok, Frame.frame_refl _ _ _⟩
  | succ R ih =>
    intro hRL st t o r sok ho hon
    have ook := sok.objs t o ho
    obtain ⟨n', hn', _, hd0⟩ := ook.node
    have hnn : n' = r := by
      rw [hon] at hn'
      simpa using hn'.symm
    subst hnn
    by_cases hg : Good S.added (S.path n')
    · simp only [hg, if_true] at hd0
      obtain ⟨y, hy, hslot⟩ := ook.slots (R + 1) (by omega) le_rfl hRL
      have hyn : y = n' := by
        rw [hon] at hy
        simpa using hy.symm
      subst hyn
      by_cases hv : o.dynamic_function_[R + 1]? = some 0
      · have ls : LoopState S R t y 0 st :=
          ⟨sok.state_mono (Nat.le_succ R),
            fun i o' _ hi => (sok.objs i o' hi).slots (R + 1) (by omega) le_rfl hRL,
            ⟨o, ho, hon, hv⟩⟩
        obtain ⟨st1, e1, ls1, fr1⟩ := countLoop_spec S ok R t y hRL (Count R)
          (ih (by omega)) S.cs st 0 ls
        obtain ⟨o1, ho1, ho1n, ho1v⟩ := ls1.slot
        have hfold : S.cs.foldl
            (fun a c => (a + countValue S.added S.cs S.m R (S.path y ++ [c])) % 2 ^ 64 % S.m) 0 =
            countValue S.added S.cs S.m (R + 1) (S.path y) := by
          simp only [countValue, hg, if_true]
        rw [hfold] at ho1v
        refine ⟨st1, ?_, ⟨ls1.ok.built, ls1.ok.size, fun i o' hi => ?_, ls1.ok.map⟩, fr1⟩
        · simp only [Count, ho, hd0, hv, ook.alpha, ok.hcs, e1, ho1, ho1v]
          simp
        · by_cases hit : i = t
          · subst hit
            rw [ho1] at hi
            cases hi
            exact (ls1.ok.objs i o1 ho1).obj_succ fun _ => ⟨y, ho1n, Or.inr ho1v⟩
          · exact (ls1.ok.objs i o' hi).obj_succ fun _ => ls1.others i o' hit hi
      · have hval : o.dynamic_function_[R + 1]? =
            some (countValue S.added S.cs S.m (R + 1) (S.path y)) := by
          rcases hslot with h | h
          · exact absurd h hv
          · exact h
        have hne : countValue S.added S.cs S.m (R + 1) (S.path y) ≠ 0 := by
          intro h0
          rw [h0] at hval
          exact hv hval
        refine ⟨st, ?_, sok, Frame.frame_refl _ _ _⟩
        simp [Count, ho, hd0, hval, hne]
    · simp only [hg, if_false] at hd0
      refine ⟨st, ?_, sok, Frame.frame_refl _ _ _⟩
      simp [Count, ho, hd0, countValue, hg]

theorem alphabet_spec (k : Nat) (hk : k ≤ 26) :
    ∃ cs, alphabet k = some cs ∧ cs.Nodup ∧
      ∀ c : Char, c ∈ cs ↔ 97 ≤ c.toNat ∧ c.toNat < 97 + k := by
  have hto : ∀ i, i < 26 → (Char.ofNat (97 + i)).toNat = 97 + i := by decide
  refine ⟨_, by simp only [alphabet]; rw [if_pos (by omega)], ?_, fun c => ?_⟩
  · refine (List.nodup_range k).map_on ?_
    intro i hi j hj hij
    simp only [List.mem_range] at hi hj
    have := congrArg Char.toNat hij
    rw [hto i (by omega), hto j (by omega)] at this
    omega
  · simp only [List.mem_map, List.mem_range]
    constructor
    · rintro ⟨i, hi, rfl⟩
      rw [hto i (by omega)]
      omega
    · rintro ⟨h1, h2⟩
      refine ⟨c.toNat - 97, by omega, ?_⟩
      have : 97 + (c.toNat - 97) = c.toNat := by omega
      rw [this, Char.ofNat_toNat]

theorem prohibited_pairs (P : List (List Char)) (f : List Char → Prop) :
    (∀ q ∈ P.enum.map fun p => (p.2, p.1), f q.1) ↔ ∀ p ∈ P, f p := by
  constructor
  · intro h p hp
    rw [← List.enum_map_snd P] at hp
    obtain ⟨e, he, rfl⟩ := List.mem_map.mp hp
    exact h (e.2, e.1) (List.mem_map.mpr ⟨e, he, rfl⟩)
  · intro h q hq
    obtain ⟨e, he, rfl⟩ := List.mem_map.mp hq
    exact h e.2 (List.getElem?_mem (List.mem_enum_iff_getElem?.mp he))

theorem FindNumber_value (L k : Nat) (P : List (List Char)) (m : Nat) (hL : L + 1 < 2 ^ 64)
    (hk : k ≤ 26) (hm2 : 2 ≤ m) (hm63 : m ≤ 2 ^ 63) (cs : List Char)
    (ecs : alphabet k = some cs) :
    FindNumberOfStringsThatDontIncludeProhibited L k P m =
      some ((avoiding (P.enum.map fun p => (p.2, p.1)) cs L []).length % m) := by
  obtain ⟨h, path, eb, b⟩ := Build_colours_spec (P.enum.map fun p => (p.2, p.1))
  have ok : SettingOK ⟨P.enum.map fun p => (p.2, p.1), path, h.size, k, m, L, cs⟩ :=
    ⟨hL, by simp only; omega, by simp only; omega, ecs⟩
  obtain ⟨cnt, ecnt, cnode, cok, _⟩ := NodeReferenceCounter_new_spec _ ok b rfl b.trie.trie.size_pos
  have sok : StateOK ⟨P.enum.map fun p => (p.2, p.1), path, h.size, k, m, L, cs⟩ L
      { automaton := h, objects := [cnt], automaton_ := [] } := by
    refine ⟨b, rfl, fun i o hi => ?_, fun key a hk => ?_⟩
    · cases i with
      | zero =>
        simp only [List.getElem?_cons_zero, Option.some.injEq] at hi
        subst hi
        exact cok
      | succ i => simp at hi
    · simp [findCounter] at hk
  obtain ⟨st', ec, _, _⟩ := Count_spec _ ok L le_rfl _ 0 cnt 0 sok rfl cnode
  simp only at ec
  rw [b.trie.trie.path_root, countValue_eq _ _ _ hm2 hm63] at ec
  simp only [FindNumberOfStringsThatDontIncludeProhibited, eb]
  have ecnt' : NodeReferenceCounter.new h h.Root L k m = some cnt := ecnt
  rw [ecnt']
  simp only [ec]

theorem avoiding_spec (P : List (List Char)) (k : Nat) (cs : List Char)
    (hnd : cs.Nodup) (hmem : ∀ c : Char, c ∈ cs ↔ 97 ≤ c.toNat ∧ c.toNat < 97 + k) (L : Nat) :
    (avoiding (P.enum.map fun p => (p.2, p.1)) cs L []).Nodup ∧
    ∀ w, w ∈ avoiding (P.enum.map fun p => (p.2, p.1)) cs L [] ↔
      (w.length = L ∧ (∀ c ∈ w, 97 ≤ c.toNat ∧ c.toNat < 97 + k) ∧ ∀ p ∈ P, ¬ p <:+: w) := by
  refine ⟨avoiding_nodup _ _ hnd _ _, fun w => ?_⟩
  rw [avoiding_mem, good_prefixes_iff]
  have h1 := prohibited_pairs P (fun p => ¬ p <:+: w)
  simp only at h1
  rw [h1]
  constructor
  · rintro ⟨a1, a2, a3⟩
    exact ⟨a1, fun c hc => (hmem c).mp (a2 c hc), a3⟩
  · rintro ⟨a1, a2, a3⟩
    exact ⟨a1, fun c hc => (hmem c).mpr (a2 c hc), a3⟩

theorem avoiding_length_free (cs : List Char) :
    ∀ (r : Nat) (x : List Char), (avoiding [] cs r x).length = cs.length ^ r := by
  intro r
  induction r with
  | zero =>
    intro x
    simp [avoiding, Good]
  | succ r ih =>
    intro x
    have hg : Good [] x := by simp [Good]
    simp only [avoiding, hg, if_true, List.length_flatMap]
    have : (cs.map (List.length ∘ fun c =>
        (avoiding [] cs r (x ++ [c])).map fun w => c :: w)) =
        cs.map fun _ => cs.length ^ r :=
      List.map_congr_left fun c _ => by simp [ih]
    rw [this]
    simp [List.map_const', List.sum_replicate, pow_succ, Nat.mul_comm]

set_option maxRecDepth 1000000 in
theorem overflow_value :
    FindNumberOfStringsThatDontIncludeProhibited 64 2 [] (2 ^ 64 - 1) = some 0 := by
  decide

theorem no_vector_value :
    FindNumberOfStringsThatDontIncludeProhibited (2 ^ 64 - 1) 2 [] 1000000007 = none := by
  decide

end prog

/-- C20, as stated, for L = 64, k = 2, no prohibited string and m = 2^64 - 1:
there are 2^64 strings, so the claimed value is 2^64 mod (2^64 - 1) = 1, but the
sum `dynamic_function_[residual] += ...` wraps around in `size_t` and the
function returns 0.  And for L = 2^64 - 1 the vector of L + 1 entries is empty,
so that the function has no result. -/
theorem count_overflow_counterexample :
    (∃ strs : List (List Char), strs.Nodup ∧
      (∀ w, w ∈ strs ↔ (w.length = 64 ∧ (∀ c ∈ w, 97 ≤ c.toNat ∧ c.toNat < 97 + 2) ∧
        ∀ p ∈ ([] : List (List Char)), ¬ p <:+: w)) ∧
      strs.length % (2 ^ 64 - 1) = 1 ∧
      prog.FindNumberOfStringsThatDontIncludeProhibited 64 2 [] (2 ^ 64 - 1) = some 0) ∧
    prog.FindNumberOfStringsThatDontIncludeProhibited (2 ^ 64 - 1) 2 [] 1000000007 = none := by
  refine ⟨?_, prog.no_vector_value⟩
  obtain ⟨cs, ecs, hnd, hmem⟩ := prog.alphabet_spec 2 (by decide)
  have hcs : cs.length = 2 := by
    simp only [prog.alphabet] at ecs
    rw [if_pos (by decide)] at ecs
    cases ecs
    simp
  obtain ⟨h1, h2⟩ := prog.avoiding_spec [] 2 cs hnd hmem 64
  refine ⟨_, h1, h2, ?_, prog.overflow_value⟩
  have : (([] : List (List Char)).enum.map fun p => (p.2, p.1)) = [] := rfl
  rw [this, prog.avoiding_length_free, hcs]
  norm_num

/-- C20, amended: for a length L with L + 1 below 2^64, an alphabet size k of at
most 26, a modulus m with 2 <= m <= 2^63 and every list P of prohibited strings,
the function returns the number of strings of length L over the letters 'a' ..
'a'+k-1 that contain no element of P as a substring, reduced modulo m; this is
0 when P contains the empty string and 1 when L = 0 and it does not. -/
theorem count_strings_avoiding_prohibited (L k : Nat) (P : List (List Char)) (m : Nat)
    (hL : L + 1 < 2 ^ 64) (hk : k ≤ 26) (hm2 : 2 ≤ m) (hm63 : m ≤ 2 ^ 63) :
    (∃ strs : List (List Char), strs.Nodup ∧
      (∀ w, w ∈ strs ↔ (w.length = L ∧ (∀ c ∈ w, 97 ≤ c.toNat ∧ c.toNat < 97 + k) ∧
        ∀ p ∈ P, ¬ p <:+: w)) ∧
      prog.FindNumberOfStringsThatDontIncludeProhibited L k P m = some (strs.length % m)) ∧
    ([] ∈ P → prog.FindNumberOfStringsThatDontIncludeProhibited L k P m = some 0) ∧
    (L = 0 → [] ∉ P → prog.FindNumberOfStringsThatDontIncludeProhibited L k P m = some 1) := by
  obtain ⟨cs, ecs, hnd, hmem⟩ := prog.alphabet_spec k hk
  have hv := prog.FindNumber_value L k P m hL hk hm2 hm63 cs ecs
  obtain ⟨h1, h2⟩ := prog.avoiding_spec P k cs hnd hmem L
  refine ⟨⟨_, h1, h2, hv⟩, fun hP => ?_, fun hL0 hP => ?_⟩
  · have hnil : prog.avoiding (P.enum.map fun p => (p.2, p.1)) cs L [] = [] := by
      apply List.eq_nil_iff_forall_not_mem.mpr
      intro w hw
      exact ((h2 w).mp hw).2.2 [] hP List.nil_infix
    rw [hv, hnil]
    simp
  · subst hL0
    have hone : prog.avoiding (P.enum.map fun p => (p.2, p.1)) cs 0 [] = [[]] := by
      have hg : prog.Good (P.enum.map fun p => (p.2, p.1)) [] := by
        have := (prog.prohibited_pairs P (fun p => ¬ p <:+ [])).mpr (by
          intro p hp hs
          have : p = [] := List.suffix_nil.mp hs
          exact hP (this ▸ hp))
        exact this
      simp [prog.avoiding, hg]
    rw [hv, hone]
    simp only [List.length_singleton]
    rw [Nat.mod_eq_of_lt (by omega)]

/-- Witness of C20: length 3 over the letters a and b, the prohibited string ab,
modulo 1000000007. -/
theorem count_strings_avoiding_prohibited_witness :
    (3 + 1 < 2 ^ 64 ∧ 2 ≤ 26 ∧ 2 ≤ 1000000007 ∧ 1000000007 ≤ 2 ^ 63) ∧
    (∃ strs : List (List Char), strs.Nodup ∧
      (∀ w, w ∈ strs ↔ (w.length = 3 ∧ (∀ c ∈ w, 97 ≤ c.toNat ∧ c.toNat < 97 + 2) ∧
        ∀ p ∈ [['a', 'b']], ¬ p <:+: w)) ∧
      prog.FindNumberOfStringsThatDontIncludeProhibited 3 2 [['a', 'b']] 1000000007 =
        some (strs.length % 1000000007)) ∧
    ([] ∈ [['a', 'b']] →
      prog.FindNumberOfStringsThatDontIncludeProhibited 3 2 [['a', 'b']] 1000000007 = some 0) ∧
    (3 = 0 → [] ∉ [['a', 'b']] →
      prog.FindNumberOfStringsThatDontIncludeProhibited 3 2 [['a', 'b']] 1000000007 = some 1) :=
  ⟨by decide, count_strings_avoiding_prohibited 3 2 [['a', 'b']] 1000000007 (by decide)
    (by decide) (by decide) (by decide)⟩

/-! ## The pieces returned by Split -/

theorem splitLoop_eq_segments (d : Char) :
    ∀ (rest cur : List Char) (subs : List (List Char)),
      splitLoop (fun c => c == d) rest cur subs = subs ++ segments d rest cur := by
  intro rest
  induction rest with
  | nil =>
    intro cur subs
    simp only [splitLoop, segments]
    split <;> simp
  | cons c rest ih =>
    intro cur subs
    simp only [splitLoop, segments]
    by_cases hc : c = d
    · simp [hc, ih]
    · have : (c == d) = false := by simpa using hc
      simp [this, hc, ih]

theorem segments_eq_nil (d : Char) :
    ∀ (rest cur : List Char), segments d rest cur = [] ↔ rest = [] ∧ cur = [] := by
  intro rest
  induction rest with
  | nil =>
    intro cur
    simp only [segments]
    by_cases hc : cur = []
    · simp [hc]
    · have : cur.isEmpty = false := by simpa [List.isEmpty_iff] using hc
      simp [this, hc]
  | cons c rest ih =>
    intro cur
    simp only [segments]
    by_cases hc : c = d
    · simp [hc]
    · simp [hc, ih]

theorem segments_free (d : Char) :
    ∀ (rest cur : List Char), d ∉ cur → ∀ p ∈ segments d rest cur, d ∉ p := by
  intro rest
  induction rest with
  | nil =>
    intro cur hcur p hp
    simp only [segments] at hp
    split at hp
    · simp at hp
    · simp only [List.mem_singleton] at hp
      rw [hp]; exact hcur
  | cons c rest ih =>
    intro cur hcur p hp
    simp only [segments] at hp
    by_cases hc : c = d
    · simp only [hc, if_true, List.mem_cons] at hp
      rcases hp with hp | hp
      · rw [hp]; exact hcur
      · exact ih [] (by simp) p hp
    · simp only [hc, if_false] at hp
      refine ih (cur ++ [c]) ?_ p hp
      simp only [List.mem_append, List.mem_singleton, not_or]
      exact ⟨hcur, fun e => hc e.symm⟩

theorem withoutTrailing_cons (d : Char) (x : List Char) (r : List Char) (hr : r ≠ []) :
    withoutTrailing d (x ++ r) = x ++ withoutTrailing d r := by
  simp only [withoutTrailing]
  rw [List.getLast?_append_of_ne_nil _ hr]
  split
  · rw [List.dropLast_append_of_ne_nil _ hr]
  · rfl

theorem intercalate_segments (d : Char) :
    ∀ (rest cur : List Char), d ∉ cur →
      [d].intercalate (segments d rest cur) = withoutTrailing d (cur ++ rest) := by
  intro rest
  induction rest with
  | nil =>
    intro cur hcur
    simp only [segments, List.append_nil]
    have hlast : cur.getLast? ≠ some d := fun h => hcur (List.mem_of_getLast?_eq_some h)
    by_cases hc : cur = []
    · simp [hc, withoutTrailing, List.intercalate]
    · have : cur.isEmpty = false := by simpa [List.isEmpty_iff] using hc
      simp [this, withoutTrailing, hlast, List.intercalate]
  | cons c rest ih =>
    intro cur hcur
    simp only [segments]
    by_cases hc : c = d
    · subst hc
      simp only [if_true]
      by_cases hr : rest = []
      · subst hr
        have : segments c [] [] = [] := by simp [segments]
        rw [this]
        simp [withoutTrailing, List.intercalate]
      · have hne : segments c rest [] ≠ [] := fun h => hr ((segments_eq_nil c rest []).mp h).1
        have hi : [c].intercalate (cur :: segments c rest []) =
            cur ++ [c] ++ [c].intercalate (segments c rest []) := by
          cases hs : segments c rest [] with
          | nil => exact absurd hs hne
          | cons a l => simp [List.intercalate, List.intersperse]
        rw [hi, ih [] (by simp), List.nil_append]
        have : cur ++ c :: rest = (cur ++ [c]) ++ rest := by simp
        rw [this, withoutTrailing_cons c _ rest hr]
    · simp only [hc, if_false]
      rw [ih (cur ++ [c]) (by
        simp only [List.mem_append, List.mem_singleton, not_or]
        exact ⟨hcur, fun e => hc e.symm⟩)]
      simp

theorem length_segments (d : Char) :
    ∀ (rest cur : List Char), d ∉ cur →
      (segments d rest cur).length =
        rest.count d + if (cur ++ rest = [] ∨ (cur ++ rest).getLast? = some d) then 0 else 1 := by
  intro rest
  induction rest with
  | nil =>
    intro cur hcur
    have hlast : cur.getLast? ≠ some d := fun h => hcur (List.mem_of_getLast?_eq_some h)
    simp only [segments, List.append_nil, List.count_nil, Nat.zero_add]
    by_cases hc : cur = []
    · simp [hc]
    · have : cur.isEmpty = false := by simpa [List.isEmpty_iff] using hc
      simp [this, hc, hlast]
  | cons c rest ih =>
    intro cur hcur
    simp only [segments]
    by_cases hc : c = d
    · subst hc
      simp only [if_true, List.length_cons, List.count_cons_self]
      rw [ih [] (by simp), List.nil_append]
      by_cases hr : rest = []
      · subst hr
        simp
      · have : cur ++ c :: rest = (cur ++ [c]) ++ rest := by simp
        rw [this, List.getLast?_append_of_ne_nil _ hr]
        simp [hr]
        omega
    · simp only [hc, if_false]
      rw [ih (cur ++ [c]) (by
        simp only [List.mem_append, List.mem_singleton, not_or]
        exact ⟨hcur, fun e => hc e.symm⟩)]
      have : List.count d (c :: rest) = List.count d rest := by
        rw [List.count_cons_of_ne (fun e => hc e.symm)]
      rw [this]
      simp

/-- C21: for every string s and delimiter d, no piece returned by Split contains
d; joining the pieces with d gives s, or s without its last character when s
ends in d; and the number of pieces is the number of delimiters in s, plus one
when s is non-empty and does not end in d (so there is an empty piece for a
leading delimiter and between adjacent delimiters, and none after a trailing
one).  The four examples of the claim are evaluated. -/
theorem split_keeps_empty_pieces (s : List Char) (d : Char) :
    (∀ p ∈ Split s (fun c => c == d), d ∉ p) ∧
    [d].intercalate (Split s fun c => c == d) =
      (if s.getLast? = some d then s.dropLast else s) ∧
    (Split s fun c => c == d).length =
      s.count d + (if (s = [] ∨ s.getLast? = some d) then 0 else 1) ∧
    Split "a??b".toList (fun c => c == '?') = ["a".toList, [], "b".toList] ∧
    Split "a?".toList (fun c => c == '?') = ["a".toList] ∧
    Split "?".toList (fun c => c == '?') = [[]] ∧
    Split [] (fun c => c == '?') = [] := by
  have e : Split s (fun c => c == d) = segments d s [] := by
    simp [Split, splitLoop_eq_segments]
  rw [e]
  refine ⟨segments_free d s [] (by simp), ?_, ?_, by decide, by decide, by decide, by decide⟩
  · have := intercalate_segments d s [] (by simp)
    simpa [withoutTrailing] using this
  · have := length_segments d s [] (by simp)
    simpa using this

/-! ## Signals of the wildcard matcher -/

theorem WildcardMatcher.Scan_once {σ : Type} (m : WildcardMatcher) (c : Char) (f : σ → σ)
    (s : σ) (r : WildcardMatcher × σ) (e : m.Scan c f s = some r) : r.2 = s ∨ r.2 = f s := by
  simp only [WildcardMatcher.Scan] at e
  split at e
  · exact Option.noConfusion e
  · split at e
    · exact Option.noConfusion e
    · split at e
      · exact Option.noConfusion e
      · split at e
        · simp only [Option.some.injEq] at e
          rw [← e]
          dsimp only
          split
          · exact Or.inr rfl
          · exact Or.inl rfl
        · simp only [Option.some.injEq] at e
          rw [← e]
          exact Or.inl rfl

theorem WildcardMatcher.scanCalls_spec (added : List (List Char × Nat)) (text : List Char)
    (L : Nat) (hL0 : L = 0 → added = []) (hids : ∀ q ∈ added, 1 ≤ q.2) :
    ∀ (rest rest2 : List Char) (t : Nat) (m : WildcardMatcher) (occ : List Nat),
      text.drop t = rest ++ rest2 → WildcardMatcher.MatcherInv added text L t m occ →
      ∃ m' occ', scanCalls m rest = some (m', (List.range rest.length).map fun i =>
          if L ≤ t + i + 1 ∧ hits added text (t + i + 1 - L) (t + i + 1) = added.length
          then 1 else 0) ∧
        WildcardMatcher.MatcherInv added text L (t + rest.length) m' occ' := by
  intro rest
  induction rest with
  | nil =>
    intro rest2 t m occ hd inv
    exact ⟨m, occ, rfl, inv⟩
  | cons c rest ih =>
    intro rest2 t m occ hd inv
    have hc : text[t]? = some c := by
      have := congrArg (fun l => l[0]?) hd
      simpa [List.getElem?_drop] using this
    have hd' : text.drop (t + 1) = rest ++ rest2 := by
      have := congrArg List.tail hd
      simpa [List.tail_drop] using this
    obtain ⟨m1, occ1, e1, inv1⟩ :=
      WildcardMatcher.scan_step_gen added text L t hL0 hids m occ inv c hc (fun n => n + 1) 0
    obtain ⟨m2, occ2, e2, inv2⟩ := ih rest2 (t + 1) m1 occ1 hd' inv1
    have hl : t + (c :: rest).length = t + 1 + rest.length := by
      simp only [List.length_cons]; omega
    rw [hl]
    refine ⟨m2, occ2, ?_, inv2⟩
    simp only [scanCalls, e1, e2, List.length_cons]
    rw [List.range_succ_eq_map, List.map_cons, List.map_map]
    congr 2
    simp only [List.cons.injEq, List.map_inj_left, Function.comp]
    refine ⟨by simp, fun i _ => ?_⟩
    have : t + 1 + i + 1 = t + (i + 1) + 1 := by omega
    rw [this]

/-- C29: for a pattern of length L (empty or not), on a matcher started by Init or by
a Reset after any earlier stream, every Scan call of a stream S returns, each
invokes on_match at most once, and none of the first L - 1 calls invokes it;
and on any matcher whatever, a Scan call that returns has applied on_match to
the observer state once or not at all. -/
theorem no_premature_or_repeated_signal (pattern : List Char) (wildcard : Char)
    (S1 S : List Char) :
    (∃ m0 m1 bs1 mR, WildcardMatcher.new.Init pattern wildcard = some m0 ∧
      scanStream m0 S1 = some (m1, bs1) ∧ m1.Reset = some mR ∧
      ∀ start, start = m0 ∨ start = mR →
        ∃ mt calls, scanCalls start S = some (mt, calls) ∧ calls.length = S.length ∧
          (∀ n ∈ calls, n ≤ 1) ∧
          ∀ i, i + 1 < pattern.length → ∀ n, calls[i]? = some n → n = 0) ∧
    ∀ (m : WildcardMatcher) (c : Char) (σ : Type) (on_match : σ → σ) (s : σ)
      (r : WildcardMatcher × σ), m.Scan c on_match s = some r → r.2 = s ∨ r.2 = on_match s := by
  refine ⟨?_, fun m c σ f s r e => WildcardMatcher.Scan_once m c f s r e⟩
  obtain ⟨m0, h0, e0, _, _, _, _, _, _, inv0⟩ := WildcardMatcher.Init_gen pattern wildcard
  have hL0 := WildcardMatcher.init_pairs_of_length_zero pattern wildcard
  have hids : ∀ q ∈ (WildcardMatcher.initLoop (Split pattern fun s => s == wildcard) 0 0 []).2.2,
      1 ≤ q.2 := fun q hq => ((WildcardMatcher.init_pairs_spec pattern wildcard).2.1 q hq).1
  obtain ⟨occ1, i1⟩ := inv0 S1
  obtain ⟨m1, occ1', e1, i1'⟩ := WildcardMatcher.scanStream_fresh _ S1 _ hL0 hids m0 occ1 i1
  obtain ⟨mR, hR, eR, _, _, _, invR⟩ := WildcardMatcher.Reset_gen i1'
  refine ⟨m0, m1, _, mR, e0, e1, eR, fun start hstart => ?_⟩
  have invS : ∃ occ, WildcardMatcher.MatcherInv
      (WildcardMatcher.initLoop (Split pattern fun s => s == wildcard) 0 0 []).2.2 S
      pattern.length 0 start occ := by
    rcases hstart with hs | hs
    · rw [hs]; exact inv0 S
    · rw [hs]; exact invR S
  obtain ⟨occ, iS⟩ := invS
  obtain ⟨mt, occt, et, _⟩ := WildcardMatcher.scanCalls_spec _ S _ hL0 hids S [] 0 start occ
    (by simp) iS
  refine ⟨mt, _, et, by simp, ?_, ?_⟩
  · intro n hn
    simp only [List.mem_map, List.mem_range] at hn
    obtain ⟨i, _, hi⟩ := hn
    rw [← hi]
    split <;> omega
  · intro i hi n hn
    rw [List.getElem?_map] at hn
    cases hr : (List.range S.length)[i]? with
    | none => rw [hr] at hn; exact Option.noConfusion hn
    | some j =>
      rw [hr] at hn
      simp only [Option.map_some', Option.some.injEq] at hn
      have hj : j = i := by
        have := List.getElem?_range (m := S.length) (n := i)
        by_cases hlt : i < S.length
        · rw [List.getElem?_range hlt] at hr
          exact (Option.some.inj hr).symm
        · rw [List.getElem?_eq_none (by simpa using hlt)] at hr
          exact Option.noConfusion hr
      rw [← hn, hj, if_neg]
      intro hc
      omega

/-! ## The null cursor -/

theorem aho_corasick.GetAutomatonTransitionChecked_toOption :
    ∀ (fuel : Nat) (h : Automaton) (node root : Option Nat) (c : Char),
      (GetAutomatonTransitionChecked fuel h node root c).toOption =
        GetAutomatonTransitionAux fuel h node root c := by
  intro fuel
  induction fuel with
  | zero =>
    intro h node root c
    cases node <;> rfl
  | succ fuel ih =>
    intro h node root c
    cases node with
    | none => rfl
    | some n =>
      simp only [GetAutomatonTransitionChecked, GetAutomatonTransitionAux]
      cases hg : getCache (setCache h n c (getCache h n c)) n c with
      | some r => rfl
      | none =>
        dsimp only
        cases ht : GetTrieTransition (setCache h n c (getCache h n c)) n c with
        | some d => rfl
        | none =>
          dsimp only
          by_cases hr : some n ≠ root
          · rw [if_pos hr, if_pos hr, ← ih]
            cases GetAutomatonTransitionChecked fuel
              (setCache h n c (getCache h n c))
              ((setCache h n c (getCache h n c)).node n).suffix_link root c <;> rfl
          · rw [if_neg hr, if_neg hr]
            rfl

theorem aho_corasick.NextChecked_toOption (h : Automaton) (ref : NodeReference) (c : Char) :
    (ref.NextChecked h c).toOption = ref.Next h c := by
  simp only [NodeReference.NextChecked, NodeReference.Next, GetAutomatonTransition,
    ← GetAutomatonTransitionChecked_toOption]
  cases GetAutomatonTransitionChecked h.size h ref.node_ ref.root_ c <;> rfl

/-- C22, as the code has it: Next on a default-constructed NodeReference is not
checked.  On every arena and for every character the call returns no cursor, and
what ends it is the dereference of the null node_ in the first statement of
GetAutomatonTransition, not an error raised by a test; Scan on a matcher that
was never initialised has no result either, whatever the observer. -/
theorem null_cursor_is_dereferenced (h : Automaton) (c : Char) :
    NodeReference.null.NextChecked h c = Except.error Fault.null_dereference ∧
    NodeReference.null.Next h c = none ∧
    ∀ (σ : Type) (on_match : σ → σ) (s : σ), WildcardMatcher.new.Scan c on_match s = none := by
  have e : NodeReference.null.NextChecked h c = Except.error Fault.null_dereference := by
    simp only [NodeReference.NextChecked, NodeReference.null]
    cases h.size <;> rfl
  refine ⟨e, ?_, fun σ f s => rfl⟩
  rw [← NextChecked_toOption, e]
  rfl

/-- Counterexample to C22 as stated: on the automaton built from the pattern a,
Next on the default-constructed cursor ends in a dereference of a null pointer;
no check rejects the call before the node is read. -/
theorem null_cursor_counterexample :
    ∃ h, Build [(['a'], 0)] = some h ∧
      NodeReference.null.NextChecked h 'a' = Except.error Fault.null_dereference ∧
      NodeReference.null.NextChecked h 'a' ≠ Except.ok (h, NodeReference.null) := by
  obtain ⟨h, path, e, _⟩ := Build_spec [(['a'], 0)]
  have e1 : NodeReference.null.NextChecked h 'a' = Except.error Fault.null_dereference := by
    simp only [NodeReference.NextChecked, NodeReference.null]
    cases h.size <;> rfl
  refine ⟨h, e, e1, ?_⟩
  rw [e1]
  exact fun hc => Except.noConfusion hc

/-! ## The trie built by ideone_WhZ8P4.cpp -/

namespace ideone_WhZ8P4

open traverses

theorem mapFind_pointers (l : List (Char × Nat)) (c : Char) :
    mapFind (l.map fun t => (t.1, some t.2)) c = (mapFind l c).map some := by
  induction l with
  | nil => rfl
  | cons a l ih =>
    simp only [List.map_cons, mapFind]
    by_cases hk : c = a.1
    · simp [hk]
    · simp [hk, ih]

theorem mapSet_pointers (l : List (Char × Nat)) (c : Char) (x : Nat) :
    (mapSet l c x).map (fun t => (t.1, some t.2)) =
      mapSet (l.map fun t => (t.1, some t.2)) c (some x) := by
  induction l with
  | nil => rfl
  | cons a l ih =>
    obtain ⟨k, v⟩ := a
    simp only [List.map_cons, mapSet]
    by_cases h1 : c < k
    · simp [h1]
    · by_cases h2 : c = k
      · simp [h1, h2]
      · simp [h1, h2, ih]

theorem Mirrored.getTrieTransition {h : Automaton} (m : Mirrored h) (n : Nat) (c : Char) :
    GetTrieTransition h n c = mapFind (h.node n).trie_transitions c := by
  simp only [GetTrieTransition, m n, mapFind_pointers]
  cases mapFind (h.node n).trie_transitions c <;> rfl

theorem mirrored_mirror (h : Automaton) : Mirrored (mirror h) := fun _ => rfl

theorem automaton_ext {h1 h2 : Automaton} (hs : h1.size = h2.size)
    (hn : ∀ j, h1.node j = h2.node j) : h1 = h2 := by
  cases h1
  cases h2
  simp only [Automaton.mk.injEq]
  exact ⟨hs, funext hn⟩

theorem mirror_step {h : Automaton} {cur : Nat} {c : Char} (hcur : cur < h.size)
    (hx : mapFind (h.node cur).trie_transitions c = none) :
    setCache ((trieIndex (mirror h) cur c).1.setNode (trieIndex (mirror h) cur c).2
        AutomatonNode.default) cur c (some (trieIndex (mirror h) cur c).2) =
      mirror (trieIndex h cur c).1 ∧
    (trieIndex (mirror h) cur c).2 = (trieIndex h cur c).2 := by
  have hx' : mapFind ((mirror h).node cur).trie_transitions c = none := hx
  obtain ⟨a1, a2, a3⟩ := trieIndex_none hx hcur
  obtain ⟨b1, b2, b3⟩ := trieIndex_none hx' (show cur < (mirror h).size from hcur)
  have hne : cur ≠ h.size := by omega
  have hsz : (mirror h).size = h.size := rfl
  refine ⟨?_, by rw [a1, b1, hsz]⟩
  rw [b1, hsz]
  generalize trieIndex (mirror h) cur c = T' at b2 b3
  generalize trieIndex h cur c = T at a2 a3
  apply automaton_ext
  · show T'.1.size = T.1.size
    rw [a2, b2, hsz]
  · intro j
    show (if j = cur then _ else if j = h.size then _ else T'.1.node j) = _
    simp only [mirror, a3 j]
    by_cases hj : j = cur
    · subst hj
      simp only [if_true, hne, if_false, b3, hsz]
      simp only [mirror, mapSet_pointers]
      rw [setNode_node_ne _ _ _ _ hne, b3]
      simp only [if_true, hsz]
      rfl
    · by_cases hj2 : j = h.size
      · subst hj2
        simp only [hj, if_false, if_true]
        rfl
      · simp only [hj, hj2, if_false, b3, hsz]
        rfl

theorem addStringLoop_mirror {all done : List (List Char × Nat)} :
    ∀ (s : List Char) (h : Automaton) (path : Nat → List Char) (cur : Nat),
      BuildInv h path all done → cur < h.size → IsTriePath all (path cur ++ s) →
      addStringLoop (mirror h) cur s =
        some (mirror (aho_corasick.addStringLoop h cur s).1,
          (aho_corasick.addStringLoop h cur s).2) := by
  intro s
  induction s with
  | nil =>
    intro h path cur _ _ _
    rfl
  | cons c s ih =>
    intro h path cur inv hcur hp
    have hp1 : IsTriePath all (path cur ++ [c]) :=
      isTriePath_of_initial hp ⟨s, by simp⟩
    obtain ⟨path', inv', hlt, hpath⟩ := trieIndex_inv inv cur c hcur hp1
    have hp2 : IsTriePath all (path' (trieIndex h cur c).2 ++ s) := by
      rw [hpath]
      simpa using hp
    have step := ih (trieIndex h cur c).1 path' (trieIndex h cur c).2 inv' hlt hp2
    simp only [addStringLoop, aho_corasick.addStringLoop]
    rw [(mirrored_mirror h).getTrieTransition]
    cases hx : mapFind ((mirror h).node cur).trie_transitions c with
    | some x =>
      have hx' : mapFind (h.node cur).trie_transitions c = some x := hx
      rw [trieIndex_some hx'] at step
      rw [trieIndex_some hx']
      exact step
    | none =>
      have hx' : mapFind (h.node cur).trie_transitions c = none := hx
      obtain ⟨e1, e2⟩ := mirror_step hcur hx'
      dsimp only
      rw [e1, (mirrored_mirror _).getTrieTransition]
      have hchild : mapFind ((mirror (trieIndex h cur c).1).node cur).trie_transitions c =
          some (trieIndex h cur c).2 := by
        obtain ⟨a1, a2, a3⟩ := trieIndex_none hx' hcur
        show mapFind ((trieIndex h cur c).1.node cur).trie_transitions c = _
        rw [a3 cur, a1]
        simp [mapFind_mapSet]
      rw [hchild]
      exact step

theorem AddString_mirror {all done : List (List Char × Nat)} {h : Automaton}
    {path : Nat → List Char} (inv : BuildInv h path all done) (w : List Char) (id : Nat)
    (hw : (w, id) ∈ all) :
    AddString (mirror h) 0 id w = some (mirror (aho_corasick.AddString h 0 id w)) := by
  have hp : IsTriePath all (path 0 ++ w) := by
    rw [inv.trie.path_root]
    exact Or.inr ⟨(w, id), hw, List.prefix_refl _⟩
  simp only [AddString, addStringLoop_mirror w h path 0 inv inv.trie.size_pos hp,
    aho_corasick.AddString, Option.some.injEq]
  simp only [mirror, Automaton.setNode, Automaton.mk.injEq, true_and]
  funext j
  by_cases hj : j = (aho_corasick.addStringLoop h 0 w).2
  · simp [hj]
  · simp [hj]

theorem BuildTrie_mirror {all : List (List Char × Nat)} :
    ∀ (rest done : List (List Char × Nat)) (h : Automaton) (path : Nat → List Char),
      BuildInv h path all done → (∀ p ∈ rest, p ∈ all) →
      BuildTrie rest (mirror h) = some (mirror (aho_corasick.BuildTrie rest h)) := by
  intro rest
  induction rest with
  | nil =>
    intro done h path _ _
    rfl
  | cons p rest ih =>
    intro done h path inv hall
    obtain ⟨w, id⟩ := p
    obtain ⟨path', inv'⟩ := AddString_inv inv w id (hall _ (List.mem_cons_self _ _))
    simp only [BuildTrie, aho_corasick.BuildTrie,
      AddString_mirror inv w id (hall _ (List.mem_cons_self _ _))]
    exact ih _ _ path' inv' fun q hq => hall q (List.mem_cons_of_mem _ hq)

theorem mirror_new : mirror Automaton.new = Automaton.new := rfl

/-- The trie that `BuildTrie` of ideone_WhZ8P4.cpp returns is the trie of
interface.cpp with the pointer map filled in. -/
theorem BuildTrie_pointers (added : List (List Char × Nat)) :
    BuildTrie added Automaton.new =
      some (mirror (aho_corasick.BuildTrie added Automaton.new)) := by
  have := @BuildTrie_mirror added added [] Automaton.new (fun _ => [])
    (BuildInv_new added) (fun _ hp => hp)
  rw [mirror_new] at this
  exact this

end ideone_WhZ8P4

/-! ## The passes of ideone_WhZ8P4.cpp -/

namespace ideone_WhZ8P4

open traverses

theorem edgesOf_pointers (v : Nat) (l : List (Char × Nat)) :
    edgesOf v (l.map fun t => (t.1, some t.2)) = some (l.map fun t => ⟨v, t.2, t.1⟩) := by
  induction l with
  | nil => rfl
  | cons a l ih => simp only [List.map_cons, edgesOf, ih]

theorem Mirrored.outgoingEdges {h : Automaton} (m : Mirrored h) (v : Nat) :
    OutgoingEdges h v = some (internal.OutgoingEdges h v) := by
  simp only [OutgoingEdges, m v, edgesOf_pointers, internal.OutgoingEdges]

theorem Mirrored.of_fields {h h' : Automaton} (m : Mirrored h)
    (e : ∀ n, (h'.node n).trie_transitions = (h.node n).trie_transitions ∧
      (h'.node n).automaton_transitions_cache = (h.node n).automaton_transitions_cache) :
    Mirrored h' := fun n => by rw [(e n).1, (e n).2]; exact m n

theorem Mirrored.setSuffixLink {h : Automaton} (m : Mirrored h) (x : Nat) (v : Option Nat) :
    Mirrored (h.setSuffixLink x v) :=
  m.of_fields fun n => ⟨((setSuffix_same h x v).2 n).1, ((setSuffix_same h x v).2 n).2.2.2.1⟩

theorem Mirrored.setTerminalLink {h : Automaton} (m : Mirrored h) (x : Nat) (v : Option Nat) :
    Mirrored (h.setTerminalLink x v) :=
  m.of_fields fun n =>
    ⟨((setTerminalLink_same h x v).2 n).1, ((setTerminalLink_same h x v).2 n).2.2.2⟩

theorem visitEdges_mirrored (visitor : BfsVisitor)
    (hE : ∀ h e h', Mirrored h → visitor.ExamineEdge h e = some h' → Mirrored h')
    (hD : ∀ h v h', Mirrored h → visitor.DiscoverVertex h v = some h' → Mirrored h') :
    ∀ (edges : List Edge) (h : Automaton) (q : List Nat) (r : Automaton × List Nat),
      Mirrored h → visitEdges visitor edges h q = some r → Mirrored r.1 := by
  intro edges
  induction edges with
  | nil =>
    intro h q r m e
    simp only [visitEdges, Option.some.injEq] at e
    rw [← e]
    exact m
  | cons edge edges ih =>
    intro h q r m e
    simp only [visitEdges] at e
    cases h1 : visitor.ExamineEdge h edge with
    | none => rw [h1] at e; exact Option.noConfusion e
    | some a =>
      rw [h1] at e
      dsimp only at e
      cases h2 : visitor.DiscoverVertex a (GetTarget edge) with
      | none => rw [h2] at e; exact Option.noConfusion e
      | some b =>
        rw [h2] at e
        exact ih b _ r (hD a _ b (hE h edge a m h1) h2) e

theorem bfsLoop_eq (visitor : BfsVisitor)
    (hV : ∀ h v h', Mirrored h → visitor.ExamineVertex h v = some h' → Mirrored h')
    (hE : ∀ h e h', Mirrored h → visitor.ExamineEdge h e = some h' → Mirrored h')
    (hD : ∀ h v h', Mirrored h → visitor.DiscoverVertex h v = some h' → Mirrored h') :
    ∀ (fuel : Nat) (q : List Nat) (h : Automaton), Mirrored h →
      bfsLoop visitor fuel q h = traverses.bfsLoop visitor fuel q h := by
  intro fuel
  induction fuel with
  | zero =>
    intro q h _
    cases q <;> rfl
  | succ fuel ih =>
    intro q h m
    cases q with
    | nil => rfl
    | cons v q =>
      simp only [bfsLoop, traverses.bfsLoop]
      cases h1 : visitor.ExamineVertex h v with
      | none => rfl
      | some a =>
        have ma := hV h v a m h1
        dsimp only
        rw [ma.outgoingEdges]
        dsimp only
        cases h2 : visitEdges visitor (internal.OutgoingEdges a v) a q with
        | none => rfl
        | some r =>
          exact ih r.2 r.1 (visitEdges_mirrored visitor hE hD _ a q r ma h2)

theorem suffixWalk_spec {path : Nat → List Char} {added : List (List Char × Nat)}
    (c : Char) (w : List Char) :
    ∀ (fuel : Nat) (h : Automaton) (s : Nat), TrieOK h path added → Mirrored h →
      (h.node 0).suffix_link = none → s < h.size → (path s).length + 2 ≤ fuel →
      (∀ u, u < h.size → (path u).length ≤ (path s).length → u ≠ 0 →
        SuffixOK h path added u) →
      longestPathSuffix added w = longestPathSuffix added (path s ++ [c]) →
      (∃ x r, suffixWalk h c fuel (some s) = some (some x) ∧ getCache h x c = some r ∧
        r < h.size ∧ path r = longestPathSuffix added w) ∨
      (suffixWalk h c fuel (some s) = some none ∧ longestPathSuffix added w = []) := by
  intro fuel
  induction fuel with
  | zero =>
    intro h s _ _ _ _ hf
    omega
  | succ fuel ih =>
    intro h s t m hroot hs hf hsuf hw
    simp only [suffixWalk, m s, mapFind_pointers]
    cases hd : mapFind (h.node s).trie_transitions c with
    | some d =>
      obtain ⟨l1, l2⟩ := t.trie.child s c d hs hd
      left
      refine ⟨s, d, rfl, ?_, l1, ?_⟩
      · simp [getCache, m s, mapFind_pointers, hd]
      · rw [hw, ← l2, longestPathSuffix_of_path (t.paths d l1)]
    | none =>
      have np := t.no_child hs hd
      simp only [Option.map_none']
      by_cases hs0 : s = 0
      · subst hs0
        right
        rw [hroot]
        refine ⟨?_, ?_⟩
        · cases fuel with
          | zero => omega
          | succ f => rfl
        · rw [hw, longestPathSuffix_snoc_of_not_path np, t.trie.path_root]
          have : ¬ IsTriePath added [c] := by simpa [t.trie.path_root] using np
          simp [longestPathSuffix, this]
      · obtain ⟨s', e1, e2, e3⟩ := hsuf s hs le_rfl hs0
        have hpos : 0 < (path s).length := List.length_pos.mpr (t.trie.path_ne_nil hs hs0)
        have hlen : (path s').length ≤ (path s).length - 1 := by
          rw [e3]
          have := longestPathSuffix_length_le added (path s).tail
          simp only [List.length_tail] at this
          exact this
        rw [e1]
        exact ih h s' t m hroot e2 (by omega) (fun u hu hl u0 => hsuf u hu (by omega) u0)
          (by rw [hw, e3, ← longestPathSuffix_snoc, longestPathSuffix_snoc_of_not_path np])

theorem suffix_examineEdge_walk {h0 : Automaton} {path : Nat → List Char}
    {added : List (List Char × Nat)} (t : TrieOK h0 path added)
    (v : Nat) (D : List Nat) (h : Automaton) (c : Char) (m : Nat)
    (hj : PassInv h0 path added D h) (hv : Visiting h0 path v D)
    (hm : mapFind (h0.node v).trie_transitions c = some m) (hmD : m ∉ D) :
    ∃ h1 h2, (SuffixLinkCalculator (some 0)).ExamineEdge h ⟨v, m, c⟩ = some h1 ∧
      (SuffixLinkCalculator (some 0)).DiscoverVertex h1 m = some h2 ∧
      PassInv h0 path added (D ++ [m]) h2 := by
  have th : TrieOK h path added := t.of_same hj.same
  have h0D : (0 : Nat) ∈ D := hv.shallow 0 t.trie.size_pos (by simp [t.trie.path_root])
  have hm0 : m ≠ 0 := fun e => hmD (e ▸ h0D)
  have hvlt : v < h0.size := hv.lt v hv.mem
  have hsz : h.size = h0.size := hj.same.1
  obtain ⟨hmlt, hpm⟩ := t.trie.child v c m hvlt hm
  have key : ∀ r, r < h.size → path r = longestPathSuffix added (path m).tail →
      PassInv h0 path added (D ++ [m]) (h.setSuffixLink m (some r)) := by
    intro r hr hp
    have a := setSuffix_same h m (some r)
    refine ⟨hj.same.trie_trans a.suffix_sameTrie, hj.mirrored.setSuffixLink m _,
      fun n => by rw [(a.2 n).2.2.1]; exact hj.term n, ?_, ?_⟩
    · rw [(a.2 0).2.2.2.2 (fun e => hm0 e.symm)]
      exact hj.root
    · intro n hn n0
      rcases List.mem_append.1 hn with h3 | h3
      · exact a.suffix_suffixOK (hj.suffix n h3 n0) (fun e => hmD (e ▸ h3))
      · simp only [List.mem_singleton] at h3
        subst h3
        exact ⟨r, by simp, by simpa using hr, hp⟩
  by_cases v0 : v = 0
  · subst v0
    refine ⟨h.setSuffixLink m (some 0), _, ?_, rfl, key 0 th.trie.size_pos ?_⟩
    · simp only [SuffixLinkCalculator, hj.root, suffixWalk]
    · rw [hpm, t.trie.path_root]
      rfl
  · obtain ⟨s, hs1, hs2, hs3⟩ := hj.suffix v hv.mem v0
    have hpv : path v ≠ [] := t.trie.path_ne_nil hvlt v0
    have hlen : (path s).length < (path v).length := by
      rw [hs3]
      have := longestPathSuffix_length_le added (path v).tail
      have : (path v).tail.length < (path v).length := by
        cases hp : path v with
        | nil => exact absurd hp hpv
        | cons a tl => simp
      omega
    have hdv := t.trie.depth_le v hvlt
    have htail : (path m).tail = (path v).tail ++ [c] := by
      rw [hpm]
      cases hp : path v with
      | nil => exact absurd hp hpv
      | cons a tl => simp
    rcases suffixWalk_spec c ((path v).tail ++ [c]) (h.size + 1) h s th hj.mirrored hj.root
      hs2 (by omega)
      (fun u hu hul u0 => hj.suffix u (hv.shallow u (by rw [← hsz]; exact hu) (by omega)) u0)
      (by rw [hs3, ← longestPathSuffix_snoc]) with ⟨x, r, e1, e2, e3, e4⟩ | ⟨e1, e2⟩
    · refine ⟨h.setSuffixLink m (some r), _, ?_, rfl, key r e3 (by rw [e4, htail])⟩
      simp only [SuffixLinkCalculator, hs1, e1, e2]
    · refine ⟨h.setSuffixLink m (some 0), _, ?_, rfl, key 0 th.trie.size_pos ?_⟩
      · simp only [SuffixLinkCalculator, hs1, e1]
      · rw [htail, e2, t.trie.path_root]

theorem BreadthFirstSearch_eq (visitor : BfsVisitor)
    (hV : ∀ h v h', Mirrored h → visitor.ExamineVertex h v = some h' → Mirrored h')
    (hE : ∀ h e h', Mirrored h → visitor.ExamineEdge h e = some h' → Mirrored h')
    (hD : ∀ h v h', Mirrored h → visitor.DiscoverVertex h v = some h' → Mirrored h')
    (h : Automaton) (m : Mirrored h) :
    BreadthFirstSearch 0 h visitor = traverses.BreadthFirstSearch 0 h visitor :=
  bfsLoop_eq visitor hV hE hD h.size [0] h m

theorem suffix_keeps_pointers (root_ : Option Nat) (h : Automaton) (e : Edge) (h' : Automaton)
    (m : Mirrored h) (he : (SuffixLinkCalculator root_).ExamineEdge h e = some h') :
    Mirrored h' := by
  simp only [SuffixLinkCalculator] at he
  split at he
  · exact Option.noConfusion he
  · simp only [Option.some.injEq] at he
    rw [← he]
    exact m.setSuffixLink _ _
  · simp only [Option.some.injEq] at he
    rw [← he]
    exact m.setSuffixLink _ _

theorem terminal_keeps_pointers (root_ : Option Nat) (h : Automaton) (v : Nat)
    (h' : Automaton) (m : Mirrored h)
    (he : (TerminalLinkCalculator root_).DiscoverVertex h v = some h') : Mirrored h' := by
  simp only [TerminalLinkCalculator] at he
  split at he
  · simp only [Option.some.injEq] at he
    rw [← he]
    exact m
  · split at he
    · exact Option.noConfusion he
    · split at he
      · simp only [Option.some.injEq] at he
        rw [← he]
        exact m.setTerminalLink _ _
      · simp only [Option.some.injEq] at he
        rw [← he]
        exact m.setTerminalLink _ _

theorem same_of_some {h h' : Automaton} (e : some h = some h') (m : Mirrored h) :
    Mirrored h' := by
  simp only [Option.some.injEq] at e
  rw [← e]
  exact m

/-- The arena after `BuildSuffixLinks` of ideone_WhZ8P4.cpp: every node but the
root carries its suffix link. -/
theorem BuildSuffixLinks_walk_spec {h0 : Automaton} {path : Nat → List Char}
    {added : List (List Char × Nat)} (t : TrieOK h0 path added) (m0 : Mirrored h0)
    (hfresh : ∀ n, (h0.node n).suffix_link = none ∧ (h0.node n).terminal_link = none) :
    ∃ h1, BuildSuffixLinks h0 = some h1 ∧ SameTrie h0 h1 ∧ Linked h1 path added ∧
      ∀ n, (h1.node n).terminal_link = none := by
  obtain ⟨h1, D, e, hj, hall⟩ := BreadthFirstSearch_spec (SuffixLinkCalculator (some 0))
    t.trie (fun _ D h => PassInv h0 path added D h) (fun _ D h => PassInv h0 path added D h)
    (fun v D h hj n => (hj.same.2 n).1)
    (fun popped D h v hj _ _ => ⟨h, rfl, hj⟩)
    (suffix_examineEdge_walk t)
    (fun v popped D h hj => hj)
    ⟨SameTrie.trie_refl _, m0, fun n => (hfresh n).2, (hfresh 0).1, fun n hn n0 => by
      simp only [List.mem_singleton] at hn
      exact absurd hn n0⟩
  refine ⟨h1, ?_, hj.same, ⟨t.of_same hj.same, hj.mirrored, hj.root, fun n hn n0 =>
    hj.suffix n (hall n (by rw [← hj.same.1]; exact hn)) n0⟩, hj.term⟩
  rw [← e]
  exact BreadthFirstSearch_eq _ (fun h v h' m e => same_of_some e m)
    (suffix_keeps_pointers _) (fun h v h' m e => same_of_some e m) h0 m0

theorem Linked.of_terminal {h h' : Automaton} {path : Nat → List Char}
    {added : List (List Char × Nat)} (l : Linked h path added) (a : SameButTerminal h h') :
    Linked h' path added :=
  ⟨l.trie.of_same a.terminal_sameTrie,
    l.mirrored.of_fields fun n => ⟨(a.2 n).1, (a.2 n).2.2.2⟩,
    by rw [(a.2 0).2.2.1]; exact l.root,
    fun n hn n0 => a.terminal_suffixOK (l.suffix n (by rw [← a.1]; exact hn) n0)⟩

/-- The arena after `BuildTerminalLinks` of ideone_WhZ8P4.cpp: the pass returns
and changes terminal links only. -/
theorem BuildTerminalLinks_walk_spec {h1 : Automaton} {path : Nat → List Char}
    {added : List (List Char × Nat)} (l : Linked h1 path added) :
    ∃ h2, BuildTerminalLinks h1 = some h2 ∧ SameButTerminal h1 h2 := by
  obtain ⟨h2, D, e, hj, _⟩ := BreadthFirstSearch_spec (TerminalLinkCalculator (some 0))
    l.trie.trie (fun _ _ h => SameButTerminal h1 h) (fun _ _ h => SameButTerminal h1 h)
    (fun v D h hj n => (hj.2 n).1)
    (fun popped D h v hj _ _ => ⟨h, rfl, hj⟩)
    (fun v D h c m hj hv hm hmD => by
      have h0D : (0 : Nat) ∈ D :=
        hv.shallow 0 l.trie.trie.size_pos (by simp [l.trie.trie.path_root])
      have hm0 : m ≠ 0 := fun e => hmD (e ▸ h0D)
      obtain ⟨hmlt, _⟩ := l.trie.trie.child v c m (hv.lt v hv.mem) hm
      obtain ⟨s, hs, _, _⟩ := l.suffix m hmlt hm0
      have hs' : (h.node m).suffix_link = some s := by rw [(hj.2 m).2.2.1]; exact hs
      have hne : ¬ ((some m : Option Nat) = some 0) := by simpa using hm0
      by_cases hids : (h.node s).terminated_string_ids.length > 0
      · refine ⟨h, _, rfl, ?_, hj.terminal_trans (setTerminalLink_same h m (some s))⟩
        simp only [TerminalLinkCalculator, hne, if_false, hs', hids, if_true]
      · refine ⟨h, _, rfl, ?_,
          hj.terminal_trans (setTerminalLink_same h m (h.node s).terminal_link)⟩
        simp only [TerminalLinkCalculator, hne, if_false, hs', hids, if_false])
    (fun v popped D h hj => hj)
    (SameButTerminal.terminal_refl _)
  refine ⟨h2, ?_, hj⟩
  rw [← e]
  exact BreadthFirstSearch_eq _ (fun h v h' m e => same_of_some e m)
    (fun h v h' m e => same_of_some e m) (terminal_keeps_pointers _) h1 l.mirrored

/-- Totality of `Build()` of ideone_WhZ8P4.cpp, with the state of the automaton
it returns, over the trie of interface.cpp. -/
theorem Build_walk_spec {path : Nat → List Char} {added : List (List Char × Nat)}
    (inv : BuildInv (aho_corasick.BuildTrie added Automaton.new) path added added) :
    ∃ h, Build added = some h ∧ Linked h path added ∧
      SameTrie (aho_corasick.BuildTrie added Automaton.new) h := by
  have hs : SameTrie (aho_corasick.BuildTrie added Automaton.new)
      (mirror (aho_corasick.BuildTrie added Automaton.new)) := ⟨rfl, fun _ => ⟨rfl, rfl⟩⟩
  have t := inv.trieOK.of_same hs
  obtain ⟨h1, e1, s1, l1, _⟩ := BuildSuffixLinks_walk_spec t (mirrored_mirror _)
    (fun n => ⟨(inv.fresh n).1, (inv.fresh n).2.1⟩)
  obtain ⟨h2, e2, s2⟩ := BuildTerminalLinks_walk_spec l1
  refine ⟨h2, ?_, l1.of_terminal s2, (hs.trie_trans s1).trie_trans s2.terminal_sameTrie⟩
  simp only [Build, BuildTrie_pointers, e1, e2]

theorem Mirrored.trieWalk_eq {h : Automaton} (m : Mirrored h) :
    ∀ (w : List Char) (n : Nat),
      ideone_WhZ8P4.trieWalk h n w = aho_corasick.trieWalk h n w := by
  intro w
  induction w with
  | nil => intro n; rfl
  | cons c w ih =>
    intro n
    simp only [ideone_WhZ8P4.trieWalk, aho_corasick.trieWalk, m.getTrieTransition,
      aho_corasick.GetTrieTransition]
    cases mapFind (h.node n).trie_transitions c with
    | none => rfl
    | some d => exact ih d

theorem Linked.walk {h : Automaton} {path : Nat → List Char}
    {added : List (List Char × Nat)} (l : Linked h path added) (w : List Char) (n : Nat) :
    trieWalk h 0 w = some n ↔ n < h.size ∧ path n = w := by
  rw [l.mirrored.trieWalk_eq]
  exact trieWalk_from_root l.trie w n

theorem getNextNodeLoop_spec {path : Nat → List Char} {added : List (List Char × Nat)}
    (c : Char) :
    ∀ (fuel : Nat) (h : Automaton) (n : Nat), Linked h path added → n < h.size →
      (path n).length + 1 ≤ fuel →
      ∃ x, getNextNodeLoop h (some 0) c fuel (some n) = some (some x) ∧ x < h.size ∧
        longestPathSuffix added (path n ++ [c]) = longestPathSuffix added (path x ++ [c]) ∧
        (x = 0 ∨ ∃ d, mapFind (h.node x).trie_transitions c = some d) := by
  intro fuel
  induction fuel with
  | zero =>
    intro h n _ _ hf
    omega
  | succ fuel ih =>
    intro h n l hn hf
    simp only [getNextNodeLoop]
    by_cases n0 : n = 0
    · subst n0
      exact ⟨0, by simp, hn, rfl, Or.inl rfl⟩
    · have hne : (some n : Option Nat) ≠ some 0 := by simpa using n0
      simp only [hne, ne_eq, not_false_eq_true, if_true, l.mirrored.getTrieTransition]
      cases hd : mapFind (h.node n).trie_transitions c with
      | some d => exact ⟨n, rfl, hn, rfl, Or.inr ⟨d, hd⟩⟩
      | none =>
        have np := l.trie.no_child hn hd
        obtain ⟨s, e1, e2, e3⟩ := l.suffix n hn n0
        have hpos : 0 < (path n).length :=
          List.length_pos.mpr (l.trie.trie.path_ne_nil hn n0)
        have hlen : (path s).length ≤ (path n).length - 1 := by
          rw [e3]
          have := longestPathSuffix_length_le added (path n).tail
          simp only [List.length_tail] at this
          exact this
        obtain ⟨x, ex, hx, hp, hc⟩ := ih h s l e2 (by omega)
        refine ⟨x, ?_, hx, ?_, hc⟩
        · simp only [e1]
          exact ex
        · rw [← hp, e3, ← longestPathSuffix_snoc, longestPathSuffix_snoc_of_not_path np]

/-- The node that `GetNextNode` returns on an automaton built by
ideone_WhZ8P4.cpp is the one of the longest suffix of `path n ++ [c]` that is a
trie path. -/
theorem Linked.getNextNode {h : Automaton} {path : Nat → List Char}
    {added : List (List Char × Nat)} (l : Linked h path added) {n : Nat} (hn : n < h.size)
    (c : Char) :
    ∃ r, GetNextNode h (some n) (some 0) c = some (some r) ∧ r < h.size ∧
      path r = longestPathSuffix added (path n ++ [c]) := by
  have hd := l.trie.trie.depth_le n hn
  obtain ⟨x, ex, hx, hp, hc⟩ := getNextNodeLoop_spec c (h.size + 1) h n l hn (by omega)
  simp only [GetNextNode, ex, l.mirrored.getTrieTransition]
  cases hd : mapFind (h.node x).trie_transitions c with
  | some d =>
    obtain ⟨l1, l2⟩ := l.trie.trie.child x c d hx hd
    refine ⟨d, rfl, l1, ?_⟩
    rw [hp, ← l2, longestPathSuffix_of_path (l.trie.paths d l1)]
  | none =>
    have x0 : x = 0 := by
      rcases hc with h1 | ⟨d, h1⟩
      · exact h1
      · rw [hd] at h1; exact Option.noConfusion h1
    subst x0
    refine ⟨0, rfl, hx, ?_⟩
    have np := l.trie.no_child hx hd
    rw [hp, longestPathSuffix_snoc_of_not_path np, l.trie.trie.path_root]
    have : ¬ IsTriePath added [c] := by simpa [l.trie.trie.path_root] using np
    simp [longestPathSuffix, this]

end ideone_WhZ8P4

/-! ## The three builders on one trie -/

namespace aho_corasick

/-- The automaton of interface.cpp over the trie of `BuildTrie`, with the paths
of that trie. -/
theorem Build_on_trie {path : Nat → List Char} {added : List (List Char × Nat)}
    (inv : BuildInv (BuildTrie added Automaton.new) path added added) :
    ∃ h, Build added = some h ∧ Built h path added ∧
      SameTrie (BuildTrie added Automaton.new) h := by
  have t := inv.trieOK
  obtain ⟨h1, e1, base, hsuf⟩ := BuildSuffixLinks_spec inv
  obtain ⟨h2, e2, same, hroot, hrec⟩ := BuildTerminalLinks_spec t base hsuf
  have hsz : h2.size = (BuildTrie added Automaton.new).size := same.1.trans base.same.1
  refine ⟨h2, by simp only [Build, e1, e2], ?_, base.same.trie_trans same.terminal_sameTrie⟩
  exact ⟨(t.of_same base.same).of_same same.terminal_sameTrie,
    fun n hn => same.terminal_suffixOK (hsuf n (by rw [← hsz]; exact hn)), hroot,
    fun n hn n0 => hrec n (by rw [← hsz]; exact hn) n0, same.terminal_cacheOK base.cache⟩

/-- The automaton of prog.cpp over the trie of `BuildTrie`, with the paths of
that trie. -/
theorem prog.Build_colours_on_trie {path : Nat → List Char} {added : List (List Char × Nat)}
    (inv : BuildInv (BuildTrie added Automaton.new) path added added) :
    ∃ h, prog.Build added = some h ∧ Built h path added ∧
      SameTrie (BuildTrie added Automaton.new) h := by
  have t := inv.trieOK
  obtain ⟨h1, e1, base, hsuf⟩ := prog.BuildSuffixLinks_loop_spec inv
  obtain ⟨h2, e2, same, hroot, hrec⟩ := prog.BuildTerminalLinks_colours_spec t base hsuf
  have hsz : h2.size = (BuildTrie added Automaton.new).size := same.1.trans base.same.1
  refine ⟨h2, by simp only [prog.Build, e1, e2], ?_,
    base.same.trie_trans same.terminal_sameTrie⟩
  exact ⟨(t.of_same base.same).of_same same.terminal_sameTrie,
    fun n hn => same.terminal_suffixOK (hsuf n (by rw [← hsz]; exact hn)), hroot,
    fun n hn n0 => hrec n (by rw [← hsz]; exact hn) n0, same.terminal_cacheOK base.cache⟩

end aho_corasick

/-- C23: for every pattern list, the three builders return automata over the
same trie, and for every non-root trie node, identified by its path string w,
the suffix link set by SuffixLinkCalculator of interface.cpp, by that of
ideone_WhZ8P4.cpp and by that of prog.cpp is the same node: the node of the
longest proper suffix of w that is a trie path.  (At the root the variants
differ: interface.cpp links the root to itself, ideone_WhZ8P4.cpp leaves its
link null.) -/
theorem suffix_link_variants_agree (added : List (List Char × Nat)) :
    ∃ hI hW hP, Build added = some hI ∧ ideone_WhZ8P4.Build added = some hW ∧
      prog.Build added = some hP ∧
      (∀ w, (∃ n, trieWalk hI 0 w = some n) ↔ IsTriePath added w) ∧
      (hI.node 0).suffix_link = some 0 ∧ (hW.node 0).suffix_link = none ∧
      ∀ (w : List Char) (n : Nat), n ≠ 0 → trieWalk hI 0 w = some n →
        ideone_WhZ8P4.trieWalk hW 0 w = some n ∧ trieWalk hP 0 w = some n ∧
        ∃ s v, (hI.node n).suffix_link = some s ∧ (hW.node n).suffix_link = some s ∧
          (hP.node n).suffix_link = some s ∧
          trieWalk hI 0 v = some s ∧ ideone_WhZ8P4.trieWalk hW 0 v = some s ∧
          trieWalk hP 0 v = some s ∧ IsLongestProperPathSuffix added v w := by
  obtain ⟨path, inv⟩ := BuildTrie_spec added
  obtain ⟨hI, eI, bI, sI⟩ := Build_on_trie inv
  obtain ⟨hW, eW, lW, sW⟩ := ideone_WhZ8P4.Build_walk_spec inv
  obtain ⟨hP, eP, bP, sP⟩ := prog.Build_colours_on_trie inv
  have hWI : hW.size = hI.size := sW.1.trans sI.1.symm
  have hPI : hP.size = hI.size := sP.1.trans sI.1.symm
  refine ⟨hI, hW, hP, eI, eW, eP, bI.walk_iff_path,
    (suffixOK_at_root bI.trie).1 (bI.suffix 0 bI.trie.trie.size_pos), lW.root, ?_⟩
  intro w n n0 hw
  obtain ⟨hn, hp⟩ := (trieWalk_from_root bI.trie w n).1 hw
  have hnW : n < hW.size := by rw [hWI]; exact hn
  have hnP : n < hP.size := by rw [hPI]; exact hn
  refine ⟨(lW.walk w n).2 ⟨hnW, hp⟩, (trieWalk_from_root bP.trie w n).2 ⟨hnP, hp⟩, ?_⟩
  obtain ⟨s, a1, a2, a3⟩ := bI.suffix n hn
  obtain ⟨sW', b1, b2, b3⟩ := lW.suffix n hnW n0
  obtain ⟨sP', c1, c2, c3⟩ := bP.suffix n hnP
  have e1 : sW' = s := bI.trie.inj (by rw [← hWI]; exact b2) a2 (b3.trans a3.symm)
  have e2 : sP' = s := bI.trie.inj (by rw [← hPI]; exact c2) a2 (c3.trans a3.symm)
  subst e1 e2
  refine ⟨sP', path sP', a1, b1, c1, bI.has_path a2, (lW.walk _ _).2 ⟨b2, rfl⟩,
    bP.has_path c2, ?_⟩
  have hne := bI.trie.trie.path_ne_nil hn n0
  rw [hp] at a3 hne
  cases w with
  | nil => exact absurd rfl hne
  | cons a t =>
    simp only [List.tail_cons] at a3
    exact a3 ▸ isLongestProperPathSuffix_tail added a t

/-- C30: for every pattern list, every trie node n, identified by its path
string w, and every character c, GetNextNode(n, root, c) on the automaton built
by ideone_WhZ8P4.cpp returns the node that GetAutomatonTransition(n, root, c)
returns on the automaton built by interface.cpp from the same patterns, also
after any text has been scanned with Next from the root, which fills the cache:
the node of the longest suffix of w + c that is a trie path. -/
theorem unmemoized_and_memoized_transitions_agree (added : List (List Char × Nat)) :
    ∃ hW hI, ideone_WhZ8P4.Build added = some hW ∧ Build added = some hI ∧
      (∀ w, (∃ n, trieWalk hI 0 w = some n) ↔ IsTriePath added w) ∧
      ∀ (w : List Char) (n : Nat) (c : Char), trieWalk hI 0 w = some n →
        ideone_WhZ8P4.trieWalk hW 0 w = some n ∧
        ∃ r v, ideone_WhZ8P4.GetNextNode hW (some n) hW.rootPtr c = some (some r) ∧
          (∃ hI1, GetAutomatonTransition hI (some n) hI.rootPtr c = some (hI1, some r)) ∧
          trieWalk hI 0 v = some r ∧ ideone_WhZ8P4.trieWalk hW 0 v = some r ∧
          IsLongestPathSuffix added v (w ++ [c]) ∧
          ∀ text : List Char, ∃ hI2 ref hI3, scanText hI hI.Root text = some (hI2, ref) ∧
            GetAutomatonTransition hI2 (some n) hI2.rootPtr c = some (hI3, some r) := by
  obtain ⟨path, inv⟩ := BuildTrie_spec added
  obtain ⟨hI, eI, bI, sI⟩ := Build_on_trie inv
  obtain ⟨hW, eW, lW, sW⟩ := ideone_WhZ8P4.Build_walk_spec inv
  have hWI : hW.size = hI.size := sW.1.trans sI.1.symm
  refine ⟨hW, hI, eW, eI, bI.walk_iff_path, ?_⟩
  intro w n c hw
  obtain ⟨hn, hp⟩ := (trieWalk_from_root bI.trie w n).1 hw
  have hnW : n < hW.size := by rw [hWI]; exact hn
  refine ⟨(lW.walk w n).2 ⟨hnW, hp⟩, ?_⟩
  obtain ⟨r, a1, a2, a3⟩ := lW.getNextNode hnW c
  obtain ⟨hI1, r', b1, b2, b3, _, _⟩ := bI.transition hn c
  have hr : r' = r := bI.trie.inj b2 (by rw [← hWI]; exact a2) (b3.trans a3.symm)
  subst hr
  refine ⟨r', path r', a1, ⟨hI1, b1⟩, bI.has_path b2, (lW.walk _ _).2 ⟨a2, rfl⟩, ?_, ?_⟩
  · rw [b3, hp]
    exact longestPathSuffix_spec added (w ++ [c])
  · intro text
    obtain ⟨hI2, x, c1, _, _, c4, c5⟩ := Built.scan text hI 0 bI bI.trie.trie.size_pos
    have hn2 : n < hI2.size := by rw [c4.1]; exact hn
    obtain ⟨hI3, r2, d1, d2, d3, _, _⟩ := c5.transition hn2 c
    have hr : r2 = r' := bI.trie.inj (by rw [← c4.1]; exact d2) b2 (d3.trans b3.symm)
    subst hr
    exact ⟨hI2, _, hI3, c1, d1⟩

/-! ## The wildcard matcher of ideone_yYDo30.cpp -/

/-- C24, failing inputs: with the wildcard * the pattern a*b is split into the
pieces a, * and b, and Init adds all three to the automaton, because it leaves
out the pieces that start with the character ? and not the ones that start with
the wildcard; so FindFuzzyMatches reports nothing on the text acb, where
position 0 matches, while the function of interface.cpp reports it.  With the
same wildcard the pattern ? is left out as if it were a wildcard piece, and
FindFuzzyMatches reports the positions 0 and 1 of the text xy, where the literal
? does not occur. -/
theorem wildcard_parameter_ignored :
    ideone_yYDo30.Split "a*b".toList '*' = ["a".toList, "*".toList, "b".toList] ∧
    (ideone_yYDo30.WildCardMatcher.initLoop (ideone_yYDo30.Split "a*b".toList '*') 0 0 []).2.2 =
      [("a".toList, 1), ("*".toList, 2), ("b".toList, 3)] ∧
    ideone_yYDo30.FindFuzzyMatches "a*b".toList "acb".toList '*' = some [] ∧
    (0 + "a*b".toList.length ≤ "acb".toList.length ∧
      ∀ j, j < "a*b".toList.length →
        "a*b".toList[j]? = some '*' ∨ "a*b".toList[j]? = "acb".toList[0 + j]?) ∧
    FindFuzzyMatches "a*b".toList "acb".toList '*' = some [0] ∧
    ideone_yYDo30.FindFuzzyMatches "?".toList "xy".toList '*' = some [0, 1] ∧
    ¬ ∀ j, j < "?".toList.length →
        "?".toList[j]? = some '*' ∨ "?".toList[j]? = "xy".toList[0 + j]? := by
  decide

/-! ## Match enumeration in ideone_yYDo30.cpp -/

theorem ideone_yYDo30.generateMatches_loops {σ : Type} (h : Automaton) (n : Nat)
    (hn : (h.node n).terminal_link = some n) (on_match : σ → Nat → σ) :
    ∀ (fuel : Nat) (s : σ), generateMatchesLoop h on_match fuel (some n) s = none := by
  intro fuel
  induction fuel with
  | zero => intro s; rfl
  | succ fuel ih =>
    intro s
    simp only [generateMatchesLoop, hn]
    exact ih _

theorem ideone_yYDo30.empty_string_links :
    (ideone_yYDo30.Build [([], 0)]).map (fun h => ((h.node 0).suffix_link,
      (h.node 0).terminal_link, (h.node 0).terminated_string_ids)) =
      some (some 0, some 0, [0]) := by
  decide

/-- C25, failing input: after Add("", 0) and Build() of ideone_yYDo30.cpp the
terminal link of the root is the root itself, because BreadthFirstSearch calls
DiscoverVertex on the origin and TerminalLinkCalculator has no test for the
root; GenerateMatches at Root() then has no result, whatever the number of
iterations allowed to its loop, and it calls on_match with the id 0 in every
iteration. -/
theorem root_terminal_link_is_the_root :
    ∃ h, ideone_yYDo30.Build [([], 0)] = some h ∧
      (h.node 0).terminal_link = some 0 ∧ (h.node 0).terminated_string_ids = [0] ∧
      ∀ (σ : Type) (on_match : σ → Nat → σ) (s : σ) (fuel : Nat),
        ideone_yYDo30.GenerateMatches h fuel h.Root on_match s = none := by
  have e := ideone_yYDo30.empty_string_links
  cases hb : ideone_yYDo30.Build [([], 0)] with
  | none =>
    rw [hb] at e
    exact Option.noConfusion e
  | some h =>
    rw [hb] at e
    simp only [Option.map_some', Option.some.injEq, Prod.mk.injEq] at e
    exact ⟨h, rfl, e.2.1, e.2.2, fun σ f s fuel =>
      ideone_yYDo30.generateMatches_loops h 0 e.2.1 f fuel s⟩

/-! ## The perfect hash tables of Review3.cpp -/

namespace Review3

open IPerfectHashTable

theorem makeChainsLoop_spec (hash_ : HashFunction) :
    ∀ (keys : List Int) (buckets out : List (List Int)),
      makeChainsLoop hash_ keys buckets = some out →
      out.length = buckets.length ∧
      (∀ i b, buckets[i]? = some b →
        out[i]? = some (b ++ keys.filter fun k => hash_.apply (uint64_of_int k) == some i)) ∧
      ∀ k ∈ keys, ∃ i, hash_.apply (uint64_of_int k) = some i ∧ i < buckets.length := by
  intro keys
  induction keys with
  | nil =>
    intro buckets out e
    simp only [makeChainsLoop, Option.some.injEq] at e
    subst e
    exact ⟨rfl, fun i b hb => by simp [hb], fun k hk => by simp at hk⟩
  | cons key rest ih =>
    intro buckets out e
    simp only [makeChainsLoop] at e
    cases hp : hash_.apply (uint64_of_int key) with
    | none => rw [hp] at e; exact Option.noConfusion e
    | some position =>
      rw [hp] at e
      dsimp only at e
      by_cases hlt : position < buckets.length
      · rw [if_pos hlt] at e
        obtain ⟨l1, l2, l3⟩ := ih _ out e
        rw [List.length_modify] at l1 l3
        refine ⟨l1, ?_, ?_⟩
        · intro i b hb
          have hm : (List.modify (fun bucket => bucket ++ [key]) position buckets)[i]? =
              some (if position = i then b ++ [key] else b) := by
            rw [List.getElem?_modify, hb]
            rfl
          rw [l2 i _ hm]
          by_cases hpi : position = i
          · subst hpi
            simp [List.filter_cons, hp]
          · have : (some position == some i) = false := by simpa using hpi
            simp [List.filter_cons, hp, hpi, this]
        · intro k hk
          rcases List.mem_cons.1 hk with h1 | h1
          · subst h1
            exact ⟨position, hp, hlt⟩
          · exact l3 k h1
      · rw [if_neg hlt] at e
        exact Option.noConfusion e

theorem chainSizesLoop_eq (hash_ : HashFunction) :
    ∀ (keys : List Int) (buckets : List (List Int)),
      chainSizesLoop hash_ keys (buckets.map List.length) =
        (makeChainsLoop hash_ keys buckets).map fun out => out.map List.length := by
  intro keys
  induction keys with
  | nil => intro buckets; rfl
  | cons key rest ih =>
    intro buckets
    simp only [chainSizesLoop, makeChainsLoop]
    cases hp : hash_.apply (uint64_of_int key) with
    | none => rfl
    | some position =>
      dsimp only
      rw [List.length_map]
      by_cases hlt : position < buckets.length
      · rw [if_pos hlt, if_pos hlt, ← ih]
        congr 1
        apply List.ext_getElem?
        intro i
        rw [List.getElem?_modify, List.getElem?_map, List.getElem?_map, List.getElem?_modify]
        cases buckets[i]? with
        | none => rfl
        | some b =>
          by_cases hpi : position = i
          · simp [hpi]
          · simp [hpi]
      · rw [if_neg hlt, if_neg hlt]
        rfl

theorem ComputeChainSizes_eq (hash_ : HashFunction) (size_ : Nat) (numbers : List Int) :
    ComputeChainSizes hash_ size_ numbers =
      (MakeChains hash_ size_ numbers).map fun out => out.map List.length := by
  have := chainSizesLoop_eq hash_ numbers (List.replicate size_ [])
  simpa [ComputeChainSizes, MakeChains] using this

theorem foldl_max_ge (l : List Nat) (x : Nat) :
    x ≤ l.foldl max x ∧ ∀ y ∈ l, y ≤ l.foldl max x := by
  induction l generalizing x with
  | nil => exact ⟨le_rfl, fun y hy => by simp at hy⟩
  | cons a l ih =>
    simp only [List.foldl_cons]
    obtain ⟨h1, h2⟩ := ih (max x a)
    refine ⟨le_trans (le_max_left _ _) h1, fun y hy => ?_⟩
    rcases List.mem_cons.1 hy with h3 | h3
    · subst h3
      exact le_trans (le_max_right _ _) h1
    · exact h2 y h3

theorem maxElement_le {l : List Nat} {m : Nat} (e : maxElement l = some m) :
    ∀ x ∈ l, x ≤ m := by
  cases l with
  | nil => exact Option.noConfusion e
  | cons a l =>
    simp only [maxElement, Option.some.injEq] at e
    subst e
    intro x hx
    rcases List.mem_cons.1 hx with h1 | h1
    · subst h1
      exact (foldl_max_ge l x).1
    · exact (foldl_max_ge l a).2 x h1

theorem ChooseGoodHash_spec (ok : HashFunction → Option Bool) (size_ : Nat) :
    ∀ (draws : List (Nat × Nat)) (hash_ : HashFunction),
      ChooseGoodHash ok size_ draws = some hash_ →
      ok hash_ = some true ∧ hash_.modulo_ = size_ ∧ hash_.prime_modulo_ = kPrimeModulo := by
  intro draws
  induction draws with
  | nil =>
    intro hash_ e
    exact Option.noConfusion e
  | cons d rest ih =>
    intro hash_ e
    simp only [ChooseGoodHash] at e
    cases hk : ok ⟨d.1, d.2, kPrimeModulo, size_⟩ with
    | none => rw [hk] at e; exact Option.noConfusion e
    | some b =>
      rw [hk] at e
      cases b with
      | true =>
        simp only [Option.some.injEq] at e
        subst e
        exact ⟨hk, rfl, rfl⟩
      | false => exact ih hash_ e

theorem apply_lt {hash_ : HashFunction} {value i : Nat} (e : hash_.apply value = some i) :
    i < hash_.modulo_ := by
  simp only [HashFunction.apply] at e
  split at e
  · exact Option.noConfusion e
  · rename_i hz
    simp only [Option.some.injEq] at e
    subst e
    exact Nat.mod_lt _ (Nat.pos_of_ne_zero fun h0 => hz (Or.inr h0))

theorem apply_defined {hash_ : HashFunction} (hp : hash_.prime_modulo_ ≠ 0)
    (hm : hash_.modulo_ ≠ 0) (value : Nat) : ∃ i, hash_.apply value = some i := by
  simp only [HashFunction.apply]
  rw [if_neg (by simp [hp, hm])]
  exact ⟨_, rfl⟩

/-- What `PolynomialHashTable::Initialize` leaves behind, over a bucket. -/
theorem PolynomialHashTable.Initialize_table_spec (bucket : List Int) (draws : List (Nat × Nat))
    (t : PolynomialHashTable)
    (e : PolynomialHashTable.new.Initialize bucket draws = some t) :
    (∀ x ∈ bucket, t.GetSameHashKey x = some x) ∧
    (∀ q v, t.GetSameHashKey q = some v → v ≠ kNoKey → v ∈ bucket) ∧
    ∀ q, ∃ v, t.GetSameHashKey q = some v := by
  simp only [PolynomialHashTable.Initialize] at e
  cases hs : int_of_size (bucket.length * bucket.length) with
  | none => rw [hs] at e; exact Option.noConfusion e
  | some size_ =>
    rw [hs] at e
    dsimp only at e
    have hsize : size_ = bucket.length * bucket.length := by
      simp only [int_of_size] at hs
      split at hs
      · exact (Option.some.inj hs).symm
      · exact Option.noConfusion hs
    by_cases h0 : size_ = 0
    · rw [if_pos h0] at e
      simp only [Option.some.injEq] at e
      subst e
      have hb : bucket = [] := by
        rw [hsize] at h0
        rcases Nat.mul_eq_zero.1 h0 with h1 | h1 <;> exact List.length_eq_zero.1 h1
      subst hb
      refine ⟨fun x hx => by simp at hx, fun q v hq hv => ?_, fun q => ⟨kNoKey, ?_⟩⟩
      · simp only [PolynomialHashTable.GetSameHashKey, h0, if_true, Option.some.injEq] at hq
        exact absurd hq.symm hv
      · simp only [PolynomialHashTable.GetSameHashKey, h0, if_true]
    · rw [if_neg h0] at e
      cases hc : ChooseGoodHash (PolynomialHashTable.IsHashOk size_ bucket) size_ draws with
      | none => rw [hc] at e; exact Option.noConfusion e
      | some hash_ =>
        rw [hc] at e
        obtain ⟨ok, hmod, hprime⟩ := ChooseGoodHash_spec _ _ _ _ hc
        simp only [PolynomialHashTable.MakeTable] at e
        cases hm : MakeChains hash_ size_ bucket with
        | none => rw [hm] at e; exact Option.noConfusion e
        | some chains =>
          rw [hm] at e
          simp only [Option.some.injEq] at e
          obtain ⟨l1, l2, l3⟩ := makeChainsLoop_spec hash_ bucket _ chains hm
          rw [List.length_replicate] at l1 l3
          have hchain : ∀ i, i < size_ → chains[i]? =
              some (bucket.filter fun k => hash_.apply (uint64_of_int k) == some i) := by
            intro i hi
            have := l2 i [] (by rw [List.getElem?_replicate, if_pos hi])
            simpa using this
          have hshort : ∀ i, i < size_ →
              (bucket.filter fun k => hash_.apply (uint64_of_int k) == some i).length ≤ 1 := by
            intro i hi
            simp only [PolynomialHashTable.IsHashOk, ComputeChainSizes_eq, hm,
              Option.map_some'] at ok
            cases hmax : maxElement (chains.map List.length) with
            | none => rw [hmax] at ok; exact Option.noConfusion ok
            | some m =>
              rw [hmax] at ok
              simp only [Option.some.injEq, decide_eq_true_eq] at ok
              have := maxElement_le hmax
                (bucket.filter fun k => hash_.apply (uint64_of_int k) == some i).length
                (List.mem_map.2 ⟨_, List.getElem?_mem (hchain i hi), rfl⟩)
              omega
          have htable : ∀ i : Nat, t.table_[i]? = chains[i]?.map fun (keys : List Int) =>
              match keys.getLast? with
              | none => kNoKey
              | some key => key := by
            intro i
            rw [← e]
            simp [PolynomialHashTable.new, List.getElem?_map]
          have hts : t.size_ = size_ := by rw [← e]
          have hth : t.hash_ = hash_ := by rw [← e]
          refine ⟨?_, ?_, ?_⟩
          · intro x hx
            obtain ⟨i, hi, hlt⟩ := l3 x hx
            have hmem : x ∈ bucket.filter fun k => hash_.apply (uint64_of_int k) == some i := by
              simp [List.mem_filter, hx, hi]
            have hlen := hshort i hlt
            have heq : (bucket.filter fun k => hash_.apply (uint64_of_int k) == some i) = [x] := by
              cases hf : bucket.filter fun k => hash_.apply (uint64_of_int k) == some i with
              | nil => rw [hf] at hmem; simp at hmem
              | cons a l =>
                rw [hf] at hmem hlen
                have hl : l = [] := by
                  simp only [List.length_cons] at hlen
                  exact List.length_eq_zero.1 (by omega)
                subst hl
                simp only [List.mem_singleton] at hmem
                rw [hmem]
            simp only [PolynomialHashTable.GetSameHashKey, hts, h0, if_false, PositionInTable,
              hth, hi, htable, hchain i hlt, heq, Option.map_some', List.getLast?_singleton]
          · intro q v hq hv
            simp only [PolynomialHashTable.GetSameHashKey, hts, h0, if_false, PositionInTable,
              hth] at hq
            cases hi : hash_.apply (uint64_of_int q) with
            | none => rw [hi] at hq; exact Option.noConfusion hq
            | some i =>
              rw [hi] at hq
              dsimp only at hq
              have hlt : i < size_ := hmod ▸ apply_lt hi
              rw [htable, hchain i hlt] at hq
              simp only [Option.map_some', Option.some.injEq] at hq
              cases hl : (bucket.filter fun k => hash_.apply (uint64_of_int k) == some i).getLast? with
              | none =>
                rw [hl] at hq
                exact absurd hq.symm hv
              | some key =>
                rw [hl] at hq
                dsimp only at hq
                subst hq
                exact (List.mem_filter.1 (List.mem_of_getLast?_eq_some hl)).1
          · intro q
            obtain ⟨i, hi⟩ := @apply_defined hash_
              (by rw [hprime]; decide) (by rw [hmod]; exact h0) (uint64_of_int q)
            have hlt : i < size_ := hmod ▸ apply_lt hi
            simp only [PolynomialHashTable.GetSameHashKey, hts, h0, if_false, PositionInTable,
              hth, hi, htable, hchain i hlt, Option.map_some']
            exact ⟨_, rfl⟩

theorem makeSubtablesLoop_spec (draws : Nat → List (Nat × Nat)) :
    ∀ (buckets : List (List Int)) (acc out : List PolynomialHashTable),
      FixedSet.makeSubtablesLoop draws buckets acc = some out →
      out.length = acc.length + buckets.length ∧
      ∀ i bucket, buckets[i]? = some bucket →
        ∃ t, out[acc.length + i]? = some t ∧
          PolynomialHashTable.new.Initialize bucket (draws (acc.length + i)) = some t := by
  intro buckets
  induction buckets with
  | nil =>
    intro acc out e
    simp only [FixedSet.makeSubtablesLoop, Option.some.injEq] at e
    subst e
    exact ⟨rfl, fun i bucket hb => by simp at hb⟩
  | cons b rest ih =>
    intro acc out e
    simp only [FixedSet.makeSubtablesLoop] at e
    cases ht : PolynomialHashTable.new.Initialize b (draws acc.length) with
    | none => rw [ht] at e; exact Option.noConfusion e
    | some t =>
      rw [ht] at e
      obtain ⟨l1, l2⟩ := ih _ out e
      simp only [List.length_append, List.length_singleton] at l1 l2
      refine ⟨by simp only [List.length_cons]; omega, ?_⟩
      intro i bucket hb
      cases i with
      | zero =>
        simp only [List.getElem?_cons_zero, Option.some.injEq] at hb
        subst hb
        refine ⟨t, ?_, ht⟩
        have hpre : ∀ (bs : List (List Int)) (a o : List PolynomialHashTable),
            FixedSet.makeSubtablesLoop draws bs a = some o → ∀ j, j < a.length → o[j]? = a[j]? := by
          intro bs
          induction bs with
          | nil =>
            intro a o eo j _
            simp only [FixedSet.makeSubtablesLoop, Option.some.injEq] at eo
            rw [eo]
          | cons b' bs ih' =>
            intro a o eo j hj
            simp only [FixedSet.makeSubtablesLoop] at eo
            cases ht' : PolynomialHashTable.new.Initialize b' (draws a.length) with
            | none => rw [ht'] at eo; exact Option.noConfusion eo
            | some t' =>
              rw [ht'] at eo
              rw [ih' _ o eo j (by simp; omega), List.getElem?_append_left hj]
        rw [Nat.add_zero, hpre rest _ out e acc.length (by simp)]
        simp
      | succ i =>
        simp only [List.getElem?_cons_succ] at hb
        obtain ⟨t', e1, e2⟩ := l2 i bucket hb
        have : acc.length + (i + 1) = acc.length + 1 + i := by omega
        rw [this]
        exact ⟨t', e1, e2⟩

/-- What `FixedSet::Initialize` leaves behind: the chosen function sends every
key to a position below the size, and the subtable at a position was
initialised with the keys sent there. -/
theorem FixedSet.Initialize_set_spec (numbers : List Int) (first : List (Nat × Nat))
    (second : Nat → List (Nat × Nat)) (s : FixedSet)
    (e : FixedSet.new.Initialize numbers first second = some s) :
    s.hash_.modulo_ = numbers.length ∧ s.hash_.prime_modulo_ = kPrimeModulo ∧
    s.subtables_.length = numbers.length ∧
    (∀ x ∈ numbers, ∃ i, s.hash_.apply (uint64_of_int x) = some i) ∧
    ∀ i, i < numbers.length → ∃ t, s.subtables_[i]? = some t ∧
      PolynomialHashTable.new.Initialize
        (numbers.filter fun k => s.hash_.apply (uint64_of_int k) == some i) (second i) =
        some t := by
  simp only [FixedSet.Initialize] at e
  cases hs : int_of_size numbers.length with
  | none => rw [hs] at e; exact Option.noConfusion e
  | some size_ =>
    rw [hs] at e
    dsimp only at e
    have hsize : size_ = numbers.length := by
      simp only [int_of_size] at hs
      split at hs
      · exact (Option.some.inj hs).symm
      · exact Option.noConfusion hs
    subst hsize
    cases hc : ChooseGoodHash (FixedSet.IsHashOk numbers.length numbers) numbers.length first with
    | none => rw [hc] at e; exact Option.noConfusion e
    | some hash_ =>
      rw [hc] at e
      obtain ⟨_, hmod, hprime⟩ := ChooseGoodHash_spec _ _ _ _ hc
      dsimp only at e
      cases hm : MakeChains hash_ numbers.length numbers with
      | none => rw [hm] at e; exact Option.noConfusion e
      | some buckets =>
        rw [hm] at e
        dsimp only at e
        cases hsub : FixedSet.makeSubtablesLoop second buckets FixedSet.new.subtables_ with
        | none => rw [hsub] at e; exact Option.noConfusion e
        | some subtables_ =>
          rw [hsub] at e
          simp only [Option.some.injEq] at e
          subst e
          obtain ⟨l1, l2, l3⟩ := makeChainsLoop_spec hash_ numbers _ buckets hm
          rw [List.length_replicate] at l1 l3
          obtain ⟨m1, m2⟩ := makeSubtablesLoop_spec second buckets _ subtables_ hsub
          simp only [FixedSet.new, List.length_nil, Nat.zero_add] at m1 m2
          refine ⟨hmod, hprime, by rw [m1, l1], fun x hx => ?_, fun i hi => ?_⟩
          · obtain ⟨i, hi, _⟩ := l3 x hx
            exact ⟨i, hi⟩
          · have := l2 i [] (by rw [List.getElem?_replicate, if_pos hi])
            simp only [List.nil_append] at this
            exact m2 i _ this

end Review3

/-- A stored key is found: the helper shared by the two claims on `Contains`. -/
theorem fixed_set_stored_is_found (numbers : List Int) (first : List (Nat × Nat))
    (second : Nat → List (Nat × Nat)) (s : Review3.FixedSet)
    (e : Review3.FixedSet.new.Initialize numbers first second = some s) :
    ∀ x ∈ numbers, s.Contains x = some true := by
  obtain ⟨hmod, _, _, hdef, hsub⟩ := Review3.FixedSet.Initialize_set_spec numbers first second s e
  intro x hx
  obtain ⟨i, hi⟩ := hdef x hx
  have hlt : i < numbers.length := hmod ▸ Review3.apply_lt hi
  obtain ⟨t, ht, hinit⟩ := hsub i hlt
  obtain ⟨a, _, _⟩ := Review3.PolynomialHashTable.Initialize_table_spec _ _ t hinit
  have hmem : x ∈ numbers.filter fun k => s.hash_.apply (Review3.uint64_of_int k) == some i := by
    simp [List.mem_filter, hx, hi]
  simp only [Review3.FixedSet.Contains, Review3.FixedSet.GetSameHashKey,
    Review3.IPerfectHashTable.PositionInTable, hi, ht, a x hmem, decide_True]

/-- C26: when FixedSet::Initialize(numbers) has returned, that is, when the
draws of the generators held a first-level function and, for every non-empty
bucket, a second-level function accepted by IsHashOk, Contains(x) returns true
for every x in numbers, the key 0 included, although 0 is also the value kNoKey
of an empty slot. -/
theorem fixed_set_finds_every_stored_number (numbers : List Int) (first : List (Nat × Nat))
    (second : Nat → List (Nat × Nat)) (s : Review3.FixedSet)
    (e : Review3.FixedSet.new.Initialize numbers first second = some s) :
    ∀ x ∈ numbers, s.Contains x = some true :=
  fixed_set_stored_is_found numbers first second s e

/-- Witness of C26: the numbers 0, 5, 2 and -3; the subtable of 5 and -3
rejects its first draw. -/
theorem fixed_set_finds_every_stored_number_witness :
    Review3.FixedSet.new.Initialize [0, 5, 2, -3] [(1, 0)] Review3.scenarioDraws =
      some Review3.scenarioSet ∧
    ∀ x ∈ ([0, 5, 2, -3] : List Int), Review3.scenarioSet.Contains x = some true :=
  ⟨by decide, fixed_set_finds_every_stored_number [0, 5, 2, -3] [(1, 0)] Review3.scenarioDraws
    Review3.scenarioSet (by decide)⟩

/-- C27, amended: when FixedSet::Initialize(numbers) has returned, every int q
other than 0 = kNoKey for which Contains(q) returns true is an element of
numbers; and when numbers is not empty, Contains(q) returns for every q, so for
q other than 0 it returns whether q is an element of numbers. -/
theorem fixed_set_reports_only_stored_nonzero (numbers : List Int)
    (first : List (Nat × Nat)) (second : Nat → List (Nat × Nat)) (s : Review3.FixedSet)
    (e : Review3.FixedSet.new.Initialize numbers first second = some s) :
    (∀ q, q ≠ Review3.kNoKey → s.Contains q = some true → q ∈ numbers) ∧
    (numbers ≠ [] → ∀ q, ∃ b, s.Contains q = some b) ∧
    (numbers ≠ [] → ∀ q, q ≠ Review3.kNoKey → s.Contains q = some (decide (q ∈ numbers))) := by
  obtain ⟨hmod, hprime, _, hdef, hsub⟩ :=
    Review3.FixedSet.Initialize_set_spec numbers first second s e
  have h1 : ∀ q, q ≠ Review3.kNoKey → s.Contains q = some true → q ∈ numbers := by
    intro q hq hc
    simp only [Review3.FixedSet.Contains, Review3.FixedSet.GetSameHashKey,
      Review3.IPerfectHashTable.PositionInTable] at hc
    cases hi : s.hash_.apply (Review3.uint64_of_int q) with
    | none => rw [hi] at hc; exact Option.noConfusion hc
    | some i =>
      rw [hi] at hc
      dsimp only at hc
      have hlt : i < numbers.length := hmod ▸ Review3.apply_lt hi
      obtain ⟨t, ht, hinit⟩ := hsub i hlt
      obtain ⟨_, b, _⟩ := Review3.PolynomialHashTable.Initialize_table_spec _ _ t hinit
      rw [ht] at hc
      dsimp only at hc
      cases hk : t.GetSameHashKey q with
      | none => rw [hk] at hc; exact Option.noConfusion hc
      | some key =>
        rw [hk] at hc
        simp only [Option.some.injEq, decide_eq_true_eq] at hc
        subst hc
        exact (List.mem_filter.1 (b q q hk hq)).1
  have h2 : numbers ≠ [] → ∀ q, ∃ b, s.Contains q = some b := by
    intro hne q
    have hn : numbers.length ≠ 0 := fun h0 => hne (List.length_eq_zero.1 h0)
    obtain ⟨i, hi⟩ := @Review3.apply_defined s.hash_
      (by rw [hprime]; decide) (by rw [hmod]; exact hn) (Review3.uint64_of_int q)
    have hlt : i < numbers.length := hmod ▸ Review3.apply_lt hi
    obtain ⟨t, ht, hinit⟩ := hsub i hlt
    obtain ⟨_, _, c⟩ := Review3.PolynomialHashTable.Initialize_table_spec _ _ t hinit
    obtain ⟨v, hv⟩ := c q
    exact ⟨decide (q = v), by simp only [Review3.FixedSet.Contains,
      Review3.FixedSet.GetSameHashKey, Review3.IPerfectHashTable.PositionInTable, hi, ht, hv]⟩
  refine ⟨h1, h2, fun hne q hq => ?_⟩
  obtain ⟨b, hb⟩ := h2 hne q
  by_cases hm : q ∈ numbers
  · rw [fixed_set_stored_is_found numbers first second s e q hm]
    simp [hm]
  · cases b with
    | true => exact absurd (h1 q hq hb) hm
    | false =>
      rw [hb]
      simp [hm]

/-- Witness of C27, amended: the numbers 0, 5, 2 and -3. -/
theorem fixed_set_reports_only_stored_nonzero_witness :
    Review3.FixedSet.new.Initialize [0, 5, 2, -3] [(1, 0)] Review3.scenarioDraws =
      some Review3.scenarioSet ∧
    ((∀ q, q ≠ Review3.kNoKey → Review3.scenarioSet.Contains q = some true →
        q ∈ ([0, 5, 2, -3] : List Int)) ∧
      (([0, 5, 2, -3] : List Int) ≠ [] → ∀ q, ∃ b, Review3.scenarioSet.Contains q = some b) ∧
      (([0, 5, 2, -3] : List Int) ≠ [] → ∀ q, q ≠ Review3.kNoKey →
        Review3.scenarioSet.Contains q = some (decide (q ∈ ([0, 5, 2, -3] : List Int))))) :=
  ⟨by decide, fixed_set_reports_only_stored_nonzero [0, 5, 2, -3] [(1, 0)] Review3.scenarioDraws
    Review3.scenarioSet (by decide)⟩

/-- C27, as stated, for the numbers 1 and 3: the first-level function with
multiplier 1 and summand 0 is accepted and sends 0 to position 0, where no key
is stored; the subtable there is empty, GetSameHashKey(0) returns kNoKey = 0,
and Contains(0) returns true although 0 was not stored. -/
theorem fixed_set_reports_zero_counterexample :
    Review3.FixedSet.new.Initialize [1, 3] [(1, 0)] (fun _ => [(1, 0)]) =
      some Review3.oddSet ∧
    Review3.oddSet.Contains 0 = some true ∧ (0 : Int) ∉ ([1, 3] : List Int) := by
  decide

/-! ## Initialize returns when the draws hold accepted functions -/

namespace Review3

open IPerfectHashTable

theorem ChooseGoodHash_total (ok : HashFunction → Option Bool) (size_ : Nat) :
    ∀ (draws : List (Nat × Nat)),
      (∀ d ∈ draws, ∃ b, ok ⟨d.1, d.2, kPrimeModulo, size_⟩ = some b) →
      (∃ d ∈ draws, ok ⟨d.1, d.2, kPrimeModulo, size_⟩ = some true) →
      ∃ hash_, ChooseGoodHash ok size_ draws = some hash_ := by
  intro draws
  induction draws with
  | nil =>
    rintro _ ⟨d, hd, _⟩
    simp at hd
  | cons d rest ih =>
    intro hdef hacc
    simp only [ChooseGoodHash]
    obtain ⟨b, hb⟩ := hdef d (List.mem_cons_self _ _)
    rw [hb]
    cases b with
    | true => exact ⟨_, rfl⟩
    | false =>
      refine ih (fun x hx => hdef x (List.mem_cons_of_mem _ hx)) ?_
      obtain ⟨x, hx, hok⟩ := hacc
      rcases List.mem_cons.1 hx with h1 | h1
      · subst h1
        rw [hb] at hok
        exact absurd hok (by simp)
      · exact ⟨x, h1, hok⟩

theorem makeChainsLoop_total (hash_ : HashFunction) (hp : hash_.prime_modulo_ ≠ 0)
    (hm : hash_.modulo_ ≠ 0) :
    ∀ (keys : List Int) (buckets : List (List Int)), buckets.length = hash_.modulo_ →
      ∃ out, makeChainsLoop hash_ keys buckets = some out := by
  intro keys
  induction keys with
  | nil => intro buckets _; exact ⟨_, rfl⟩
  | cons key rest ih =>
    intro buckets hl
    obtain ⟨i, hi⟩ := apply_defined hp hm (uint64_of_int key)
    have hlt : i < buckets.length := hl ▸ apply_lt hi
    simp only [makeChainsLoop, hi, hlt, if_true]
    exact ih _ (by rw [List.length_modify]; exact hl)

theorem MakeChains_total (hash_ : HashFunction) (hp : hash_.prime_modulo_ ≠ 0)
    (hm : hash_.modulo_ ≠ 0) (numbers : List Int) :
    ∃ out, MakeChains hash_ hash_.modulo_ numbers = some out ∧ out.length = hash_.modulo_ := by
  obtain ⟨out, e⟩ := makeChainsLoop_total hash_ hp hm numbers
    (List.replicate hash_.modulo_ []) (by simp)
  refine ⟨out, e, ?_⟩
  have := (makeChainsLoop_spec hash_ numbers _ out e).1
  simpa using this

theorem PolynomialHashTable.IsHashOk_defined (size_ : Nat) (hs : size_ ≠ 0) (numbers : List Int)
    (d : Nat × Nat) :
    ∃ b, PolynomialHashTable.IsHashOk size_ numbers ⟨d.1, d.2, kPrimeModulo, size_⟩ = some b := by
  obtain ⟨out, e, hl⟩ := MakeChains_total ⟨d.1, d.2, kPrimeModulo, size_⟩
    (show kPrimeModulo ≠ 0 by decide) hs numbers
  have hl' : out.length = size_ := hl
  simp only [PolynomialHashTable.IsHashOk, ComputeChainSizes_eq, e, Option.map_some']
  cases hc : out.map List.length with
  | nil =>
    have : out.length = 0 := by
      have := congrArg List.length hc
      simpa using this
    exact absurd (hl'.symm.trans this) hs
  | cons a l => exact ⟨_, rfl⟩

theorem PolynomialHashTable.Initialize_total (bucket : List Int) (draws : List (Nat × Nat))
    (hsize : bucket.length * bucket.length < 2 ^ 31)
    (hacc : bucket = [] ∨ ∃ d ∈ draws,
      PolynomialHashTable.IsHashOk (bucket.length * bucket.length) bucket
        ⟨d.1, d.2, kPrimeModulo, bucket.length * bucket.length⟩ = some true) :
    ∃ t, PolynomialHashTable.new.Initialize bucket draws = some t := by
  simp only [PolynomialHashTable.Initialize, int_of_size, hsize, if_true]
  by_cases h0 : bucket.length * bucket.length = 0
  · rw [if_pos h0]
    exact ⟨_, rfl⟩
  · rw [if_neg h0]
    have hne : bucket ≠ [] := by
      rintro rfl
      exact h0 rfl
    obtain ⟨hash_, hc⟩ := ChooseGoodHash_total
      (PolynomialHashTable.IsHashOk (bucket.length * bucket.length) bucket) _ draws
      (fun d _ => PolynomialHashTable.IsHashOk_defined _ h0 bucket d)
      (hacc.resolve_left hne)
    obtain ⟨_, hmod, hprime⟩ := ChooseGoodHash_spec _ _ _ _ hc
    obtain ⟨out, e, _⟩ := MakeChains_total hash_ (by rw [hprime]; decide)
      (by rw [hmod]; exact h0) bucket
    rw [hmod] at e
    simp only [hc, PolynomialHashTable.MakeTable, e]
    exact ⟨_, rfl⟩

theorem makeSubtablesLoop_total (draws : Nat → List (Nat × Nat)) :
    ∀ (buckets : List (List Int)) (acc : List PolynomialHashTable),
      (∀ i bucket, buckets[i]? = some bucket →
        ∃ t, PolynomialHashTable.new.Initialize bucket (draws (acc.length + i)) = some t) →
      ∃ out, FixedSet.makeSubtablesLoop draws buckets acc = some out := by
  intro buckets
  induction buckets with
  | nil => intro acc _; exact ⟨_, rfl⟩
  | cons b rest ih =>
    intro acc h
    obtain ⟨t, ht⟩ := h 0 b (by simp)
    rw [Nat.add_zero] at ht
    simp only [FixedSet.makeSubtablesLoop, ht]
    refine ih _ fun i bucket hb => ?_
    obtain ⟨t', ht'⟩ := h (i + 1) bucket (by simpa using hb)
    refine ⟨t', ?_⟩
    have : (acc ++ [t]).length + i = acc.length + (i + 1) := by simp; omega
    rw [this]
    exact ht'

theorem foldl_squares_ge (l : List Nat) (a : Nat) :
    a ≤ l.foldl (fun size_sum subtable_size => size_sum + subtable_size * subtable_size) a ∧
    ∀ x ∈ l, x * x ≤
      l.foldl (fun size_sum subtable_size => size_sum + subtable_size * subtable_size) a := by
  induction l generalizing a with
  | nil => exact ⟨le_rfl, fun x hx => by simp at hx⟩
  | cons y l ih =>
    simp only [List.foldl_cons]
    obtain ⟨h1, h2⟩ := ih (a + y * y)
    refine ⟨by omega, fun x hx => ?_⟩
    rcases List.mem_cons.1 hx with h3 | h3
    · subst h3
      omega
    · exact h2 x h3

/-- Method `FixedSet::Initialize` returns on a non-empty vector of fewer than
2^31 / 3 numbers as soon as the draws of the set hold an accepted first-level
function and the draws of every subtable with a non-empty bucket hold an
accepted second-level function. -/
theorem FixedSet.Initialize_returns (numbers : List Int) (first : List (Nat × Nat))
    (second : Nat → List (Nat × Nat)) (hne : numbers ≠ [])
    (hsize : kSizeCoefficient * numbers.length < 2 ^ 31)
    (h1 : ∃ d ∈ first, FixedSet.IsHashOk numbers.length numbers
      ⟨d.1, d.2, kPrimeModulo, numbers.length⟩ = some true)
    (h2 : ∀ hash_, ChooseGoodHash (FixedSet.IsHashOk numbers.length numbers) numbers.length
        first = some hash_ → ∀ i, i < numbers.length →
      (numbers.filter fun k => hash_.apply (uint64_of_int k) == some i) = [] ∨
      ∃ d ∈ second i, PolynomialHashTable.IsHashOk
        ((numbers.filter fun k => hash_.apply (uint64_of_int k) == some i).length *
          (numbers.filter fun k => hash_.apply (uint64_of_int k) == some i).length)
        (numbers.filter fun k => hash_.apply (uint64_of_int k) == some i)
        ⟨d.1, d.2, kPrimeModulo,
          (numbers.filter fun k => hash_.apply (uint64_of_int k) == some i).length *
          (numbers.filter fun k => hash_.apply (uint64_of_int k) == some i).length⟩ =
        some true) :
    ∃ s, FixedSet.new.Initialize numbers first second = some s := by
  have hn : numbers.length ≠ 0 := fun h0 => hne (List.length_eq_zero.1 h0)
  have hlen : numbers.length < 2 ^ 31 := by
    simp only [kSizeCoefficient] at hsize
    omega
  have hdef : ∀ d ∈ first, ∃ b, FixedSet.IsHashOk numbers.length numbers
      ⟨d.1, d.2, kPrimeModulo, numbers.length⟩ = some b := by
    intro d _
    obtain ⟨out, e, _⟩ := MakeChains_total ⟨d.1, d.2, kPrimeModulo, numbers.length⟩
      (show kPrimeModulo ≠ 0 by decide) hn numbers
    simp only [FixedSet.IsHashOk, ComputeChainSizes_eq, e, Option.map_some', int_of_size,
      hsize, if_true]
    exact ⟨_, rfl⟩
  obtain ⟨hash_, hc⟩ := ChooseGoodHash_total _ _ first hdef h1
  obtain ⟨ok, hmod, hprime⟩ := ChooseGoodHash_spec _ _ _ _ hc
  obtain ⟨buckets, e, hbl⟩ := MakeChains_total hash_ (by rw [hprime]; decide)
    (by rw [hmod]; exact hn) numbers
  rw [hmod] at e hbl
  obtain ⟨l1, l2, l3⟩ := makeChainsLoop_spec hash_ numbers _ buckets e
  have hchain : ∀ i, i < numbers.length → buckets[i]? =
      some (numbers.filter fun k => hash_.apply (uint64_of_int k) == some i) := by
    intro i hi
    have := l2 i [] (by rw [List.getElem?_replicate, if_pos hi])
    simpa using this
  have hsq : ∀ i, i < numbers.length →
      (numbers.filter fun k => hash_.apply (uint64_of_int k) == some i).length *
        (numbers.filter fun k => hash_.apply (uint64_of_int k) == some i).length < 2 ^ 31 := by
    intro i hi
    simp only [FixedSet.IsHashOk, ComputeChainSizes_eq, e, Option.map_some', int_of_size,
      hsize, if_true, Option.some.injEq, decide_eq_true_eq] at ok
    have := (foldl_squares_ge (buckets.map List.length) 0).2
      (numbers.filter fun k => hash_.apply (uint64_of_int k) == some i).length
      (List.mem_map.2 ⟨_, List.getElem?_mem (hchain i hi), rfl⟩)
    simp only [SumOfSquares] at ok
    omega
  obtain ⟨subtables_, hsub⟩ := makeSubtablesLoop_total second buckets FixedSet.new.subtables_
    (by
      intro i bucket hb
      have hi : i < numbers.length := by
        rw [← hbl]
        exact (List.getElem?_eq_some_iff.1 hb).1
      rw [hchain i hi] at hb
      simp only [Option.some.injEq] at hb
      subst hb
      simp only [FixedSet.new, List.length_nil, Nat.zero_add]
      exact PolynomialHashTable.Initialize_total _ _ (hsq i hi) (h2 hash_ hc i hi))
  exact ⟨⟨hash_, numbers.length, subtables_⟩,
    by simp only [FixedSet.Initialize, int_of_size, hlen, if_true, hc, e, hsub]⟩

end Review3

/-! ## Depth-first search in condensation_review.cpp -/

namespace condensation_review

theorem status_cases (st : StatusMap) (v : Nat) :
    st v = none ∨ st v = some VertexStatus.kGrey ∨ st v = some VertexStatus.kBlack := by
  cases h : st v with
  | none => exact Or.inl rfl
  | some x =>
    cases x with
    | kGrey => exact Or.inr (Or.inl rfl)
    | kBlack => exact Or.inr (Or.inr rfl)

theorem DfsInv.white {graph : Graph} {st : StatusMap} {O G : List Nat}
    (inv : DfsInv graph st O G) {v : Nat} (hv : st v = none) : v ∉ O ∧ v ∉ G := by
  constructor
  · intro h
    rw [(inv.black v).2 h] at hv
    exact Option.noConfusion hv
  · intro h
    rw [(inv.is_grey v).2 h] at hv
    exact Option.noConfusion hv

theorem searchEdges_spec {σ : Type} (graph : Graph) (visitor : DfsVisitor σ)
    (P : List Nat → σ → Prop) (tr : Tracks visitor P) (fuel : Nat) (origin : Nat)
    (O G : List Nat)
    (hS : ∀ (v : Nat) (st : StatusMap) (s : σ) (O' : List Nat),
      DfsInv graph st O' (origin :: G) → st v = none → v < graph.adjacency_lists_.length →
      graph.adjacency_lists_.length ≤ fuel + (O' ++ origin :: G).length →
      (∀ x ∈ origin :: G, graph.Reach x v) → P O' s →
      ∃ st' s' L, Search graph visitor fuel v (st, s) = some (st', s') ∧
        DfsInv graph st' (O' ++ L ++ [v]) (origin :: G) ∧ (∀ w ∈ L, graph.Reach v w) ∧
        P (O' ++ L ++ [v]) s')
    (hG : ∀ x ∈ origin :: G, graph.Reach x origin) :
    ∀ (rest : List Nat) (st : StatusMap) (s : σ) (L : List Nat),
      DfsInv graph st (O ++ L) (origin :: G) → (∀ v ∈ L, graph.Reach origin v) →
      P (O ++ L) s → (∀ v ∈ rest, v < graph.adjacency_lists_.length) →
      (∀ v ∈ rest, graph.Adj origin v) →
      graph.adjacency_lists_.length ≤ fuel + (O ++ L ++ origin :: G).length →
      ∃ st' s' L', searchEdges visitor (Search graph visitor fuel) origin rest (st, s) =
          some (st', s') ∧
        DfsInv graph st' (O ++ L') (origin :: G) ∧ (∀ v ∈ L', graph.Reach origin v) ∧
        P (O ++ L') s' ∧ (∀ v ∈ rest, v ∈ O ++ L' ∨ v ∈ origin :: G) ∧
        ∀ v, v ∈ O ++ L → v ∈ O ++ L' := by
  intro rest
  induction rest with
  | nil =>
    intro st s L inv hL hP _ _ _
    exact ⟨st, s, L, rfl, inv, hL, hP, fun v hv => by simp at hv, fun v hv => hv⟩
  | cons v rest ih =>
    intro st s L inv hL hP hlt hadj hfuel
    have hlt' : ∀ w ∈ rest, w < graph.adjacency_lists_.length :=
      fun w hw => hlt w (List.mem_cons_of_mem _ hw)
    have hadj' : ∀ w ∈ rest, graph.Adj origin w :=
      fun w hw => hadj w (List.mem_cons_of_mem _ hw)
    rcases status_cases st v with hv | hv | hv
    · -- a white vertex
      obtain ⟨st1, s1, M, e1, inv1, hM, hP1⟩ := hS v st (visitor.DiscoverVertex s v) (O ++ L)
        inv hv (hlt v (List.mem_cons_self _ _)) hfuel
        (fun x hx => (hG x hx).tail (hadj v (List.mem_cons_self _ _)))
        (tr.discover _ _ _ hP)
      have hassoc : O ++ L ++ M ++ [v] = O ++ (L ++ M ++ [v]) := by simp
      rw [hassoc] at inv1 hP1
      have hreach : ∀ w ∈ L ++ M ++ [v], graph.Reach origin w := by
        intro w hw
        have hov : graph.Reach origin v :=
          Relation.ReflTransGen.single (hadj v (List.mem_cons_self _ _))
        simp only [List.mem_append, List.mem_singleton] at hw
        rcases hw with (h1 | h1) | h1
        · exact hL w h1
        · exact hov.trans (hM w h1)
        · rw [h1]; exact hov
      obtain ⟨st2, s2, L2, e2, inv2, hL2, hP2, hrest, hmono⟩ :=
        ih st1 s1 (L ++ M ++ [v]) inv1 hreach hP1 hlt' hadj' (by
          simp only [List.length_append, List.length_cons, List.length_nil] at hfuel ⊢
          omega)
      refine ⟨st2, s2, L2, ?_, inv2, hL2, hP2, ?_, ?_⟩
      · simp only [searchEdges, IsVertexBlack, IsVertexGrey, hv]
        simp only [e1]
        exact e2
      · intro w hw
        rcases List.mem_cons.1 hw with h1 | h1
        · left
          apply hmono
          rw [h1]
          simp
        · exact hrest w h1
      · intro w hw
        apply hmono
        simp only [List.mem_append, List.mem_singleton] at hw ⊢
        rcases hw with h1 | h1
        · exact Or.inl h1
        · exact Or.inr (Or.inl (Or.inl h1))
    · -- a grey vertex
      obtain ⟨st2, s2, L2, e2, inv2, hL2, hP2, hrest, hmono⟩ :=
        ih st (visitor.BackEdge s ⟨origin, v⟩) L inv hL (tr.back _ _ _ hP) hlt' hadj' hfuel
      refine ⟨st2, s2, L2, ?_, inv2, hL2, hP2, ?_, hmono⟩
      · simp only [searchEdges, IsVertexBlack, IsVertexGrey, hv]
        exact e2
      · intro w hw
        rcases List.mem_cons.1 hw with h1 | h1
        · right
          rw [h1]
          exact (inv.is_grey v).1 hv
        · exact hrest w h1
    · -- a black vertex
      obtain ⟨st2, s2, L2, e2, inv2, hL2, hP2, hrest, hmono⟩ :=
        ih st (visitor.ForwardOrCrossEdge s ⟨origin, v⟩) L inv hL (tr.forward _ _ _ hP)
          hlt' hadj' hfuel
      refine ⟨st2, s2, L2, ?_, inv2, hL2, hP2, ?_, hmono⟩
      · simp only [searchEdges, IsVertexBlack, IsVertexGrey, hv]
        exact e2
      · intro w hw
        rcases List.mem_cons.1 hw with h1 | h1
        · left
          rw [h1]
          exact hmono v ((inv.black v).1 hv)
        · exact hrest w h1

theorem length_lt_of_not_mem {l : List Nat} {n x : Nat} (hn : l.Nodup)
    (hl : ∀ v ∈ l, v < n) (hx : x < n) (hxl : x ∉ l) : l.length < n := by
  have h1 : (x :: l).Nodup := List.nodup_cons.2 ⟨hxl, hn⟩
  have h2 : (x :: l).length ≤ (List.range n).length :=
    (List.subperm_of_subset h1 (fun v hv => by
      rcases List.mem_cons.1 hv with h3 | h3
      · rw [h3]; exact List.mem_range.2 hx
      · exact List.mem_range.2 (hl v h3))).length_le
  simp only [List.length_cons, List.length_range] at h2
  omega

theorem Graph.InRange.adj_lt {graph : Graph} (hr : graph.InRange) {a b : Nat}
    (h : graph.Adj a b) : b < graph.adjacency_lists_.length := by
  obtain ⟨targets, h1, h2⟩ := h
  exact hr targets (List.getElem?_mem h1) b h2

theorem DfsInv.enter {graph : Graph} {st : StatusMap} {O G : List Nat}
    (inv : DfsInv graph st O G) {origin : Nat} (hw : st origin = none)
    (hlt : origin < graph.adjacency_lists_.length) :
    DfsInv graph (setStatus st origin VertexStatus.kGrey) O (origin :: G) := by
  obtain ⟨hO, hG⟩ := inv.white hw
  refine ⟨fun v => ?_, fun v => ?_, ?_, ?_, ?_, ?_⟩
  · by_cases hv : v = origin
    · subst hv
      simp [setStatus, hO]
    · simp only [setStatus, hv, if_false]
      exact inv.black v
  · by_cases hv : v = origin
    · subst hv
      simp [setStatus]
    · simp only [setStatus, hv, if_false, List.mem_cons, false_or]
      exact inv.is_grey v
  · have := inv.nodup
    rw [List.nodup_append] at this ⊢
    refine ⟨this.1, List.nodup_cons.2 ⟨hG, this.2.1⟩, ?_⟩
    intro a ha hb
    rcases List.mem_cons.1 hb with h1 | h1
    · exact hO (h1 ▸ ha)
    · exact this.2.2 ha h1
  · intro v hv
    simp only [List.mem_append, List.mem_cons] at hv
    rcases hv with h1 | h1 | h1
    · exact inv.lt v (List.mem_append_left _ h1)
    · rw [h1]; exact hlt
    · exact inv.lt v (List.mem_append_right _ h1)
  · intro a ha b hab
    rcases inv.closed a ha b hab with h1 | h1
    · exact Or.inl h1
    · exact Or.inr (List.mem_cons_of_mem _ h1)
  · intro a ha b hab
    rcases inv.later a ha b hab with h1 | ⟨x, h1, h2, h3⟩
    · exact Or.inl h1
    · refine Or.inr ⟨x, h1, h2, ?_⟩
      rcases h3 with h4 | h4
      · exact Or.inl (List.mem_cons_of_mem _ h4)
      · exact Or.inr h4

theorem DfsInv.leave {graph : Graph} {st : StatusMap} {X G : List Nat} {origin : Nat}
    (inv : DfsInv graph st X (origin :: G))
    (hsucc : ∀ b, graph.Adj origin b → b ∈ X ∨ b ∈ origin :: G)
    (hG : ∀ x ∈ G, graph.Reach x origin) :
    DfsInv graph (setStatus st origin VertexStatus.kBlack) (X ++ [origin]) G := by
  have hnd := inv.nodup
  rw [List.nodup_append] at hnd
  have hoX : origin ∉ X := fun h => hnd.2.2 h (List.mem_cons_self _ _)
  have hoG : origin ∉ G := (List.nodup_cons.1 hnd.2.1).1
  have hlist : X ++ [origin] ++ G = X ++ origin :: G := by simp
  have hidx : ∀ a ∈ X, (X ++ [origin]).indexOf a = X.indexOf a :=
    fun a ha => List.indexOf_append_of_mem ha
  have hidxo : (X ++ [origin]).indexOf origin = X.length := by
    rw [List.indexOf_append_of_not_mem hoX]
    simp
  refine ⟨fun v => ?_, fun v => ?_, ?_, ?_, ?_, ?_⟩
  · by_cases hv : v = origin
    · subst hv
      simp [setStatus]
    · simp only [setStatus, hv, if_false, List.mem_append, List.mem_singleton, or_false]
      exact inv.black v
  · by_cases hv : v = origin
    · subst hv
      simp [setStatus, hoG]
    · simp only [setStatus, hv, if_false]
      rw [inv.is_grey v]
      simp [hv]
  · rw [hlist]
    exact inv.nodup
  · rw [hlist]
    exact inv.lt
  · intro a ha b hab
    have hb : b ∈ X ∨ b ∈ origin :: G := by
      rcases List.mem_append.1 ha with h1 | h1
      · exact inv.closed a h1 b hab
      · simp only [List.mem_singleton] at h1
        subst h1
        exact hsucc b hab
    rcases hb with h1 | h1
    · exact Or.inl (List.mem_append_left _ h1)
    · rcases List.mem_cons.1 h1 with h2 | h2
      · left
        rw [h2]
        simp
      · exact Or.inr h2
  · intro a ha b hab
    rcases List.mem_append.1 ha with h1 | h1
    · rcases inv.later a h1 b hab with ⟨h2, h3⟩ | ⟨x, h2, h3, h4⟩
      · left
        refine ⟨List.mem_append_left _ h2, ?_⟩
        rw [hidx a h1, hidx b h2]
        exact h3
      · right
        refine ⟨x, h2, h3, ?_⟩
        rcases h4 with h5 | ⟨h5, h6⟩
        · rcases List.mem_cons.1 h5 with h7 | h7
          · right
            subst h7
            refine ⟨by simp, ?_⟩
            rw [hidx a h1, hidxo]
            exact List.indexOf_lt_length.2 h1
          · exact Or.inl h7
        · right
          refine ⟨List.mem_append_left _ h5, ?_⟩
          rw [hidx a h1, hidx x h5]
          exact h6
    · simp only [List.mem_singleton] at h1
      subst h1
      have hclaim : b ∈ X ++ [a] ∨ ∃ x, graph.Reach a x ∧ graph.Reach x a ∧ x ∈ G := by
        induction hab with
        | refl => left; simp
        | tail hay hyb ih =>
          rename_i y b'
          rcases ih with h2 | h2
          · have hb : b' ∈ X ∨ b' ∈ a :: G := by
              rcases List.mem_append.1 h2 with h3 | h3
              · exact inv.closed y h3 b' hyb
              · simp only [List.mem_singleton] at h3
                subst h3
                exact hsucc b' hyb
            rcases hb with h3 | h3
            · exact Or.inl (List.mem_append_left _ h3)
            · rcases List.mem_cons.1 h3 with h4 | h4
              · left
                rw [h4]
                simp
              · exact Or.inr ⟨b', hay.tail hyb, hG b' h4, h4⟩
          · exact Or.inr h2
      rcases hclaim with h2 | ⟨x, h2, h3, h4⟩
      · left
        refine ⟨h2, ?_⟩
        rw [hidxo]
        rcases List.mem_append.1 h2 with h3 | h3
        · rw [hidx b h3]
          exact le_of_lt (List.indexOf_lt_length.2 h3)
        · simp only [List.mem_singleton] at h3
          rw [h3, hidxo]
      · exact Or.inr ⟨x, h2, h3, Or.inl h4⟩

/-- What `Search(origin_vertex, visitor)` does on a white vertex: it returns,
the vertices it finishes are reachable from the origin, the origin is finished
last, and the state of the search is kept. -/
theorem Search_spec {σ : Type} (graph : Graph) (hr : graph.InRange) (visitor : DfsVisitor σ)
    (P : List Nat → σ → Prop) (tr : Tracks visitor P) :
    ∀ (fuel : Nat) (origin : Nat) (st : StatusMap) (s : σ) (O G : List Nat),
      DfsInv graph st O G → st origin = none → origin < graph.adjacency_lists_.length →
      graph.adjacency_lists_.length ≤ fuel + (O ++ G).length →
      (∀ x ∈ G, graph.Reach x origin) → P O s →
      ∃ st' s' L, Search graph visitor fuel origin (st, s) = some (st', s') ∧
        DfsInv graph st' (O ++ L ++ [origin]) G ∧ (∀ w ∈ L, graph.Reach origin w) ∧
        P (O ++ L ++ [origin]) s' := by
  intro fuel
  induction fuel with
  | zero =>
    intro origin st s O G inv hw hlt hfuel _ _
    obtain ⟨hO, hG⟩ := inv.white hw
    have := length_lt_of_not_mem inv.nodup inv.lt hlt (by
      simp only [List.mem_append, not_or]
      exact ⟨hO, hG⟩)
    omega
  | succ fuel ih =>
    intro origin st s O G inv hw hlt hfuel hG hP
    have hadj : graph.adjacency_lists_[origin]? = some graph.adjacency_lists_[origin] :=
      List.getElem?_eq_getElem hlt
    have inv1 := inv.enter hw hlt
    have hG' : ∀ x ∈ origin :: G, graph.Reach x origin := by
      intro x hx
      rcases List.mem_cons.1 hx with h1 | h1
      · rw [h1]
        exact Relation.ReflTransGen.refl
      · exact hG x h1
    obtain ⟨st1, s1, L, e1, inv2, hL, hP1, hsucc, _⟩ :=
      searchEdges_spec graph visitor P tr fuel origin O G
        (fun v st s O' i1 i2 i3 i4 i5 i6 => ih v st s O' (origin :: G) i1 i2 i3 i4 i5 i6) hG'
        graph.adjacency_lists_[origin] (setStatus st origin VertexStatus.kGrey) s []
        (by rw [List.append_nil]; exact inv1) (fun v hv => by simp at hv)
        (by rw [List.append_nil]; exact hP)
        (fun v hv => hr _ (List.getElem_mem _) v hv)
        (fun v hv => ⟨_, hadj, hv⟩)
        (by
          simp only [List.length_append, List.length_cons, List.length_nil] at hfuel ⊢
          omega)
    obtain ⟨s2, e2, hP2⟩ := tr.finish _ _ origin hP1
    refine ⟨setStatus st1 origin VertexStatus.kBlack, s2, L, ?_, ?_, hL, hP2⟩
    · simp only [Search, Graph.GetAdjacentVertices, hadj, e1, e2]
    · refine inv2.leave (fun b hb => ?_) hG
      obtain ⟨targets, h1, h2⟩ := hb
      rw [hadj] at h1
      simp only [Option.some.injEq] at h1
      subst h1
      exact hsucc b h2

theorem DfsInv.dfs_start (graph : Graph) : DfsInv graph (fun _ => none) [] [] :=
  ⟨fun v => by simp, fun v => by simp, by simp, fun v hv => by simp at hv,
    fun a ha => by simp at ha, fun a ha => by simp at ha⟩

/-- The loop of `DisjointDepthFirstSearch`: it returns, and it finishes every
vertex of the order; `T` is what holds of the finished vertices and the state of
the visitor between two trees. -/
theorem disjointLoop_spec {σ : Type} (graph : Graph) (hr : graph.InRange)
    (visitor : DfsVisitor σ) (T : List Nat → σ → Prop) (order : List Nat)
    (horder : ∀ v ∈ order, v < graph.adjacency_lists_.length)
    (hstep : ∀ (pre : List Nat) (r : Nat) (post O : List Nat) (s : σ) (st : StatusMap),
      order = pre ++ r :: post → (∀ v ∈ pre, v ∈ O) → DfsInv graph st O [] → T O s → r ∉ O →
      ∃ P : List Nat → σ → Prop, Tracks visitor P ∧
        P O (visitor.DiscoverVertex (visitor.InitializeComponent s) r) ∧
        ∀ (L : List Nat) (s' : σ) (st' : StatusMap), P (O ++ L ++ [r]) s' →
          DfsInv graph st' (O ++ L ++ [r]) [] → (∀ v ∈ L, graph.Reach r v) →
          T (O ++ L ++ [r]) s') :
    ∀ (post pre : List Nat) (st : StatusMap) (s : σ) (O : List Nat),
      order = pre ++ post → (∀ v ∈ pre, v ∈ O) → DfsInv graph st O [] → T O s →
      ∃ st' s' O', disjointLoop graph visitor post (st, s) = some (st', s') ∧
        DfsInv graph st' O' [] ∧ T O' s' ∧ ∀ v ∈ order, v ∈ O' := by
  intro post
  induction post with
  | nil =>
    intro pre st s O ho hpre inv hT
    refine ⟨st, s, O, rfl, inv, hT, fun v hv => hpre v ?_⟩
    rw [ho] at hv
    simpa using hv
  | cons r post ih =>
    intro pre st s O ho hpre inv hT
    have ho' : order = (pre ++ [r]) ++ post := by rw [ho]; simp
    rcases status_cases st r with hv | hv | hv
    · obtain ⟨hrO, _⟩ := inv.white hv
      obtain ⟨P, tr, hP0, hfin⟩ := hstep pre r post O s st ho hpre inv hT hrO
      have hlt : r < graph.adjacency_lists_.length := horder r (by rw [ho]; simp)
      obtain ⟨st1, s1, L, e1, inv1, hL, hP1⟩ := Search_spec graph hr visitor P tr
        graph.adjacency_lists_.length r st _ O [] inv hv hlt (by omega)
        (fun x hx => by simp at hx) hP0
      have hT1 := hfin L s1 st1 hP1 inv1 hL
      obtain ⟨st2, s2, O2, e2, inv2, hT2, hall⟩ := ih (pre ++ [r]) st1 s1 (O ++ L ++ [r]) ho'
        (fun v hv => by
          rcases List.mem_append.1 hv with h1 | h1
          · simp [hpre v h1]
          · simp only [List.mem_singleton] at h1
            simp [h1]) inv1 hT1
      refine ⟨st2, s2, O2, ?_, inv2, hT2, hall⟩
      simp only [disjointLoop, DepthFirstSearcher.call, IsVertexBlack, hv,
        Graph.GetVerticesCount]
      simp only [e1]
      exact e2
    · have := (inv.is_grey r).1 hv
      simp at this
    · obtain ⟨st2, s2, O2, e2, inv2, hT2, hall⟩ := ih (pre ++ [r]) st s O ho'
        (fun v hv' => by
          rcases List.mem_append.1 hv' with h1 | h1
          · exact hpre v h1
          · simp only [List.mem_singleton] at h1
            rw [h1]
            exact (inv.black r).1 hv) inv hT
      refine ⟨st2, s2, O2, ?_, inv2, hT2, hall⟩
      simp only [disjointLoop, IsVertexBlack, hv]
      exact e2

/-- The order that `ComputeTopologicalOrder` returns lists every vertex once,
in the order of the `FinishVertex` calls of a complete search. -/
theorem ComputeTopologicalOrder_spec (graph : Graph) (hr : graph.InRange) :
    ∃ order st, ComputeTopologicalOrder graph = some order ∧ DfsInv graph st order [] ∧
      ∀ v, v < graph.adjacency_lists_.length → v ∈ order := by
  obtain ⟨st', s', O', e, inv, hT, hall⟩ := disjointLoop_spec graph hr TopologicalSorter.visitor
    (fun O s => s.order_ = O) (List.range graph.adjacency_lists_.length)
    (fun v hv => List.mem_range.1 hv)
    (fun pre r post O s st _ _ _ hT _ =>
      ⟨fun O s => s.order_ = O,
        ⟨fun _ _ _ h => h, fun _ _ _ h => h, fun _ _ _ h => h,
          fun O s v h => ⟨_, rfl, by simp [h]⟩⟩,
        hT, fun L s' st' h _ _ => h⟩)
    (List.range graph.adjacency_lists_.length) [] (fun _ => none) TopologicalSorter.new []
    rfl (fun v hv => by simp at hv) (DfsInv.dfs_start graph) rfl
  refine ⟨O', st', ?_, inv, fun v hv => hall v (List.mem_range.2 hv)⟩
  simp only [ComputeTopologicalOrder, DisjointDepthFirstSearchAll, DisjointDepthFirstSearch,
    Graph.GetVerticesCount, e, hT]

theorem addEdges_spec :
    ∀ (edges : List Edge) (g g' : Graph), Graph.addEdges edges g = some g' →
      g'.adjacency_lists_.length = g.adjacency_lists_.length ∧
      ∀ a targets, g.adjacency_lists_[a]? = some targets →
        g'.adjacency_lists_[a]? = some (targets ++
          (edges.filter fun e => decide (e.source_ = a)).map fun e => e.target_) := by
  intro edges
  induction edges with
  | nil =>
    intro g g' e
    simp only [Graph.addEdges, Option.some.injEq] at e
    subst e
    exact ⟨rfl, fun a targets h => by simp [h]⟩
  | cons x rest ih =>
    intro g g' e
    simp only [Graph.addEdges, Graph.AddEdge] at e
    by_cases hx : x.source_ < g.adjacency_lists_.length
    · rw [if_pos hx] at e
      obtain ⟨l1, l2⟩ := ih _ g' e
      simp only [List.length_modify] at l1
      refine ⟨l1, fun a targets h => ?_⟩
      have hm : (List.modify (fun targets => targets ++ [x.target_]) x.source_
          g.adjacency_lists_)[a]? =
          some (if x.source_ = a then targets ++ [x.target_] else targets) := by
        rw [List.getElem?_modify, h]
        rfl
      rw [l2 a _ hm]
      by_cases hxa : x.source_ = a
      · simp [List.filter_cons, hxa]
      · simp [List.filter_cons, hxa]
    · rw [if_neg hx] at e
      exact Option.noConfusion e

theorem addEdges_total :
    ∀ (edges : List Edge) (g : Graph),
      (∀ e ∈ edges, e.source_ < g.adjacency_lists_.length) →
      ∃ g', Graph.addEdges edges g = some g' := by
  intro edges
  induction edges with
  | nil => intro g _; exact ⟨g, rfl⟩
  | cons x rest ih =>
    intro g h
    simp only [Graph.addEdges, Graph.AddEdge, h x (List.mem_cons_self _ _), if_true]
    exact ih _ fun e he => by
      simp only [List.length_modify]
      exact h e (List.mem_cons_of_mem _ he)

theorem mem_reversedEdges (graph : Graph) (e : Edge) :
    e ∈ reversedEdges graph ↔ graph.Adj e.target_ e.source_ := by
  simp only [reversedEdges, List.mem_flatMap, List.mem_map, Graph.Adj]
  constructor
  · rintro ⟨entry, h1, t, h2, h3⟩
    have := List.mem_enum_iff_getElem?.1 (show (entry.1, entry.2) ∈ _ from h1)
    subst h3
    exact ⟨entry.2, this, h2⟩
  · rintro ⟨targets, h1, h2⟩
    refine ⟨(e.target_, targets), List.mem_enum_iff_getElem?.2 h1, e.source_, h2, ?_⟩
    cases e
    rfl

/-- The graph that `MakeTransposedGraph` returns has the same vertices and the
reversed edges. -/
theorem MakeTransposedGraph_spec (graph : Graph) (hr : graph.InRange) :
    ∃ gT, MakeTransposedGraph graph = some gT ∧
      gT.adjacency_lists_.length = graph.adjacency_lists_.length ∧
      (∀ a b, gT.Adj a b ↔ graph.Adj b a) ∧ gT.InRange := by
  obtain ⟨gT, e⟩ := addEdges_total (reversedEdges graph)
    (Graph.new graph.adjacency_lists_.length) (fun x hx => by
      simp only [Graph.new, List.length_replicate]
      exact hr.adj_lt ((mem_reversedEdges graph x).1 hx))
  obtain ⟨l1, l2⟩ := addEdges_spec _ _ gT e
  simp only [Graph.new, List.length_replicate] at l1
  have hadj : ∀ a b, gT.Adj a b ↔ graph.Adj b a := by
    intro a b
    constructor
    · rintro ⟨targets, h1, h2⟩
      have ha : a < graph.adjacency_lists_.length := by
        rw [← l1]
        exact (List.getElem?_eq_some_iff.1 h1).1
      have := l2 a [] (by simp [Graph.new, List.getElem?_replicate, ha])
      rw [h1] at this
      simp only [List.nil_append, Option.some.injEq] at this
      rw [this] at h2
      simp only [List.mem_map, List.mem_filter, decide_eq_true_eq] at h2
      obtain ⟨x, ⟨h3, h4⟩, h5⟩ := h2
      have := (mem_reversedEdges graph x).1 h3
      rw [h4, h5] at this
      exact this
    · intro h
      have ha : a < graph.adjacency_lists_.length := hr.adj_lt h
      have := l2 a [] (by simp [Graph.new, List.getElem?_replicate, ha])
      refine ⟨_, this, ?_⟩
      simp only [List.nil_append, List.mem_map, List.mem_filter, decide_eq_true_eq]
      exact ⟨⟨a, b⟩, ⟨(mem_reversedEdges graph ⟨a, b⟩).2 h, rfl⟩, rfl⟩
  refine ⟨gT, by simp only [MakeTransposedGraph, Graph.ofEdges, Graph.GetVerticesCount, e], l1,
    hadj, ?_⟩
  intro targets ht b hb
  obtain ⟨a, ha⟩ := List.getElem?_of_mem ht
  have : graph.Adj b a := (hadj a b).1 ⟨targets, ha, hb⟩
  obtain ⟨t2, h1, _⟩ := this
  rw [l1]
  exact (List.getElem?_eq_some_iff.1 h1).1

theorem reach_transposed {graph gT : Graph} (hadj : ∀ a b, gT.Adj a b ↔ graph.Adj b a)
    (a b : Nat) : gT.Reach a b ↔ graph.Reach b a := by
  have : gT.Adj = Function.swap graph.Adj := by
    funext x y
    exact propext (hadj x y)
  simp only [Graph.Reach, this]
  exact Relation.reflTransGen_swap

end condensation_review

/-! ## Strongly connected components -/

namespace condensation_review

theorem modify_last {α : Type} (f : α → α) (l : List α) (c : α) :
    List.modify f l.length (l ++ [c]) = l ++ [f c] := by
  induction l with
  | nil => rfl
  | cons a l ih => simp [List.modify_succ_cons, ih]

theorem mem_setInsert (c : List Nat) (v w : Nat) : w ∈ setInsert c v ↔ w ∈ c ∨ w = v := by
  simp only [setInsert]
  split
  · constructor
    · exact Or.inl
    · rintro (h | h)
      · exact h
      · rw [h]; assumption
  · simp

theorem nodup_setInsert {c : List Nat} (h : c.Nodup) (v : Nat) : (setInsert c v).Nodup := by
  simp only [setInsert]
  split
  · exact h
  · rename_i hv
    rw [List.nodup_append]
    exact ⟨h, by simp, fun a ha hb => by
      simp only [List.mem_singleton] at hb
      exact hv (hb ▸ ha)⟩

theorem finderTree_tracks (O : List Nat) (s : StrongConnectComponentFinder) :
    Tracks StrongConnectComponentFinder.visitor (FinderTree O s) := by
  refine ⟨fun _ _ _ h => h, fun _ _ _ h => h, fun _ _ _ h => h, ?_⟩
  rintro O' s' v ⟨X, c, h1, h2, h3, h4, h5⟩
  have hcond : 0 ≤ s'.current_component_id_ ∧
      s'.current_component_id_.toNat < s'.component_vertices_.length := by
    rw [h3, h2]
    simp
  have hfin : StrongConnectComponentFinder.visitor.FinishVertex s' v =
      some { s' with
        component_vertices_ :=
          s'.component_vertices_.modify (fun set => setInsert set v)
            s'.current_component_id_.toNat } := by
    simp only [StrongConnectComponentFinder.visitor, hcond, and_self, if_true]
  refine ⟨_, hfin, ?_⟩
  refine ⟨X ++ [v], setInsert c v, by rw [h1]; simp, ?_, h3, nodup_setInsert h4 v, ?_⟩
  · simp only [h2, h3, Int.toNat_ofNat, modify_last]
  · intro w
    rw [mem_setInsert, h5]
    simp

theorem index_after_split {O1 pre post : List Nat} {r v : Nat} (hn : O1.Nodup)
    (ho : O1.reverse = pre ++ r :: post) (hv : v ∈ O1)
    (hlt : O1.indexOf r < O1.indexOf v) : v ∈ pre := by
  have hO : O1 = post.reverse ++ r :: pre.reverse := by
    have := congrArg List.reverse ho
    simpa using this
  rw [hO] at hn hv hlt
  have hrA : r ∉ post.reverse := by
    intro h
    rw [List.nodup_append] at hn
    exact hn.2.2 h (List.mem_cons_self _ _)
  rw [List.indexOf_append_of_not_mem hrA, List.indexOf_cons_self] at hlt
  rcases List.mem_append.1 hv with h1 | h1
  · rw [List.indexOf_append_of_mem h1] at hlt
    have := List.indexOf_lt_length.2 h1
    omega
  · rcases List.mem_cons.1 h1 with h2 | h2
    · subst h2
      rw [List.indexOf_append_of_not_mem hrA, List.indexOf_cons_self] at hlt
      omega
    · exact List.mem_reverse.1 h2

/-- The heart of the algorithm: `O1` is the order of the first search and `O`
a set of vertices closed under mutual reachability that holds every vertex
after `r` in `O1`; then a vertex outside `O` that reaches `r` is reached
from `r`. -/
theorem root_reaches (graph : Graph) (O1 : List Nat) (st1 : StatusMap)
    (inv1 : DfsInv graph st1 O1 []) (O : List Nat)
    (hclosed : ∀ a ∈ O, ∀ b, graph.Reach a b → graph.Reach b a → b ∈ O) (r : Nat)
    (hhigh : ∀ v ∈ O1, O1.indexOf r < O1.indexOf v → v ∈ O) :
    ∀ (k u : Nat), O1.length - O1.indexOf u = k → u ∈ O1 → graph.Reach u r → u ∉ O →
      graph.Reach r u := by
  intro k
  induction k using Nat.strong_induction_on with
  | _ k ih =>
    intro u hk hu hur huO
    rcases inv1.later u hu r hur with ⟨h1, h2⟩ | ⟨x, h1, h2, h3⟩
    · rcases Nat.lt_or_ge (O1.indexOf r) (O1.indexOf u) with h3 | h3
      · exact absurd (hhigh u hu h3) huO
      · have : O1.indexOf r = O1.indexOf u := le_antisymm h2 h3
        rw [(List.indexOf_inj h1 hu).1 this]
        exact Relation.ReflTransGen.refl
    · rcases h3 with h3 | ⟨h3, h4⟩
      · simp at h3
      · have hxO : x ∉ O := fun hx => huO (hclosed x hx u h2 h1)
        have hlt := List.indexOf_lt_length.2 h3
        have := ih (O1.length - O1.indexOf x) (by omega) x rfl h3 (h2.trans hur) hxO
        exact this.trans h2

theorem closed_reach {graph : Graph} {st : StatusMap} {O : List Nat}
    (inv : DfsInv graph st O []) {a b : Nat} (ha : a ∈ O) (h : graph.Reach a b) : b ∈ O := by
  induction h with
  | refl => exact ha
  | tail _ hyb ih =>
    rcases inv.closed _ ih _ hyb with h1 | h1
    · exact h1
    · simp at h1

theorem FinderInv.finder_start (graph : Graph) :
    FinderInv graph [] StrongConnectComponentFinder.new :=
  ⟨rfl, fun v => by simp [StrongConnectComponentFinder.new],
    fun c hc => by simp [StrongConnectComponentFinder.new] at hc,
    fun c hc => by simp [StrongConnectComponentFinder.new] at hc,
    List.Pairwise.nil,
    fun c hc => by simp [StrongConnectComponentFinder.new] at hc,
    List.Pairwise.nil⟩

/-- One tree of the second search adds one class of mutual reachability. -/
theorem FinderInv.tree {graph gT : Graph} (hadj : ∀ a b, gT.Adj a b ↔ graph.Adj b a)
    (hlen : gT.adjacency_lists_.length = graph.adjacency_lists_.length)
    {O1 : List Nat} {st1 : StatusMap} (inv1 : DfsInv graph st1 O1 [])
    (hall : ∀ v, v < graph.adjacency_lists_.length → v ∈ O1)
    {pre post O L : List Nat} {r : Nat} (ho : O1.reverse = pre ++ r :: post)
    (hpre : ∀ v ∈ pre, v ∈ O) {s s' : StrongConnectComponentFinder} {st st' : StatusMap}
    (inv : DfsInv gT st O []) (hT : FinderInv graph O s)
    (hP : FinderTree O s (O ++ L ++ [r]) s') (inv' : DfsInv gT st' (O ++ L ++ [r]) [])
    (hL : ∀ v ∈ L, gT.Reach r v) : FinderInv graph (O ++ L ++ [r]) s' := by
  obtain ⟨X, c, h1, h2, h3, h4, h5⟩ := hP
  have hX : X = L ++ [r] := by
    have : O ++ (L ++ [r]) = O ++ X := by rw [← h1]; simp
    exact (List.append_cancel_left this).symm
  subst hX
  have hnd : (O ++ (L ++ [r])).Nodup := by
    have := inv'.nodup
    simpa using this
  have hdisj : ∀ v, v ∈ L ++ [r] → v ∉ O := fun v hv hvO =>
    (List.nodup_append.1 hnd).2.2 hvO hv
  have hrO1 : r ∈ O1 := by
    have : r ∈ O1.reverse := by rw [ho]; simp
    exact List.mem_reverse.1 this
  have hclosed : ∀ a ∈ O, ∀ b, graph.Reach a b → graph.Reach b a → b ∈ O := by
    intro a ha b hab hba
    obtain ⟨c0, hc0, hac⟩ := (hT.cover a).1 ha
    exact (hT.cover b).2 ⟨c0, hc0, (hT.classes c0 hc0 a hac b).2 ⟨hab, hba⟩⟩
  have hnd1 : O1.Nodup := by
    have := inv1.nodup
    simpa using this
  have hhigh : ∀ v ∈ O1, O1.indexOf r < O1.indexOf v → v ∈ O :=
    fun v hv hlt => hpre v (index_after_split hnd1 ho hv hlt)
  have hreach : ∀ v, v ∈ L ++ [r] → gT.Reach r v := by
    intro v hv
    rcases List.mem_append.1 hv with h6 | h6
    · exact hL v h6
    · simp only [List.mem_singleton] at h6
      rw [h6]
      exact Relation.ReflTransGen.refl
  have hclass : ∀ u, u ∈ L ++ [r] ↔ (graph.Reach r u ∧ graph.Reach u r) := by
    intro u
    constructor
    · intro hu
      have hur : graph.Reach u r := (reach_transposed hadj r u).1 (hreach u hu)
      have hult : u < graph.adjacency_lists_.length := by
        rw [← hlen]
        exact inv'.lt u (by simp only [List.mem_append] at hu ⊢; tauto)
      exact ⟨root_reaches graph O1 st1 inv1 O hclosed r hhigh _ u rfl (hall u hult) hur
        (hdisj u hu), hur⟩
    · rintro ⟨hru, hur⟩
      have h6 : u ∈ O ++ L ++ [r] :=
        closed_reach inv' (by simp) ((reach_transposed hadj r u).2 hur)
      have huO : u ∉ O := by
        intro hu
        have := hclosed u hu r hur hru
        exact hdisj r (by simp) this
      simp only [List.mem_append, List.mem_singleton] at h6 ⊢
      tauto
  refine ⟨?_, ?_, ?_, ?_, ?_, ?_, ?_⟩
  · rw [h3, h2]
    simp
  · intro v
    rw [h2]
    constructor
    · intro hv
      rcases List.mem_append.1 hv with h6 | h6
      · rcases List.mem_append.1 h6 with h7 | h7
        · obtain ⟨c0, hc0, hv0⟩ := (hT.cover v).1 h7
          exact ⟨c0, List.mem_append_left _ hc0, hv0⟩
        · exact ⟨c, by simp, (h5 v).2 (List.mem_append_left _ h7)⟩
      · exact ⟨c, by simp, (h5 v).2 (List.mem_append_right _ h6)⟩
    · rintro ⟨c0, hc0, hv0⟩
      rcases List.mem_append.1 hc0 with h6 | h6
      · exact List.mem_append_left _ (List.mem_append_left _ ((hT.cover v).2 ⟨c0, h6, hv0⟩))
      · simp only [List.mem_singleton] at h6
        subst h6
        have := (h5 v).1 hv0
        simp only [List.mem_append, List.mem_singleton] at this ⊢
        tauto
  · intro c0 hc0
    rw [h2] at hc0
    rcases List.mem_append.1 hc0 with h6 | h6
    · exact hT.nonempty c0 h6
    · simp only [List.mem_singleton] at h6
      subst h6
      exact List.ne_nil_of_mem ((h5 r).2 (by simp))
  · intro c0 hc0
    rw [h2] at hc0
    rcases List.mem_append.1 hc0 with h6 | h6
    · exact hT.nodup c0 h6
    · simp only [List.mem_singleton] at h6
      subst h6
      exact h4
  · rw [h2, List.pairwise_append]
    refine ⟨hT.disjoint, List.pairwise_singleton _ _, ?_⟩
    intro c0 hc0 c1 hc1
    simp only [List.mem_singleton] at hc1
    subst hc1
    intro v hv0 hv1
    exact hdisj v ((h5 v).1 hv1) ((hT.cover v).2 ⟨c0, hc0, hv0⟩)
  · intro c0 hc0 a ha b
    rw [h2] at hc0
    rcases List.mem_append.1 hc0 with h6 | h6
    · exact hT.classes c0 h6 a ha b
    · simp only [List.mem_singleton] at h6
      subst h6
      have har := (hclass a).1 ((h5 a).1 ha)
      rw [h5 b, hclass b]
      constructor
      · rintro ⟨hrb, hbr⟩
        exact ⟨har.2.trans hrb, hbr.trans har.1⟩
      · rintro ⟨hab, hba⟩
        exact ⟨har.1.trans hab, hba.trans har.2⟩
  · rw [h2, List.pairwise_append]
    refine ⟨hT.sorted, List.pairwise_singleton _ _, ?_⟩
    intro c0 hc0 c1 hc1
    simp only [List.mem_singleton] at hc1
    subst hc1
    intro a ha b hb hab
    have hbO : b ∈ O := (hT.cover b).2 ⟨c0, hc0, hb⟩
    rcases inv.closed b hbO a ((hadj b a).2 hab) with h6 | h6
    · exact hdisj a ((h5 a).1 ha) h6
    · simp at h6

/-- The sets that `FindStrongConnectivityComponents` returns. -/
theorem FindStrongConnectivityComponents_spec (graph : Graph) (hr : graph.InRange) :
    ∃ s O, FindStrongConnectivityComponents graph = some s.component_vertices_ ∧
      FinderInv graph O s ∧ ∀ v, v ∈ O ↔ v < graph.adjacency_lists_.length := by
  obtain ⟨O1, st1, e1, inv1, hall⟩ := ComputeTopologicalOrder_spec graph hr
  obtain ⟨gT, eT, hlen, hadj, hrT⟩ := MakeTransposedGraph_spec graph hr
  have hnd1 : O1.Nodup := by
    have := inv1.nodup
    simpa using this
  obtain ⟨st', s', O', e, inv', hT, hcov⟩ := disjointLoop_spec gT hrT
    StrongConnectComponentFinder.visitor (FinderInv graph) O1.reverse
    (fun v hv => by
      rw [hlen]
      exact inv1.lt v (by simpa using hv))
    (fun pre r post O s st ho hpre inv hT hrO =>
      ⟨FinderTree O s, finderTree_tracks O s,
        ⟨[], [], by simp, rfl, by
          simp only [StrongConnectComponentFinder.visitor, hT.id]
          omega, List.nodup_nil, fun v => Iff.rfl⟩,
        fun L s' st' hP inv' hL =>
          FinderInv.tree hadj hlen inv1 hall ho hpre inv hT hP inv' hL⟩)
    O1.reverse [] (fun _ => none) StrongConnectComponentFinder.new [] rfl
    (fun v hv => by simp at hv) (DfsInv.dfs_start gT) (FinderInv.finder_start graph)
  refine ⟨s', O', ?_, hT, fun v => ⟨fun hv => ?_, fun hv => ?_⟩⟩
  · simp only [FindStrongConnectivityComponents, e1, eT, DisjointDepthFirstSearch, e]
  · rw [← hlen]
    exact inv'.lt v (by simpa using hv)
  · exact hcov v (List.mem_reverse.2 (hall v hv))

end condensation_review

/-- C28: for every graph on the vertices 0..n-1 (every adjacency list holds
vertices below n), FindStrongConnectivityComponents returns non-empty, pairwise
disjoint vertex sets that cover exactly the n vertices; the vertices of a set
are the ones mutually reachable with any of its members, so two vertices are in
the same set exactly when each is reachable from the other; and no edge goes
from a set to one listed earlier. -/
theorem strongly_connected_components (graph : condensation_review.Graph)
    (hr : graph.InRange) :
    ∃ components, condensation_review.FindStrongConnectivityComponents graph =
        some components ∧
      (∀ c ∈ components, c ≠ [] ∧ c.Nodup) ∧
      components.Pairwise List.Disjoint ∧
      (∀ v, v < graph.GetVerticesCount ↔ ∃ c ∈ components, v ∈ c) ∧
      (∀ c ∈ components, ∀ a ∈ c, ∀ b, b ∈ c ↔ (graph.Reach a b ∧ graph.Reach b a)) ∧
      (∀ a b, a < graph.GetVerticesCount → b < graph.GetVerticesCount →
        ((∃ c ∈ components, a ∈ c ∧ b ∈ c) ↔ (graph.Reach a b ∧ graph.Reach b a))) ∧
      components.Pairwise fun earlier later =>
        ∀ a ∈ later, ∀ b ∈ earlier, ¬ graph.Adj a b := by
  obtain ⟨s, O, e, inv, hO⟩ :=
    condensation_review.FindStrongConnectivityComponents_spec graph hr
  have hcover : ∀ v, v < graph.GetVerticesCount ↔ ∃ c ∈ s.component_vertices_, v ∈ c :=
    fun v => (hO v).symm.trans (inv.cover v)
  refine ⟨s.component_vertices_, e, fun c hc => ⟨inv.nonempty c hc, inv.nodup c hc⟩,
    inv.disjoint, hcover, inv.classes, ?_, inv.sorted⟩
  intro a b ha _
  constructor
  · rintro ⟨c, hc, hac, hbc⟩
    exact (inv.classes c hc a hac b).1 hbc
  · intro hab
    obtain ⟨c, hc, hac⟩ := (hcover a).1 ha
    exact ⟨c, hc, hac, (inv.classes c hc a hac b).2 hab⟩

/-- Witness of C28: the cycle 0 -> 1 -> 2 -> 0 with an edge to the cycle 3 <-> 4,
and the isolated vertex 5. -/
theorem strongly_connected_components_witness :
    (condensation_review.Graph.InRange ⟨[[1], [2], [0, 3], [4], [3], []]⟩ ∧
      condensation_review.FindStrongConnectivityComponents ⟨[[1], [2], [0, 3], [4], [3], []]⟩ =
        some [[5], [1, 2, 0], [4, 3]]) ∧
    ∃ components, condensation_review.FindStrongConnectivityComponents
        ⟨[[1], [2], [0, 3], [4], [3], []]⟩ = some components ∧
      (∀ c ∈ components, c ≠ [] ∧ c.Nodup) ∧
      components.Pairwise List.Disjoint ∧
      (∀ v, v < (⟨[[1], [2], [0, 3], [4], [3], []]⟩ :
          condensation_review.Graph).GetVerticesCount ↔ ∃ c ∈ components, v ∈ c) ∧
      (∀ c ∈ components, ∀ a ∈ c, ∀ b, b ∈ c ↔
        ((⟨[[1], [2], [0, 3], [4], [3], []]⟩ : condensation_review.Graph).Reach a b ∧
          (⟨[[1], [2], [0, 3], [4], [3], []]⟩ : condensation_review.Graph).Reach b a)) ∧
      (∀ a b, a < (⟨[[1], [2], [0, 3], [4], [3], []]⟩ :
          condensation_review.Graph).GetVerticesCount →
        b < (⟨[[1], [2], [0, 3], [4], [3], []]⟩ : condensation_review.Graph).GetVerticesCount →
        ((∃ c ∈ components, a ∈ c ∧ b ∈ c) ↔
          ((⟨[[1], [2], [0, 3], [4], [3], []]⟩ : condensation_review.Graph).Reach a b ∧
            (⟨[[1], [2], [0, 3], [4], [3], []]⟩ : condensation_review.Graph).Reach b a))) ∧
      components.Pairwise fun earlier later =>
        ∀ a ∈ later, ∀ b ∈ earlier,
          ¬ (⟨[[1], [2], [0, 3], [4], [3], []]⟩ : condensation_review.Graph).Adj a b :=
  ⟨⟨by decide, by decide⟩,
    strongly_connected_components ⟨[[1], [2], [0, 3], [4], [3], []]⟩ (by decide)⟩

/-! ## The empty wildcard pattern -/

namespace WildcardMatcher

theorem findFuzzyLoop_empty (text : List Char) :
    ∀ (rest rest2 : List Char) (t : Nat) (m : WildcardMatcher) (occ acc : List Nat),
      text.drop t = rest ++ rest2 → MatcherInv [] text 0 t m occ →
      findFuzzyLoop 0 rest t m acc =
        some (acc ++ (List.range' (t + 1) rest.length).map fun p => size_t_sub p 0) := by
  intro rest
  induction rest with
  | nil =>
    intro rest2 t m occ acc _ _
    simp [findFuzzyLoop]
  | cons c rest ih =>
    intro rest2 t m occ acc hd inv
    have hc : text[t]? = some c := by
      have := congrArg (fun l => l[0]?) hd
      simpa [List.getElem?_drop] using this
    have hd' : text.drop (t + 1) = rest ++ rest2 := by
      have := congrArg List.tail hd
      simpa [List.tail_drop] using this
    obtain ⟨m1, occ1, e1, inv1⟩ :=
      scan_step_gen [] text 0 t (fun _ => rfl) (fun q hq => by simp at hq) m occ inv c hc
        (fun o => o ++ [size_t_sub (t + 1) 0]) acc
    have hcond : (0 ≤ t + 1 ∧
        hits [] text (t + 1 - 0) (t + 1) = ([] : List (List Char × Nat)).length) :=
      ⟨Nat.zero_le _, rfl⟩
    rw [if_pos hcond] at e1
    have e2 := ih rest2 (t + 1) m1 occ1 (acc ++ [size_t_sub (t + 1) 0]) hd' inv1
    rw [findFuzzyLoop, e1]
    show findFuzzyLoop 0 rest (t + 1) m1 (acc ++ [size_t_sub (t + 1) 0]) = _
    rw [e2, List.length_cons, List.range'_succ, List.map_cons, List.append_assoc,
      List.singleton_append]

end WildcardMatcher

/-- C38: for the empty pattern, every wildcard w and every text (of a length
that is a size_t value), Init returns a matcher with pattern_length_ = 0 and
number_of_words_ = 0; each Scan call of the text invokes on_match exactly once;
and FindFuzzyMatches returns 1, 2, ..., |text|, the position after each scanned
character, never position 0. -/
theorem empty_pattern_matches_after_every_character (w : Char) (text : List Char)
    (ht : text.length < 2 ^ 64) :
    ∃ m0, WildcardMatcher.new.Init [] w = some m0 ∧
      m0.pattern_length_ = 0 ∧ m0.number_of_words_ = 0 ∧
      (∃ m1, scanCalls m0 text = some (m1, List.replicate text.length 1)) ∧
      FindFuzzyMatches [] text w = some ((List.range text.length).map fun i => i + 1) ∧
      0 ∉ (List.range text.length).map fun i => i + 1 := by
  obtain ⟨m0, h, e0, _, _, _, e4, e5, _, hinv⟩ := WildcardMatcher.Init_gen [] w
  obtain ⟨occ, inv⟩ := hinv text
  rw [WildcardMatcher.init_pairs_nil] at inv e4
  refine ⟨m0, e0, e5, e4, ?_, ?_, by simp⟩
  · obtain ⟨m1, occ1, e1, _⟩ := WildcardMatcher.scanCalls_spec [] text 0 (fun _ => rfl)
      (fun q hq => by simp at hq) text [] 0 m0 occ (by simp) inv
    refine ⟨m1, ?_⟩
    rw [e1]
    have hall : ((List.range text.length).map fun i =>
        if 0 ≤ 0 + i + 1 ∧ hits [] text (0 + i + 1 - 0) (0 + i + 1) =
          ([] : List (List Char × Nat)).length then 1 else 0) =
        List.replicate text.length 1 := by
      rw [List.eq_replicate_iff]
      refine ⟨by simp, fun b hb => ?_⟩
      obtain ⟨i, _, hi⟩ := List.mem_map.1 hb
      rw [← hi, if_pos ⟨Nat.zero_le _, rfl⟩]
    rw [hall]
  · rw [FindFuzzyMatches, e0]
    show findFuzzyLoop 0 text 0 m0 [] = _
    rw [WildcardMatcher.findFuzzyLoop_empty text text [] 0 m0 occ [] (by simp) inv,
      List.nil_append, List.range'_eq_map_range, List.map_map]
    refine congrArg some (List.map_congr_left fun i hi => ?_)
    have hi' := List.mem_range.1 hi
    rw [Function.comp_apply, WildcardMatcher.size_t_sub_eq _ 0 (by omega) (Nat.zero_le _),
      Nat.sub_zero, Nat.add_comm]

/-- Witness of C38: the text ab under the empty pattern. -/
theorem empty_pattern_matches_after_every_character_witness :
    "ab".toList.length < 2 ^ 64 ∧ FindFuzzyMatches [] "ab".toList '?' = some [1, 2] ∧
    ∃ m0, WildcardMatcher.new.Init [] '?' = some m0 ∧
      m0.pattern_length_ = 0 ∧ m0.number_of_words_ = 0 ∧
      (∃ m1, scanCalls m0 "ab".toList = some (m1, List.replicate "ab".toList.length 1)) ∧
      FindFuzzyMatches [] "ab".toList '?' =
        some ((List.range "ab".toList.length).map fun i => i + 1) ∧
      0 ∉ (List.range "ab".toList.length).map fun i => i + 1 :=
  ⟨by decide, by decide,
    empty_pattern_matches_after_every_character '?' "ab".toList (by decide)⟩

/-! ## What the transition cache holds -/

namespace aho_corasick

theorem longestPathSuffix_length_lt_of_not_path (added : List (List Char × Nat))
    (u : List Char) (c : Char) (h : ¬ IsTriePath added (u ++ [c])) :
    (longestPathSuffix added (u ++ [c])).length < (u ++ [c]).length := by
  have h1 := longestPathSuffix_length_le added (u ++ [c])
  rcases Nat.lt_or_ge (longestPathSuffix added (u ++ [c])).length (u ++ [c]).length with h2 | h2
  · exact h2
  · exfalso
    have hs := (longestPathSuffix_spec added (u ++ [c])).1
    have := List.IsSuffix.eq_of_length_le hs h2
    exact h (this ▸ (longestPathSuffix_spec added (u ++ [c])).2.1)

end aho_corasick

/-- C39, amended: in every state reached from a built automaton by Next calls, a
non-null entry automaton_transitions_cache[c] of a node n is the node of the
longest suffix of path(n) + c that is a trie path, the value of the automaton
transition.  It is the element trie_transitions[c] of n when n has a child under
c; when n has none, it is no element of trie_transitions of n at all. -/
theorem cache_entries_are_automaton_transitions (added : List (List Char × Nat)) :
    ∃ h, Build added = some h ∧
      ∀ calls : List (Nat × Char), (∀ x ∈ calls, x.1 < h.size) →
        ∃ h', nextCalls h calls = some h' ∧ h'.size = h.size ∧
          ∀ (n : Nat) (c : Char) (r : Nat), n < h'.size → getCache h' n c = some r →
            (∃ u v, trieWalk h' 0 u = some n ∧ trieWalk h' 0 v = some r ∧
              IsLongestPathSuffix added v (u ++ [c])) ∧
            (∀ d, GetTrieTransition h' n c = some d → r = d) ∧
            (GetTrieTransition h' n c = none →
              ∀ c' d, GetTrieTransition h' n c' = some d → r ≠ d) := by
  obtain ⟨h, path, e, b⟩ := Build_spec added
  refine ⟨h, e, fun calls hcalls => ?_⟩
  obtain ⟨h', e', same, b', _, _⟩ := Built.nextCalls_cache calls h b hcalls
  refine ⟨h', e', same.1, fun n c r hn hr => ?_⟩
  obtain ⟨hr1, hr2⟩ := b'.cache n c r hn hr
  refine ⟨⟨path n, path r, (trieWalk_from_root b'.trie _ n).2 ⟨hn, rfl⟩,
    (trieWalk_from_root b'.trie _ r).2 ⟨hr1, rfl⟩, ?_⟩, fun d hd => ?_, fun hnone c' d hd => ?_⟩
  · rw [hr2]
    exact longestPathSuffix_spec added _
  · obtain ⟨hd1, hd2⟩ := b'.trie.trie.child n c d hn hd
    have hp : IsTriePath added (path n ++ [c]) := hd2 ▸ b'.trie.paths d hd1
    rw [longestPathSuffix_of_path hp, ← hd2] at hr2
    exact b'.trie.inj hr1 hd1 hr2
  · obtain ⟨hd1, hd2⟩ := b'.trie.trie.child n c' d hn hd
    have hlt := longestPathSuffix_length_lt_of_not_path added (path n) c
      (b'.trie.no_child hn hnone)
    intro hrd
    rw [← hr2, hrd, hd2] at hlt
    simp at hlt

/-- Counterexample to C39 as stated: after Build for the single pattern ab, the
root holds the cache entry b -> root, written by the suffix-link pass, while its
trie_transitions hold the key a only; and on the automaton of the pattern a, the
call Next(b) at the root leaves the same entry. -/
theorem cache_entry_outside_children_counterexample :
    ((Build [("ab".toList, 0)]).map fun h =>
      (getCache h 0 'b', GetTrieTransition h 0 'b', (h.node 0).trie_transitions)) =
      some (some 0, none, [('a', 1)]) ∧
    ((Build [("a".toList, 0)]).bind fun h =>
      (NodeReference.Next h h.Root 'b').map fun r =>
        (getCache h 0 'b', getCache r.1 0 'b', GetTrieTransition r.1 0 'b',
          (r.1.node 0).trie_transitions)) =
      some (none, some 0, none, [('a', 1)]) := by
  decide

/-! ## Init of the matcher of ideone_WhZ8P4.cpp -/

/-- C36: on a newly constructed WildcardMatcher of ideone_WhZ8P4.cpp the Reset()
call at the start of Init goes through the null aho_corasick_automaton_, for
every pattern and wildcard, so Init has no result; on a matcher that already
holds an automaton the same Init returns, with the new automaton and counters. -/
theorem init_resets_before_the_automaton_exists (pattern : List Char) (wildcard : Char) :
    WildcardMatcher.new.aho_corasick_automaton_ = none ∧
    ideone_WhZ8P4.Reset WildcardMatcher.new = Except.error Fault.null_dereference ∧
    ideone_WhZ8P4.Init WildcardMatcher.new pattern wildcard = none ∧
    ∀ (m : WildcardMatcher) (h0 : Automaton), m.aho_corasick_automaton_ = some h0 →
      ∃ m1 h, ideone_WhZ8P4.Init m pattern wildcard = some m1 ∧
        m1.aho_corasick_automaton_ = some h ∧ m1.state_ = h.Root ∧
        m1.pattern_length_ = pattern.length ∧ m1.words_occurrences_by_position_ = [] := by
  refine ⟨rfl, rfl, rfl, fun m h0 hm => ?_⟩
  obtain ⟨path, inv⟩ := BuildTrie_spec
    (WildcardMatcher.initLoop (Split pattern fun symbol => symbol == wildcard) 0 0 []).2.2
  obtain ⟨h, e, _, _⟩ := ideone_WhZ8P4.Build_walk_spec inv
  have ei : ideone_WhZ8P4.Init m pattern wildcard = some
      { words_occurrences_by_position_ := [], state_ := h.Root,
        number_of_words_ :=
          (WildcardMatcher.initLoop (Split pattern fun symbol => symbol == wildcard) 0 0 []).2.1,
        pattern_length_ := pattern.length, aho_corasick_automaton_ := some h } := by
    simp only [ideone_WhZ8P4.Init, ideone_WhZ8P4.Reset, hm, e]
  exact ⟨_, h, ei, rfl, rfl, rfl, rfl⟩

/-! ## The fixed set over no numbers -/

/-- C37: FixedSet::Initialize with an empty vector returns as soon as the
generator has made one draw, with size_ = 0, a hash function of modulo 0 and no
subtable; then for every int q the call Contains(q) takes a remainder by zero in
HashFunction::operator() and has no result. -/
theorem contains_on_empty_set_divides_by_zero (draw : Nat × Nat) (rest : List (Nat × Nat))
    (second : Nat → List (Nat × Nat)) :
    ∃ s, Review3.FixedSet.new.Initialize [] (draw :: rest) second = some s ∧
      s.size_ = 0 ∧ s.hash_.modulo_ = 0 ∧ s.subtables_ = [] ∧
      ∀ q : Int, s.hash_.apply (Review3.uint64_of_int q) = none ∧
        Review3.IPerfectHashTable.PositionInTable s.hash_ q = none ∧
        s.Contains q = none := by
  refine ⟨⟨⟨draw.1, draw.2, Review3.kPrimeModulo, 0⟩, 0, []⟩, rfl, rfl, rfl, rfl,
    fun q => ⟨?_, ?_, ?_⟩⟩
  · simp [Review3.HashFunction.apply]
  · simp [Review3.IPerfectHashTable.PositionInTable, Review3.HashFunction.apply]
  · simp [Review3.FixedSet.Contains, Review3.FixedSet.GetSameHashKey,
      Review3.IPerfectHashTable.PositionInTable, Review3.HashFunction.apply]

/-! ## The calls of the breadth-first search -/

namespace traverses

theorem visitEdgesCalls_eq (visitor : BfsVisitor) :
    ∀ (edges : List Edge) (h : Automaton) (queue : List Nat) (calls : List VisitorCall),
      visitEdgesCalls visitor edges h queue calls =
        (visitEdges visitor edges h queue).map fun r =>
          (r.1, r.2, calls ++ edges.flatMap fun edge =>
            [VisitorCall.ExamineEdge edge, VisitorCall.DiscoverVertex (GetTarget edge)]) := by
  intro edges
  induction edges with
  | nil =>
    intro h queue calls
    simp [visitEdgesCalls, visitEdges]
  | cons e es ih =>
    intro h queue calls
    simp only [visitEdgesCalls, visitEdges]
    cases h1e : visitor.ExamineEdge h e with
    | none => rfl
    | some h1 =>
      cases h2e : visitor.DiscoverVertex h1 (GetTarget e) with
      | none => simp only [h2e, Option.map_none']
      | some h2 =>
        simp only [h2e, ih, List.flatMap_cons, List.append_assoc]

theorem visitEdges_queue (visitor : BfsVisitor) (hk : KeepsTrie visitor) :
    ∀ (edges : List Edge) (h : Automaton) (queue : List Nat) (h' : Automaton) (q' : List Nat),
      visitEdges visitor edges h queue = some (h', q') →
      q' = queue ++ edges.map GetTarget ∧
        ∀ n, (h'.node n).trie_transitions = (h.node n).trie_transitions := by
  intro edges
  induction edges with
  | nil =>
    intro h queue h' q' e
    simp only [visitEdges, Option.some.injEq, Prod.mk.injEq] at e
    obtain ⟨rfl, rfl⟩ := e
    exact ⟨by simp, fun _ => rfl⟩
  | cons e es ih =>
    intro h queue h' q' he
    simp only [visitEdges] at he
    cases h1e : visitor.ExamineEdge h e with
    | none => simp [h1e] at he
    | some h1 =>
      cases h2e : visitor.DiscoverVertex h1 (GetTarget e) with
      | none => simp [h1e, h2e] at he
      | some h2 =>
        simp only [h1e, h2e] at he
        obtain ⟨l1, l2⟩ := ih h2 _ h' q' he
        refine ⟨by rw [l1]; simp, fun n => ?_⟩
        rw [l2 n, hk.2.2 h1 _ h2 h2e n, hk.2.1 h e h1 h1e n]

theorem callsAt_congr {h h0 : Automaton}
    (hs : ∀ n, (h.node n).trie_transitions = (h0.node n).trie_transitions) (v : Nat) :
    callsAt h v = callsAt h0 v := by
  simp only [callsAt, OutgoingEdges, hs v]

theorem bfsOrder_congr {h h0 : Automaton}
    (hs : ∀ n, (h.node n).trie_transitions = (h0.node n).trie_transitions) :
    ∀ (fuel : Nat) (queue : List Nat), bfsOrder h fuel queue = bfsOrder h0 fuel queue := by
  intro fuel
  induction fuel with
  | zero =>
    intro queue
    cases queue <;> rfl
  | succ fuel ih =>
    intro queue
    cases queue with
    | nil => rfl
    | cons v q => simp only [bfsOrder, hs v, ih]

/-- A search that returns has made the calls of `callsAt` for the vertices of
`bfsOrder`, whatever its visitor does to the links and caches. -/
theorem bfsLoopCalls_eq (visitor : BfsVisitor) (hk : KeepsTrie visitor) (h0 : Automaton) :
    ∀ (fuel : Nat) (queue : List Nat) (h : Automaton) (calls : List VisitorCall)
      (h' : Automaton),
      (∀ n, (h.node n).trie_transitions = (h0.node n).trie_transitions) →
      bfsLoop visitor fuel queue h = some h' →
      bfsLoopCalls visitor fuel queue h calls =
        some (h', calls ++ (bfsOrder h0 fuel queue).flatMap (callsAt h0)) := by
  intro fuel
  induction fuel with
  | zero =>
    intro queue h calls h' hs e
    cases queue with
    | nil =>
      simp only [bfsLoop, Option.some.injEq] at e
      simp [bfsLoopCalls, bfsOrder, e]
    | cons v q => simp [bfsLoop] at e
  | succ fuel ih =>
    intro queue h calls h' hs e
    cases queue with
    | nil =>
      simp only [bfsLoop, Option.some.injEq] at e
      simp [bfsLoopCalls, bfsOrder, e]
    | cons v q =>
      simp only [bfsLoop] at e
      cases h1e : visitor.ExamineVertex h v with
      | none => simp [h1e] at e
      | some h1 =>
        simp only [h1e] at e
        have hs1 : ∀ n, (h1.node n).trie_transitions = (h0.node n).trie_transitions :=
          fun n => (hk.1 h v h1 h1e n).trans (hs n)
        cases h2e : visitEdges visitor (OutgoingEdges h1 v) h1 q with
        | none => simp [h2e] at e
        | some r =>
          obtain ⟨h2, q2⟩ := r
          simp only [h2e] at e
          obtain ⟨l1, l2⟩ := visitEdges_queue visitor hk _ _ _ _ _ h2e
          have hs2 : ∀ n, (h2.node n).trie_transitions = (h0.node n).trie_transitions :=
            fun n => (l2 n).trans (hs1 n)
          have hq : q2 = q ++ (h0.node v).trie_transitions.map Prod.snd := by
            rw [l1]
            simp only [OutgoingEdges, hs1 v, List.map_map]
            rfl
          simp only [bfsLoopCalls, h1e, visitEdgesCalls_eq, h2e, Option.map_some']
          rw [ih q2 h2 _ h' hs2 e, hq]
          simp only [bfsOrder, List.flatMap_cons, callsAt, OutgoingEdges, hs1 v,
            List.append_assoc, List.singleton_append, List.cons_append, List.nil_append]

/-- The vertices of `bfsOrder` complete the bookkeeping of the search. -/
theorem bfsOrder_inv {h0 : Automaton} {path : Nat → List Char} (t : TrieInv h0 path) :
    ∀ (fuel : Nat) (popped queue : List Nat), BfsInv h0 path popped queue →
      h0.size ≤ fuel + popped.length →
      BfsInv h0 path (popped ++ bfsOrder h0 fuel queue) [] := by
  intro fuel
  induction fuel with
  | zero =>
    intro popped queue b hf
    cases queue with
    | nil => simpa [bfsOrder] using b
    | cons v q =>
      have := nodup_length_le b.nodup b.lt
      simp only [List.length_append, List.length_cons] at this
      omega
  | succ fuel ih =>
    intro popped queue b hf
    cases queue with
    | nil => simpa [bfsOrder] using b
    | cons v q =>
      have := ih (popped ++ [v]) _ (b.step t) (by
        simp only [List.length_append, List.length_singleton]
        omega)
      simpa [bfsOrder] using this

theorem infix_flatMap_of_mem {α β : Type} (f : α → List β) {l : List α} {a : α} (ha : a ∈ l) :
    f a <:+: l.flatMap f := by
  obtain ⟨s, t, rfl⟩ := List.append_of_mem ha
  exact ⟨s.flatMap f, t.flatMap f, by simp [List.flatMap_append, List.flatMap_cons]⟩

theorem pairwise_flatMap_of {α β : Type} {R : β → β → Prop} {S : α → α → Prop} {l : List α}
    {f : α → List β} (hl : l.Pairwise S)
    (hin : ∀ a ∈ l, ∀ x ∈ f a, ∀ y ∈ f a, R x y)
    (hacross : ∀ a ∈ l, ∀ b ∈ l, S a b → ∀ x ∈ f a, ∀ y ∈ f b, R x y) :
    (l.flatMap f).Pairwise R := by
  rw [List.pairwise_flatMap]
  refine ⟨fun a ha => List.pairwise_of_forall_mem_list (hin a ha), ?_⟩
  exact List.Pairwise.imp_of_mem (fun {a b} ha hb hs => hacross a ha b hb hs) hl

theorem mem_callsAt {h0 : Automaton} {path : Nat → List Char} (t : TrieInv h0 path) (v : Nat)
    (x : VisitorCall) :
    x ∈ callsAt h0 v ↔ x = VisitorCall.ExamineVertex v ∨
      ∃ c m, mapFind (h0.node v).trie_transitions c = some m ∧
        (x = VisitorCall.ExamineEdge ⟨v, m, c⟩ ∨ x = VisitorCall.DiscoverVertex m) := by
  have hk := t.keys_nodup v
  simp only [callsAt, OutgoingEdges, List.mem_cons, List.mem_flatMap, List.mem_map,
    List.mem_singleton, GetTarget, List.not_mem_nil, or_false]
  constructor
  · rintro (h1 | ⟨e, ⟨a, ha, rfl⟩, h2⟩)
    · exact Or.inl h1
    · exact Or.inr ⟨a.1, a.2, mapFind_of_mem _ _ _ hk ha, h2⟩
  · rintro (h1 | ⟨c, m, hm, h2⟩)
    · exact Or.inl h1
    · exact Or.inr ⟨_, ⟨(c, m), mem_of_mapFind _ _ _ hm, rfl⟩, h2⟩

theorem child_ne {h0 : Automaton} {path : Nat → List Char} (t : TrieInv h0 path) {v m : Nat}
    {c : Char} (hv : v < h0.size) (hm : mapFind (h0.node v).trie_transitions c = some m) :
    (path m).length = (path v).length + 1 := by
  rw [(t.child v c m hv hm).2]
  simp

theorem callsAt_nodup {h0 : Automaton} {path : Nat → List Char} (t : TrieInv h0 path) {v : Nat}
    (hv : v < h0.size) : (callsAt h0 v).Nodup := by
  have hk := t.keys_nodup v
  have hc := children_nodup t hv
  simp only [callsAt, List.nodup_cons]
  refine ⟨?_, ?_⟩
  · simp [List.mem_flatMap]
  · rw [List.nodup_flatMap]
    refine ⟨fun e _ => by simp, ?_⟩
    simp only [OutgoingEdges, List.pairwise_map]
    have hp : (h0.node v).trie_transitions.Pairwise fun a b => a.2 ≠ b.2 := by
      have := List.pairwise_map.1 hc
      exact this
    refine hp.imp ?_
    intro a b hab
    simp only [Function.onFun, GetTarget]
    intro x hx hy
    simp only [List.mem_cons, List.mem_singleton, List.not_mem_nil, or_false] at hx hy
    rcases hx with rfl | rfl
    · rcases hy with h1 | h1
      · simp only [VisitorCall.ExamineEdge.injEq, Edge.mk.injEq] at h1
        exact hab h1.2.1
      · cases h1
    · rcases hy with h1 | h1
      · cases h1
      · simp only [VisitorCall.DiscoverVertex.injEq] at h1
        exact hab h1

theorem setSuffixLink_trie (h : Automaton) (m : Nat) (v : Option Nat) (n : Nat) :
    ((h.setSuffixLink m v).node n).trie_transitions = (h.node n).trie_transitions := by
  simp only [Automaton.setSuffixLink, Automaton.setNode]
  split
  · next e => rw [e]
  · rfl

theorem setTerminalLink_trie (h : Automaton) (m : Nat) (v : Option Nat) (n : Nat) :
    ((h.setTerminalLink m v).node n).trie_transitions = (h.node n).trie_transitions := by
  simp only [Automaton.setTerminalLink, Automaton.setNode]
  split
  · next e => rw [e]
  · rfl

theorem setCache_trie (h : Automaton) (m : Nat) (c : Char) (v : Option Nat) (n : Nat) :
    ((setCache h m c v).node n).trie_transitions = (h.node n).trie_transitions := by
  simp only [setCache, Automaton.setNode]
  split
  · next e => rw [e]
  · rfl

theorem GetAutomatonTransitionAux_trie (c : Char) (root : Option Nat) :
    ∀ (fuel : Nat) (h : Automaton) (x : Option Nat) (h' : Automaton) (r : Option Nat),
      GetAutomatonTransitionAux fuel h x root c = some (h', r) →
      ∀ n, (h'.node n).trie_transitions = (h.node n).trie_transitions := by
  intro fuel
  induction fuel with
  | zero =>
    intro h x h' r e
    simp [GetAutomatonTransitionAux] at e
  | succ fuel ih =>
    intro h x h' r e n
    cases x with
    | none => simp [GetAutomatonTransitionAux] at e
    | some a =>
      simp only [GetAutomatonTransitionAux] at e
      split at e
      · simp only [Option.some.injEq, Prod.mk.injEq] at e
        rw [← e.1, setCache_trie]
      · split at e
        · simp only [Option.some.injEq, Prod.mk.injEq] at e
          rw [← e.1, setCache_trie, setCache_trie]
        · split at e
          · split at e
            · simp at e
            · next h2 r2 e2 =>
              simp only [Option.some.injEq, Prod.mk.injEq] at e
              rw [← e.1, setCache_trie, ih _ _ _ _ e2 n, setCache_trie]
          · simp only [Option.some.injEq, Prod.mk.injEq] at e
            rw [← e.1, setCache_trie, setCache_trie]

theorem keepsTrie_base : KeepsTrie BfsVisitor.base := by
  refine ⟨fun h v h' e n => ?_, fun h v h' e n => ?_, fun h v h' e n => ?_⟩ <;>
  · simp only [BfsVisitor.base, Option.some.injEq] at e
    rw [e]

theorem keepsTrie_suffix (root_ : Option Nat) : KeepsTrie (SuffixLinkCalculator root_) := by
  refine ⟨fun h v h' e n => ?_, fun h ed h' e n => ?_, fun h v h' e n => ?_⟩
  · simp only [SuffixLinkCalculator] at e
    split at e
    · simp only [Option.some.injEq] at e
      rw [← e, setSuffixLink_trie]
    · simp only [Option.some.injEq] at e
      rw [e]
  · simp only [SuffixLinkCalculator] at e
    split at e
    · simp only [Option.some.injEq] at e
      rw [← e, setSuffixLink_trie]
    · split at e
      · simp at e
      · next h2 r e2 =>
        simp only [Option.some.injEq] at e
        rw [← e, setSuffixLink_trie,
          GetAutomatonTransitionAux_trie _ _ _ _ _ _ _ e2 n, setSuffixLink_trie]
  · simp only [SuffixLinkCalculator, Option.some.injEq] at e
    rw [e]

theorem keepsTrie_terminal (root_ : Option Nat) : KeepsTrie (TerminalLinkCalculator root_) := by
  refine ⟨fun h v h' e n => ?_, fun h ed h' e n => ?_, fun h v h' e n => ?_⟩
  · simp only [TerminalLinkCalculator, Option.some.injEq] at e
    rw [e]
  · simp only [TerminalLinkCalculator, Option.some.injEq] at e
    rw [e]
  · simp only [TerminalLinkCalculator] at e
    split at e
    · simp at e
    · split at e
      · simp only [Option.some.injEq] at e
        rw [← e, setTerminalLink_trie]
      · simp only [Option.some.injEq] at e
        rw [← e, setTerminalLink_trie]

/-- What the calls of a search over a trie satisfy: `order` is the order of the
vertices, with the bookkeeping of a finished search. -/
theorem calls_spec {h0 : Automaton} {path : Nat → List Char} (t : TrieInv h0 path)
    {order : List Nat} (b : BfsInv h0 path order []) :
    (order.flatMap (callsAt h0)).Nodup ∧
    (∀ n, VisitorCall.ExamineVertex n ∈ order.flatMap (callsAt h0) ↔ n < h0.size) ∧
    (∀ e, VisitorCall.ExamineEdge e ∈ order.flatMap (callsAt h0) ↔
      (e.source < h0.size ∧
        mapFind (h0.node e.source).trie_transitions e.character = some e.target)) ∧
    (∀ m, VisitorCall.DiscoverVertex m ∈ order.flatMap (callsAt h0) ↔
      (m < h0.size ∧ m ≠ 0)) ∧
    (∀ e, VisitorCall.ExamineEdge e ∈ order.flatMap (callsAt h0) →
      [VisitorCall.ExamineEdge e, VisitorCall.DiscoverVertex e.target] <:+:
        order.flatMap (callsAt h0)) ∧
    (order.flatMap (callsAt h0)).Pairwise (fun x y => ∀ a b,
      x = VisitorCall.ExamineVertex a → y = VisitorCall.ExamineVertex b →
      (path a).length ≤ (path b).length) ∧
    (order.flatMap (callsAt h0)).Pairwise (fun x y => ∀ e1 e2,
      x = VisitorCall.ExamineEdge e1 → y = VisitorCall.ExamineEdge e2 →
      e2.target ≠ e1.source) := by
  have hnd : order.Nodup := by simpa using b.nodup
  have hlt : ∀ n ∈ order, n < h0.size := fun n hn => b.lt n (by simpa using hn)
  have hall : ∀ n, n < h0.size → n ∈ order := fun n hn => b.below t _ n rfl hn (by simp)
  have hsorted : order.Pairwise fun a b => (path a).length ≤ (path b).length := by
    simpa using b.sorted
  refine ⟨?_, fun n => ?_, fun e => ?_, fun m => ?_, fun e he => ?_, ?_, ?_⟩
  · rw [List.nodup_flatMap]
    refine ⟨fun v hv => callsAt_nodup t (hlt v hv), ?_⟩
    refine List.Pairwise.imp_of_mem ?_ hnd
    intro v w hv hw hne x hx hy
    rcases (mem_callsAt t v x).1 hx with rfl | ⟨c, m, hm, rfl | rfl⟩
    · rcases (mem_callsAt t w _).1 hy with h1 | ⟨c', m', _, h1 | h1⟩
      · simp only [VisitorCall.ExamineVertex.injEq] at h1
        exact hne h1
      · cases h1
      · cases h1
    · rcases (mem_callsAt t w _).1 hy with h1 | ⟨c', m', _, h1 | h1⟩
      · cases h1
      · simp only [VisitorCall.ExamineEdge.injEq, Edge.mk.injEq] at h1
        exact hne h1.1
      · cases h1
    · rcases (mem_callsAt t w _).1 hy with h1 | ⟨c', m', hm', h1 | h1⟩
      · cases h1
      · cases h1
      · simp only [VisitorCall.DiscoverVertex.injEq] at h1
        subst h1
        have e1 := (t.child v c m (hlt v hv) hm).2
        have e2 := (t.child w c' m (hlt w hw) hm').2
        have := List.append_inj' (e1.symm.trans e2) rfl
        exact hne (t.inj_path (hlt v hv) (hlt w hw) this.1)
  · rw [List.mem_flatMap]
    constructor
    · rintro ⟨v, hv, hx⟩
      rcases (mem_callsAt t v _).1 hx with h1 | ⟨c, m, _, h1 | h1⟩
      · simp only [VisitorCall.ExamineVertex.injEq] at h1
        rw [h1]
        exact hlt v hv
      · cases h1
      · cases h1
    · intro hn
      exact ⟨n, hall n hn, (mem_callsAt t n _).2 (Or.inl rfl)⟩
  · rw [List.mem_flatMap]
    constructor
    · rintro ⟨v, hv, hx⟩
      rcases (mem_callsAt t v _).1 hx with h1 | ⟨c, m, hm, h1 | h1⟩
      · cases h1
      · simp only [VisitorCall.ExamineEdge.injEq] at h1
        rw [h1]
        exact ⟨hlt v hv, hm⟩
      · cases h1
    · rintro ⟨h1, h2⟩
      exact ⟨e.source, hall _ h1, (mem_callsAt t _ _).2 (Or.inr ⟨_, _, h2, Or.inl rfl⟩)⟩
  · rw [List.mem_flatMap]
    constructor
    · rintro ⟨v, hv, hx⟩
      rcases (mem_callsAt t v _).1 hx with h1 | ⟨c, m', hm, h1 | h1⟩
      · cases h1
      · cases h1
      · simp only [VisitorCall.DiscoverVertex.injEq] at h1
        subst h1
        refine ⟨(t.child v c m (hlt v hv) hm).1, ?_⟩
        rintro rfl
        have := child_ne t (hlt v hv) hm
        rw [t.path_root] at this
        simp at this
    · rintro ⟨h1, h2⟩
      obtain ⟨p, c, hp, hc⟩ := t.parent m h1 h2
      exact ⟨p, hall p hp, (mem_callsAt t _ _).2 (Or.inr ⟨_, _, hc, Or.inr rfl⟩)⟩
  · obtain ⟨v, hv, hx⟩ := List.mem_flatMap.1 he
    have hout : e ∈ OutgoingEdges h0 v := by
      simp only [callsAt, List.mem_cons, List.mem_flatMap, List.mem_singleton,
        List.not_mem_nil, or_false] at hx
      rcases hx with h1 | ⟨e', he', h1 | h1⟩
      · cases h1
      · simp only [VisitorCall.ExamineEdge.injEq] at h1
        rw [h1]
        exact he'
      · cases h1
    have i1 : [VisitorCall.ExamineEdge e, VisitorCall.DiscoverVertex e.target] <:+:
        (OutgoingEdges h0 v).flatMap fun edge =>
          [VisitorCall.ExamineEdge edge, VisitorCall.DiscoverVertex (GetTarget edge)] :=
      infix_flatMap_of_mem (fun edge =>
        [VisitorCall.ExamineEdge edge, VisitorCall.DiscoverVertex (GetTarget edge)]) hout
    have i2 : ((OutgoingEdges h0 v).flatMap fun edge =>
        [VisitorCall.ExamineEdge edge, VisitorCall.DiscoverVertex (GetTarget edge)]) <:+:
        callsAt h0 v := (List.suffix_cons _ _).isInfix
    exact (i1.trans i2).trans (infix_flatMap_of_mem (callsAt h0) hv)
  · refine pairwise_flatMap_of hsorted ?_ ?_
    · intro v hv x hx y hy a b' ha hb
      subst ha hb
      rcases (mem_callsAt t v _).1 hx with h1 | ⟨c, m, _, h1 | h1⟩
      · rcases (mem_callsAt t v _).1 hy with h2 | ⟨c', m', _, h2 | h2⟩
        · simp only [VisitorCall.ExamineVertex.injEq] at h1 h2
          rw [h1, h2]
        · cases h2
        · cases h2
      · cases h1
      · cases h1
    · intro v hv w hw hvw x hx y hy a b' ha hb
      subst ha hb
      rcases (mem_callsAt t v _).1 hx with h1 | ⟨c, m, _, h1 | h1⟩
      · rcases (mem_callsAt t w _).1 hy with h2 | ⟨c', m', _, h2 | h2⟩
        · simp only [VisitorCall.ExamineVertex.injEq] at h1 h2
          rw [h1, h2]
          exact hvw
        · cases h2
        · cases h2
      · cases h1
      · cases h1
  · have key : ∀ v ∈ order, ∀ w ∈ order, (path v).length ≤ (path w).length →
        ∀ x ∈ callsAt h0 v, ∀ y ∈ callsAt h0 w, ∀ e1 e2,
          x = VisitorCall.ExamineEdge e1 → y = VisitorCall.ExamineEdge e2 →
          e2.target ≠ e1.source := by
      intro v hv w hw hvw x hx y hy e1 e2 h1 h2
      subst h1 h2
      rcases (mem_callsAt t v _).1 hx with h1 | ⟨c, m, _, h1 | h1⟩
      · cases h1
      · rcases (mem_callsAt t w _).1 hy with h2 | ⟨c', m', hm', h2 | h2⟩
        · cases h2
        · simp only [VisitorCall.ExamineEdge.injEq] at h1 h2
          rw [h1, h2]
          simp only
          intro hmv
          have := child_ne t (hlt w hw) hm'
          rw [hmv] at this
          omega
        · cases h2
      · cases h1
    refine pairwise_flatMap_of hsorted ?_ ?_
    · intro v hv x hx y hy
      exact key v hv v hv le_rfl x hx y hy
    · intro v hv w hw hvw x hx y hy
      exact key v hv w hw hvw x hx y hy

end traverses

/-- C31: over the trie of any added patterns, BreadthFirstSearch from the root
returns within its budget of one iteration per node, and the calls it makes to
its visitor are the same list for the base visitor and for the two passes of
Build.  In this list no call occurs twice; ExamineVertex(n) occurs exactly for
the trie nodes n, in non-decreasing order of depth; ExamineEdge(e) occurs exactly
for the trie edges e and is directly followed by DiscoverVertex of the target of
e, and DiscoverVertex occurs for every node but the root; and no edge into a
node is examined after an edge that leaves this node. -/
theorem breadth_first_pass_calls (added : List (List Char × Nat)) :
    ∃ calls : List traverses.VisitorCall,
      (∃ h', traverses.BreadthFirstSearchCalls 0 (BuildTrie added Automaton.new)
        traverses.BfsVisitor.base = some (h', calls)) ∧
      (∃ h1 h2, traverses.BreadthFirstSearchCalls 0 (BuildTrie added Automaton.new)
          (SuffixLinkCalculator (BuildTrie added Automaton.new).rootPtr) = some (h1, calls) ∧
        traverses.BreadthFirstSearchCalls 0 h1 (TerminalLinkCalculator h1.rootPtr) =
          some (h2, calls) ∧
        Build added = some h2) ∧
      calls.Nodup ∧
      (∀ n, traverses.VisitorCall.ExamineVertex n ∈ calls ↔
        n < (BuildTrie added Automaton.new).size) ∧
      (∀ e, traverses.VisitorCall.ExamineEdge e ∈ calls ↔
        (e.source < (BuildTrie added Automaton.new).size ∧
          GetTrieTransition (BuildTrie added Automaton.new) e.source e.character =
            some e.target)) ∧
      (∀ m, traverses.VisitorCall.DiscoverVertex m ∈ calls ↔
        (m < (BuildTrie added Automaton.new).size ∧ m ≠ 0)) ∧
      (∀ e, traverses.VisitorCall.ExamineEdge e ∈ calls →
        [traverses.VisitorCall.ExamineEdge e, traverses.VisitorCall.DiscoverVertex e.target]
          <:+: calls) ∧
      calls.Pairwise (fun x y => ∀ a b wa wb,
        x = traverses.VisitorCall.ExamineVertex a → y = traverses.VisitorCall.ExamineVertex b →
        trieWalk (BuildTrie added Automaton.new) 0 wa = some a →
        trieWalk (BuildTrie added Automaton.new) 0 wb = some b → wa.length ≤ wb.length) ∧
      calls.Pairwise (fun x y => ∀ e1 e2,
        x = traverses.VisitorCall.ExamineEdge e1 → y = traverses.VisitorCall.ExamineEdge e2 →
        e2.target ≠ e1.source) := by
  obtain ⟨path, inv⟩ := BuildTrie_spec added
  have t := inv.trie
  have tk := inv.trieOK
  have b := traverses.bfsOrder_inv t (BuildTrie added Automaton.new).size [] [0]
    (traverses.BfsInv.bfs_start t) (by simp)
  rw [List.nil_append] at b
  obtain ⟨c1, c2, c3, c4, c5, c6, c7⟩ := traverses.calls_spec t b
  refine ⟨_, ?_, ?_, c1, c2, c3, c4, c5, ?_, c7⟩
  · obtain ⟨h', D, e, _, _⟩ := traverses.BreadthFirstSearch_spec traverses.BfsVisitor.base t
      (fun _ _ h => ∀ n, (h.node n).trie_transitions =
        ((BuildTrie added Automaton.new).node n).trie_transitions)
      (fun _ _ h => ∀ n, (h.node n).trie_transitions =
        ((BuildTrie added Automaton.new).node n).trie_transitions)
      (fun v D h hj => hj) (fun popped D h v hj _ _ => ⟨h, rfl, hj⟩)
      (fun v D h c m hj _ _ _ => ⟨h, h, rfl, rfl, hj⟩) (fun v popped D h hj => hj)
      (fun _ => rfl)
    refine ⟨h', ?_⟩
    have := traverses.bfsLoopCalls_eq traverses.BfsVisitor.base traverses.keepsTrie_base
      (BuildTrie added Automaton.new) _ [0] _ [] h' (fun _ => rfl) e
    simpa [traverses.BreadthFirstSearchCalls] using this
  · obtain ⟨h1, e1, base, hsuf⟩ := BuildSuffixLinks_spec inv
    obtain ⟨h2, e2, _, _, _⟩ := BuildTerminalLinks_spec tk base hsuf
    refine ⟨h1, h2, ?_, ?_, ?_⟩
    · have := traverses.bfsLoopCalls_eq _ (traverses.keepsTrie_suffix _)
        (BuildTrie added Automaton.new) _ [0] _ [] h1 (fun _ => rfl) e1
      simpa [traverses.BreadthFirstSearchCalls] using this
    · have := traverses.bfsLoopCalls_eq _ (traverses.keepsTrie_terminal _)
        (BuildTrie added Automaton.new) _ [0] _ [] h2 (fun n => (base.same.2 n).1) e2
      simp only [traverses.BreadthFirstSearchCalls, List.nil_append] at this ⊢
      rw [this, base.same.1]
    · simp only [Build, e1, e2]
  · refine c6.imp ?_
    intro x y hxy a b' wa wb ha hb hwa hwb
    have h1 := ((trieWalk_from_root tk wa a).1 hwa).2
    have h2 := ((trieWalk_from_root tk wb b').1 hwb).2
    rw [← h1, ← h2]
    exact hxy a b' ha hb

/-! ## The condensation and its source vertices -/

namespace condensation_review

theorem mapComponent_spec (i : Nat) :
    ∀ (c : List Nat) (m : VertexMapping) (x : Nat),
      mapComponent i c m x = if x ∈ c then i else m x := by
  intro c
  induction c with
  | nil => intro m x; simp [mapComponent]
  | cons v rest ih =>
    intro m x
    rw [mapComponent, ih]
    by_cases h1 : x ∈ rest
    · simp [h1]
    · by_cases h2 : x = v
      · simp [h1, h2]
      · simp [h1, h2]

theorem mapComponents_not_mem :
    ∀ (rest : List (List Nat)) (i : Nat) (m : VertexMapping) (x : Nat),
      (∀ c ∈ rest, x ∉ c) → mapComponents rest i m x = m x := by
  intro rest
  induction rest with
  | nil => intro i m x _; rfl
  | cons c rest ih =>
    intro i m x h
    rw [mapComponents, ih _ _ _ fun c' hc' => h c' (List.mem_cons_of_mem _ hc'),
      mapComponent_spec, if_neg (h c (List.mem_cons_self _ _))]

theorem mapComponents_spec :
    ∀ (rest : List (List Nat)) (i : Nat) (m : VertexMapping) (x : Nat),
      rest.Pairwise List.Disjoint →
      ∀ (j : Nat) (c : List Nat), rest[j]? = some c → x ∈ c →
        mapComponents rest i m x = i + j := by
  intro rest
  induction rest with
  | nil => intro i m x _ j c h; simp at h
  | cons c0 rest ih =>
    intro i m x hd j c hj hx
    rw [List.pairwise_cons] at hd
    cases j with
    | zero =>
      simp only [List.getElem?_cons_zero, Option.some.injEq] at hj
      subst hj
      rw [mapComponents, mapComponents_not_mem, mapComponent_spec, if_pos hx, Nat.add_zero]
      intro c' hc' hx'
      exact hd.1 c' hc' hx hx'
    | succ j =>
      simp only [List.getElem?_cons_succ] at hj
      rw [mapComponents, ih _ _ _ hd.2 j c hj hx]
      omega

theorem AddEdge_adj {g g' : Graph} {e : Edge} (h : g.AddEdge e = some g') :
    g'.adjacency_lists_.length = g.adjacency_lists_.length ∧
      ∀ a b, g'.Adj a b ↔ (g.Adj a b ∨ (a = e.source_ ∧ b = e.target_)) := by
  simp only [Graph.AddEdge] at h
  by_cases hs : e.source_ < g.adjacency_lists_.length
  · rw [if_pos hs, Option.some.injEq] at h
    subst h
    refine ⟨by simp, fun a b => ?_⟩
    simp only [Graph.Adj, List.getElem?_modify]
    by_cases ha : e.source_ = a
    · subst ha
      have hget : g.adjacency_lists_[e.source_]? = some g.adjacency_lists_[e.source_] :=
        List.getElem?_eq_getElem hs
      simp [hget]
    · cases hg : g.adjacency_lists_[a]? with
      | none => simp [ha, Ne.symm ha]
      | some targets => simp [ha, Ne.symm ha]
  · rw [if_neg hs] at h
    exact Option.noConfusion h

theorem AddEdge_total (g : Graph) (e : Edge) (h : e.source_ < g.adjacency_lists_.length) :
    ∃ g', g.AddEdge e = some g' := by
  simp only [Graph.AddEdge, if_pos h]
  exact ⟨_, rfl⟩

theorem condenseAdjacent_spec (mapping : VertexMapping) (id : Nat) :
    ∀ (adj : List Nat) (g : Graph) (seen : List Nat), id < g.adjacency_lists_.length →
      (∀ j, j ∈ seen ↔ g.Adj id j) →
      ∃ g' seen', condenseAdjacent mapping id adj (g, seen) = some (g', seen') ∧
        g'.adjacency_lists_.length = g.adjacency_lists_.length ∧
        (∀ j, j ∈ seen' ↔ g'.Adj id j) ∧
        ∀ a b, g'.Adj a b ↔ (g.Adj a b ∨ (a = id ∧ b ≠ id ∧ ∃ x ∈ adj, mapping x = b)) := by
  intro adj
  induction adj with
  | nil =>
    intro g seen _ hseen
    exact ⟨g, seen, rfl, rfl, hseen, fun a b => by simp⟩
  | cons x rest ih =>
    intro g seen hid hseen
    by_cases hc : mapping x ∉ seen ∧ mapping x ≠ id
    · obtain ⟨g1, e1⟩ := AddEdge_total g ⟨id, mapping x⟩ hid
      obtain ⟨l1, l2⟩ := AddEdge_adj e1
      obtain ⟨g', seen', e2, l3, l4, l5⟩ := ih g1 (setInsert seen (mapping x)) (by rw [l1]; exact hid)
        (fun j => by
          rw [mem_setInsert, l2, hseen]
          simp)
      refine ⟨g', seen', ?_, l3.trans l1, l4, fun a b => ?_⟩
      · simp only [condenseAdjacent, hc, not_false_eq_true, ne_eq, and_self, if_true, e1]
        exact e2
      · rw [l5, l2]
        simp only [List.mem_cons, exists_eq_or_imp]
        constructor
        · rintro ((h1 | ⟨h1, h2⟩) | ⟨h1, h2, h3⟩)
          · exact Or.inl h1
          · exact Or.inr ⟨h1, by rw [h2]; exact hc.2, Or.inl h2.symm⟩
          · exact Or.inr ⟨h1, h2, Or.inr h3⟩
        · rintro (h1 | ⟨h1, h2, h3 | h3⟩)
          · exact Or.inl (Or.inl h1)
          · exact Or.inl (Or.inr ⟨h1, h3.symm⟩)
          · exact Or.inr ⟨h1, h2, h3⟩
    · obtain ⟨g', seen', e2, l3, l4, l5⟩ := ih g seen hid hseen
      refine ⟨g', seen', ?_, l3, l4, fun a b => ?_⟩
      · simp only [condenseAdjacent]
        rw [if_neg hc]
        exact e2
      · rw [l5]
        simp only [List.mem_cons, exists_eq_or_imp]
        constructor
        · rintro (h1 | ⟨h1, h2, h3⟩)
          · exact Or.inl h1
          · exact Or.inr ⟨h1, h2, Or.inr h3⟩
        · rintro (h1 | ⟨h1, h2, h3 | h3⟩)
          · exact Or.inl h1
          · left
            by_cases hs : mapping x ∈ seen
            · rw [h1, ← h3]
              exact (hseen _).1 hs
            · exact absurd ⟨hs, fun h => h2 (h3 ▸ h)⟩ hc
          · exact Or.inr ⟨h1, h2, h3⟩

theorem condenseComponent_spec (graph : Graph) (mapping : VertexMapping) (id : Nat) :
    ∀ (comp : List Nat) (g : Graph) (seen : List Nat),
      (∀ v ∈ comp, v < graph.adjacency_lists_.length) → id < g.adjacency_lists_.length →
      (∀ j, j ∈ seen ↔ g.Adj id j) →
      ∃ g' seen', condenseComponent graph mapping id comp (g, seen) = some (g', seen') ∧
        g'.adjacency_lists_.length = g.adjacency_lists_.length ∧
        (∀ j, j ∈ seen' ↔ g'.Adj id j) ∧
        ∀ a b, g'.Adj a b ↔
          (g.Adj a b ∨ (a = id ∧ b ≠ id ∧ ∃ v ∈ comp, ∃ x, graph.Adj v x ∧ mapping x = b)) := by
  intro comp
  induction comp with
  | nil =>
    intro g seen _ _ hseen
    exact ⟨g, seen, rfl, rfl, hseen, fun a b => by simp⟩
  | cons v rest ih =>
    intro g seen hlt hid hseen
    have hv : v < graph.adjacency_lists_.length := hlt v (List.mem_cons_self _ _)
    have hget : graph.adjacency_lists_[v]? = some graph.adjacency_lists_[v] :=
      List.getElem?_eq_getElem hv
    obtain ⟨g1, seen1, e1, l1, l2, l3⟩ :=
      condenseAdjacent_spec mapping id graph.adjacency_lists_[v] g seen hid hseen
    obtain ⟨g', seen', e2, l4, l5, l6⟩ := ih g1 seen1
      (fun w hw => hlt w (List.mem_cons_of_mem _ hw)) (by rw [l1]; exact hid) l2
    refine ⟨g', seen', ?_, l4.trans l1, l5, fun a b => ?_⟩
    · simp only [condenseComponent, Graph.GetAdjacentVertices, hget, e1]
      exact e2
    · rw [l6, l3]
      simp only [List.mem_cons, exists_eq_or_imp]
      have hadj : ∀ x, graph.Adj v x ↔ x ∈ graph.adjacency_lists_[v] := by
        intro x
        simp [Graph.Adj, hget]
      constructor
      · rintro ((h1 | ⟨h1, h2, x, hx, h3⟩) | ⟨h1, h2, h3⟩)
        · exact Or.inl h1
        · exact Or.inr ⟨h1, h2, Or.inl ⟨x, (hadj x).2 hx, h3⟩⟩
        · exact Or.inr ⟨h1, h2, Or.inr h3⟩
      · rintro (h1 | ⟨h1, h2, ⟨x, hx, h3⟩ | h3⟩)
        · exact Or.inl (Or.inl h1)
        · exact Or.inl (Or.inr ⟨h1, h2, x, (hadj x).1 hx, h3⟩)
        · exact Or.inr ⟨h1, h2, h3⟩

theorem condenseLoop_spec (graph : Graph) (mapping : VertexMapping) :
    ∀ (rest : List (List Nat)) (id : Nat) (g : Graph),
      (∀ c ∈ rest, ∀ v ∈ c, v < graph.adjacency_lists_.length) →
      id + rest.length ≤ g.adjacency_lists_.length → (∀ a b, g.Adj a b → a < id) →
      ∃ g', condenseLoop graph mapping rest id g = some g' ∧
        g'.adjacency_lists_.length = g.adjacency_lists_.length ∧
        ∀ a b, g'.Adj a b ↔
          (g.Adj a b ∨ ∃ j c, rest[j]? = some c ∧ a = id + j ∧ b ≠ a ∧
            ∃ v ∈ c, ∃ x, graph.Adj v x ∧ mapping x = b) := by
  intro rest
  induction rest with
  | nil =>
    intro id g _ _ _
    exact ⟨g, rfl, rfl, fun a b => by simp⟩
  | cons c rest ih =>
    intro id g hlt hlen hlow
    simp only [List.length_cons] at hlen
    obtain ⟨g1, seen1, e1, l1, _, l3⟩ := condenseComponent_spec graph mapping id c g []
      (hlt c (List.mem_cons_self _ _)) (by omega)
      (fun j => ⟨fun h => by simp at h, fun h => absurd (hlow _ _ h) (lt_irrefl _)⟩)
    obtain ⟨g', e2, l4, l5⟩ := ih (id + 1) g1
      (fun c' hc' => hlt c' (List.mem_cons_of_mem _ hc')) (by rw [l1]; omega)
      (fun a b hab => by
        rcases (l3 a b).1 hab with h1 | ⟨h1, _⟩
        · exact Nat.lt_succ_of_lt (hlow a b h1)
        · omega)
    refine ⟨g', ?_, l4.trans l1, fun a b => ?_⟩
    · simp only [condenseLoop, e1]
      exact e2
    · rw [l5, l3]
      constructor
      · rintro ((h1 | ⟨h1, h2, h3⟩) | ⟨j, c', h1, h2, h3, h4⟩)
        · exact Or.inl h1
        · exact Or.inr ⟨0, c, List.getElem?_cons_zero, by omega, by rw [h1]; exact h2, h3⟩
        · exact Or.inr ⟨j + 1, c', by simpa using h1, by omega, h3, h4⟩
      · rintro (h1 | ⟨j, c', h1, h2, h3, h4⟩)
        · exact Or.inl (Or.inl h1)
        · cases j with
          | zero =>
            simp only [List.getElem?_cons_zero, Option.some.injEq] at h1
            subst h1
            exact Or.inl (Or.inr ⟨by omega, by rw [← show a = id by omega]; exact h3, h4⟩)
          | succ j =>
            exact Or.inr ⟨j, c', by simpa using h1, by omega, h3, h4⟩

theorem new_no_adj (k a b : Nat) : ¬ (Graph.new k).Adj a b := by
  rintro ⟨targets, h1, h2⟩
  simp only [Graph.new] at h1
  have := List.getElem?_mem h1
  rw [List.mem_replicate] at this
  rw [this.2] at h2
  simp at h2

/-- The graph that `MakeCondensedGraph` returns: an edge from set `a` to another
set `b` for every edge of the graph from a vertex of `a` to a vertex mapped to
`b`. -/
theorem MakeCondensedGraph_spec (graph : Graph) (components : List (List Nat))
    (hlt : ∀ c ∈ components, ∀ v ∈ c, v < graph.adjacency_lists_.length) :
    ∃ cg, MakeCondensedGraph graph components = some cg ∧
      cg.adjacency_lists_.length = components.length ∧
      ∀ a b, cg.Adj a b ↔ ∃ c, components[a]? = some c ∧ b ≠ a ∧
        ∃ v ∈ c, ∃ x, graph.Adj v x ∧ mapComponents components 0 (fun _ => 0) x = b := by
  obtain ⟨cg, e, l1, l2⟩ := condenseLoop_spec graph (mapComponents components 0 fun _ => 0)
    components 0 (Graph.new components.length) hlt (by simp [Graph.new])
    (fun a b h => absurd h (new_no_adj _ a b))
  refine ⟨cg, e, by simp [l1, Graph.new], fun a b => ?_⟩
  rw [l2]
  constructor
  · rintro (h1 | ⟨j, c, h1, h2, h3, h4⟩)
    · exact absurd h1 (new_no_adj _ a b)
    · have : a = j := by omega
      subst this
      exact ⟨c, h1, h3, h4⟩
  · rintro ⟨c, h1, h3, h4⟩
    exact Or.inr ⟨a, c, h1, by omega, h3, h4⟩

theorem clearTargets_spec :
    ∀ (adj : List Nat) (s : List Bool), (∀ v ∈ adj, v < s.length) →
      ∃ s', clearTargets adj s = some s' ∧ s'.length = s.length ∧
        ∀ i, s'[i]? = some true ↔ (s[i]? = some true ∧ i ∉ adj) := by
  intro adj
  induction adj with
  | nil =>
    intro s _
    exact ⟨s, rfl, rfl, fun i => by simp⟩
  | cons v rest ih =>
    intro s h
    have hv := h v (List.mem_cons_self _ _)
    obtain ⟨s', e, l1, l2⟩ := ih (s.set v false) (fun w hw => by
      rw [List.length_set]
      exact h w (List.mem_cons_of_mem _ hw))
    refine ⟨s', ?_, by rw [l1, List.length_set], fun i => ?_⟩
    · simp only [clearTargets, if_pos hv]
      exact e
    · rw [l2, List.getElem?_set]
      by_cases hi : v = i
      · subst hi
        simp [hv]
      · simp only [hi, if_false, List.mem_cons, not_or]
        constructor
        · rintro ⟨h1, h2⟩
          exact ⟨h1, Ne.symm hi, h2⟩
        · rintro ⟨h1, _, h2⟩
          exact ⟨h1, h2⟩

theorem clearLoop_spec (cg : Graph) (hr : cg.InRange) :
    ∀ (idxs : List Nat) (s : List Bool), s.length = cg.adjacency_lists_.length →
      (∀ i ∈ idxs, i < cg.adjacency_lists_.length) →
      ∃ s', clearLoop cg idxs s = some s' ∧ s'.length = s.length ∧
        ∀ i, s'[i]? = some true ↔ (s[i]? = some true ∧ ∀ j ∈ idxs, ¬ cg.Adj j i) := by
  intro idxs
  induction idxs with
  | nil =>
    intro s _ _
    exact ⟨s, rfl, rfl, fun i => by simp⟩
  | cons j rest ih =>
    intro s hlen hlt
    have hj := hlt j (List.mem_cons_self _ _)
    have hget : cg.adjacency_lists_[j]? = some cg.adjacency_lists_[j] :=
      List.getElem?_eq_getElem hj
    obtain ⟨s1, e1, l1, l2⟩ := clearTargets_spec cg.adjacency_lists_[j] s (fun v hv => by
      rw [hlen]
      exact hr _ (List.getElem_mem _) v hv)
    obtain ⟨s', e2, l3, l4⟩ := ih s1 (l1.trans hlen)
      (fun i hi => hlt i (List.mem_cons_of_mem _ hi))
    refine ⟨s', ?_, l3.trans l1, fun i => ?_⟩
    · simp only [clearLoop, Graph.GetAdjacentVertices, hget, e1]
      exact e2
    · rw [l4, l2]
      have hadj : cg.Adj j i ↔ i ∈ cg.adjacency_lists_[j] := by
        simp [Graph.Adj, hget]
      simp only [List.mem_cons, forall_eq_or_imp, hadj]
      tauto

theorem adj_source_lt {g : Graph} {a b : Nat} (h : g.Adj a b) :
    a < g.adjacency_lists_.length := by
  obtain ⟨targets, h1, _⟩ := h
  exact (List.getElem?_eq_some_iff.1 h1).1

/-- The set that `FindSourceVertices` returns holds the vertices without an
incoming edge. -/
theorem FindSourceVertices_spec (cg : Graph) (hr : cg.InRange) :
    ∃ sources, FindSourceVertices cg = some sources ∧
      ∀ i, i ∈ sources ↔ (i < cg.adjacency_lists_.length ∧ ∀ j, ¬ cg.Adj j i) := by
  obtain ⟨s', e, l1, l2⟩ := clearLoop_spec cg hr (List.range cg.adjacency_lists_.length)
    (List.replicate cg.adjacency_lists_.length true) (by simp)
    (fun i hi => List.mem_range.1 hi)
  have ef : FindSourceVertices cg = some ((List.range cg.adjacency_lists_.length).filter
      fun i => s'[i]? == some true) := by
    simp only [FindSourceVertices, Graph.GetVerticesCount, e]
  refine ⟨_, ef, fun i => ?_⟩
  simp only [List.mem_filter, List.mem_range, beq_iff_eq, l2]
  constructor
  · rintro ⟨h1, _, h3⟩
    exact ⟨h1, fun j hj => h3 j (adj_source_lt hj) hj⟩
  · rintro ⟨h1, h2⟩
    refine ⟨h1, ?_, fun j _ => h2 j⟩
    rw [List.getElem?_replicate, if_pos h1]

theorem minSizeLoop_spec (components : List (List Nat)) :
    ∀ (sources : List Nat) (m : Nat), (∀ src ∈ sources, src < components.length) →
      ∃ r, minSizeLoop components sources m = some r ∧ r ≤ m ∧
        (r = m ∨ ∃ src ∈ sources, ∃ c, components[src]? = some c ∧ c.length = r) ∧
        ∀ src ∈ sources, ∀ c, components[src]? = some c → r ≤ c.length := by
  intro sources
  induction sources with
  | nil =>
    intro m _
    exact ⟨m, rfl, le_rfl, Or.inl rfl, fun src h => by simp at h⟩
  | cons src rest ih =>
    intro m hlt
    have hs := hlt src (List.mem_cons_self _ _)
    have hget : components[src]? = some components[src] := List.getElem?_eq_getElem hs
    by_cases hc : components[src].length < m
    · obtain ⟨r, e, l1, l2, l3⟩ := ih components[src].length
        (fun x hx => hlt x (List.mem_cons_of_mem _ hx))
      refine ⟨r, ?_, by omega, ?_, ?_⟩
      · simp only [minSizeLoop, hget, if_pos hc]
        exact e
      · rcases l2 with h1 | ⟨x, hx, c, h1, h2⟩
        · exact Or.inr ⟨src, List.mem_cons_self _ _, _, hget, h1.symm⟩
        · exact Or.inr ⟨x, List.mem_cons_of_mem _ hx, c, h1, h2⟩
      · intro x hx c hxc
        rcases List.mem_cons.1 hx with h1 | h1
        · subst h1
          rw [hget, Option.some.injEq] at hxc
          rw [← hxc]
          exact l1
        · exact l3 x h1 c hxc
    · obtain ⟨r, e, l1, l2, l3⟩ := ih m (fun x hx => hlt x (List.mem_cons_of_mem _ hx))
      refine ⟨r, ?_, l1, ?_, ?_⟩
      · simp only [minSizeLoop, hget, if_neg hc]
        exact e
      · rcases l2 with h1 | ⟨x, hx, c, h1, h2⟩
        · exact Or.inl h1
        · exact Or.inr ⟨x, List.mem_cons_of_mem _ hx, c, h1, h2⟩
      · intro x hx c hxc
        rcases List.mem_cons.1 hx with h1 | h1
        · subst h1
          rw [hget, Option.some.injEq] at hxc
          rw [← hxc]
          omega
        · exact l3 x h1 c hxc

/-- The number that `CountMinSourceComponentSize` returns is the smallest size of
a strongly connected component without an incoming edge from outside. -/
theorem CountMinSourceComponentSize_spec (graph : Graph) (hr : graph.InRange)
    (hn : 1 ≤ graph.adjacency_lists_.length) :
    ∃ s, CountMinSourceComponentSize graph = some s ∧
      (∃ c : List Nat, c.Nodup ∧ graph.IsComponent c ∧ graph.IsSourceSet c ∧ c.length = s) ∧
      ∀ c : List Nat, c.Nodup → graph.IsComponent c → graph.IsSourceSet c → s ≤ c.length := by
  obtain ⟨fs, O, e, inv, hO⟩ := FindStrongConnectivityComponents_spec graph hr
  have hlt : ∀ c ∈ fs.component_vertices_, ∀ v ∈ c, v < graph.adjacency_lists_.length :=
    fun c hc v hv => (hO v).1 ((inv.cover v).2 ⟨c, hc, hv⟩)
  have hmap : ∀ (j : Nat) (c : List Nat), fs.component_vertices_[j]? = some c → ∀ x ∈ c,
      mapComponents fs.component_vertices_ 0 (fun _ => 0) x = j := by
    intro j c hj x hx
    rw [mapComponents_spec _ 0 _ x inv.disjoint j c hj hx, Nat.zero_add]
  have hidx : ∀ v, v < graph.adjacency_lists_.length →
      ∃ (j : Nat) (c : List Nat), fs.component_vertices_[j]? = some c ∧ v ∈ c := by
    intro v hv
    obtain ⟨c, hc, hvc⟩ := (inv.cover v).1 ((hO v).2 hv)
    obtain ⟨j, hj⟩ := List.getElem?_of_mem hc
    exact ⟨j, c, hj, hvc⟩
  have hcomp : ∀ (j : Nat) (c : List Nat), fs.component_vertices_[j]? = some c →
      graph.IsComponent c := by
    intro j c hj
    have hc := List.getElem?_mem hj
    exact ⟨inv.nonempty c hc, hlt c hc, inv.classes c hc⟩
  obtain ⟨cg, e2, l1, l2⟩ := MakeCondensedGraph_spec graph fs.component_vertices_ hlt
  have hrc : cg.InRange := by
    intro targets ht b hb
    obtain ⟨a, ha⟩ := List.getElem?_of_mem ht
    obtain ⟨c, _, _, v, _, x, hvx, hx⟩ := (l2 a b).1 ⟨targets, ha, hb⟩
    obtain ⟨j, c', hj, hxc⟩ := hidx x (hr.adj_lt hvx)
    rw [hmap j c' hj x hxc] at hx
    rw [l1, ← hx]
    exact (List.getElem?_eq_some_iff.1 hj).1
  obtain ⟨sources, e3, l3⟩ := FindSourceVertices_spec cg hrc
  have hsrc : ∀ (i : Nat) (c : List Nat), fs.component_vertices_[i]? = some c →
      (i ∈ sources ↔ graph.IsSourceSet c) := by
    intro i c hi
    have hik : i < cg.adjacency_lists_.length := by
      rw [l1]
      exact (List.getElem?_eq_some_iff.1 hi).1
    rw [l3]
    constructor
    · rintro ⟨_, h2⟩ a b hab hb
      obtain ⟨j, c', hj, hac⟩ := hidx a (adj_source_lt hab)
      by_cases hji : j = i
      · subst hji
        rw [hi, Option.some.injEq] at hj
        rw [hj]
        exact hac
      · exact absurd ((l2 j i).2 ⟨c', hj, Ne.symm hji, a, hac, b, hab, hmap i c hi b hb⟩) (h2 j)
    · intro hs
      refine ⟨hik, fun j hj => ?_⟩
      obtain ⟨c', hj', hne, v, hv, x, hvx, hx⟩ := (l2 j i).1 hj
      obtain ⟨j2, c2, hj2, hxc⟩ := hidx x (hr.adj_lt hvx)
      rw [hmap j2 c2 hj2 x hxc] at hx
      have hcc : c2 = c := by
        rw [hx, hi] at hj2
        exact (Option.some.inj hj2).symm
      have hvc := hs v x hvx (hcc ▸ hxc)
      have h1 := hmap i c hi v hvc
      have h2 := hmap j c' hj' v hv
      exact hne (h1.symm.trans h2)
  have hsl : ∀ src ∈ sources, src < fs.component_vertices_.length := fun src h => by
    rw [← l1]
    exact ((l3 src).1 h).1
  obtain ⟨r, e4, l4, l5, l6⟩ := minSizeLoop_spec fs.component_vertices_ sources
    graph.adjacency_lists_.length hsl
  have hatt : ∃ src ∈ sources, ∃ c : List Nat,
      fs.component_vertices_[src]? = some c ∧ c.length = r := by
    rcases l5 with h1 | h1
    · obtain ⟨j0, c0', hj0, h0c⟩ := hidx 0 hn
      obtain ⟨c0, rest, hcs⟩ : ∃ c0 rest, fs.component_vertices_ = c0 :: rest := by
        cases hcs : fs.component_vertices_ with
        | nil => simp [hcs] at hj0
        | cons c0 rest => exact ⟨c0, rest, rfl⟩
      have hsorted := inv.sorted
      rw [hcs, List.pairwise_cons] at hsorted
      have h0 : fs.component_vertices_[0]? = some c0 := by rw [hcs]; simp
      have hs0 : graph.IsSourceSet c0 := by
        intro a b hab hb
        obtain ⟨j, c', hj, hac⟩ := hidx a (adj_source_lt hab)
        cases j with
        | zero =>
          rw [h0, Option.some.injEq] at hj
          rw [hj]
          exact hac
        | succ j =>
          rw [hcs, List.getElem?_cons_succ] at hj
          exact absurd hab (hsorted.1 c' (List.getElem?_mem hj) a hac b hb)
      have hm0 : 0 ∈ sources := (hsrc 0 c0 h0).2 hs0
      have hc0 : c0 ∈ fs.component_vertices_ := by rw [hcs]; exact List.mem_cons_self _ _
      have hle : c0.length ≤ graph.adjacency_lists_.length :=
        traverses.nodup_length_le (inv.nodup c0 hc0) (hlt c0 hc0)
      have := l6 0 hm0 c0 h0
      exact ⟨0, hm0, c0, h0, by omega⟩
    · exact h1
  refine ⟨r, ?_, ?_, ?_⟩
  · simp only [CountMinSourceComponentSize, e, e2, e3, Graph.GetVerticesCount]
    exact e4
  · obtain ⟨src, hs, c, hc, hl⟩ := hatt
    exact ⟨c, inv.nodup c (List.getElem?_mem hc), hcomp src c hc, (hsrc src c hc).1 hs, hl⟩
  · intro c hnd hc hs
    obtain ⟨a, ha⟩ := List.exists_mem_of_ne_nil c hc.1
    obtain ⟨j, c', hj, hac⟩ := hidx a (hc.2.1 a ha)
    have hc' := List.getElem?_mem hj
    have hsame : ∀ b, b ∈ c ↔ b ∈ c' := fun b =>
      (hc.2.2 a ha b).trans (inv.classes c' hc' a hac b).symm
    have hs' : graph.IsSourceSet c' := fun x y hxy hy =>
      (hsame x).1 (hs x y hxy ((hsame y).2 hy))
    have hperm := (List.perm_ext_iff_of_nodup hnd (inv.nodup c' hc')).2 hsame
    rw [hperm.length_eq]
    exact l6 j ((hsrc j c' hj).2 hs') c' hj

/-- The graph built from a list of edges with sources below the number of
vertices. -/
theorem ofEdges_spec (n : Nat) (edges : List Edge) (hs : ∀ e ∈ edges, e.source_ < n) :
    ∃ graph, Graph.ofEdges n edges = some graph ∧ graph.adjacency_lists_.length = n ∧
      ∀ a b, graph.Adj a b ↔ ∃ e ∈ edges, e.source_ = a ∧ e.target_ = b := by
  obtain ⟨graph, e⟩ := addEdges_total edges (Graph.new n) (by simpa [Graph.new] using hs)
  obtain ⟨l1, l2⟩ := addEdges_spec _ _ graph e
  have hlen : graph.adjacency_lists_.length = n := by simp [l1, Graph.new]
  refine ⟨graph, e, hlen, fun a b => ?_⟩
  constructor
  · intro hab
    have ha := adj_source_lt hab
    rw [hlen] at ha
    obtain ⟨targets, h1, h2⟩ := hab
    have hnew : (Graph.new n).adjacency_lists_[a]? = some [] := by
      simp [Graph.new, List.getElem?_replicate, ha]
    rw [l2 a [] hnew, Option.some.injEq] at h1
    rw [← h1] at h2
    simp only [List.nil_append, List.mem_map, List.mem_filter, decide_eq_true_eq] at h2
    obtain ⟨x, ⟨hx1, hx2⟩, hx3⟩ := h2
    exact ⟨x, hx1, hx2, hx3⟩
  · rintro ⟨x, hx1, hx2, hx3⟩
    have ha : a < n := hx2 ▸ hs x hx1
    have hnew : (Graph.new n).adjacency_lists_[a]? = some [] := by
      simp [Graph.new, List.getElem?_replicate, ha]
    refine ⟨_, l2 a [] hnew, ?_⟩
    simp only [List.nil_append, List.mem_map, List.mem_filter, decide_eq_true_eq]
    exact ⟨x, ⟨hx1, hx2⟩, hx3⟩

theorem inRange_of_adj {graph : Graph}
    (h : ∀ a b, graph.Adj a b → b < graph.adjacency_lists_.length) : graph.InRange := by
  intro targets ht b hb
  obtain ⟨a, ha⟩ := List.getElem?_of_mem ht
  exact h a b ⟨targets, ha, hb⟩

end condensation_review

/-- C34: for n >= 1 players and games between players 0..n-1, FindMaxCompanySize
returns n - s + 1, where s is the smallest size of a strongly connected
component, of the graph with an edge from the winner to the loser of every game,
that no edge enters from another component. -/
theorem max_company_size (n : Nat) (games : List condensation_review.Game) (hn : 1 ≤ n)
    (hg : ∀ g ∈ games, g.winner_id < n ∧ g.loser_id < n) :
    ∃ graph s,
      condensation_review.Graph.ofEdges n (games.map condensation_review.Game.toEdge) =
        some graph ∧
      graph.GetVerticesCount = n ∧
      (∀ a b, graph.Adj a b ↔ ∃ g ∈ games, g.winner_id = a ∧ g.loser_id = b) ∧
      condensation_review.CountMinSourceComponentSize graph = some s ∧
      condensation_review.FindMaxCompanySize n games = some ((n : Int) - (s : Int) + 1) ∧
      (∃ c : List Nat, c.Nodup ∧ graph.IsComponent c ∧ graph.IsSourceSet c ∧ c.length = s) ∧
      ∀ c : List Nat, c.Nodup → graph.IsComponent c → graph.IsSourceSet c → s ≤ c.length := by
  obtain ⟨graph, e, hlen, hadj⟩ := condensation_review.ofEdges_spec n
    (games.map condensation_review.Game.toEdge) (fun x hx => by
      obtain ⟨g, hg1, rfl⟩ := List.mem_map.1 hx
      exact (hg g hg1).1)
  have hadj' : ∀ a b, graph.Adj a b ↔ ∃ g ∈ games, g.winner_id = a ∧ g.loser_id = b := by
    intro a b
    rw [hadj]
    constructor
    · rintro ⟨x, hx, h1, h2⟩
      obtain ⟨g, hg1, rfl⟩ := List.mem_map.1 hx
      exact ⟨g, hg1, h1, h2⟩
    · rintro ⟨g, hg1, h1, h2⟩
      exact ⟨_, List.mem_map.2 ⟨g, hg1, rfl⟩, h1, h2⟩
  have hr : graph.InRange := condensation_review.inRange_of_adj fun a b hab => by
    obtain ⟨g, hg1, _, h2⟩ := (hadj' a b).1 hab
    rw [hlen, ← h2]
    exact (hg g hg1).2
  obtain ⟨s, es, h1, h2⟩ := condensation_review.CountMinSourceComponentSize_spec graph hr
    (by omega)
  refine ⟨graph, s, e, hlen, hadj', es, ?_, h1, h2⟩
  simp only [condensation_review.FindMaxCompanySize, e, es]

/-- Witness of C34: three players, the first two having won against each other;
the third alone is the smallest component without incoming edge, and the result
is 3 - 1 + 1. -/
theorem max_company_size_witness :
    (1 ≤ 3 ∧ ∀ g ∈ ([⟨0, 1⟩, ⟨1, 0⟩] : List condensation_review.Game),
      g.winner_id < 3 ∧ g.loser_id < 3) ∧
    condensation_review.FindMaxCompanySize 3 [⟨0, 1⟩, ⟨1, 0⟩] = some 3 ∧
    ∃ graph s,
      condensation_review.Graph.ofEdges 3
        (([⟨0, 1⟩, ⟨1, 0⟩] : List condensation_review.Game).map
          condensation_review.Game.toEdge) = some graph ∧
      graph.GetVerticesCount = 3 ∧
      (∀ a b, graph.Adj a b ↔
        ∃ g ∈ ([⟨0, 1⟩, ⟨1, 0⟩] : List condensation_review.Game),
          g.winner_id = a ∧ g.loser_id = b) ∧
      condensation_review.CountMinSourceComponentSize graph = some s ∧
      condensation_review.FindMaxCompanySize 3 [⟨0, 1⟩, ⟨1, 0⟩] =
        some (((3 : Nat) : Int) - (s : Int) + 1) ∧
      (∃ c : List Nat, c.Nodup ∧ graph.IsComponent c ∧ graph.IsSourceSet c ∧ c.length = s) ∧
      ∀ c : List Nat, c.Nodup → graph.IsComponent c → graph.IsSourceSet c → s ≤ c.length :=
  ⟨⟨by decide, by decide⟩, by decide,
    max_company_size 3 [⟨0, 1⟩, ⟨1, 0⟩] (by decide) (by decide)⟩

/-! ## The graph of Review_2_2/prog.cpp -/

namespace review_2_2_prog

theorem filter_lt_of_sorted (v : Nat) :
    ∀ l : List Edge, l.Pairwise (fun a b => a.source_ ≤ b.source_) →
      l = (l.filter fun e => decide (e.source_ < v)) ++
        l.filter fun e => decide (v ≤ e.source_) := by
  intro l
  induction l with
  | nil => intro _; rfl
  | cons a l ih =>
    intro h
    rw [List.pairwise_cons] at h
    by_cases ha : a.source_ < v
    · have h2 : ¬ v ≤ a.source_ := by omega
      simp only [List.filter_cons, ha, h2, decide_True, decide_False, if_true, List.cons_append,
        Bool.false_eq_true, if_false]
      exact congrArg _ (ih h.2)
    · have h2 : v ≤ a.source_ := by omega
      have h3 : (l.filter fun e => decide (e.source_ < v)) = [] := by
        rw [List.filter_eq_nil_iff]
        intro x hx
        have := h.1 x hx
        simp only [decide_eq_true_eq]
        omega
      have h4 : (l.filter fun e => decide (v ≤ e.source_)) = l := by
        rw [List.filter_eq_self]
        intro x hx
        have := h.1 x hx
        simp only [decide_eq_true_eq]
        omega
      simp [List.filter_cons, ha, h2, h3, h4]

theorem takeWhile_append_of {α : Type} (p : α → Bool) :
    ∀ (a b : List α), (∀ x ∈ a, p x = true) → (∀ x ∈ b, p x = false) →
      (a ++ b).takeWhile p = a := by
  intro a
  induction a with
  | nil =>
    intro b _ hb
    cases b with
    | nil => rfl
    | cons x b => simp [List.takeWhile, hb x (List.mem_cons_self _ _)]
  | cons x a ih =>
    intro b ha hb
    simp only [List.cons_append, List.takeWhile_cons, ha x (List.mem_cons_self _ _), if_true]
    rw [ih b (fun y hy => ha y (List.mem_cons_of_mem _ hy)) hb]

/-- The number of edges whose source is below `v`. -/
theorem drop_count (l : List Edge) (hl : l.Pairwise fun a b => a.source_ ≤ b.source_)
    (v : Nat) :
    l.drop (l.filter fun e => decide (e.source_ < v)).length =
      (l.filter fun e => decide (e.source_ = v)) ++
        l.filter fun e => decide (v + 1 ≤ e.source_) := by
  have h1 := filter_lt_of_sorted v l hl
  have h2 : l.drop (l.filter fun e => decide (e.source_ < v)).length =
      l.filter fun e => decide (v ≤ e.source_) := by
    have h0 := List.drop_left (l.filter fun e => decide (e.source_ < v))
      (l.filter fun e => decide (v ≤ e.source_))
    rw [← h1] at h0
    exact h0
  rw [h2]
  have h3 := filter_lt_of_sorted (v + 1) (l.filter fun e => decide (v ≤ e.source_))
    (hl.sublist (List.filter_sublist _))
  rw [List.filter_filter, List.filter_filter] at h3
  rw [h3]
  congr 1
  · apply List.filter_congr
    intro x _
    rw [Bool.eq_iff_iff]
    simp only [Bool.and_eq_true, decide_eq_true_eq]
    omega
  · apply List.filter_congr
    intro x _
    rw [Bool.eq_iff_iff]
    simp only [Bool.and_eq_true, decide_eq_true_eq]
    omega

theorem count_succ (l : List Edge) (hl : l.Pairwise fun a b => a.source_ ≤ b.source_)
    (v : Nat) :
    (l.filter fun e => decide (e.source_ < v + 1)).length =
      (l.filter fun e => decide (e.source_ < v)).length +
        (l.filter fun e => decide (e.source_ = v)).length := by
  have h1 := filter_lt_of_sorted v l hl
  have h2 := congrArg List.length (drop_count l hl v)
  have h3 := filter_lt_of_sorted (v + 1) l hl
  have h4 := congrArg List.length h3
  have h5 := congrArg List.length h1
  simp only [List.length_append, List.length_drop] at h2 h4 h5
  have h6 : (l.filter fun e => decide (e.source_ < v)).length ≤ l.length :=
    List.length_filter_le _ _
  omega

theorem findNext_count (l : List Edge) (hl : l.Pairwise fun a b => a.source_ ≤ b.source_)
    (v : Nat) :
    findNext l v (l.filter fun e => decide (e.source_ < v)).length =
      (l.filter fun e => decide (e.source_ < v + 1)).length := by
  rw [findNext, drop_count l hl v, takeWhile_append_of, count_succ l hl v]
  · intro x hx
    simpa using (List.mem_filter.1 hx).2
  · intro x hx
    have := (List.mem_filter.1 hx).2
    simp only [decide_eq_true_eq] at this
    simp only [beq_eq_false_iff_ne, ne_eq]
    omega

theorem beginsLoop_eq (l : List Edge) (hl : l.Pairwise fun a b => a.source_ ≤ b.source_) :
    ∀ (k v : Nat), beginsLoop l (List.range' v k) (l.filter fun e => decide (e.source_ < v)).length =
      (List.range' v k).map fun w => (l.filter fun e => decide (e.source_ < w)).length := by
  intro k
  induction k with
  | zero => intro v; rfl
  | succ k ih =>
    intro v
    rw [List.range'_succ, beginsLoop, findNext_count l hl v, ih (v + 1)]
    rfl

theorem begins_eq (sort : List Edge → List Edge) (hsort : IsSort sort) (n : Nat)
    (edges : List Edge) (hs : ∀ e ∈ edges, e.source_ < n) :
    (Graph.new sort n edges).begins_ =
      (List.range (n + 1)).map fun w =>
        ((sort edges).filter fun e => decide (e.source_ < w)).length := by
  have h1 := beginsLoop_eq (sort edges) (hsort edges).2 n 0
  have h0 : ((sort edges).filter fun e => decide (e.source_ < 0)).length = 0 := by
    simp
  rw [h0] at h1
  have h2 : ((sort edges).filter fun e => decide (e.source_ < n)) = sort edges := by
    rw [List.filter_eq_self]
    intro x hx
    simpa using hs x ((hsort edges).1.mem_iff.1 hx)
  simp only [Graph.new, List.range_eq_range', h1]
  rw [List.range'_concat, List.map_append, List.map_singleton, Nat.zero_add, Nat.one_mul, h2]

/-- The edges that `OutgoingEdges` returns for a vertex are the edges of the
sorted array with that source. -/
theorem OutgoingEdges_eq (sort : List Edge → List Edge) (hsort : IsSort sort) (n : Nat)
    (edges : List Edge) (hs : ∀ e ∈ edges, e.source_ < n) (v : Nat) (hv : v < n) :
    (Graph.new sort n edges).OutgoingEdges v =
      some ((sort edges).filter fun e => decide (e.source_ = v)) := by
  have hb := begins_eq sort hsort n edges hs
  have h1 : (Graph.new sort n edges).begins_[v]? =
      some ((sort edges).filter fun e => decide (e.source_ < v)).length := by
    rw [hb, List.getElem?_map, List.getElem?_range (by omega)]
    rfl
  have h2 : (Graph.new sort n edges).begins_[v + 1]? =
      some ((sort edges).filter fun e => decide (e.source_ < v + 1)).length := by
    rw [hb, List.getElem?_map, List.getElem?_range (by omega)]
    rfl
  have h3 := count_succ (sort edges) (hsort edges).2 v
  have h4 : ((sort edges).filter fun e => decide (e.source_ < v + 1)).length ≤
      (sort edges).length := List.length_filter_le _ _
  have h5 : (Graph.new sort n edges).edges_ = sort edges := rfl
  rw [Graph.OutgoingEdges, h1, h2]
  simp only [h5]
  rw [if_pos ⟨by omega, h4⟩, drop_count (sort edges) (hsort edges).2 v, h3,
    Nat.add_sub_cancel_left, List.take_left]

theorem toReview_adjacent {graph : Graph} (hw : graph.WellFormed) {v : Nat} {adjacent : List Nat}
    (h : graph.toReview.GetAdjacentVertices v = some adjacent) :
    ∃ es, graph.OutgoingEdges v = some es ∧ (∀ e ∈ es, e.source_ = v) ∧
      adjacent = es.map Edge.target_ := by
  simp only [Graph.toReview, condensation_review.Graph.GetAdjacentVertices,
    List.getElem?_map] at h
  have hv : v < graph.number_of_vertices_ := by
    by_contra hc
    rw [List.getElem?_eq_none (by simpa using hc)] at h
    simp at h
  rw [List.getElem?_range hv] at h
  obtain ⟨es, h1, h2⟩ := hw v hv
  refine ⟨es, h1, h2, ?_⟩
  simp only [Option.map_some', h1, Option.getD_some, Option.some.injEq] at h
  exact h.symm

theorem Rel.isBlack {d : DepthFirstSearch} {st : condensation_review.StatusMap} (r : Rel d st) (v : Nat) :
    d.IsBlack v = condensation_review.IsVertexBlack st v := by
  rw [Bool.eq_iff_iff]
  simp only [DepthFirstSearch.IsBlack, condensation_review.IsVertexBlack, decide_eq_true_eq, beq_iff_eq]
  exact (r.black v).symm

theorem Rel.isGray {d : DepthFirstSearch} {st : condensation_review.StatusMap} (r : Rel d st) (v : Nat) :
    d.IsGray v = condensation_review.IsVertexGrey st v := by
  rw [Bool.eq_iff_iff]
  simp only [DepthFirstSearch.IsGray, condensation_review.IsVertexGrey, decide_eq_true_eq, beq_iff_eq]
  exact (r.gray v).symm

theorem Rel.insert_gray {d : DepthFirstSearch} {st : condensation_review.StatusMap} (r : Rel d st) {origin : Nat}
    (hb : st origin ≠ some condensation_review.VertexStatus.kBlack) :
    Rel { d with gray_vertices_ := condensation_review.setInsert d.gray_vertices_ origin }
      (condensation_review.setStatus st origin condensation_review.VertexStatus.kGrey) := by
  refine ⟨fun v => ?_, fun v => ?_, condensation_review.nodup_setInsert r.nodup origin⟩
  · simp only [condensation_review.setStatus]
    by_cases hv : v = origin
    · subst hv
      simp only [if_true, Option.some.injEq, reduceCtorEq, false_iff]
      exact fun h => hb ((r.black v).2 h)
    · simp only [hv, if_false]
      exact r.black v
  · simp only [condensation_review.setStatus, condensation_review.mem_setInsert]
    by_cases hv : v = origin
    · simp [hv]
    · simp only [hv, if_false, or_false]
      exact r.gray v

theorem Rel.finish {d : DepthFirstSearch} {st : condensation_review.StatusMap} (r : Rel d st) (origin : Nat) :
    Rel { black_vertices_ := condensation_review.setInsert d.black_vertices_ origin,
          gray_vertices_ := d.gray_vertices_.erase origin }
      (condensation_review.setStatus st origin condensation_review.VertexStatus.kBlack) := by
  refine ⟨fun v => ?_, fun v => ?_, r.nodup.erase origin⟩
  · simp only [condensation_review.setStatus, condensation_review.mem_setInsert]
    by_cases hv : v = origin
    · simp [hv]
    · simp only [hv, if_false, or_false]
      exact r.black v
  · simp only [condensation_review.setStatus, r.nodup.mem_erase_iff]
    by_cases hv : v = origin
    · simp [hv]
    · simp only [hv, if_false, ne_eq, not_false_eq_true, true_and]
      exact r.gray v

theorem searchEdges_sim {σ : Type} (graph : Graph) (visitor : DfsVisitor σ) (fuel : Nat)
    (origin : Nat)
    (ih : ∀ (v : Nat) (d : DepthFirstSearch) (st : condensation_review.StatusMap) (s : σ) (st' : condensation_review.StatusMap)
      (s' : σ), Rel d st → st v ≠ some condensation_review.VertexStatus.kBlack →
      condensation_review.Search graph.toReview visitor.toReview fuel v (st, s) =
        some (st', s') →
      ∃ d', Search graph visitor fuel v (d, s) = some (d', s') ∧ Rel d' st') :
    ∀ (es : List Edge), (∀ e ∈ es, e.source_ = origin) →
      ∀ (d : DepthFirstSearch) (st : condensation_review.StatusMap) (s : σ) (st' : condensation_review.StatusMap) (s' : σ),
      Rel d st →
      condensation_review.searchEdges visitor.toReview
        (condensation_review.Search graph.toReview visitor.toReview fuel) origin
        (es.map Edge.target_) (st, s) = some (st', s') →
      ∃ d', searchEdges visitor (Search graph visitor fuel) es (d, s) = some (d', s') ∧
        Rel d' st' := by
  intro es
  induction es with
  | nil =>
    intro _ d st s st' s' r h
    simp only [List.map_nil, condensation_review.searchEdges, Option.some.injEq,
      Prod.mk.injEq] at h
    obtain ⟨h1, h2⟩ := h
    subst h1
    subst h2
    exact ⟨d, rfl, r⟩
  | cons e rest ihes =>
    intro hsrc d st s st' s' r h
    have he : e.source_ = origin := hsrc e (List.mem_cons_self _ _)
    have hrest : ∀ x ∈ rest, x.source_ = origin := fun x hx =>
      hsrc x (List.mem_cons_of_mem _ hx)
    have hee : (⟨origin, e.target_⟩ : Edge) = e := by
      cases e
      simp only at he
      simp [he]
    rw [List.map_cons, condensation_review.searchEdges] at h
    rw [searchEdges]
    simp only [r.isBlack, r.isGray]
    by_cases hb : condensation_review.IsVertexBlack st e.target_ = true
    · simp only [hb, not_true_eq_false, if_false] at h ⊢
      simp only [DfsVisitor.toReview, hee] at h
      exact ihes hrest d st _ st' s' r h
    · simp only [hb, not_false_eq_true, if_true] at h ⊢
      by_cases hg : condensation_review.IsVertexGrey st e.target_ = true
      · simp only [hg, not_true_eq_false, if_false] at h ⊢
        simp only [DfsVisitor.toReview, hee] at h
        exact ihes hrest d st _ st' s' r h
      · simp only [hg, not_false_eq_true, if_true] at h ⊢
        cases h1 : condensation_review.Search graph.toReview visitor.toReview fuel e.target_
            (st, visitor.toReview.DiscoverVertex s e.target_) with
        | none => simp [h1] at h
        | some state1 =>
          rw [h1] at h
          simp only at h
          have hnb : st e.target_ ≠ some condensation_review.VertexStatus.kBlack := by
            intro hc
            apply hb
            simp [condensation_review.IsVertexBlack, hc]
          obtain ⟨d1, e1, r1⟩ := ih e.target_ d st _ state1.1 state1.2 r hnb h1
          have e1' : Search graph visitor fuel e.target_
              (d, visitor.DiscoverVertex s e.target_) = some (d1, state1.2) := e1
          simp only [e1']
          exact ihes hrest d1 state1.1 state1.2 st' s' r1 h

/-- The search of prog.cpp makes the calls of the search of
condensation_review.cpp on the same adjacency lists. -/
theorem Search_sim {σ : Type} (graph : Graph) (hw : graph.WellFormed) (visitor : DfsVisitor σ) :
    ∀ (fuel : Nat) (v : Nat) (d : DepthFirstSearch) (st : condensation_review.StatusMap) (s : σ) (st' : condensation_review.StatusMap)
      (s' : σ), Rel d st → st v ≠ some condensation_review.VertexStatus.kBlack →
      condensation_review.Search graph.toReview visitor.toReview fuel v (st, s) =
        some (st', s') →
      ∃ d', Search graph visitor fuel v (d, s) = some (d', s') ∧ Rel d' st' := by
  intro fuel
  induction fuel with
  | zero =>
    intro v d st s st' s' _ _ h
    simp [condensation_review.Search] at h
  | succ fuel ih =>
    intro v d st s st' s' r hb h
    rw [condensation_review.Search] at h
    cases ha : graph.toReview.GetAdjacentVertices v with
    | none => simp [ha] at h
    | some adjacent =>
      obtain ⟨es, h1, h2, h3⟩ := toReview_adjacent hw ha
      rw [ha] at h
      simp only at h
      cases hs : condensation_review.searchEdges visitor.toReview
          (condensation_review.Search graph.toReview visitor.toReview fuel) v adjacent
          (condensation_review.setStatus st v condensation_review.VertexStatus.kGrey, s) with
      | none => simp [hs] at h
      | some state1 =>
        rw [hs] at h
        simp only [DfsVisitor.toReview, Option.some.injEq, Prod.mk.injEq] at h
        obtain ⟨h4, h5⟩ := h
        rw [h3] at hs
        obtain ⟨d1, e1, r1⟩ := searchEdges_sim graph visitor fuel v ih es h2 _ _ s
          state1.1 state1.2 (r.insert_gray hb) hs
        refine ⟨_, ?_, h4 ▸ r1.finish v⟩
        rw [Search]
        simp only [h1, e1, h5]

theorem sourceEdges_spec (G : condensation_review.Graph) (old : List Nat) (fuel origin : Nat)
    (ih : ∀ (v : Nat) (st : condensation_review.StatusMap) (s : SourceComponentSizeCalculator) (st' : condensation_review.StatusMap)
      (s' : SourceComponentSizeCalculator), SourcePre old st s →
      st v ≠ some condensation_review.VertexStatus.kBlack →
      condensation_review.Search G SourceComponentSizeCalculator.visitor.toReview fuel v
        (st, s) = some (st', s') →
      SourcePre old st' s' ∧ SourceStep G old s s') :
    ∀ (adj : List Nat) (st : condensation_review.StatusMap) (s : SourceComponentSizeCalculator) (st' : condensation_review.StatusMap)
      (s' : SourceComponentSizeCalculator), SourcePre old st s →
      condensation_review.searchEdges SourceComponentSizeCalculator.visitor.toReview
        (condensation_review.Search G SourceComponentSizeCalculator.visitor.toReview fuel)
        origin adj (st, s) = some (st', s') →
      SourcePre old st' s' ∧ (∀ x ∈ s.component_vertices_, x ∈ s'.component_vertices_) ∧
      (s'.is_source_ = true ↔ (s.is_source_ = true ∧
        (∀ u ∈ s'.component_vertices_, u ∉ s.component_vertices_ →
          ∀ t, G.Adj u t → t ∉ old) ∧ ∀ t ∈ adj, t ∉ old)) := by
  intro adj
  induction adj with
  | nil =>
    intro st s st' s' pre h
    simp only [condensation_review.searchEdges, Option.some.injEq, Prod.mk.injEq] at h
    obtain ⟨h1, h2⟩ := h
    subst h1
    subst h2
    refine ⟨pre, fun x hx => hx, ?_⟩
    constructor
    · intro h
      exact ⟨h, fun u hu hu' => absurd hu hu', fun t ht => by simp at ht⟩
    · intro h
      exact h.1
  | cons t rest ihr =>
    intro st s st' s' pre h
    rw [condensation_review.searchEdges] at h
    rcases condensation_review.status_cases st t with hv | hv | hv
    · -- white: the recursive call
      have hnb : st t ≠ some condensation_review.VertexStatus.kBlack := by rw [hv]; simp
      have hto : t ∉ old := fun hc => hnb ((pre.black t).2 (Or.inl hc))
      simp only [condensation_review.IsVertexBlack, condensation_review.IsVertexGrey, hv, beq_iff_eq, reduceCtorEq, not_false_eq_true,
        if_true] at h
      cases h1 : condensation_review.Search G SourceComponentSizeCalculator.visitor.toReview
          fuel t (st, SourceComponentSizeCalculator.visitor.toReview.DiscoverVertex s t) with
      | none => simp [h1] at h
      | some state1 =>
        rw [h1] at h
        simp only at h
        obtain ⟨pre1, step1⟩ := ih t st _ state1.1 state1.2 pre hnb h1
        obtain ⟨pre2, mono2, src2⟩ := ihr state1.1 state1.2 st' s' pre1 h
        refine ⟨pre2, fun x hx => mono2 x (step1.mono x hx), ?_⟩
        rw [src2, step1.source]
        constructor
        · rintro ⟨⟨a1, a2⟩, a3, a4⟩
          refine ⟨a1, fun u hu hu' => ?_, fun x hx => ?_⟩
          · by_cases hu1 : u ∈ state1.2.component_vertices_
            · exact a2 u hu1 hu'
            · exact a3 u hu hu1
          · rcases List.mem_cons.1 hx with hx1 | hx1
            · rw [hx1]
              exact hto
            · exact a4 x hx1
        · rintro ⟨a1, a2, a3⟩
          exact ⟨⟨a1, fun u hu hu' => a2 u (mono2 u hu) hu'⟩,
            fun u hu hu' => a2 u hu (fun hc => hu' (step1.mono u hc)),
            fun x hx => a3 x (List.mem_cons_of_mem _ hx)⟩
    · -- grey: a back edge
      have hto : t ∉ old := fun hc => by
        have := (pre.black t).2 (Or.inl hc)
        rw [hv] at this
        simp at this
      simp only [condensation_review.IsVertexBlack, condensation_review.IsVertexGrey, hv, beq_iff_eq, reduceCtorEq, not_false_eq_true,
        if_true, Option.some.injEq, not_true_eq_false, if_false] at h
      have hB : SourceComponentSizeCalculator.visitor.toReview.BackEdge s ⟨origin, t⟩ = s := rfl
      rw [hB] at h
      obtain ⟨pre2, mono2, src2⟩ := ihr st s st' s' pre h
      refine ⟨pre2, mono2, ?_⟩
      rw [src2]
      constructor
      · rintro ⟨a1, a2, a3⟩
        refine ⟨a1, a2, fun x hx => ?_⟩
        rcases List.mem_cons.1 hx with hx1 | hx1
        · rw [hx1]
          exact hto
        · exact a3 x hx1
      · rintro ⟨a1, a2, a3⟩
        exact ⟨a1, a2, fun x hx => a3 x (List.mem_cons_of_mem _ hx)⟩
    · -- black: a forward or cross edge
      simp only [condensation_review.IsVertexBlack, hv, beq_self_eq_true, not_true_eq_false, if_false] at h
      by_cases hc : t ∈ s.component_vertices_
      · have hF : SourceComponentSizeCalculator.visitor.toReview.ForwardOrCrossEdge s
            ⟨origin, t⟩ = s := by
          simp [DfsVisitor.toReview, SourceComponentSizeCalculator.visitor, hc]
        rw [hF] at h
        obtain ⟨pre2, mono2, src2⟩ := ihr st s st' s' pre h
        refine ⟨pre2, mono2, ?_⟩
        rw [src2]
        constructor
        · rintro ⟨a1, a2, a3⟩
          refine ⟨a1, a2, fun x hx => ?_⟩
          rcases List.mem_cons.1 hx with hx1 | hx1
          · rw [hx1]
            exact pre.fresh t hc
          · exact a3 x hx1
        · rintro ⟨a1, a2, a3⟩
          exact ⟨a1, a2, fun x hx => a3 x (List.mem_cons_of_mem _ hx)⟩
      · have hF : SourceComponentSizeCalculator.visitor.toReview.ForwardOrCrossEdge s
            ⟨origin, t⟩ = { s with is_source_ := false } := by
          simp [DfsVisitor.toReview, SourceComponentSizeCalculator.visitor, hc]
        rw [hF] at h
        have hto : t ∈ old := by
          rcases (pre.black t).1 hv with h1 | h1
          · exact h1
          · exact absurd h1 hc
        obtain ⟨pre2, mono2, src2⟩ := ihr st { s with is_source_ := false } st' s'
          ⟨pre.black, pre.fresh⟩ h
        refine ⟨pre2, mono2, ?_⟩
        rw [src2]
        constructor
        · rintro ⟨a1, _, _⟩
          simp at a1
        · rintro ⟨_, _, a3⟩
          exact absurd hto (a3 t (List.mem_cons_self _ _))

/-- One search of the backward pass: `is_source_` stays true exactly when no
edge of the searched graph leads from a vertex finished by this search to a
vertex that was black before the tree. -/
theorem sourceSearch_spec (G : condensation_review.Graph) (old : List Nat) :
    ∀ (fuel : Nat) (v : Nat) (st : condensation_review.StatusMap) (s : SourceComponentSizeCalculator)
      (st' : condensation_review.StatusMap) (s' : SourceComponentSizeCalculator), SourcePre old st s →
      st v ≠ some condensation_review.VertexStatus.kBlack →
      condensation_review.Search G SourceComponentSizeCalculator.visitor.toReview fuel v
        (st, s) = some (st', s') →
      SourcePre old st' s' ∧ SourceStep G old s s' := by
  intro fuel
  induction fuel with
  | zero =>
    intro v st s st' s' _ _ h
    simp [condensation_review.Search] at h
  | succ fuel ih =>
    intro v st s st' s' pre hb h
    rw [condensation_review.Search] at h
    cases ha : G.GetAdjacentVertices v with
    | none => simp [ha] at h
    | some adjacent =>
      rw [ha] at h
      simp only at h
      cases hs : condensation_review.searchEdges
          SourceComponentSizeCalculator.visitor.toReview
          (condensation_review.Search G SourceComponentSizeCalculator.visitor.toReview fuel)
          v adjacent (condensation_review.setStatus st v condensation_review.VertexStatus.kGrey, s) with
      | none => simp [hs] at h
      | some state1 =>
        rw [hs] at h
        simp only [DfsVisitor.toReview, SourceComponentSizeCalculator.visitor,
          Option.some.injEq, Prod.mk.injEq] at h
        obtain ⟨h4, h5⟩ := h
        have hvo : v ∉ old := fun hc => hb ((pre.black v).2 (Or.inl hc))
        have hvc : v ∉ s.component_vertices_ := fun hc => hb ((pre.black v).2 (Or.inr hc))
        have pre0 : SourcePre old (condensation_review.setStatus st v condensation_review.VertexStatus.kGrey) s := by
          refine ⟨fun x => ?_, pre.fresh⟩
          simp only [condensation_review.setStatus]
          by_cases hx : x = v
          · subst hx
            simp only [if_true, Option.some.injEq, reduceCtorEq, false_iff, not_or]
            exact ⟨hvo, hvc⟩
          · simp only [hx, if_false]
            exact pre.black x
        obtain ⟨pre1, mono1, src1⟩ := sourceEdges_spec G old fuel v ih adjacent _ s
          state1.1 state1.2 pre0 hs
        have hadj : ∀ t, G.Adj v t ↔ t ∈ adjacent := by
          intro t
          constructor
          · rintro ⟨targets, h1, h2⟩
            simp only [condensation_review.Graph.GetAdjacentVertices] at ha
            rw [ha] at h1
            simp only [Option.some.injEq] at h1
            rw [h1]
            exact h2
          · intro ht
            exact ⟨adjacent, ha, ht⟩
        subst h4
        subst h5
        refine ⟨⟨fun x => ?_, fun x hx => ?_⟩, ⟨fun x hx => ?_, ?_⟩⟩
        · simp only [condensation_review.setStatus, condensation_review.mem_setInsert]
          by_cases hx : x = v
          · simp [hx]
          · simp only [hx, if_false, or_false]
            exact pre1.black x
        · simp only [condensation_review.mem_setInsert] at hx
          rcases hx with hx | hx
          · exact pre1.fresh x hx
          · rw [hx]
            exact hvo
        · simp only [condensation_review.mem_setInsert]
          exact Or.inl (mono1 x hx)
        · simp only [condensation_review.mem_setInsert]
          rw [src1]
          constructor
          · rintro ⟨a1, a2, a3⟩
            refine ⟨a1, fun u hu hu' t ht => ?_⟩
            rcases hu with hu | hu
            · exact a2 u hu hu' t ht
            · rw [hu] at ht
              exact a3 t ((hadj t).1 ht)
          · rintro ⟨a1, a2⟩
            exact ⟨a1, fun u hu hu' => a2 u (Or.inl hu) hu',
              fun t ht => a2 v (Or.inr rfl) hvc t ((hadj t).2 ht)⟩

theorem toReview_length (graph : Graph) :
    graph.toReview.adjacency_lists_.length = graph.number_of_vertices_ := by
  simp [Graph.toReview]

theorem forwardLoop_sim (graph : Graph) (hw : graph.WellFormed) :
    ∀ (indices : List Nat) (d : DepthFirstSearch) (st : condensation_review.StatusMap) (s : TopoOrderCalculator)
      (st' : condensation_review.StatusMap) (s' : TopoOrderCalculator), Rel d st →
      condensation_review.disjointLoop graph.toReview TopoOrderCalculator.visitor.toReview
        indices (st, s) = some (st', s') →
      ∃ d', forwardLoop graph indices (d, s) = some (d', s') ∧ Rel d' st' := by
  intro indices
  induction indices with
  | nil =>
    intro d st s st' s' r h
    simp only [condensation_review.disjointLoop, Option.some.injEq, Prod.mk.injEq] at h
    obtain ⟨h1, h2⟩ := h
    subst h1
    subst h2
    exact ⟨d, rfl, r⟩
  | cons v rest ih =>
    intro d st s st' s' r h
    rw [condensation_review.disjointLoop] at h
    rw [forwardLoop, DepthFirstSearch.call]
    simp only [r.isBlack]
    by_cases hb : condensation_review.IsVertexBlack st v = true
    · simp only [hb, not_true_eq_false, if_false] at h ⊢
      exact ih d st s st' s' r h
    · simp only [hb, not_false_eq_true, if_true, condensation_review.DepthFirstSearcher.call]
        at h ⊢
      cases h1 : condensation_review.Search graph.toReview
          TopoOrderCalculator.visitor.toReview graph.toReview.GetVerticesCount v
          (st, TopoOrderCalculator.visitor.toReview.DiscoverVertex
            (TopoOrderCalculator.visitor.toReview.InitializeComponent s) v) with
      | none => simp [h1] at h
      | some state1 =>
        rw [h1] at h
        have hnb : st v ≠ some condensation_review.VertexStatus.kBlack := by
          intro hc
          apply hb
          simp [condensation_review.IsVertexBlack, hc]
        rw [condensation_review.Graph.GetVerticesCount, toReview_length] at h1
        obtain ⟨d1, e1, r1⟩ := Search_sim graph hw TopoOrderCalculator.visitor
          graph.number_of_vertices_ v d st _ state1.1 state1.2 r hnb h1
        have e1' : Search graph TopoOrderCalculator.visitor graph.GetNumberOfVertices v
            (d, TopoOrderCalculator.visitor.DiscoverVertex s v) = some (d1, state1.2) := e1
        simp only [e1']
        exact ih d1 state1.1 state1.2 st' s' r1 h

/-- The first loop of `FindMinSourceComponentSize` returns, with the vertices in
the order of their `FinishVertex` calls. -/
theorem forwardLoop_spec (graph : Graph) (hw : graph.WellFormed)
    (hr : graph.toReview.InRange) :
    ∃ d s st, forwardLoop graph (List.range graph.GetNumberOfVertices)
        (DepthFirstSearch.new, TopoOrderCalculator.new) = some (d, s) ∧
      condensation_review.DfsInv graph.toReview st s.order_ [] ∧
      ∀ v, v < graph.number_of_vertices_ → v ∈ s.order_ := by
  obtain ⟨st', s', O', e, inv, hT, hall⟩ := condensation_review.disjointLoop_spec
    graph.toReview hr TopoOrderCalculator.visitor.toReview
    (fun O s => s.order_ = O) (List.range graph.toReview.adjacency_lists_.length)
    (fun v hv => List.mem_range.1 hv)
    (fun pre r post O s st _ _ _ hT _ =>
      ⟨fun O s => s.order_ = O,
        ⟨fun _ _ _ h => h, fun _ _ _ h => h, fun _ _ _ h => h,
          fun O s v h => ⟨_, rfl, by simp [TopoOrderCalculator.visitor, h]⟩⟩,
        hT, fun L s' st' h _ _ => h⟩)
    (List.range graph.toReview.adjacency_lists_.length) [] (fun _ => none)
    TopoOrderCalculator.new []
    rfl (fun v hv => by simp at hv) (condensation_review.DfsInv.dfs_start graph.toReview) rfl
  rw [toReview_length] at e hall
  obtain ⟨d', e', _⟩ := forwardLoop_sim graph hw _ DepthFirstSearch.new _ _ st' s'
    ⟨fun v => by simp [DepthFirstSearch.new], fun v => by simp [DepthFirstSearch.new],
      List.nodup_nil⟩ e
  refine ⟨d', s', st', e', ?_, fun v hv => ?_⟩
  · rw [hT]
    exact inv
  · rw [hT]
    exact hall v (List.mem_range.2 hv)

theorem source_tracks (O : List Nat) :
    condensation_review.Tracks SourceComponentSizeCalculator.visitor.toReview
      (fun O' s => ∃ X, O' = O ++ X ∧ s.component_vertices_.Nodup ∧
        ∀ v, v ∈ s.component_vertices_ ↔ v ∈ X) := by
  refine ⟨fun _ _ _ h => h, fun _ _ _ h => h, ?_, ?_⟩
  · rintro O' s e ⟨X, h1, h2, h3⟩
    refine ⟨X, h1, ?_, ?_⟩
    · simp only [DfsVisitor.toReview, SourceComponentSizeCalculator.visitor]
      split <;> exact h2
    · simp only [DfsVisitor.toReview, SourceComponentSizeCalculator.visitor]
      split <;> exact h3
  · rintro O' s v ⟨X, h1, h2, h3⟩
    refine ⟨_, rfl, X ++ [v], by rw [h1, List.append_assoc], condensation_review.nodup_setInsert h2 v, fun w => ?_⟩
    show w ∈ condensation_review.setInsert s.component_vertices_ v ↔ w ∈ X ++ [v]
    rw [condensation_review.mem_setInsert, h3]
    simp

/-- The second loop of `FindMinSourceComponentSize`: it returns; the trees of the
backward search are classes of mutual reachability, and `min_size` is the
initial value or the size of a class that no edge enters, and is at most the
size of every such class found. -/
theorem backwardLoop_spec (gc : condensation_review.Graph) (gT : Graph) (hwT : gT.WellFormed)
    (hadj : ∀ a b, gT.toReview.Adj a b ↔ gc.Adj b a)
    (hlen : gT.toReview.adjacency_lists_.length = gc.adjacency_lists_.length)
    (hrT : gT.toReview.InRange) (n0 : Nat)
    {O1 : List Nat} {st1 : condensation_review.StatusMap} (inv1 : condensation_review.DfsInv gc st1 O1 [])
    (hall : ∀ v, v < gc.adjacency_lists_.length → v ∈ O1) :
    ∀ (post pre : List Nat) (d : DepthFirstSearch) (st : condensation_review.StatusMap) (O : List Nat)
      (fs : condensation_review.StrongConnectComponentFinder) (m : Nat),
      O1.reverse = pre ++ post → (∀ v ∈ pre, v ∈ O) → condensation_review.DfsInv gT.toReview st O [] →
      Rel d st → condensation_review.FinderInv gc O fs →
      (m = n0 ∨ ∃ c ∈ fs.component_vertices_, gc.IsSourceSet c ∧ c.length = m) →
      (∀ c ∈ fs.component_vertices_, gc.IsSourceSet c → m ≤ c.length) →
      ∃ d' O' fs' m', backwardLoop gT post (d, m) = some (d', m') ∧
        (∀ v ∈ O', v < gc.adjacency_lists_.length) ∧ condensation_review.FinderInv gc O' fs' ∧
        (m' = n0 ∨ ∃ c ∈ fs'.component_vertices_, gc.IsSourceSet c ∧ c.length = m') ∧
        (∀ c ∈ fs'.component_vertices_, gc.IsSourceSet c → m' ≤ c.length) ∧
        ∀ v ∈ O1.reverse, v ∈ O' := by
  intro post
  induction post with
  | nil =>
    intro pre d st O fs m ho hpre inv rel hF hm1 hm2
    refine ⟨d, O, fs, m, rfl, fun v hv => ?_, hF, hm1, hm2, fun v hv => hpre v ?_⟩
    · rw [← hlen]
      exact inv.lt v (by simpa using hv)
    · rw [ho] at hv
      simpa using hv
  | cons r post ih =>
    intro pre d st O fs m ho hpre inv rel hF hm1 hm2
    have ho' : O1.reverse = (pre ++ [r]) ++ post := by rw [ho]; simp
    rcases condensation_review.status_cases st r with hv | hv | hv
    · obtain ⟨hrO, _⟩ := inv.white hv
      have hr1 : r ∈ O1 := by
        rw [← List.mem_reverse, ho]
        simp
      have hlt : r < gT.toReview.adjacency_lists_.length := by
        rw [hlen]
        exact inv1.lt r (by simpa using hr1)
      have hnb : st r ≠ some condensation_review.VertexStatus.kBlack := by rw [hv]; simp
      obtain ⟨st2, s2, L, e1, inv2, hL, X, hX, hnd, hmem⟩ :=
        condensation_review.Search_spec gT.toReview hrT
          SourceComponentSizeCalculator.visitor.toReview _ (source_tracks O)
          gT.toReview.adjacency_lists_.length r st SourceComponentSizeCalculator.new O []
          inv hv hlt (by omega) (fun x hx => by simp at hx)
          ⟨[], by simp, by simp [SourceComponentSizeCalculator.new],
            fun v => by simp [SourceComponentSizeCalculator.new]⟩
      have hXL : X = L ++ [r] := by
        have : O ++ (L ++ [r]) = O ++ X := by rw [← hX]; simp
        exact (List.append_cancel_left this).symm
      obtain ⟨d2, e2, rel2⟩ := Search_sim gT hwT SourceComponentSizeCalculator.visitor
        gT.toReview.adjacency_lists_.length r d st SourceComponentSizeCalculator.new st2 s2
        rel hnb e1
      obtain ⟨pre2, step2⟩ := sourceSearch_spec gT.toReview O
        gT.toReview.adjacency_lists_.length r st SourceComponentSizeCalculator.new st2 s2
        ⟨fun x => by
            rw [inv.black x]
            simp [SourceComponentSizeCalculator.new],
          fun x hx => by simp [SourceComponentSizeCalculator.new] at hx⟩ hnb e1
      have hF2 : condensation_review.FinderInv gc (O ++ L ++ [r])
          ⟨(fs.component_vertices_.length : Int),
            fs.component_vertices_ ++ [s2.component_vertices_]⟩ :=
        condensation_review.FinderInv.tree hadj hlen inv1 hall ho hpre inv hF
          ⟨X, s2.component_vertices_, hX, rfl, rfl, hnd, hmem⟩ inv2 hL
      have hsrc : s2.is_source_ = true ↔ gc.IsSourceSet s2.component_vertices_ := by
        rw [step2.source]
        constructor
        · rintro ⟨_, h2⟩ a b hab hb
          have hba := (hadj b a).2 hab
          have hbf : b ∈ O ++ L ++ [r] := by
            rw [hX]
            exact List.mem_append_right _ ((hmem b).1 hb)
          rcases inv2.closed b hbf a hba with h3 | h3
          · rw [hX] at h3
            rcases List.mem_append.1 h3 with h4 | h4
            · exact absurd h4 (h2 b hb (by simp [SourceComponentSizeCalculator.new]) a hba)
            · exact (hmem a).2 h4
          · simp at h3
        · intro hs
          refine ⟨rfl, fun u hu _ t hut => ?_⟩
          exact pre2.fresh t (hs t u ((hadj u t).1 hut) hu)
      have hpre2 : ∀ v ∈ pre ++ [r], v ∈ O ++ L ++ [r] := by
        intro v hv'
        rcases List.mem_append.1 hv' with h1 | h1
        · simp [hpre v h1]
        · simp only [List.mem_singleton] at h1
          simp [h1]
      have hcall : DepthFirstSearch.call gT SourceComponentSizeCalculator.visitor r
          (d, SourceComponentSizeCalculator.new) = some (d2, s2) := by
        rw [DepthFirstSearch.call]
        have hB : d.IsBlack r = false := by
          rw [rel.isBlack]
          simp [condensation_review.IsVertexBlack, hv]
        simp only [hB, Bool.false_eq_true, not_false_eq_true, if_true]
        rw [toReview_length] at e2
        exact e2
      have hB : d.IsBlack r = false := by
        rw [rel.isBlack]
        simp [condensation_review.IsVertexBlack, hv]
      by_cases hc : s2.is_source_ = true ∧ s2.component_vertices_.length < m
      · obtain ⟨d3, O3, fs3, m3, e3, hlt3, hF3, hm3, hm4, hall3⟩ := ih (pre ++ [r]) d2 st2
          (O ++ L ++ [r]) _ s2.component_vertices_.length ho' hpre2 inv2 rel2 hF2
          (Or.inr ⟨s2.component_vertices_, by simp, hsrc.1 hc.1, rfl⟩)
          (fun c hc' hs => by
            rcases List.mem_append.1 hc' with h1 | h1
            · have := hm2 c h1 hs
              omega
            · simp only [List.mem_singleton] at h1
              rw [h1])
        refine ⟨d3, O3, fs3, m3, ?_, hlt3, hF3, hm3, hm4, hall3⟩
        rw [backwardLoop]
        simp only [hB, Bool.false_eq_true, not_false_eq_true, if_true, hcall, hc, and_self]
        exact e3
      · obtain ⟨d3, O3, fs3, m3, e3, hlt3, hF3, hm3, hm4, hall3⟩ := ih (pre ++ [r]) d2 st2
          (O ++ L ++ [r]) _ m ho' hpre2 inv2 rel2 hF2
          (by
            rcases hm1 with h1 | ⟨c, h1, h2, h3⟩
            · exact Or.inl h1
            · exact Or.inr ⟨c, List.mem_append_left _ h1, h2, h3⟩)
          (fun c hc' hs => by
            rcases List.mem_append.1 hc' with h1 | h1
            · exact hm2 c h1 hs
            · simp only [List.mem_singleton] at h1
              rw [h1] at hs ⊢
              by_contra hlt'
              exact hc ⟨hsrc.2 hs, by omega⟩)
        refine ⟨d3, O3, fs3, m3, ?_, hlt3, hF3, hm3, hm4, hall3⟩
        rw [backwardLoop]
        simp only [hB, Bool.false_eq_true, not_false_eq_true, if_true, hcall, hc, if_false]
        exact e3
    · have := (inv.is_grey r).1 hv
      simp at this
    · obtain ⟨d3, O3, fs3, m3, e3, hlt3, hF3, hm3, hm4, hall3⟩ := ih (pre ++ [r]) d st O fs m ho'
        (fun v hv' => by
          rcases List.mem_append.1 hv' with h1 | h1
          · exact hpre v h1
          · simp only [List.mem_singleton] at h1
            rw [h1]
            exact (inv.black r).1 hv) inv rel hF hm1 hm2
      refine ⟨d3, O3, fs3, m3, ?_, hlt3, hF3, hm3, hm4, hall3⟩
      have hB : d.IsBlack r = true := by
        rw [rel.isBlack]
        simp [condensation_review.IsVertexBlack, hv]
      rw [backwardLoop]
      simp only [hB, not_true_eq_false, if_false]
      exact e3

/-- What the minimum over the classes found says about the graph. -/
theorem min_source_spec {gc : condensation_review.Graph} {O : List Nat}
    {fs : condensation_review.StrongConnectComponentFinder} (hF : condensation_review.FinderInv gc O fs)
    (hO : ∀ v, v ∈ O ↔ v < gc.adjacency_lists_.length) (hn : 1 ≤ gc.adjacency_lists_.length)
    {m : Nat}
    (hm1 : m = gc.adjacency_lists_.length ∨
      ∃ c ∈ fs.component_vertices_, gc.IsSourceSet c ∧ c.length = m)
    (hm2 : ∀ c ∈ fs.component_vertices_, gc.IsSourceSet c → m ≤ c.length) :
    (∃ c : List Nat, c.Nodup ∧ gc.IsComponent c ∧ gc.IsSourceSet c ∧ c.length = m) ∧
      ∀ c : List Nat, c.Nodup → gc.IsComponent c → gc.IsSourceSet c → m ≤ c.length := by
  have hlt : ∀ c ∈ fs.component_vertices_, ∀ v ∈ c, v < gc.adjacency_lists_.length :=
    fun c hc v hv => (hO v).1 ((hF.cover v).2 ⟨c, hc, hv⟩)
  have hidx : ∀ v, v < gc.adjacency_lists_.length → ∃ c ∈ fs.component_vertices_, v ∈ c :=
    fun v hv => (hF.cover v).1 ((hO v).2 hv)
  have hatt : ∃ c ∈ fs.component_vertices_, gc.IsSourceSet c ∧ c.length = m := by
    rcases hm1 with h1 | h1
    · obtain ⟨c0', hc0', _⟩ := hidx 0 hn
      obtain ⟨c0, rest, hcs⟩ : ∃ c0 rest, fs.component_vertices_ = c0 :: rest := by
        cases hcs : fs.component_vertices_ with
        | nil => simp [hcs] at hc0'
        | cons c0 rest => exact ⟨c0, rest, rfl⟩
      have hsorted := hF.sorted
      rw [hcs, List.pairwise_cons] at hsorted
      have hc0 : c0 ∈ fs.component_vertices_ := by rw [hcs]; exact List.mem_cons_self _ _
      have hs0 : gc.IsSourceSet c0 := by
        intro a b hab hb
        obtain ⟨c', hc', hac⟩ := hidx a (condensation_review.adj_source_lt hab)
        rw [hcs] at hc'
        rcases List.mem_cons.1 hc' with h2 | h2
        · rw [← h2]
          exact hac
        · exact absurd hab (hsorted.1 c' h2 a hac b hb)
      have hle : c0.length ≤ gc.adjacency_lists_.length :=
        traverses.nodup_length_le (hF.nodup c0 hc0) (hlt c0 hc0)
      have := hm2 c0 hc0 hs0
      exact ⟨c0, hc0, hs0, by omega⟩
    · exact h1
  constructor
  · obtain ⟨c, hc, hs, hl⟩ := hatt
    exact ⟨c, hF.nodup c hc, ⟨hF.nonempty c hc, hlt c hc, hF.classes c hc⟩, hs, hl⟩
  · intro c hnd hc hs
    obtain ⟨a, ha⟩ := List.exists_mem_of_ne_nil c hc.1
    obtain ⟨c', hc', hac⟩ := hidx a (hc.2.1 a ha)
    have hsame : ∀ b, b ∈ c ↔ b ∈ c' := fun b =>
      (hc.2.2 a ha b).trans (hF.classes c' hc' a hac b).symm
    have hs' : gc.IsSourceSet c' := fun x y hxy hy =>
      (hsame x).1 (hs x y hxy ((hsame y).2 hy))
    have hperm := (List.perm_ext_iff_of_nodup hnd (hF.nodup c' hc')).2 hsame
    rw [hperm.length_eq]
    exact hm2 c' hc' hs'

theorem new_wellFormed (sort : List Edge → List Edge) (hsort : IsSort sort) (n : Nat)
    (edges : List Edge) (hs : ∀ e ∈ edges, e.source_ < n) :
    (Graph.new sort n edges).WellFormed := by
  intro v hv
  refine ⟨_, OutgoingEdges_eq sort hsort n edges hs v hv, fun e he => ?_⟩
  simpa using (List.mem_filter.1 he).2

theorem new_adj (sort : List Edge → List Edge) (hsort : IsSort sort) (n : Nat)
    (edges : List Edge) (hs : ∀ e ∈ edges, e.source_ < n) (a b : Nat) :
    (Graph.new sort n edges).toReview.Adj a b ↔
      ∃ e ∈ edges, e.source_ = a ∧ e.target_ = b := by
  have hnv : (Graph.new sort n edges).number_of_vertices_ = n := rfl
  constructor
  · rintro ⟨targets, h1, h2⟩
    have ha : a < n := by
      have := (List.getElem?_eq_some_iff.1 h1).1
      rw [toReview_length] at this
      exact this
    simp only [Graph.toReview, List.getElem?_map, hnv, List.getElem?_range ha,
      Option.map_some', OutgoingEdges_eq sort hsort n edges hs a ha, Option.getD_some,
      Option.some.injEq] at h1
    rw [← h1] at h2
    simp only [List.mem_map, List.mem_filter, decide_eq_true_eq] at h2
    obtain ⟨e, ⟨h3, h4⟩, h5⟩ := h2
    exact ⟨e, (hsort edges).1.mem_iff.1 h3, h4, h5⟩
  · rintro ⟨e, h3, h4, h5⟩
    have ha : a < n := h4 ▸ hs e h3
    refine ⟨((sort edges).filter fun e => decide (e.source_ = a)).map Edge.target_, ?_, ?_⟩
    · simp only [Graph.toReview, List.getElem?_map, hnv, List.getElem?_range ha,
        Option.map_some', OutgoingEdges_eq sort hsort n edges hs a ha, Option.getD_some]
    · simp only [List.mem_map, List.mem_filter, decide_eq_true_eq]
      exact ⟨e, ⟨(hsort edges).1.mem_iff.2 h3, h4⟩, h5⟩

/-- The number that `FindMinSourceComponentSize` returns is the smallest size of
a strongly connected component without an incoming edge from outside. -/
theorem FindMinSourceComponentSize_spec (sort : List Edge → List Edge) (hsort : IsSort sort)
    (n : Nat) (edges : List Edge) (hn : 1 ≤ n)
    (he : ∀ e ∈ edges, e.source_ < n ∧ e.target_ < n) :
    ∃ m, FindMinSourceComponentSize sort (Graph.new sort n edges) = some m ∧
      (∃ c : List Nat, c.Nodup ∧ (Graph.new sort n edges).toReview.IsComponent c ∧
        (Graph.new sort n edges).toReview.IsSourceSet c ∧ c.length = m) ∧
      ∀ c : List Nat, c.Nodup → (Graph.new sort n edges).toReview.IsComponent c →
        (Graph.new sort n edges).toReview.IsSourceSet c → m ≤ c.length := by
  have hs : ∀ e ∈ edges, e.source_ < n := fun e h => (he e h).1
  have hw := new_wellFormed sort hsort n edges hs
  have hlen : (Graph.new sort n edges).toReview.adjacency_lists_.length = n :=
    toReview_length _
  have hr : (Graph.new sort n edges).toReview.InRange :=
    condensation_review.inRange_of_adj fun a b hab => by
      obtain ⟨e, h1, _, h3⟩ := (new_adj sort hsort n edges hs a b).1 hab
      rw [hlen, ← h3]
      exact (he e h1).2
  have hsT : ∀ e ∈ (Graph.new sort n edges).edges_.map Edge.Reverse, e.source_ < n := by
    intro e h
    obtain ⟨x, hx, rfl⟩ := List.mem_map.1 h
    exact (he x ((hsort edges).1.mem_iff.1 hx)).2
  have hwT : ((Graph.new sort n edges).Reverse sort).WellFormed :=
    new_wellFormed sort hsort n _ hsT
  have hlenT : ((Graph.new sort n edges).Reverse sort).toReview.adjacency_lists_.length =
      (Graph.new sort n edges).toReview.adjacency_lists_.length := by
    rw [toReview_length, toReview_length]
    rfl
  have hadj : ∀ a b, ((Graph.new sort n edges).Reverse sort).toReview.Adj a b ↔
      (Graph.new sort n edges).toReview.Adj b a := by
    intro a b
    rw [new_adj sort hsort n edges hs b a]
    have hrev : (Graph.new sort n edges).Reverse sort =
        Graph.new sort n ((Graph.new sort n edges).edges_.map Edge.Reverse) := rfl
    rw [hrev, new_adj sort hsort n _ hsT a b]
    constructor
    · rintro ⟨e, h1, h2, h3⟩
      obtain ⟨x, hx, rfl⟩ := List.mem_map.1 h1
      exact ⟨x, (hsort edges).1.mem_iff.1 hx, h3, h2⟩
    · rintro ⟨e, h1, h2, h3⟩
      exact ⟨e.Reverse, List.mem_map.2 ⟨e, (hsort edges).1.mem_iff.2 h1, rfl⟩, h3, h2⟩
  have hrT : ((Graph.new sort n edges).Reverse sort).toReview.InRange :=
    condensation_review.inRange_of_adj fun a b hab => by
      rw [hlenT]
      exact condensation_review.adj_source_lt ((hadj a b).1 hab)
  obtain ⟨d1, s1, st1, e1, inv1, hall1⟩ := forwardLoop_spec _ hw hr
  obtain ⟨d2, O2, fs2, m2, e2, hlt2, hF2, hm1, hm2, hall2⟩ :=
    backwardLoop_spec (Graph.new sort n edges).toReview
      ((Graph.new sort n edges).Reverse sort) hwT hadj hlenT hrT n inv1
      (fun v hv => hall1 v (by rw [hlen] at hv; exact hv))
      s1.order_.reverse [] DepthFirstSearch.new (fun _ => none) []
      condensation_review.StrongConnectComponentFinder.new n rfl (fun v hv => by simp at hv)
      (condensation_review.DfsInv.dfs_start _)
      ⟨fun v => by simp [DepthFirstSearch.new], fun v => by simp [DepthFirstSearch.new],
        List.nodup_nil⟩
      (condensation_review.FinderInv.finder_start _) (Or.inl rfl)
      (fun c hc => by simp [condensation_review.StrongConnectComponentFinder.new] at hc)
  have hO : ∀ v, v ∈ O2 ↔ v < (Graph.new sort n edges).toReview.adjacency_lists_.length :=
    fun v => ⟨hlt2 v, fun hv =>
      hall2 v (List.mem_reverse.2 (hall1 v (by rw [hlen] at hv; exact hv)))⟩
  refine ⟨m2, ?_, min_source_spec hF2 hO (by rw [hlen]; exact hn)
    (by rw [hlen]; exact hm1) hm2⟩
  have hN : (Graph.new sort n edges).GetNumberOfVertices = n := rfl
  rw [FindMinSourceComponentSize, e1]
  simp only [hN, e2]

theorem stableSort_isSort : IsSort stableSort := by
  intro edges
  haveI : IsTotal Edge (fun first second => first.source_ ≤ second.source_) :=
    ⟨fun a b => Nat.le_total _ _⟩
  haveI : IsTrans Edge (fun first second => first.source_ ≤ second.source_) :=
    ⟨fun a b c h1 h2 => Nat.le_trans h1 h2⟩
  exact ⟨List.perm_insertionSort _ edges, List.sorted_insertionSort _ edges⟩

theorem isComponent_congr {g1 g2 : condensation_review.Graph}
    (hA : ∀ a b, g1.Adj a b ↔ g2.Adj a b)
    (hl : g1.adjacency_lists_.length = g2.adjacency_lists_.length) (c : List Nat) :
    g1.IsComponent c ↔ g2.IsComponent c := by
  have h : g1.Adj = g2.Adj := by
    funext a b
    exact propext (hA a b)
  simp only [condensation_review.Graph.IsComponent, condensation_review.Graph.Reach, h,
    condensation_review.Graph.GetVerticesCount, hl]

theorem isSourceSet_congr {g1 g2 : condensation_review.Graph}
    (hA : ∀ a b, g1.Adj a b ↔ g2.Adj a b) (c : List Nat) :
    g1.IsSourceSet c ↔ g2.IsSourceSet c := by
  have h : g1.Adj = g2.Adj := by
    funext a b
    exact propext (hA a b)
  simp only [condensation_review.Graph.IsSourceSet, h]

end review_2_2_prog

/-- C35: for n >= 1 and every list of edges with endpoints in 0..n-1,
CountMinSourceComponentSize of condensation_review.cpp, on the graph built from the
edges, and FindMinSourceComponentSize of Review_2_2/prog.cpp, on its graph built
from the same edges, return the same number, whatever order std::sort gives to
the edges with the same source. -/
theorem source_component_programs_agree
    (sort : List review_2_2_prog.Edge → List review_2_2_prog.Edge)
    (hsort : review_2_2_prog.IsSort sort) (n : Nat) (edges : List review_2_2_prog.Edge)
    (hn : 1 ≤ n) (he : ∀ e ∈ edges, e.source_ < n ∧ e.target_ < n) :
    ∃ graph s,
      condensation_review.Graph.ofEdges n
        (edges.map fun e => ⟨e.source_, e.target_⟩) = some graph ∧
      condensation_review.CountMinSourceComponentSize graph = some s ∧
      review_2_2_prog.FindMinSourceComponentSize sort
        (review_2_2_prog.Graph.new sort n edges) = some s := by
  obtain ⟨graph, e, hlen, hadj⟩ := condensation_review.ofEdges_spec n
    (edges.map fun e => ⟨e.source_, e.target_⟩) (fun x hx => by
      obtain ⟨g, hg1, rfl⟩ := List.mem_map.1 hx
      exact (he g hg1).1)
  have hs : ∀ e ∈ edges, e.source_ < n := fun e h => (he e h).1
  have hA : ∀ a b, graph.Adj a b ↔ (review_2_2_prog.Graph.new sort n edges).toReview.Adj a b := by
    intro a b
    rw [hadj, review_2_2_prog.new_adj sort hsort n edges hs a b]
    constructor
    · rintro ⟨x, hx, h1, h2⟩
      obtain ⟨g, hg1, rfl⟩ := List.mem_map.1 hx
      exact ⟨g, hg1, h1, h2⟩
    · rintro ⟨g, hg1, h1, h2⟩
      exact ⟨_, List.mem_map.2 ⟨g, hg1, rfl⟩, h1, h2⟩
  have hl : graph.adjacency_lists_.length =
      (review_2_2_prog.Graph.new sort n edges).toReview.adjacency_lists_.length := by
    rw [hlen, review_2_2_prog.toReview_length]
    rfl
  have hr : graph.InRange := condensation_review.inRange_of_adj fun a b hab => by
    obtain ⟨x, hx, _, h2⟩ := (hadj a b).1 hab
    obtain ⟨g, hg1, rfl⟩ := List.mem_map.1 hx
    rw [hlen, ← h2]
    exact (he g hg1).2
  obtain ⟨s, es, ⟨cs, hs1, hs2, hs3, hs4⟩, hsmin⟩ :=
    condensation_review.CountMinSourceComponentSize_spec graph hr (by omega)
  obtain ⟨m, em, ⟨cm, hm1, hm2, hm3, hm4⟩, hmmin⟩ :=
    review_2_2_prog.FindMinSourceComponentSize_spec sort hsort n edges hn he
  have h1 : m ≤ s := by
    rw [← hs4]
    exact hmmin cs hs1 ((review_2_2_prog.isComponent_congr hA hl cs).1 hs2)
      ((review_2_2_prog.isSourceSet_congr hA cs).1 hs3)
  have h2 : s ≤ m := by
    rw [← hm4]
    exact hsmin cm hm1 ((review_2_2_prog.isComponent_congr hA hl cm).2 hm2)
      ((review_2_2_prog.isSourceSet_congr hA cm).2 hm3)
  have hsm : m = s := le_antisymm h1 h2
  exact ⟨graph, s, e, es, hsm ▸ em⟩

/-- Witness of C35: four vertices, the cycle 0 -> 1 -> 0 with an edge to 2, and
the isolated vertex 3, with the sort that keeps the order of equal sources; both
programs return 1. -/
theorem source_component_programs_agree_witness :
    (review_2_2_prog.IsSort review_2_2_prog.stableSort ∧ 1 ≤ 4 ∧
      ∀ e ∈ ([⟨1, 0⟩, ⟨0, 2⟩, ⟨0, 1⟩] : List review_2_2_prog.Edge),
        e.source_ < 4 ∧ e.target_ < 4) ∧
    review_2_2_prog.FindMinSourceComponentSize review_2_2_prog.stableSort
      (review_2_2_prog.Graph.new review_2_2_prog.stableSort 4
        [⟨1, 0⟩, ⟨0, 2⟩, ⟨0, 1⟩]) = some 1 ∧
    ∃ graph s,
      condensation_review.Graph.ofEdges 4
        (([⟨1, 0⟩, ⟨0, 2⟩, ⟨0, 1⟩] : List review_2_2_prog.Edge).map
          fun e => ⟨e.source_, e.target_⟩) = some graph ∧
      condensation_review.CountMinSourceComponentSize graph = some s ∧
      review_2_2_prog.FindMinSourceComponentSize review_2_2_prog.stableSort
        (review_2_2_prog.Graph.new review_2_2_prog.stableSort 4
          [⟨1, 0⟩, ⟨0, 2⟩, ⟨0, 1⟩]) = some s :=
  ⟨⟨review_2_2_prog.stableSort_isSort, by decide, by decide⟩, by decide,
    source_component_programs_agree review_2_2_prog.stableSort
      review_2_2_prog.stableSort_isSort 4 [⟨1, 0⟩, ⟨0, 2⟩, ⟨0, 1⟩] (by decide) (by decide)⟩

/-! ## The automaton built by paulin.cpp -/

namespace paulin

open aho_corasick aho_corasick.internal traverses

theorem strip_setNode (a : aho_corasick.Automaton) (i : Nat) (v : AutomatonNode) :
    strip (a.setNode i v) = (strip a).setNode i { v with terminated_string_ids := [] } := by
  refine ideone_WhZ8P4.automaton_ext (by rfl) fun n => ?_
  simp only [strip, Automaton.setNode]
  by_cases h : n = i
  · simp [h]
  · simp [h]

theorem strip_setCache (a : aho_corasick.Automaton) (n : Nat) (c : Char) (v : Option Nat) :
    strip (setCache a n c v) = setCache (strip a) n c v := by
  simp only [setCache, strip_setNode]
  rfl

theorem strip_setSuffixLink (a : aho_corasick.Automaton) (n : Nat) (v : Option Nat) :
    strip (a.setSuffixLink n v) = (strip a).setSuffixLink n v := by
  simp only [Automaton.setSuffixLink, strip_setNode]
  rfl

theorem strip_setTerminalLink (a : aho_corasick.Automaton) (n : Nat) (v : Option Nat) :
    strip (a.setTerminalLink n v) = (strip a).setTerminalLink n v := by
  simp only [Automaton.setTerminalLink, strip_setNode]
  rfl

theorem trieIndex_strip (a : aho_corasick.Automaton) (cur : Nat) (c : Char) :
    trieIndex (strip a) cur c = (strip (trieIndex a cur c).1, (trieIndex a cur c).2) := by
  have e : ((strip a).node cur).trie_transitions = (a.node cur).trie_transitions := rfl
  simp only [trieIndex, e]
  cases mapFind (a.node cur).trie_transitions c with
  | some child => rfl
  | none =>
    refine Prod.ext (ideone_WhZ8P4.automaton_ext (by rfl) fun n => ?_) (by rfl)
    simp only [strip, Automaton.setNode]
    by_cases h1 : n = cur
    · subst h1
      by_cases h2 : n = a.size
      · simp [h2, AutomatonNode.default]
      · simp [h2]
    · by_cases h2 : n = a.size
      · subst h2
        simp [h1, AutomatonNode.default]
      · simp [h1, h2]

theorem addStringLoop_strip :
    ∀ (s : List Char) (a : aho_corasick.Automaton) (cur : Nat),
      addStringLoop (strip a) cur s =
        (ideone_WhZ8P4.addStringLoop a cur s).map fun r => (strip r.1, r.2) := by
  intro s
  induction s with
  | nil => intro a cur; rfl
  | cons c s ih =>
    intro a cur
    have e1 : ∀ (b : aho_corasick.Automaton) (n : Nat) (x : Char),
        GetTrieTransition (strip b) n x = ideone_WhZ8P4.GetTrieTransition b n x :=
      fun _ _ _ => rfl
    simp only [addStringLoop, ideone_WhZ8P4.addStringLoop, e1]
    cases h1 : ideone_WhZ8P4.GetTrieTransition a cur c with
    | some nextNode => exact ih a nextNode
    | none =>
      simp only [trieIndex_strip]
      have e2 : setCache ((strip (trieIndex a cur c).1).setNode (trieIndex a cur c).2
            AutomatonNode.default) cur c (some (trieIndex a cur c).2) =
          strip (setCache ((trieIndex a cur c).1.setNode (trieIndex a cur c).2
            AutomatonNode.default) cur c (some (trieIndex a cur c).2)) := by
        rw [strip_setCache, strip_setNode]
        rfl
      rw [e2, e1]
      cases h2 : ideone_WhZ8P4.GetTrieTransition
          (setCache ((trieIndex a cur c).1.setNode (trieIndex a cur c).2
            AutomatonNode.default) cur c (some (trieIndex a cur c).2)) cur c with
      | none => rfl
      | some next => exact ih _ next

theorem addStringLoop_ids {all done : List (List Char × Nat)} :
    ∀ (s : List Char) (h : aho_corasick.Automaton) (path : Nat → List Char) (cur : Nat),
      BuildInv h path all done → cur < h.size → IsTriePath all (path cur ++ s) →
      (∀ n, h.size ≤ n → (h.node n).terminated_string_ids = []) →
      (∀ n, ((aho_corasick.addStringLoop h cur s).1.node n).terminated_string_ids =
        (h.node n).terminated_string_ids) ∧
      ∀ n, (aho_corasick.addStringLoop h cur s).1.size ≤ n →
        ((aho_corasick.addStringLoop h cur s).1.node n).terminated_string_ids = [] := by
  intro s
  induction s with
  | nil =>
    intro h path cur _ _ _ hf
    exact ⟨fun _ => rfl, hf⟩
  | cons c s ih =>
    intro h path cur inv hcur hp hf
    have hp1 : IsTriePath all (path cur ++ [c]) :=
      isTriePath_of_initial hp ⟨s, by simp⟩
    obtain ⟨path1, inv1, hlt1, e1⟩ := trieIndex_inv inv cur c hcur hp1
    have hp2 : IsTriePath all (path1 (trieIndex h cur c).2 ++ s) := by
      rw [e1]
      simpa using hp
    have hT : (∀ n, ((trieIndex h cur c).1.node n).terminated_string_ids =
          (h.node n).terminated_string_ids) ∧
        ∀ n, (trieIndex h cur c).1.size ≤ n →
          ((trieIndex h cur c).1.node n).terminated_string_ids = [] := by
      cases hx : mapFind (h.node cur).trie_transitions c with
      | some x =>
        rw [trieIndex_some hx]
        exact ⟨fun _ => rfl, hf⟩
      | none =>
        obtain ⟨a1, a2, a3⟩ := trieIndex_none hx hcur
        have key : ∀ n, ((trieIndex h cur c).1.node n).terminated_string_ids =
            (h.node n).terminated_string_ids := by
          intro n
          rw [a3 n]
          by_cases h1 : n = cur
          · simp [h1]
          · by_cases h2 : n = h.size
            · subst h2
              simp only [h1, if_false, if_true]
              rw [hf h.size le_rfl]
              rfl
            · simp [h1, h2]
        refine ⟨key, fun n hn => ?_⟩
        rw [key n]
        exact hf n (by omega)
    obtain ⟨b1, b2⟩ := ih (trieIndex h cur c).1 path1 (trieIndex h cur c).2 inv1 hlt1 hp2 hT.2
    simp only [aho_corasick.addStringLoop]
    exact ⟨fun n => (b1 n).trans (hT.1 n), b2⟩

theorem strip_mirror_new : strip (ideone_WhZ8P4.mirror aho_corasick.Automaton.new) =
    aho_corasick.Automaton.new := rfl

/-- One call of `AddString` of paulin.cpp on the state that corresponds to an
arena of interface.cpp. -/
theorem AddString_flags {all done : List (List Char × Nat)} {h : aho_corasick.Automaton}
    {path : Nat → List Char} (inv : BuildInv h path all done)
    (hf : ∀ n, h.size ≤ n → (h.node n).terminated_string_ids = [])
    (dp : Nat → List Int) (w : List Char) (id : Nat) (hw : (w, id) ∈ all) :
    AddString ⟨strip (ideone_WhZ8P4.mirror h), flags h, dp⟩ 0 w =
        some ⟨strip (ideone_WhZ8P4.mirror (aho_corasick.AddString h 0 id w)),
          flags (aho_corasick.AddString h 0 id w), dp⟩ ∧
      ∀ n, (aho_corasick.AddString h 0 id w).size ≤ n →
        ((aho_corasick.AddString h 0 id w).node n).terminated_string_ids = [] := by
  have hp : IsTriePath all (path 0 ++ w) := by
    rw [inv.trie.path_root]
    exact Or.inr ⟨(w, id), hw, List.prefix_refl _⟩
  obtain ⟨path', inv', hlt, e⟩ := addStringLoop_inv w h path 0 inv inv.trie.size_pos hp
  obtain ⟨b1, b2⟩ := addStringLoop_ids w h path 0 inv inv.trie.size_pos hp hf
  constructor
  · simp only [AddString, addStringLoop_strip,
      ideone_WhZ8P4.addStringLoop_mirror w h path 0 inv inv.trie.size_pos hp, Option.map_some',
      aho_corasick.AddString]
    refine congrArg some ?_
    have e1 : strip (ideone_WhZ8P4.mirror (aho_corasick.addStringLoop h 0 w).1) =
        strip (ideone_WhZ8P4.mirror ((aho_corasick.addStringLoop h 0 w).1.setNode
          (aho_corasick.addStringLoop h 0 w).2
          { (aho_corasick.addStringLoop h 0 w).1.node (aho_corasick.addStringLoop h 0 w).2 with
            terminated_string_ids :=
              ((aho_corasick.addStringLoop h 0 w).1.node
                (aho_corasick.addStringLoop h 0 w).2).terminated_string_ids ++ [id] })) := by
      refine ideone_WhZ8P4.automaton_ext (by rfl) fun n => ?_
      simp only [strip, ideone_WhZ8P4.mirror, Automaton.setNode]
      by_cases h1 : n = (aho_corasick.addStringLoop h 0 w).2
      · simp [h1]
      · simp [h1]
    have e2 : (fun node => if node = (aho_corasick.addStringLoop h 0 w).2 then true
          else flags h node) =
        flags ((aho_corasick.addStringLoop h 0 w).1.setNode
          (aho_corasick.addStringLoop h 0 w).2
          { (aho_corasick.addStringLoop h 0 w).1.node (aho_corasick.addStringLoop h 0 w).2 with
            terminated_string_ids :=
              ((aho_corasick.addStringLoop h 0 w).1.node
                (aho_corasick.addStringLoop h 0 w).2).terminated_string_ids ++ [id] }) := by
      funext n
      simp only [flags, Automaton.setNode]
      by_cases h1 : n = (aho_corasick.addStringLoop h 0 w).2
      · simp [h1]
      · simp [h1, b1 n]
    rw [← e1, ← e2]
  · intro n hn
    simp only [aho_corasick.AddString, Automaton.setNode] at hn ⊢
    have hne : n ≠ (aho_corasick.addStringLoop h 0 w).2 := by omega
    simp only [hne, if_false]
    exact b2 n hn

theorem BuildTrie_flags {all : List (List Char × Nat)} (dp : Nat → List Int) :
    ∀ (rest done : List (List Char × Nat)) (h : aho_corasick.Automaton)
      (path : Nat → List Char),
      BuildInv h path all done → (∀ p ∈ rest, p ∈ all) →
      (∀ n, h.size ≤ n → (h.node n).terminated_string_ids = []) →
      BuildTrie (rest.map Prod.fst) ⟨strip (ideone_WhZ8P4.mirror h), flags h, dp⟩ =
        some ⟨strip (ideone_WhZ8P4.mirror (aho_corasick.BuildTrie rest h)),
          flags (aho_corasick.BuildTrie rest h), dp⟩ := by
  intro rest
  induction rest with
  | nil =>
    intro done h path _ _ _
    rfl
  | cons p rest ih =>
    intro done h path inv hall hf
    obtain ⟨w, id⟩ := p
    obtain ⟨path', inv'⟩ := AddString_inv inv w id (hall _ (List.mem_cons_self _ _))
    obtain ⟨e1, hf'⟩ := AddString_flags inv hf dp w id (hall _ (List.mem_cons_self _ _))
    simp only [List.map_cons, BuildTrie, e1, aho_corasick.BuildTrie]
    exact ih _ _ path' inv' (fun q hq => hall q (List.mem_cons_of_mem _ hq)) hf'

/-- The trie that `BuildTrie` of paulin.cpp returns is the trie of interface.cpp
with the pointer map filled in, and the flags at the nodes where a word ends. -/
theorem BuildTrie_arena (added : List (List Char × Nat)) :
    BuildTrie (added.map Prod.fst) Automaton.new =
      some ⟨strip (ideone_WhZ8P4.mirror (aho_corasick.BuildTrie added aho_corasick.Automaton.new)),
        flags (aho_corasick.BuildTrie added aho_corasick.Automaton.new),
        fun _ => List.replicate 1001 (-1)⟩ := by
  have := @BuildTrie_flags added (fun _ => List.replicate 1001 (-1)) added []
    aho_corasick.Automaton.new (fun _ => []) (BuildInv_new added) (fun _ hp => hp)
    (fun n _ => rfl)
  exact this

theorem edgesOf_eq (v : Nat) :
    ∀ l : List (Char × Option Nat), edgesOf v l = ideone_WhZ8P4.edgesOf v l := by
  intro l
  induction l with
  | nil => rfl
  | cons x l ih =>
    obtain ⟨c, t⟩ := x
    cases t with
    | none => rfl
    | some t =>
      simp only [edgesOf, ideone_WhZ8P4.edgesOf, ih]

theorem suffixWalk_strip (a : aho_corasick.Automaton) (c : Char) :
    ∀ (fuel : Nat) (x : Option Nat),
      suffixWalk (strip a) c fuel x = ideone_WhZ8P4.suffixWalk a c fuel x := by
  intro fuel
  induction fuel with
  | zero => intro x; rfl
  | succ fuel ih =>
    intro x
    cases x with
    | none => rfl
    | some n =>
      simp only [suffixWalk, ideone_WhZ8P4.suffixWalk]
      have e1 : ((strip a).node n).automaton_transitions_cache =
          (a.node n).automaton_transitions_cache := rfl
      have e2 : ((strip a).node n).suffix_link = (a.node n).suffix_link := rfl
      rw [e1, e2]
      cases mapFind (a.node n).automaton_transitions_cache c with
      | none => exact ih _
      | some _ => rfl

theorem visitEdges_strip (VP VW : BfsVisitor) (I : aho_corasick.Automaton → Prop)
    (hE : ∀ a e, I a → VP.ExamineEdge (strip a) e = (VW.ExamineEdge a e).map strip ∧
      ∀ a', VW.ExamineEdge a e = some a' → I a')
    (hD : ∀ a v, I a → VP.DiscoverVertex (strip a) v = (VW.DiscoverVertex a v).map strip ∧
      ∀ a', VW.DiscoverVertex a v = some a' → I a') :
    ∀ (edges : List Edge) (a : aho_corasick.Automaton) (q : List Nat), I a →
      visitEdges VP edges (strip a) q =
          (visitEdges VW edges a q).map (fun r => (strip r.1, r.2)) ∧
        ∀ r, visitEdges VW edges a q = some r → I r.1 := by
  intro edges
  induction edges with
  | nil =>
    intro a q hI
    refine ⟨rfl, fun r hr => ?_⟩
    simp only [visitEdges, Option.some.injEq] at hr
    rw [← hr]
    exact hI
  | cons e edges ih =>
    intro a q hI
    obtain ⟨e1, i1⟩ := hE a e hI
    simp only [visitEdges, e1]
    cases h1 : VW.ExamineEdge a e with
    | none => exact ⟨rfl, fun r hr => Option.noConfusion hr⟩
    | some a1 =>
      obtain ⟨e2, i2⟩ := hD a1 (GetTarget e) (i1 a1 h1)
      simp only [Option.map_some', e2]
      cases h2 : VW.DiscoverVertex a1 (GetTarget e) with
      | none => exact ⟨rfl, fun r hr => Option.noConfusion hr⟩
      | some a2 => exact ih a2 _ (i2 a2 h2)

theorem bfsLoop_strip (VP VW : BfsVisitor) (I : aho_corasick.Automaton → Prop)
    (hV : ∀ a v, I a → VP.ExamineVertex (strip a) v = (VW.ExamineVertex a v).map strip ∧
      ∀ a', VW.ExamineVertex a v = some a' → I a')
    (hE : ∀ a e, I a → VP.ExamineEdge (strip a) e = (VW.ExamineEdge a e).map strip ∧
      ∀ a', VW.ExamineEdge a e = some a' → I a')
    (hD : ∀ a v, I a → VP.DiscoverVertex (strip a) v = (VW.DiscoverVertex a v).map strip ∧
      ∀ a', VW.DiscoverVertex a v = some a' → I a') :
    ∀ (fuel : Nat) (q : List Nat) (a : aho_corasick.Automaton), I a →
      bfsLoop VP fuel q (strip a) = (ideone_WhZ8P4.bfsLoop VW fuel q a).map strip := by
  intro fuel
  induction fuel with
  | zero =>
    intro q a _
    cases q <;> rfl
  | succ fuel ih =>
    intro q a hI
    cases q with
    | nil => rfl
    | cons v q =>
      obtain ⟨e1, i1⟩ := hV a v hI
      simp only [bfsLoop, ideone_WhZ8P4.bfsLoop, e1]
      cases h1 : VW.ExamineVertex a v with
      | none => rfl
      | some a1 =>
        have e2 : OutgoingEdges (strip a1) v = ideone_WhZ8P4.OutgoingEdges a1 v :=
          edgesOf_eq v _
        simp only [Option.map_some', e2]
        cases h2 : ideone_WhZ8P4.OutgoingEdges a1 v with
        | none => rfl
        | some edges =>
          obtain ⟨e3, i3⟩ := visitEdges_strip VP VW I hE hD edges a1 q (i1 a1 h1)
          simp only [e3]
          cases h3 : visitEdges VW edges a1 q with
          | none => rfl
          | some r =>
            obtain ⟨a2, q2⟩ := r
            exact ih q2 a2 (i3 _ h3)

theorem BuildSuffixLinks_strip (a : aho_corasick.Automaton) (t : Nat → Bool)
    (dp : Nat → List Int) :
    BuildSuffixLinks ⟨strip a, t, dp⟩ =
      (ideone_WhZ8P4.BuildSuffixLinks a).map fun a' => ⟨strip a', t, dp⟩ := by
  have := bfsLoop_strip (SuffixLinkCalculator (some 0))
    (ideone_WhZ8P4.SuffixLinkCalculator (some 0)) (fun _ => True)
    (fun a v _ => ⟨rfl, fun _ _ => trivial⟩)
    (fun a e _ => ⟨by
      simp only [SuffixLinkCalculator, ideone_WhZ8P4.SuffixLinkCalculator, suffixWalk_strip]
      have e1 : (strip a).size = a.size := rfl
      have e2 : ((strip a).node e.source).suffix_link = (a.node e.source).suffix_link := rfl
      rw [e1, e2]
      cases ideone_WhZ8P4.suffixWalk a e.character (a.size + 1)
          (a.node e.source).suffix_link with
      | none => rfl
      | some x =>
        cases x with
        | none => simp only [Option.map_some', strip_setSuffixLink]
        | some cur =>
          simp only [Option.map_some', strip_setSuffixLink]
          rfl, fun _ _ => trivial⟩)
    (fun a v _ => ⟨rfl, fun _ _ => trivial⟩) a.size [0] a trivial
  simp only [BuildSuffixLinks, BreadthFirstSearch, ideone_WhZ8P4.BuildSuffixLinks,
    ideone_WhZ8P4.BreadthFirstSearch, Automaton.rootPtr]
  have e1 : (strip a).size = a.size := rfl
  rw [e1, this]
  cases ideone_WhZ8P4.bfsLoop (ideone_WhZ8P4.SuffixLinkCalculator (some 0)) a.size [0] a <;> rfl

theorem BuildTerminalLinks_strip (a : aho_corasick.Automaton) (dp : Nat → List Int) :
    BuildTerminalLinks ⟨strip a, flags a, dp⟩ =
      (ideone_WhZ8P4.BuildTerminalLinks a).map fun a' => ⟨strip a', flags a, dp⟩ := by
  have := bfsLoop_strip (TerminalLinkCalculator (flags a) (some 0))
    (ideone_WhZ8P4.TerminalLinkCalculator (some 0))
    (fun b => ∀ n, (b.node n).terminated_string_ids = (a.node n).terminated_string_ids)
    (fun b v hb => ⟨rfl, fun b' e => by
      simp only [ideone_WhZ8P4.TerminalLinkCalculator, Option.some.injEq] at e
      rw [← e]
      exact hb⟩)
    (fun b e hb => ⟨rfl, fun b' e => by
      simp only [ideone_WhZ8P4.TerminalLinkCalculator, Option.some.injEq] at e
      rw [← e]
      exact hb⟩)
    (fun b v hb => by
      have hset : ∀ x, ∀ n, ((b.setTerminalLink v x).node n).terminated_string_ids =
          (a.node n).terminated_string_ids := by
        intro x n
        rw [((setTerminalLink_same b v x).2 n).2.1]
        exact hb n
      simp only [TerminalLinkCalculator, ideone_WhZ8P4.TerminalLinkCalculator]
      by_cases hv : (some v : Option Nat) = some 0
      · simp only [hv, if_true, Option.map_some', Option.some.injEq]
        exact ⟨trivial, fun b' e => e ▸ hb⟩
      · simp only [hv, if_false]
        have e2 : ((strip b).node v).suffix_link = (b.node v).suffix_link := rfl
        rw [e2]
        cases hs : (b.node v).suffix_link with
        | none => exact ⟨rfl, fun _ e => Option.noConfusion e⟩
        | some s =>
          have hfl : flags a s = true ↔ (b.node s).terminated_string_ids.length > 0 := by
            simp only [flags, decide_eq_true_eq, ← hb s, ne_eq, gt_iff_lt, List.length_pos]
          by_cases hl : (b.node s).terminated_string_ids.length > 0
          · simp only [hfl.2 hl, hl, if_true, Option.map_some', strip_setTerminalLink]
            refine ⟨trivial, fun b' e => ?_⟩
            simp only [Option.some.injEq] at e
            rw [← e]
            exact hset _
          · have hfl' : ¬ flags a s = true := fun h => hl (hfl.1 h)
            simp only [hfl', hl, if_false, Option.map_some', strip_setTerminalLink]
            refine ⟨rfl, fun b' e => ?_⟩
            simp only [Option.some.injEq] at e
            rw [← e]
            exact hset _) a.size [0] a (fun _ => rfl)
  simp only [BuildTerminalLinks, BreadthFirstSearch, ideone_WhZ8P4.BuildTerminalLinks,
    ideone_WhZ8P4.BreadthFirstSearch, Automaton.rootPtr]
  have e1 : (strip a).size = a.size := rfl
  rw [e1, this]
  cases ideone_WhZ8P4.bfsLoop (ideone_WhZ8P4.TerminalLinkCalculator (some 0)) a.size [0] a <;>
    rfl

end paulin

namespace ideone_WhZ8P4

open aho_corasick aho_corasick.internal traverses

theorem terminal_discoverVertex_walk {h1 : Automaton} {path : Nat → List Char}
    {added : List (List Char × Nat)} (l : Linked h1 path added)
    (v : Nat) (D : List Nat) (h : Automaton) (c : Char) (m : Nat)
    (hj : TermJ h1 D h) (hv : Visiting h1 path v D)
    (hm : mapFind (h1.node v).trie_transitions c = some m) (hmD : m ∉ D) :
    ∃ h2 h3, (TerminalLinkCalculator (some 0)).ExamineEdge h ⟨v, m, c⟩ = some h2 ∧
      (TerminalLinkCalculator (some 0)).DiscoverVertex h2 m = some h3 ∧
      TermJ h1 (D ++ [m]) h3 := by
  obtain ⟨same, hroot, hrec, hclosed⟩ := hj
  have t := l.trie
  have hvlt : v < h1.size := hv.lt v hv.mem
  obtain ⟨hmlt, hpm⟩ := t.trie.child v c m hvlt hm
  have h0D : (0 : Nat) ∈ D := hv.shallow 0 t.trie.size_pos (by simp [t.trie.path_root])
  have m0 : m ≠ 0 := fun e => hmD (e ▸ h0D)
  obtain ⟨s, hs1, hs2, hs3⟩ := same.terminal_suffixOK (l.suffix m hmlt m0)
  have hsD : s ∈ D := by
    refine hv.shallow s (by rw [← same.1]; exact hs2) ?_
    rw [hs3, hpm]
    have := longestPathSuffix_length_le added (path v ++ [c]).tail
    have h2 : (path v ++ [c]).tail.length = (path v).length := by simp
    omega
  have hsm : s ≠ m := fun e => hmD (e ▸ hsD)
  have hne : ¬ ((some m : Option Nat) = some 0) := by simpa using m0
  -- the link written by `DiscoverVertex`
  obtain ⟨x, hx, hxv⟩ : ∃ x, (TerminalLinkCalculator (some 0)).DiscoverVertex h m =
      some (h.setTerminalLink m x) ∧
      x = if (h.node s).terminated_string_ids = [] then (h.node s).terminal_link
        else some s := by
    by_cases he : (h.node s).terminated_string_ids = []
    · exact ⟨(h.node s).terminal_link, by simp [TerminalLinkCalculator, hs1, he, m0],
        by simp [he]⟩
    · have hl : (h.node s).terminated_string_ids.length > 0 := List.length_pos.2 he
      exact ⟨some s, by simp [TerminalLinkCalculator, hs1, hl, m0], by simp [he]⟩
  refine ⟨h, _, rfl, hx, same.terminal_trans (setTerminalLink_same _ _ _), ?_, ?_, ?_⟩
  · rw [setTerminalLink_node_ne _ _ _ _ (Ne.symm m0)]
    exact hroot
  · intro n hn n0
    rcases List.mem_append.1 hn with h3 | h3
    · have hnm : n ≠ m := fun e => hmD (e ▸ h3)
      obtain ⟨s', e1, e2⟩ := hrec n h3 n0
      have hs'm : s' ≠ m := fun e => hmD (e ▸ hclosed n h3 n0 s' e1)
      refine ⟨s', ?_, ?_⟩
      · rw [setTerminalLink_node_ne _ _ _ _ hnm]
        exact e1
      · rw [setTerminalLink_node_ne _ _ _ _ hnm, setTerminalLink_node_ne _ _ _ _ hs'm]
        exact e2
    · simp only [List.mem_singleton] at h3
      subst h3
      refine ⟨s, ?_, ?_⟩
      · rw [((setTerminalLink_same h n x).2 n).2.2.1]
        exact hs1
      · rw [setTerminalLink_link, setTerminalLink_node_ne _ _ _ _ hsm]
        exact hxv
  · intro n hn n0 s' hs'
    rw [((setTerminalLink_same h m x).2 n).2.2.1] at hs'
    rcases List.mem_append.1 hn with h3 | h3
    · exact List.mem_append_left _ (hclosed n h3 n0 s' hs')
    · simp only [List.mem_singleton] at h3
      subst h3
      rw [hs1] at hs'
      exact List.mem_append_left _ ((Option.some.inj hs') ▸ hsD)

/-- The arena after `BuildTerminalLinks` of ideone_WhZ8P4.cpp: the root has no
terminal link, and every other node has the one of the recurrence. -/
theorem BuildTerminalLinks_walk_rec {h1 : Automaton} {path : Nat → List Char}
    {added : List (List Char × Nat)} (l : Linked h1 path added)
    (hterm : ∀ n, (h1.node n).terminal_link = none) :
    ∃ h2, BuildTerminalLinks h1 = some h2 ∧ SameButTerminal h1 h2 ∧
      (h2.node 0).terminal_link = none ∧ ∀ n, n < h1.size → n ≠ 0 → TermRec h2 n := by
  obtain ⟨h2, D, e, hj, hall⟩ := BreadthFirstSearch_spec (TerminalLinkCalculator (some 0))
    l.trie.trie (fun _ D h => TermJ h1 D h) (fun _ D h => TermJ h1 D h)
    (fun v D h hj n => (hj.1.2 n).1)
    (fun popped D h v hj _ _ => ⟨h, rfl, hj⟩)
    (fun v D h c m hj hv hm hmD => terminal_discoverVertex_walk l v D h c m hj hv hm hmD)
    (fun v popped D h hj => hj)
    ⟨SameButTerminal.terminal_refl _, hterm 0, fun n hn n0 => by
        simp only [List.mem_singleton] at hn
        exact absurd hn n0,
      fun n hn n0 => by
        simp only [List.mem_singleton] at hn
        exact absurd hn n0⟩
  refine ⟨h2, ?_, hj.1, hj.2.1, fun n hn n0 => hj.2.2.1 n (hall n hn) n0⟩
  rw [← e]
  exact BreadthFirstSearch_eq _ (fun h v h' m e => same_of_some e m)
    (fun h v h' m e => same_of_some e m) (terminal_keeps_pointers _) h1 l.mirrored

/-- The automaton that `Build()` of ideone_WhZ8P4.cpp returns, with its terminal
links. -/
theorem Build_walk_rec {path : Nat → List Char} {added : List (List Char × Nat)}
    (inv : BuildInv (aho_corasick.BuildTrie added Automaton.new) path added added) :
    ∃ h1 h, BuildSuffixLinks (mirror (aho_corasick.BuildTrie added Automaton.new)) = some h1 ∧
      BuildTerminalLinks h1 = some h ∧ Linked h path added ∧
      SameTrie (aho_corasick.BuildTrie added Automaton.new) h ∧
      (∀ n, (h1.node n).terminated_string_ids =
        ((aho_corasick.BuildTrie added Automaton.new).node n).terminated_string_ids) ∧
      (h.node 0).terminal_link = none ∧ ∀ n, n < h.size → n ≠ 0 → TermRec h n := by
  have hs : SameTrie (aho_corasick.BuildTrie added Automaton.new)
      (mirror (aho_corasick.BuildTrie added Automaton.new)) := ⟨rfl, fun _ => ⟨rfl, rfl⟩⟩
  have t := inv.trieOK.of_same hs
  obtain ⟨h1, e1, s1, l1, ht1⟩ := BuildSuffixLinks_walk_spec t (mirrored_mirror _)
    (fun n => ⟨(inv.fresh n).1, (inv.fresh n).2.1⟩)
  obtain ⟨h2, e2, s2, hroot, hrec⟩ := BuildTerminalLinks_walk_rec l1 ht1
  refine ⟨h1, h2, e1, e2, l1.of_terminal s2,
    (hs.trie_trans s1).trie_trans s2.terminal_sameTrie, fun n => ?_, hroot,
    fun n hn n0 => hrec n (by rw [← s2.1]; exact hn) n0⟩
  rw [(s1.2 n).2]
  rfl

end ideone_WhZ8P4

namespace paulin

open aho_corasick aho_corasick.internal traverses

/-- A node has no terminal link exactly when no added word is a proper suffix of
its path. -/
theorem terminal_none_iff {h : aho_corasick.Automaton} {path : Nat → List Char}
    {added : List (List Char × Nat)} (l : ideone_WhZ8P4.Linked h path added)
    (hroot : (h.node 0).terminal_link = none)
    (hrec : ∀ n, n < h.size → n ≠ 0 → TermRec h n) :
    ∀ (k n : Nat), (path n).length ≤ k → n < h.size →
      ((h.node n).terminal_link = none ↔
        (path n).tails.tail.flatMap (idsOf added) = []) := by
  intro k
  induction k with
  | zero =>
    intro n hk hn
    have n0 : n = 0 := by
      by_contra hne
      exact l.trie.trie.path_ne_nil hn hne (List.length_eq_zero.1 (Nat.le_zero.1 hk))
    subst n0
    rw [l.trie.trie.path_root]
    simp [hroot]
  | succ k ih =>
    intro n hk hn
    by_cases n0 : n = 0
    · subst n0
      rw [l.trie.trie.path_root]
      simp [hroot]
    · obtain ⟨s, e1, e2, e3⟩ := l.suffix n hn n0
      have hne := l.trie.trie.path_ne_nil hn n0
      have e4 : (path s).length < (path n).length := by
        rw [e3]
        have h1 := longestPathSuffix_length_le added (path n).tail
        have : (path n).tail.length < (path n).length := by
          cases hp : path n with
          | nil => exact absurd hp hne
          | cons a tl => simp
        omega
      obtain ⟨s', e1', e5⟩ := hrec n hn n0
      rw [e1] at e1'
      cases Option.some.inj e1'
      have htails : (path n).tails.tail.flatMap (idsOf added) =
          idsOf added (path s) ++ (path s).tails.tail.flatMap (idsOf added) := by
        have : (path n).tails.tail = (path n).tail.tails := by
          cases hp : path n with
          | nil => exact absurd hp hne
          | cons a tl => simp
        rw [this, tails_flatMap_longestPathSuffix, ← e3, tails_eq_cons_tail (path s)]
        simp [List.flatMap]
      rw [htails, e5, l.trie.ids s e2]
      have hidsOf : (added.filter fun p => decide (p.1 = path s)).map Prod.snd =
          idsOf added (path s) := rfl
      rw [hidsOf]
      by_cases he : idsOf added (path s) = []
      · simp only [he, if_true, List.nil_append]
        exact ih s (by omega) e2
      · simp [he]

/-- The test at the head of `LazyDP` succeeds exactly when an added word is a
suffix of the path of the node. -/
theorem bad_iff {h : aho_corasick.Automaton} {path : Nat → List Char}
    {added : List (List Char × Nat)} (l : ideone_WhZ8P4.Linked h path added)
    (hroot : (h.node 0).terminal_link = none)
    (hrec : ∀ n, n < h.size → n ≠ 0 → TermRec h n) {n : Nat} (hn : n < h.size) :
    (flags h n = true ∨ (h.node n).terminal_link ≠ none) ↔ ¬ prog.Good added (path n) := by
  rw [← prog.good_iff_no_match, tails_eq_cons_tail]
  have h1 := terminal_none_iff l hroot hrec _ n le_rfl hn
  have hidsOf : (h.node n).terminated_string_ids = idsOf added (path n) := l.trie.ids n hn
  simp only [flags, hidsOf, decide_eq_true_eq, List.flatMap_cons, List.append_eq_nil,
    not_and_or, ne_eq, h1]

/-- Totality of `Build()` of paulin.cpp: the automaton it returns is the one of
ideone_WhZ8P4.cpp for the same words, with a flag where that one has ids. -/
theorem Build_arena {path : Nat → List Char} {added : List (List Char × Nat)}
    (inv : BuildInv (aho_corasick.BuildTrie added aho_corasick.Automaton.new) path added added) :
    ∃ hW, Build (added.map Prod.fst) =
        some ⟨strip hW, flags hW, fun _ => List.replicate 1001 (-1)⟩ ∧
      ideone_WhZ8P4.Linked hW path added ∧ (hW.node 0).terminal_link = none ∧
      ∀ n, n < hW.size → n ≠ 0 → TermRec hW n := by
  obtain ⟨h1, h2, e1, e2, l, same, hids, hroot, hrec⟩ := ideone_WhZ8P4.Build_walk_rec inv
  refine ⟨h2, ?_, l, hroot, hrec⟩
  have f1 : flags (aho_corasick.BuildTrie added aho_corasick.Automaton.new) = flags h1 := by
    funext n
    simp only [flags, hids n]
  have f2 : flags h1 = flags h2 := by
    funext n
    simp only [flags, hids n, (same.2 n).2]
  have hm : flags (ideone_WhZ8P4.mirror (aho_corasick.BuildTrie added
      aho_corasick.Automaton.new)) =
      flags (aho_corasick.BuildTrie added aho_corasick.Automaton.new) := rfl
  simp only [Build, BuildTrie_arena]
  rw [← hm, BuildSuffixLinks_strip, e1]
  simp only [Option.map_some']
  rw [hm, f1, BuildTerminalLinks_strip, e2, f2]
  rfl

theorem getTrieTransition_eq (a : aho_corasick.Automaton) (n : Nat) (c : Char) :
    GetTrieTransition a n c = getCache a n c := by
  simp only [GetTrieTransition, getCache]
  cases mapFind (a.node n).automaton_transitions_cache c <;> rfl

theorem Walks.start {hW : aho_corasick.Automaton} (m : ideone_WhZ8P4.Mirrored hW) :
    Walks hW (strip hW) := by
  have hc : ∀ n c, getCache (strip hW) n c = mapFind (hW.node n).trie_transitions c := by
    intro n c
    have e : ((strip hW).node n).automaton_transitions_cache =
        (hW.node n).automaton_transitions_cache := rfl
    simp only [getCache, e, m n, ideone_WhZ8P4.mapFind_pointers]
    cases mapFind (hW.node n).trie_transitions c <;> rfl
  exact ⟨rfl, fun _ => rfl, fun _ => rfl, fun n c x hx => by rw [hc, hx],
    fun n c x hx => Or.inl (by rw [← hc]; exact hx)⟩

theorem Walks.write {hW a : aho_corasick.Automaton} (w : Walks hW a) (n : Nat) (c : Char)
    (v : Option Nat)
    (h1 : ∀ m, mapFind (hW.node n).trie_transitions c = some m → v = some m)
    (h2 : ∀ m, v = some m → mapFind (hW.node n).trie_transitions c = some m ∨
      (n = 0 ∧ m = 0 ∧ mapFind (hW.node 0).trie_transitions c = none)) :
    Walks hW (setCache a n c v) := by
  have s := setCache_same a n c v
  refine ⟨s.1.trans w.size, fun x => ((s.2 x).2.2.1).trans (w.suffix x),
    fun x => ((s.2 x).2.2.2).trans (w.terminal x), fun x c' m hm => ?_, fun x c' m hm => ?_⟩
  · rw [getCache_setCache]
    by_cases hx : x = n ∧ c' = c
    · obtain ⟨rfl, rfl⟩ := hx
      simp only [and_self, if_true]
      exact h1 m hm
    · simp only [hx, if_false]
      exact w.child x c' m hm
  · rw [getCache_setCache] at hm
    by_cases hx : x = n ∧ c' = c
    · obtain ⟨rfl, rfl⟩ := hx
      simp only [and_self, if_true] at hm
      exact h2 m hm
    · simp only [hx, if_false] at hm
      exact w.cached x c' m hm

theorem walkLoop_spec {hW a : aho_corasick.Automaton} {path : Nat → List Char}
    {added : List (List Char × Nat)} (l : ideone_WhZ8P4.Linked hW path added)
    (w : Walks hW a) (c : Char) :
    ∀ (fuel n : Nat), n < hW.size → (path n).length + 1 ≤ fuel →
      ∃ x, walkLoop a (some 0) c fuel (some n) = some (some x) ∧ x < hW.size ∧
        longestPathSuffix added (path n ++ [c]) = longestPathSuffix added (path x ++ [c]) ∧
        (x = 0 ∨ ∃ d, mapFind (hW.node x).trie_transitions c = some d) := by
  intro fuel
  induction fuel with
  | zero =>
    intro n _ hf
    omega
  | succ fuel ih =>
    intro n hn hf
    simp only [walkLoop]
    by_cases n0 : n = 0
    · subst n0
      exact ⟨0, by simp, hn, rfl, Or.inl rfl⟩
    · have hne : (some n : Option Nat) ≠ some 0 := by simpa using n0
      simp only [hne, ne_eq, not_false_eq_true, if_true, getTrieTransition_eq]
      cases hd : getCache a n c with
      | some d =>
        rcases w.cached n c d hd with h1 | ⟨h1, _⟩
        · exact ⟨n, rfl, hn, rfl, Or.inr ⟨d, h1⟩⟩
        · exact absurd h1 n0
      | none =>
        have hnc : mapFind (hW.node n).trie_transitions c = none := by
          cases hx : mapFind (hW.node n).trie_transitions c with
          | none => rfl
          | some m =>
            rw [w.child n c m hx] at hd
            exact Option.noConfusion hd
        have np := l.trie.no_child hn hnc
        obtain ⟨s, e1, e2, e3⟩ := l.suffix n hn n0
        have hpos : 0 < (path n).length :=
          List.length_pos.mpr (l.trie.trie.path_ne_nil hn n0)
        have hlen : (path s).length ≤ (path n).length - 1 := by
          rw [e3]
          have := longestPathSuffix_length_le added (path n).tail
          simp only [List.length_tail] at this
          exact this
        obtain ⟨x, ex, hx, hp, hc⟩ := ih s e2 (by omega)
        refine ⟨x, ?_, hx, ?_, hc⟩
        · simp only [w.suffix n, e1]
          exact ex
        · rw [← hp, e3, ← longestPathSuffix_snoc, longestPathSuffix_snoc_of_not_path np]

theorem cached_target {hW : aho_corasick.Automaton} {path : Nat → List Char}
    {added : List (List Char × Nat)} (l : ideone_WhZ8P4.Linked hW path added)
    {n : Nat} (hn : n < hW.size) {c : Char} {m : Nat}
    (h : mapFind (hW.node n).trie_transitions c = some m ∨
      (n = 0 ∧ m = 0 ∧ mapFind (hW.node 0).trie_transitions c = none)) :
    m < hW.size ∧ path m = longestPathSuffix added (path n ++ [c]) := by
  rcases h with h1 | ⟨h1, h2, h3⟩
  · obtain ⟨l1, l2⟩ := l.trie.trie.child n c m hn h1
    exact ⟨l1, by rw [← l2, longestPathSuffix_of_path (l.trie.paths m l1)]⟩
  · subst h1
    subst h2
    refine ⟨hn, ?_⟩
    have np := l.trie.no_child hn h3
    rw [longestPathSuffix_snoc_of_not_path np, l.trie.trie.path_root]
    have : ¬ IsTriePath added [c] := by simpa [l.trie.trie.path_root] using np
    simp [longestPathSuffix, this]

/-- The node that `GetAutomatonTransition` of paulin.cpp returns is the one of
the longest suffix of `path n ++ [c]` that is a trie path, in every state that
earlier calls have left. -/
theorem GetAutomatonTransition_spec {hW a : aho_corasick.Automaton} {path : Nat → List Char}
    {added : List (List Char × Nat)} (l : ideone_WhZ8P4.Linked hW path added)
    (w : Walks hW a) {n : Nat} (hn : n < hW.size) (c : Char) :
    ∃ a' r, GetAutomatonTransition a (some n) (some 0) c = some (a', some r) ∧
      Walks hW a' ∧ r < hW.size ∧ path r = longestPathSuffix added (path n ++ [c]) := by
  have w1 : Walks hW (setCache a n c (getCache a n c)) :=
    w.write n c _ (fun m hm => w.child n c m hm) (fun m hm => w.cached n c m hm)
  have e1 : getCache (setCache a n c (getCache a n c)) n c = getCache a n c := by
    rw [getCache_setCache]
    simp
  simp only [GetAutomatonTransition, e1]
  cases hd : getCache a n c with
  | some r =>
    obtain ⟨l1, l2⟩ := cached_target l hn (w.cached n c r hd)
    exact ⟨_, r, rfl, hd ▸ w1, l1, l2⟩
  | none =>
    rw [hd] at w1
    have hd' := l.trie.trie.depth_le n hn
    obtain ⟨x, ex, hx, hp, hc⟩ := walkLoop_spec l w1 c
      ((setCache a n c none).size + 1) n hn (by rw [w1.size]; omega)
    simp only [ex, getTrieTransition_eq]
    cases ht : getCache (setCache a n c none) x c with
    | some t =>
      have hr := w1.cached x c t ht
      obtain ⟨l1, l2⟩ := cached_target l hx hr
      refine ⟨_, t, ?_, w1.write x c (some t) (fun m hm => by rw [← w1.child x c m hm, ht])
        (fun m hm => by
          simp only [Option.some.injEq] at hm
          rw [← hm]
          exact hr), l1, by rw [l2, hp]⟩
      rw [getCache_setCache]
      simp
    | none =>
      have hnc : mapFind (hW.node x).trie_transitions c = none := by
        cases hx' : mapFind (hW.node x).trie_transitions c with
        | none => rfl
        | some m =>
          rw [w1.child x c m hx'] at ht
          exact Option.noConfusion ht
      have x0 : x = 0 := by
        rcases hc with h1 | ⟨d, h1⟩
        · exact h1
        · rw [hnc] at h1
          exact Option.noConfusion h1
      subst x0
      obtain ⟨l1, l2⟩ := cached_target l hx (Or.inr ⟨rfl, rfl, hnc⟩)
      refine ⟨_, 0, ?_, w1.write 0 c (some 0) (fun m hm => by
          rw [hnc] at hm
          exact Option.noConfusion hm)
        (fun m hm => by
          simp only [Option.some.injEq] at hm
          exact Or.inr ⟨rfl, hm.symm, hnc⟩), l1, by rw [l2, hp]⟩
      rw [getCache_setCache]
      simp

theorem avoiding_longestPathSuffix (added : List (List Char × Nat)) (cs : List Char) :
    ∀ (r : Nat) (x : List Char),
      prog.avoiding added cs r (longestPathSuffix added x) = prog.avoiding added cs r x := by
  intro r
  induction r with
  | zero =>
    intro x
    simp only [prog.avoiding, prog.good_longestPathSuffix]
  | succ r ih =>
    intro x
    simp only [prog.avoiding, prog.good_longestPathSuffix]
    split
    · congr 1
      funext c
      rw [← ih (longestPathSuffix added x ++ [c]), ← longestPathSuffix_snoc, ih]
    · rfl

theorem step_value (a b : Nat) (ha : a < 1000000007) (hb : b < 1000000007) :
    (toInt32 ((a : Int) + (b : Int))).tmod kMod = (((a + b) % 1000000007 : Nat) : Int) := by
  have h1 : toInt32 ((a : Int) + (b : Int)) = (a : Int) + (b : Int) := by
    unfold toInt32
    omega
  rw [h1, Int.tmod_eq_emod (by omega) (by unfold kMod; omega)]
  unfold kMod
  omega

theorem DpOK.arena {hW : aho_corasick.Automaton} {path : Nat → List Char}
    {added : List (List Char × Nat)} {k : Nat} {h : Automaton}
    (ok : DpOK hW path added k h) {a : aho_corasick.Automaton} (w : Walks hW a) :
    DpOK hW path added k { h with arena := a } :=
  ⟨w, ok.flags, ok.length, ok.memo⟩

theorem lazyLoop_spec {hW : aho_corasick.Automaton} {path : Nat → List Char}
    {added : List (List Char × Nat)} {k : Nat} (l : ideone_WhZ8P4.Linked hW path added)
    (len1 : Nat) (lazy : Automaton → Nat → Option (Automaton × Int))
    (hlazy : ∀ h r, DpOK hW path added k h → r < hW.size →
      ∃ h', lazy h r = some (h', (lazyValue added k len1 (path r) : Int)) ∧
        DpOK hW path added k h')
    (n : Nat) (hn : n < hW.size) :
    ∀ (is : List Nat) (h : Automaton) (acc : Nat), (∀ i ∈ is, 97 + i < 128) →
      DpOK hW path added k h → acc < 1000000007 →
      ∃ h', lazyLoop lazy n is h (acc : Int) = some (h',
          (((acc + (is.map fun i => (prog.avoiding added (letters k) len1
            (path n ++ [Char.ofNat (97 + i)])).length).sum) % 1000000007 : Nat) : Int)) ∧
        DpOK hW path added k h' := by
  intro is
  induction is with
  | nil =>
    intro h acc _ ok hacc
    refine ⟨h, ?_, ok⟩
    simp only [lazyLoop, List.map_nil, List.sum_nil, Nat.add_zero, Nat.mod_eq_of_lt hacc]
  | cons i rest ih =>
    intro h acc hi ok hacc
    have hi1 : 97 + i < 128 := hi i (List.mem_cons_self _ _)
    obtain ⟨a', r, e1, w1, hr, hp⟩ := GetAutomatonTransition_spec l ok.walks hn
      (Char.ofNat (97 + i))
    obtain ⟨h1, e2, ok1⟩ := hlazy { h with arena := a' } r (ok.arena w1) hr
    have hv : lazyValue added k len1 (path r) =
        (prog.avoiding added (letters k) len1 (path n ++ [Char.ofNat (97 + i)])).length %
          1000000007 := by
      rw [lazyValue, hp, avoiding_longestPathSuffix]
    have hb : lazyValue added k len1 (path r) < 1000000007 := by
      rw [hv]
      exact Nat.mod_lt _ (by omega)
    obtain ⟨h2, e3, ok2⟩ := ih h1 ((acc + lazyValue added k len1 (path r)) % 1000000007)
      (fun j hj => hi j (List.mem_cons_of_mem _ hj)) ok1 (Nat.mod_lt _ (by omega))
    refine ⟨h2, ?_, ok2⟩
    simp only [lazyLoop, hi1, if_true, Automaton.rootPtr, e1, e2, step_value acc _ hacc hb, e3]
    rw [hv, List.map_cons, List.sum_cons]
    congr 3
    omega

theorem lazyValue_bad {added : List (List Char × Nat)} {k len : Nat} {x : List Char}
    (hg : ¬ prog.Good added x) : lazyValue added k len x = 0 := by
  cases len <;> simp [lazyValue, prog.avoiding, hg]

theorem lazyValue_zero {added : List (List Char × Nat)} {k : Nat} {x : List Char}
    (hg : prog.Good added x) : lazyValue added k 0 x = 1 := by
  simp [lazyValue, prog.avoiding, hg]

theorem lazyValue_succ {added : List (List Char × Nat)} {k len : Nat} {x : List Char}
    (hg : prog.Good added x) :
    lazyValue added k (len + 1) x =
      ((List.range k).map fun i => (prog.avoiding added (letters k) len
        (x ++ [Char.ofNat (97 + i)])).length).sum % 1000000007 := by
  simp only [lazyValue, prog.avoiding, hg, if_true, List.length_flatMap, letters, List.map_map]
  congr 2
  apply List.map_congr_left
  intro i _
  simp only [Function.comp_apply, List.length_map]

/-- The call `LazyDP(node, len, alpha_size, automaton)` returns, with the number
of the strings of length `len` that keep the automaton off the nodes where a
word ends. -/
theorem LazyDP_spec {hW : aho_corasick.Automaton} {path : Nat → List Char}
    {added : List (List Char × Nat)} {k : Nat} (l : ideone_WhZ8P4.Linked hW path added)
    (hroot : (hW.node 0).terminal_link = none)
    (hrec : ∀ n, n < hW.size → n ≠ 0 → TermRec hW n) (hk : 97 + k ≤ 128) :
    ∀ (fuel len n : Nat) (h : Automaton), DpOK hW path added k h → n < hW.size →
      len < fuel → len ≤ 1000 →
      ∃ h', LazyDP fuel h n len k = some (h', (lazyValue added k len (path n) : Int)) ∧
        DpOK hW path added k h' := by
  intro fuel
  induction fuel with
  | zero =>
    intro len n h _ _ hf _
    omega
  | succ fuel ih =>
    intro len n h ok hn hf hlen
    have hbad := bad_iff l hroot hrec hn
    rw [← ok.flags, ← ok.walks.terminal n] at hbad
    rw [LazyDP]
    by_cases hb : h.terminated n = true ∨ (h.arena.node n).terminal_link ≠ none
    · refine ⟨h, ?_, ok⟩
      rw [if_pos hb, lazyValue_bad (hbad.1 hb)]
      rfl
    · have hg : prog.Good added (path n) := by
        by_contra hc
        exact hb (hbad.2 hc)
      rw [if_neg hb]
      by_cases h0 : len = 0
      · subst h0
        refine ⟨h, ?_, ok⟩
        rw [if_pos rfl, lazyValue_zero hg]
        rfl
      · rw [if_neg h0]
        have hidx : len < (h.dp n).length := by
          rw [ok.length n]
          omega
        rw [List.getElem?_eq_getElem hidx]
        simp only
        by_cases hm : (h.dp n)[len] ≠ -1
        · refine ⟨h, ?_, ok⟩
          rw [if_pos hm]
          rcases ok.memo n len _ hn (List.getElem?_eq_getElem hidx) with h1 | h1
          · exact absurd h1 hm
          · rw [h1]
        · rw [if_neg hm]
          obtain ⟨len1, rfl⟩ : ∃ len1, len = len1 + 1 := ⟨len - 1, by omega⟩
          obtain ⟨h1, e1, ok1⟩ := lazyLoop_spec l len1
            (fun h1 next => LazyDP fuel h1 next (len1 + 1 - 1) k)
            (fun h r okh hr => ih len1 r h okh hr (by omega) (by omega)) n hn
            (List.range k) h 0 (fun i hi => by
              have := List.mem_range.1 hi
              omega) ok (by omega)
          simp only [Nat.zero_add, Nat.cast_zero] at e1
          rw [← lazyValue_succ hg] at e1
          have e1' : lazyLoop (fun h1 next => LazyDP fuel h1 next (len1 + 1 - 1) k) n
              (List.range k) h 0 =
              some (h1, (lazyValue added k (len1 + 1) (path n) : Int)) := e1
          rw [e1']
          refine ⟨_, rfl, ⟨ok1.walks, ok1.flags, fun x => ?_, fun x len' v hx hv => ?_⟩⟩
          · simp only
            by_cases hxn : x = n
            · simp only [hxn, if_true, List.length_set]
              exact ok1.length n
            · simp only [hxn, if_false]
              exact ok1.length x
          · simp only at hv
            by_cases hxn : x = n
            · subst hxn
              simp only [if_true] at hv
              by_cases hl : len' = len1 + 1
              · subst hl
                rw [List.getElem?_set_self (by rw [ok1.length x]; omega)] at hv
                exact Or.inr (Option.some.inj hv).symm
              · rw [List.getElem?_set_ne (Ne.symm hl)] at hv
                exact ok1.memo x len' v hx hv
            · simp only [hxn, if_false] at hv
              exact ok1.memo x len' v hx hv

theorem enum_words (patterns : List (List Char)) :
    (patterns.enum.map fun p => (p.2, p.1)).map Prod.fst = patterns := by
  rw [List.map_map]
  have : (Prod.fst ∘ fun p : Nat × List Char => (p.2, p.1)) = Prod.snd := rfl
  rw [this, List.enum_map_snd]

/-- The number that `CountOkStrings` returns. -/
theorem CountOkStrings_value (patterns : List (List Char)) (num alpha_size : Nat)
    (hnum : num ≤ 1000) (hk : alpha_size ≤ 26) :
    CountOkStrings patterns num alpha_size =
      some (((prog.avoiding (patterns.enum.map fun p => (p.2, p.1)) (letters alpha_size)
        num []).length % 1000000007 : Nat) : Int) := by
  obtain ⟨path, inv⟩ := BuildTrie_spec (patterns.enum.map fun p => (p.2, p.1))
  obtain ⟨hW, eb, l, hroot, hrec⟩ := Build_arena inv
  rw [enum_words] at eb
  have ok0 : DpOK hW path (patterns.enum.map fun p => (p.2, p.1)) alpha_size
      ⟨strip hW, flags hW, fun _ => List.replicate 1001 (-1)⟩ := by
    refine ⟨Walks.start l.mirrored, rfl, fun n => List.length_replicate _ _,
      fun n len v _ hv => ?_⟩
    simp only [List.getElem?_replicate] at hv
    split at hv
    · exact Or.inl (Option.some.inj hv).symm
    · exact Option.noConfusion hv
  obtain ⟨h', e, _⟩ := LazyDP_spec l hroot hrec (by omega) (num + 1) num 0 _ ok0
    l.trie.trie.size_pos (by omega) hnum
  rw [l.trie.trie.path_root] at e
  simp only [CountOkStrings, eb, e, Option.map_some']
  rfl

set_option maxRecDepth 100000 in
theorem count_example : CountOkStrings ["ab".toList] 3 2 = some 4 := by decide

end paulin

/-- C32: for every list of patterns, every length num of at most 1000 and every
alphabet size of at most 26, CountOkStrings of paulin.cpp returns the number
that FindNumberOfStringsThatDontIncludeProhibited of Review1/prog.cpp returns
for the same arguments and the modulus 1000000007. -/
theorem counting_programs_agree (patterns : List (List Char)) (num alpha_size : Nat)
    (hnum : num ≤ 1000) (hk : alpha_size ≤ 26) :
    ∃ r : Nat,
      prog.FindNumberOfStringsThatDontIncludeProhibited num alpha_size patterns 1000000007 =
        some r ∧
      paulin.CountOkStrings patterns num alpha_size = some (r : Int) := by
  have ecs : prog.alphabet alpha_size = some (paulin.letters alpha_size) := by
    simp only [prog.alphabet, paulin.letters]
    rw [if_pos (by omega)]
  exact ⟨_, prog.FindNumber_value num alpha_size patterns 1000000007 (by omega) hk
    (by omega) (by norm_num) _ ecs, paulin.CountOkStrings_value patterns num alpha_size hnum hk⟩

/-- Witness of C32: the strings of length 3 over the letters a and b that do not
contain ab; both programs return 4. -/
theorem counting_programs_agree_witness :
    (3 ≤ 1000 ∧ 2 ≤ 26) ∧
    paulin.CountOkStrings ["ab".toList] 3 2 = some 4 ∧
    ∃ r : Nat,
      prog.FindNumberOfStringsThatDontIncludeProhibited 3 2 ["ab".toList] 1000000007 =
        some r ∧
      paulin.CountOkStrings ["ab".toList] 3 2 = some (r : Int) :=
  ⟨⟨by decide, by decide⟩, paulin.count_example,
    counting_programs_agree ["ab".toList] 3 2 (by decide) (by decide)⟩
